import Mathlib

/-!
Athera: lexer, parser and tree-walking interpreter.

A shallow embedding of `internal/lang` (lexer.go, parser.go, interpreter.go,
stdlib.go, ast.go).  Go strings are modelled as lists of Unicode code points
(`Str`); the byte-indexed loops of the source only ever test ASCII bytes, so a
code point stands for its UTF-8 bytes except where the source re-encodes single
bytes (`parseList`), which is modelled explicitly.

* A Go run-time panic of the lexer is the result `none` of the lexer functions.
* The parser holds unbounded loops: its functions take a fuel argument and return
  `none` when it runs out; the parser state is the list of tokens not yet
  consumed.
* The interpreter returns a `Res`: the interpreter after the statement, a panic,
  or no result (out of fuel, or the Go runtime ended the process).  Standard
  output is the field `out` of the interpreter, the operating system (files,
  clock) is the field `world`, reached through a `Host`.
* Go `int` and `int64` are integers wrapped to 64 bits where the source computes
  with them; `float64` is modelled exactly (`F64`).
* A slice of `any` and a map are references into a heap, the field `heap` of the
  interpreter: `dict.set` writes into the map it is given, `list.append` into the
  backing array while that has room, and every value that refers to the map or the
  array sees the update.  Printing a value that contains itself does not return.
* The goroutines of `run parallel` run under one schedule: one after the other, in
  the order of the list, each to its end.
-/

set_option autoImplicit false
set_option linter.unusedVariables false

namespace Athera

/-- Text of the program: a Go `string`, as its sequence of code points. -/
abbrev Str := List Char

/-! ## The Go `strings` / `strconv` helpers used by the source -/

/-- Go `unicode.IsSpace`, the white space removed by `strings.TrimSpace`. -/
def isSpace (c : Char) : Bool :=
  let n := c.toNat
  (9 ≤ n && n ≤ 13) || n = 32 || n = 0x85 || n = 0xA0 || n = 0x1680 ||
  (0x2000 ≤ n && n ≤ 0x200A) || n = 0x2028 || n = 0x2029 || n = 0x202F ||
  n = 0x205F || n = 0x3000

/-- Removes the longest prefix whose characters satisfy `p`. -/
def trimLeftBy (p : Char → Bool) : Str → Str
  | [] => []
  | c :: cs => if p c then trimLeftBy p cs else c :: cs

/-- Removes the longest suffix whose characters satisfy `p`. -/
def trimRightBy (p : Char → Bool) (s : Str) : Str :=
  (trimLeftBy p s.reverse).reverse

/-- Go `strings.TrimSpace`. -/
def TrimSpace (s : Str) : Str := trimRightBy isSpace (trimLeftBy isSpace s)

/-- Go `strings.Trim(s, cutset)`. -/
def Trim (s cutset : Str) : Str :=
  trimRightBy (fun c => cutset.contains c) (trimLeftBy (fun c => cutset.contains c) s)

/-- Go `strings.TrimLeft(s, cutset)`. -/
def TrimLeft (s cutset : Str) : Str := trimLeftBy (fun c => cutset.contains c) s

/-- Go `strings.HasPrefix(s, p)`. -/
def HasPrefix (s p : Str) : Bool := p.isPrefixOf s

/-- Go `strings.HasSuffix(s, p)`. -/
def HasSuffix (s p : Str) : Bool := p.reverse.isPrefixOf s.reverse

/-- Go `strings.TrimPrefix(s, p)`. -/
def TrimPrefix (s p : Str) : Str := if HasPrefix s p then s.drop p.length else s

/-- Go `strings.TrimSuffix(s, p)`. -/
def TrimSuffix (s p : Str) : Str :=
  if HasSuffix s p then s.take (s.length - p.length) else s

/-- Go `strings.Contains(s, sub)`. -/
def Contains : Str → Str → Bool
  | [], sub => sub.isEmpty
  | c :: cs, sub => sub.isPrefixOf (c :: cs) || Contains cs sub

/-- The text before and after the first occurrence of `sep`, if there is one. -/
def cutAt (sep : Str) : Str → Option (Str × Str)
  | [] => if sep.isEmpty then some ([], []) else none
  | c :: cs =>
    if sep.isPrefixOf (c :: cs) then some ([], (c :: cs).drop sep.length)
    else match cutAt sep cs with
      | some (a, b) => some (c :: a, b)
      | none => none

/-- Go `strings.SplitN(s, sep, 2)` for a non-empty separator. -/
def SplitN2 (s sep : Str) : List Str :=
  match cutAt sep s with
  | some (a, b) => [a, b]
  | none => [s]

/-- Go `strings.Split(s, sep)` for a one-character separator. -/
def Split (s : Str) (sep : Char) : List Str :=
  match s with
  | [] => [[]]
  | c :: cs =>
    match Split cs sep with
    | [] => [[c]]
    | p :: ps => if c = sep then [] :: p :: ps else (c :: p) :: ps

/-- Go `strings.Join(parts, sep)`. -/
def Join (parts : List Str) (sep : Str) : Str :=
  match parts with
  | [] => []
  | [p] => p
  | p :: q :: rest => p ++ sep ++ Join (q :: rest) sep

/-- Decimal digits of a natural number, most significant first. -/
def natDigits : Nat → Nat → Str
  | 0, _ => []
  | fuel + 1, n =>
    if n < 10 then [Char.ofNat (48 + n)]
    else natDigits fuel (n / 10) ++ [Char.ofNat (48 + n % 10)]

/-- Go `strconv.Itoa`. -/
def Itoa (i : Int) : Str :=
  match i with
  | Int.ofNat n => natDigits (n + 1) n
  | Int.negSucc n => '-' :: natDigits (n + 2) (n + 1)

/-! ## lexer.go -/

/-- Token represents a lexical token. -/
structure Token where
  Typ : String
  Value : Str
  Line : Nat
deriving DecidableEq, Repr

/-- The class `\w` of Go regular expressions. -/
def isWordChar (c : Char) : Bool :=
  c.isAlphanum || c = '_'

/-- The class `\d` of Go regular expressions. -/
def isDigitChar (c : Char) : Bool := c.isDigit

/-- splitCSV splits a comma-separated list respecting simple spacing. -/
def splitCSV (raw : Str) : List Str :=
  ((Split raw ',').map TrimSpace).filter (fun p => !p.isEmpty)

/-- trimAll trims whitespace from all items. -/
def trimAll (xs : List Str) : List Str :=
  (xs.filter (fun v => !(TrimSpace v).isEmpty)).map TrimSpace

/-- First success of `f` over the suffixes of `s`, leftmost start first: where an
unanchored regular expression finds its match. -/
def firstMatch {α : Type} (f : Str → Option α) : Str → Option α
  | [] => f []
  | c :: cs =>
    match f (c :: cs) with
    | some r => some r
    | none => firstMatch f cs

/-- The text before the last `:` of `s`. -/
def beforeLastColon (s : Str) : Option Str :=
  match cutAt [':'] s.reverse with
  | some (_, b) => some b.reverse
  | none => none

/-- Match of `repeat each (\w+) in (.+):` starting at the head of `s`: the two
groups.  `\w+` is followed by a blank, so it is the whole run of word characters;
`.+` is greedy, so it reaches to the last `:` of the line it stands on. -/
def matchRepeatEachAt (s : Str) : Option (Str × Str) :=
  if HasPrefix s "repeat each ".toList then
    let r := s.drop 12
    let w := r.takeWhile isWordChar
    let r2 := r.dropWhile isWordChar
    if !w.isEmpty && HasPrefix r2 " in ".toList then
      let r3 := (r2.drop 4).takeWhile (fun c => c ≠ '\n')
      match beforeLastColon r3 with
      | some g => if g.isEmpty then none else some (w, g)
      | none => none
    else none
  else none

/-- Match of `repeat (\d+) times:` starting at the head of `s`: the group. -/
def matchRepeatNAt (s : Str) : Option Str :=
  if HasPrefix s "repeat ".toList then
    let r := s.drop 7
    let d := r.takeWhile isDigitChar
    let r2 := r.dropWhile isDigitChar
    if !d.isEmpty && HasPrefix r2 " times:".toList then some d else none
  else none

/-- The two pieces `parts[0]`, `parts[1]` of a `SplitN(.., 2)`; reading `parts[1]`
of a one-piece result is an index-out-of-range panic, `none`. -/
def twoParts (parts : List Str) : Option (Str × Str) :=
  match parts with
  | a :: b :: _ => some (a, b)
  | _ => none

/-- The `switch` of `Lexer.tokenizeLine`: type and value of the tokens the line
appends, or `none` when the call panics. -/
def classifyLine (line : Str) : Option (List (String × Str)) :=
  if HasPrefix line "task ".toList && HasSuffix line ":".toList then
    let taskDef := TrimSuffix (TrimSpace (line.drop 5)) ":".toList
    if Contains taskDef " with ".toList then
      match twoParts (SplitN2 taskDef " with ".toList) with
      | some (p0, p1) =>
        some [("TASK", TrimSpace p0 ++ "|".toList ++ Join (splitCSV p1) ",".toList)]
      | none => none
    else some [("TASK", taskDef)]
  else if HasPrefix line "greet ".toList then
    some [("GREET", TrimSpace (line.drop 6))]
  else if HasPrefix line "backup ".toList && Contains line " to ".toList then
    match twoParts (SplitN2 (TrimSpace (line.drop 7)) " to ".toList) with
    | some (p0, p1) => some [("BACKUP", p0 ++ "|".toList ++ p1)]
    | none => none
  else if HasPrefix line "check ".toList && Contains line " -> ".toList then
    match twoParts (SplitN2 (TrimSpace (line.drop 6)) " -> ".toList) with
    | some (p0, p1) => some [("CHECK", p0 ++ "|".toList ++ p1)]
    | none => none
  else if HasPrefix line "repeat ".toList && HasSuffix line ":".toList then
    match (if Contains line " each ".toList && Contains line " in ".toList
           then firstMatch matchRepeatEachAt line else none) with
    | some (v, e) => some [("REPEAT_EACH", v ++ "|".toList ++ TrimSpace e)]
    | none =>
      match firstMatch matchRepeatNAt line with
      | some d => some [("REPEAT_N", d)]
      | none => some []
  else if HasPrefix line "set ".toList && Contains line " = ".toList then
    match twoParts (SplitN2 (TrimSpace (line.drop 4)) " = ".toList) with
    | some (p0, p1) => some [("SET", p0 ++ "|".toList ++ p1)]
    | none => none
  else if HasPrefix line "run ".toList then
    let rest := TrimSpace (line.drop 4)
    if HasPrefix rest "parallel ".toList then
      let tasks := Split (TrimSpace (rest.drop 9)) ','
      some [("RUN_PARALLEL", Join (trimAll tasks) ",".toList)]
    else some [("RUN", rest)]
  else if HasPrefix line "use ".toList then
    some [("USE", TrimSpace (line.drop 4))]
  else if line = "protect:".toList then some [("PROTECT", [])]
  else if line = "handle:".toList then some [("HANDLE", [])]
  else if HasPrefix line "handle ".toList && Contains line " -> ".toList then
    match twoParts (SplitN2 (TrimSpace (line.drop 7)) " -> ".toList) with
    | some (p0, p1) => some [("HANDLE_INLINE", p0 ++ "|".toList ++ p1)]
    | none => none
  else if HasPrefix line "return ".toList then
    some [("RETURN", TrimSpace (line.drop 7))]
  else some [("UNKNOWN", line)]

/-- Method `Lexer.tokenizeLine`: the tokens the line appends, each with
`Line: lineNum`, or `none` when the call panics. -/
def tokenizeLine (line : Str) (lineNum : Nat) : Option (List Token) :=
  (classifyLine line).map (List.map (fun tv => ⟨tv.1, tv.2, lineNum⟩))

/-- One turn of the loop of `Lexer.Tokenize`: the tokens appended for the line
`raw` at index `idx`. -/
def lineTokens (idx : Nat) (raw : Str) : Option (List Token) :=
  let lineNum := idx + 1
  let trimmed := TrimSpace raw
  if trimmed.isEmpty || HasPrefix trimmed "#".toList then some []
  else
    let indent := raw.length - (TrimLeft raw " \t".toList).length
    let ind : List Token :=
      if indent > 0 then [⟨"INDENT", Itoa (Int.ofNat indent), lineNum⟩] else []
    match tokenizeLine trimmed lineNum with
    | some ts => some (ind ++ ts ++ [⟨"NEWLINE", [], lineNum⟩])
    | none => none

/-- The loop of `Lexer.Tokenize` over the lines from index `idx` on. -/
def tokenizeFrom : Nat → List Str → Option (List Token)
  | _, [] => some []
  | idx, raw :: rest =>
    match lineTokens idx raw with
    | none => none
    | some ts =>
      match tokenizeFrom (idx + 1) rest with
      | none => none
      | some more => some (ts ++ more)

/-- Lexer converts source code into tokens. -/
structure Lexer where
  source : Str
  lines : List Str

/-- NewLexer creates a lexer for the provided source. -/
def NewLexer (src : Str) : Lexer := ⟨src, Split src '\n'⟩

/-- Tokenize lexes the source into a slice of tokens (`none`: the call panics). -/
def Lexer.Tokenize (l : Lexer) : Option (List Token) :=
  match tokenizeFrom 0 l.lines with
  | some ts => some (ts ++ [⟨"EOF", [], l.lines.length⟩])
  | none => none

/-- Tokens of a source text: `NewLexer(src).Tokenize()`. -/
def Tokenize (src : Str) : Option (List Token) := (NewLexer src).Tokenize

/-- Go `strconv.Atoi`: the value returned and whether the error is nil.  A text that
is not an optional sign followed by decimal digits gives 0 with an error; a number
outside the 64-bit range gives the nearest bound with an error. -/
def Atoi (s : Str) : Int × Bool :=
  let neg := s.head? = some '-'
  let ds := if s.head? = some '-' || s.head? = some '+' then s.tail else s
  if ds.isEmpty || !ds.all Char.isDigit then (0, false)
  else
    let n : Nat := ds.foldl (fun acc c => acc * 10 + (c.toNat - 48)) 0
    if neg then
      if n > 2 ^ 63 then (-(2 ^ 63 : Int), false) else (-(n : Int), true)
    else
      if n ≥ 2 ^ 63 then ((2 ^ 63 : Int) - 1, false) else ((n : Int), true)

/-! ## ast.go -/

/-- Node is the base interface for all AST nodes; the thirteen node types. -/
inductive Node where
  | Task (Name : Str) (Params : List Str) (Body : List Node)
  | Greet (Message : Str)
  | Backup (Source Dest : Str)
  | Check (Condition Action : Str)
  | RepeatN (Count : Int) (Body : List Node)
  | RepeatEach (Var ListExpr : Str) (Body : List Node)
  | Set (Var Value : Str)
  | Run (Target : Str)
  | Use (Module : Str)
  | Protect (Protect Handle : List Node)
  | HandleInline (ErrorType Action : Str)
  | RunParallel (Tasks : List Str)
  | Return (Expr : Str)
deriving Repr

/-! ## parser.go

The parser state `(tokens, pos)` is held as the tokens from `pos` on: every
operation of the source reads `tokens[pos:]` only. -/

/-- State of `Parser`: the tokens not yet consumed. -/
abbrev Parser := List Token

/-- Token returned by `peek` and `peekAhead` past the end of the tokens. -/
def eofToken : Token := ⟨"EOF", [], 0⟩

/-- Method `Parser.peek`. -/
def peek (p : Parser) : Token :=
  match p with
  | t :: _ => t
  | [] => eofToken

/-- Method `Parser.peekAhead`. -/
def peekAhead (p : Parser) (offset : Nat) : Token :=
  match p.drop offset with
  | t :: _ => t
  | [] => eofToken

/-- Method `Parser.advance`: the state after the step (the token returned is
`peek` of the state before). -/
def advance (p : Parser) : Parser := p.tail

/-- Method `Parser.consume`. -/
def consume (expected : String) (p : Parser) : Parser :=
  if (peek p).Typ = expected then advance p else p

/-- Method `Parser.isAtEnd`. -/
def isAtEnd (p : Parser) : Bool := (peek p).Typ = "EOF"

/-- The pieces `parts[0]` and, when there is one, `parts[1]` (else the empty
string) of `strings.SplitN(value, "|", 2)`. -/
def pipeParts (value : Str) : Str × Str :=
  match SplitN2 value "|".toList with
  | a :: b :: _ => (a, b)
  | a :: _ => (a, [])
  | [] => ([], [])

/-- Method `Parser.parseGreet`. -/
def parseGreet (p : Parser) : Node × Parser := (Node.Greet (peek p).Value, advance p)

/-- Method `Parser.parseBackup`. -/
def parseBackup (p : Parser) : Node × Parser :=
  (Node.Backup (pipeParts (peek p).Value).1 (pipeParts (peek p).Value).2, advance p)

/-- Method `Parser.parseCheck`. -/
def parseCheck (p : Parser) : Node × Parser :=
  (Node.Check (pipeParts (peek p).Value).1 (pipeParts (peek p).Value).2, advance p)

/-- Method `Parser.parseSet`. -/
def parseSet (p : Parser) : Node × Parser :=
  (Node.Set (pipeParts (peek p).Value).1 (pipeParts (peek p).Value).2, advance p)

/-- Method `Parser.parseRun`. -/
def parseRun (p : Parser) : Node × Parser := (Node.Run (peek p).Value, advance p)

/-- Method `Parser.parseUse`. -/
def parseUse (p : Parser) : Node × Parser := (Node.Use (peek p).Value, advance p)

/-- Method `Parser.parseHandleInline`. -/
def parseHandleInline (p : Parser) : Node × Parser :=
  (Node.HandleInline (pipeParts (peek p).Value).1 (pipeParts (peek p).Value).2, advance p)

/-- Method `Parser.parseRunParallel`. -/
def parseRunParallel (p : Parser) : Node × Parser :=
  (Node.RunParallel (splitCSV (peek p).Value), advance p)

/-- Method `Parser.parseReturn`. -/
def parseReturn (p : Parser) : Node × Parser := (Node.Return (peek p).Value, advance p)

/-- A statement that is one token long, followed by `consume("NEWLINE")`: the
simple cases of `parseBlockStatement`. -/
def simpleStmt (r : Node × Parser) : Option (Option Node × Parser) :=
  some (some r.1, consume "NEWLINE" r.2)

mutual

/-- Method `Parser.parseBlock`: the loop, entered with the body collected so far and
the base indent (`none` while `baseIndent == nil`).  `none`: out of fuel. -/
def parseBlock : Nat → Parser → List Node → Option Int → Option (List Node × Parser)
  | 0, _, _, _ => none
  | fuel + 1, p, body, baseIndent =>
    if isAtEnd p then some (body, p)
    else if (peek p).Typ = "INDENT" then
      match baseIndent with
      | none =>
        match parseBlockStatement fuel (advance p) with
        | none => none
        | some (n, q) => parseBlock fuel q (body ++ n.toList) (some (Atoi (peek p).Value).1)
      | some b =>
        if (Atoi (peek p).Value).1 < b then some (body, p)
        else
          match parseBlockStatement fuel (advance p) with
          | none => none
          | some (n, q) => parseBlock fuel q (body ++ n.toList) (some b)
    else if (peek p).Typ = "NEWLINE" then parseBlock fuel (advance p) body baseIndent
    else if baseIndent.isSome then some (body, p)
    else
      match parseBlockStatement fuel p with
      | none => none
      | some (n, q) => parseBlock fuel q (body ++ n.toList) baseIndent

/-- Method `Parser.parseBlockStatement`: the node (`none` for Go `nil`) and the
state after it. -/
def parseBlockStatement : Nat → Parser → Option (Option Node × Parser)
  | 0, _ => none
  | fuel + 1, p =>
    if (peek p).Typ = "GREET" then simpleStmt (parseGreet p)
    else if (peek p).Typ = "BACKUP" then simpleStmt (parseBackup p)
    else if (peek p).Typ = "CHECK" then simpleStmt (parseCheck p)
    else if (peek p).Typ = "REPEAT_N" then
      match parseRepeatN fuel p with
      | none => none
      | some (n, q) => some (some n, consume "NEWLINE" q)
    else if (peek p).Typ = "REPEAT_EACH" then
      match parseRepeatEach fuel p with
      | none => none
      | some (n, q) => some (some n, consume "NEWLINE" q)
    else if (peek p).Typ = "SET" then simpleStmt (parseSet p)
    else if (peek p).Typ = "RUN" then simpleStmt (parseRun p)
    else if (peek p).Typ = "RUN_PARALLEL" then simpleStmt (parseRunParallel p)
    else if (peek p).Typ = "USE" then simpleStmt (parseUse p)
    else if (peek p).Typ = "PROTECT" then
      match parseProtect fuel p with
      | none => none
      | some (n, q) => some (some n, consume "NEWLINE" q)
    else if (peek p).Typ = "HANDLE_INLINE" then simpleStmt (parseHandleInline p)
    else if (peek p).Typ = "RETURN" then simpleStmt (parseReturn p)
    else some (none, advance p)

/-- Method `Parser.parseRepeatN`. -/
def parseRepeatN : Nat → Parser → Option (Node × Parser)
  | 0, _ => none
  | fuel + 1, p =>
    match parseBlock fuel (consume "NEWLINE" (advance p)) [] none with
    | none => none
    | some (body, q) => some (Node.RepeatN (Atoi (peek p).Value).1 body, q)

/-- Method `Parser.parseRepeatEach`. -/
def parseRepeatEach : Nat → Parser → Option (Node × Parser)
  | 0, _ => none
  | fuel + 1, p =>
    match parseBlock fuel (consume "NEWLINE" (advance p)) [] none with
    | none => none
    | some (body, q) =>
      some (Node.RepeatEach (pipeParts (peek p).Value).1 (pipeParts (peek p).Value).2 body, q)

/-- First loop of `Parser.parseProtect`: the protect body. -/
def parseProtectBody : Nat → Parser → List Node → Option (List Node × Parser)
  | 0, _, _ => none
  | fuel + 1, p, protectBody =>
    if isAtEnd p then some (protectBody, p)
    else if (peek p).Typ = "HANDLE" ||
        ((peek p).Typ = "INDENT" && (peekAhead p 1).Typ = "HANDLE") then
      some (protectBody, p)
    else
      match parseBlockStatement fuel (if (peek p).Typ = "INDENT" then advance p else p) with
      | none => none
      | some (n, q) => parseProtectBody fuel q (protectBody ++ n.toList)

/-- Method `Parser.parseProtect`. -/
def parseProtect : Nat → Parser → Option (Node × Parser)
  | 0, _ => none
  | fuel + 1, p =>
    match parseProtectBody fuel (consume "NEWLINE" (advance p)) [] with
    | none => none
    | some (protectBody, q) =>
      if (peek q).Typ = "HANDLE" ||
          ((peek q).Typ = "INDENT" && (peekAhead q 1).Typ = "HANDLE") then
        match parseBlock fuel
            (consume "NEWLINE" (consume "HANDLE"
              (if (peek q).Typ = "INDENT" then advance q else q))) [] none with
        | none => none
        | some (handleBody, r) => some (Node.Protect protectBody handleBody, r)
      else some (Node.Protect protectBody [], q)

end

/-- The `name` computed by `Parser.parseTask` from the value of the TASK token. -/
def taskName (val : Str) : Str :=
  if Contains val "|".toList then (pipeParts val).1 else val

/-- The `params` computed by `Parser.parseTask` from the value of the TASK token. -/
def taskParams (val : Str) : List Str :=
  if Contains val "|".toList && !(pipeParts val).2.isEmpty then splitCSV (pipeParts val).2
  else []

/-- Method `Parser.parseTask`. -/
def parseTask (fuel : Nat) (p : Parser) : Option (Node × Parser) :=
  match parseBlock fuel (consume "NEWLINE" (advance p)) [] none with
  | none => none
  | some (body, q) =>
    some (Node.Task (taskName (peek p).Value) (taskParams (peek p).Value) body, q)

/-- The dispatch of `Parser.parseStatement` on the type of the current token. -/
def parseStatementKind (fuel : Nat) (p : Parser) : Option (Option Node × Parser) :=
  let wrap (r : Option (Node × Parser)) : Option (Option Node × Parser) :=
    match r with
    | none => none
    | some (n, q) => some (some n, q)
  let one (r : Node × Parser) : Option (Option Node × Parser) := some (some r.1, r.2)
  if (peek p).Typ = "TASK" then wrap (parseTask fuel p)
  else if (peek p).Typ = "GREET" then one (parseGreet p)
  else if (peek p).Typ = "BACKUP" then one (parseBackup p)
  else if (peek p).Typ = "CHECK" then one (parseCheck p)
  else if (peek p).Typ = "REPEAT_N" then wrap (parseRepeatN fuel p)
  else if (peek p).Typ = "REPEAT_EACH" then wrap (parseRepeatEach fuel p)
  else if (peek p).Typ = "SET" then one (parseSet p)
  else if (peek p).Typ = "RUN" then one (parseRun p)
  else if (peek p).Typ = "USE" then one (parseUse p)
  else if (peek p).Typ = "PROTECT" then wrap (parseProtect fuel p)
  else if (peek p).Typ = "HANDLE_INLINE" then one (parseHandleInline p)
  else if (peek p).Typ = "RUN_PARALLEL" then one (parseRunParallel p)
  else if (peek p).Typ = "RETURN" then one (parseReturn p)
  else some (none, advance p)

/-- Method `Parser.parseStatement`. -/
def parseStatement (fuel : Nat) (p : Parser) (parentIndent : Int) :
    Option (Option Node × Parser) :=
  if (peek p).Typ = "NEWLINE" then some (none, advance p)
  else if (peek p).Typ = "EOF" then some (none, p)
  else if (peek p).Typ = "INDENT" then
    if (Atoi (peek p).Value).1 ≤ parentIndent then some (none, p)
    else parseStatementKind fuel (advance p)
  else parseStatementKind fuel p

/-- The loop of `Parser.Parse`, entered with the nodes collected so far. -/
def parseLoop : Nat → Parser → List Node → Option (List Node)
  | 0, _, _ => none
  | fuel + 1, p, nodes =>
    if isAtEnd p then some nodes
    else
      match parseStatement fuel p 0 with
      | none => none
      | some (n, q) => parseLoop fuel q (nodes ++ n.toList)

/-- Parse converts tokens into a slice of AST nodes: `NewParser(tokens).Parse()`
run with the given fuel. -/
def Parse (fuel : Nat) (tokens : List Token) : Option (List Node) :=
  parseLoop fuel tokens []

/-! ## Go `float64`

A float64 is held by its exact value: sign, integer significand and binary
exponent, in the normal form of IEEE 754 binary64 (significand below `2^53`,
exponent from `-1074` to `971`, significand at least `2^52` unless the exponent is
`-1074`).  Arithmetic is exact rational arithmetic followed by rounding to nearest,
ties to even. -/

/-- Go `float64`. -/
inductive F64 where
  | nan
  | inf (neg : Bool)
  | fin (neg : Bool) (m : Nat) (e : Int)
deriving DecidableEq, Repr

/-- Number of binary digits of `n` (`fuel` at least that number). -/
def bitLenAux : Nat → Nat → Nat
  | 0, _ => 0
  | fuel + 1, n => if n = 0 then 0 else bitLenAux fuel (n / 2) + 1

/-- Number of binary digits of `n`. -/
def bitLen (n : Nat) : Nat := bitLenAux n n

/-- Quotient, remainder and divisor of `num / (den * 2^e)`. -/
def scaleDiv (num den : Nat) (e : Int) : Nat × Nat × Nat :=
  match e with
  | Int.ofNat k => (num / (den * 2 ^ k), num % (den * 2 ^ k), den * 2 ^ k)
  | Int.negSucc k => (num * 2 ^ (k + 1) / den, num * 2 ^ (k + 1) % den, den)

/-- The float64 nearest to `± num / den` (ties to even), and whether the value
overflows the finite range (the result is then an infinity). -/
def roundRat (neg : Bool) (num den : Nat) : F64 × Bool :=
  if num = 0 || den = 0 then (F64.fin neg 0 (-1074), false)
  else
    let s : Int := (bitLen num : Int) - (bitLen den : Int)
    let e1 : Int := s - 53
    let e2 : Int := if (scaleDiv num den e1).1 ≥ 2 ^ 53 then e1 + 1 else e1
    let e : Int := if e2 < -1074 then -1074 else e2
    let q := scaleDiv num den e
    let up : Bool := 2 * q.2.1 > q.2.2 || (2 * q.2.1 = q.2.2 && q.1 % 2 = 1)
    let m := if up then q.1 + 1 else q.1
    let m' := if m = 2 ^ 53 then 2 ^ 52 else m
    let e' := if m = 2 ^ 53 then e + 1 else e
    if e' > 971 then (F64.inf neg, true) else (F64.fin neg m' e', false)

/-- The float64 nearest to `± m * 2^e`. -/
def roundDyadic (neg : Bool) (m : Nat) (e : Int) : F64 :=
  match e with
  | Int.ofNat k => (roundRat neg (m * 2 ^ k) 1).1
  | Int.negSucc k => (roundRat neg m (2 ^ (k + 1))).1

/-- Conversion `float64(i)` of a Go integer. -/
def F64.ofInt (i : Int) : F64 := (roundRat (decide (i < 0)) i.natAbs 1).1

/-- Go `x != 0` on float64 (true for NaN). -/
def F64.nonzero : F64 → Bool
  | .fin _ 0 _ => false
  | _ => true

/-- Go `-x`. -/
def F64.neg : F64 → F64
  | .nan => .nan
  | .inf s => .inf (!s)
  | .fin s m e => .fin (!s) m e

/-- Go `math.Abs`. -/
def F64.abs : F64 → F64
  | .nan => .nan
  | .inf _ => .inf false
  | .fin _ m e => .fin false m e

/-- The signed integer `± m`. -/
def signedNat (neg : Bool) (m : Nat) : Int := if neg then -(m : Int) else (m : Int)

/-- Go `x + y` on float64. -/
def F64.add : F64 → F64 → F64
  | .nan, _ => .nan
  | _, .nan => .nan
  | .inf s, .inf t => if s = t then .inf s else .nan
  | .inf s, .fin _ _ _ => .inf s
  | .fin _ _ _, .inf t => .inf t
  | .fin s m e, .fin t n f =>
    let g : Int := min e f
    let total : Int := signedNat s (m * 2 ^ (e - g).toNat) + signedNat t (n * 2 ^ (f - g).toNat)
    if total = 0 then F64.fin (s && t) 0 (-1074)
    else roundDyadic (decide (total < 0)) total.natAbs g

/-- Go `x - y` on float64. -/
def F64.sub (x y : F64) : F64 := F64.add x (F64.neg y)

/-- Go `x * y` on float64. -/
def F64.mul : F64 → F64 → F64
  | .nan, _ => .nan
  | _, .nan => .nan
  | .inf s, .inf t => .inf (xor s t)
  | .inf s, .fin t n _ => if n = 0 then .nan else .inf (xor s t)
  | .fin s m _, .inf t => if m = 0 then .nan else .inf (xor s t)
  | .fin s m e, .fin t n f => roundDyadic (xor s t) (m * n) (e + f)

/-- Go `x / y` on float64. -/
def F64.div : F64 → F64 → F64
  | .nan, _ => .nan
  | _, .nan => .nan
  | .inf _, .inf _ => .nan
  | .inf s, .fin t _ _ => .inf (xor s t)
  | .fin s _ _, .inf t => .fin (xor s t) 0 (-1074)
  | .fin s m e, .fin t n f =>
    if n = 0 then (if m = 0 then .nan else .inf (xor s t))
    else
      match e - f with
      | Int.ofNat k => (roundRat (xor s t) (m * 2 ^ k) n).1
      | Int.negSucc k => (roundRat (xor s t) m (n * 2 ^ (k + 1))).1

/-- Conversion `int(x)` of a float64: truncation toward zero; a NaN, an infinity or a
value outside the 64-bit range gives the smallest integer (the amd64 result). -/
def F64.toInt : F64 → Int
  | .fin s m e =>
    let v : Int := signedNat s (match e with
      | Int.ofNat k => m * 2 ^ k
      | Int.negSucc k => m / 2 ^ (k + 1))
    if -(2 ^ 63 : Int) ≤ v ∧ v < 2 ^ 63 then v else -(2 ^ 63 : Int)
  | _ => -(2 ^ 63 : Int)


/-- The helper `lower` of Go `strconv`: `c | ('x' - 'X')`. -/
def lowerByte (c : Char) : Char :=
  if 'A'.toNat ≤ c.toNat ∧ c.toNat ≤ 'Z'.toNat then Char.ofNat (c.toNat + 32) else c

/-- The helper `commonPrefixLenIgnoreCase` of Go `strconv` (`pre` in lower case). -/
def commonPrefixLenIgnoreCase : Str → Str → Nat
  | c :: cs, p :: ps => if lowerByte c = p then commonPrefixLenIgnoreCase cs ps + 1 else 0
  | _, _ => 0

/-- The helper `underscoreOK` of Go `strconv`, run over the text after the sign and
the base prefix; `saw` is the kind of the last character seen. -/
def underscoreScan (hex : Bool) : Str → Char → Bool
  | [], saw => saw ≠ '_'
  | c :: cs, saw =>
    if c.isDigit || (hex && 'a'.toNat ≤ (lowerByte c).toNat && (lowerByte c).toNat ≤ 'f'.toNat)
    then underscoreScan hex cs '0'
    else if c = '_' then (if saw ≠ '0' then false else underscoreScan hex cs '_')
    else if saw = '_' then false
    else underscoreScan hex cs '!'

/-- The helper `underscoreOK` of Go `strconv`. -/
def underscoreOK (s : Str) : Bool :=
  let t := if s.head? = some '-' || s.head? = some '+' then s.tail else s
  match t with
  | '0' :: x :: rest =>
    if lowerByte x = 'b' || lowerByte x = 'o' || lowerByte x = 'x'
    then underscoreScan (lowerByte x = 'x') rest '0'
    else underscoreScan false t '^'
  | _ => underscoreScan false t '^'

/-- State of the digit loop of `readFloat` (Go `strconv`): the significand is kept
exactly, whatever its number of digits. -/
structure FloatScan where
  sawdot : Bool
  sawdigits : Bool
  underscores : Bool
  nd : Nat
  dp : Int
  mant : Nat

/-- Value of a hexadecimal digit. -/
def hexVal (c : Char) : Nat := (lowerByte c).toNat - 'a'.toNat + 10

/-- The digit loop of `readFloat`: the state at the first character that is not
part of the significand, and the text from that character on. -/
def scanMantissa (hex : Bool) : Str → FloatScan → FloatScan × Str
  | [], st => (st, [])
  | c :: cs, st =>
    if c = '_' then
      scanMantissa hex cs ⟨st.sawdot, st.sawdigits, true, st.nd, st.dp, st.mant⟩
    else if c = '.' then
      if st.sawdot then (st, c :: cs)
      else scanMantissa hex cs ⟨true, st.sawdigits, st.underscores, st.nd, st.nd, st.mant⟩
    else if c.isDigit then
      if c = '0' && st.nd = 0 then
        scanMantissa hex cs ⟨st.sawdot, true, st.underscores, st.nd, st.dp - 1, st.mant⟩
      else
        scanMantissa hex cs ⟨st.sawdot, true, st.underscores, st.nd + 1, st.dp,
          st.mant * (if hex then 16 else 10) + (c.toNat - 48)⟩
    else if hex && 'a'.toNat ≤ (lowerByte c).toNat && (lowerByte c).toNat ≤ 'f'.toNat then
      scanMantissa hex cs ⟨st.sawdot, true, st.underscores, st.nd + 1, st.dp,
        st.mant * 16 + hexVal c⟩
    else (st, c :: cs)

/-- The digits of the exponent of `readFloat`: the value (no longer updated once it
has reached 10000), whether an underscore was seen, and the text left. -/
def scanExpDigits : Str → Nat → Bool → Nat × Bool × Str
  | [], e, u => (e, u, [])
  | c :: cs, e, u =>
    if c = '_' then scanExpDigits cs e true
    else if c.isDigit then scanExpDigits cs (if e < 10000 then e * 10 + (c.toNat - 48) else e) u
    else (e, u, c :: cs)

/-- Go `strconv.ParseFloat(s, 64)` on a text that is not an infinity or a NaN:
`readFloat` and the rounding of the value. -/
def parseNumber (s : Str) : F64 × Bool :=
  let neg := s.head? = some '-'
  let t := if s.head? = some '-' || s.head? = some '+' then s.tail else s
  let hex : Bool := match t with
    | '0' :: x :: _ :: _ => lowerByte x = 'x'
    | _ => false
  let body := if hex then t.drop 2 else t
  let r := scanMantissa hex body ⟨false, false, false, 0, 0, 0⟩
  let st := r.1
  if !st.sawdigits then (F64.fin false 0 (-1074), false)
  else
    let dp0 : Int := if st.sawdot then st.dp else st.nd
    let dp1 : Int := if hex then dp0 * 4 else dp0
    let nd1 : Int := if hex then (st.nd : Int) * 4 else st.nd
    -- optional exponent
    let ex : Option (Int × Bool × Str) :=
      match r.2 with
      | c :: cs =>
        if lowerByte c = (if hex then 'p' else 'e') then
          let esign : Int := if cs.head? = some '-' then -1 else 1
          let ds := if cs.head? = some '-' || cs.head? = some '+' then cs.tail else cs
          match ds with
          | d :: _ =>
            if d.isDigit then
              let q := scanExpDigits ds 0 st.underscores
              some (dp1 + (q.1 : Int) * esign, q.2.1, q.2.2)
            else none
          | [] => none
        else if hex then none
        else some (dp1, st.underscores, c :: cs)
      | [] => if hex then none else some (dp1, st.underscores, [])
    match ex with
    | none => (F64.fin false 0 (-1074), false)
    | some (dp, underscores, left) =>
      if underscores && !underscoreOK (s.take (s.length - left.length)) then
        (F64.fin false 0 (-1074), false)
      else if !left.isEmpty then (F64.fin false 0 (-1074), false)
      else if st.mant = 0 then (F64.fin neg 0 (-1074), true)
      else
        let x : Int := dp - nd1
        let v : F64 × Bool :=
          if hex then
            match x with
            | Int.ofNat k => roundRat neg (st.mant * 2 ^ k) 1
            | Int.negSucc k => roundRat neg st.mant (2 ^ (k + 1))
          else
            match x with
            | Int.ofNat k => roundRat neg (st.mant * 10 ^ k) 1
            | Int.negSucc k => roundRat neg st.mant (10 ^ (k + 1))
        (v.1, !v.2)

/-- Go `strconv.ParseFloat(s, 64)`: the value returned and whether the error is nil.
A text that is not a number gives 0 with an error, a number beyond the finite
range an infinity with an error. -/
def ParseFloat (s : Str) : F64 × Bool :=
  let signed := s.head? = some '-' || s.head? = some '+'
  let t := if signed then s.tail else s
  let n := commonPrefixLenIgnoreCase t "infinity".toList
  let n' := if 3 < n ∧ n < 8 then 3 else n
  if (signed || s.head? = some 'i' || s.head? = some 'I') && (n' = 3 || n' = 8) then
    if t.length = n' then (F64.inf (s.head? = some '-'), true) else (F64.fin false 0 (-1074), false)
  else if (s.head? = some 'n' || s.head? = some 'N') &&
      commonPrefixLenIgnoreCase s "nan".toList = 3 then
    if s.length = 3 then (F64.nan, true) else (F64.fin false 0 (-1074), false)
  else parseNumber s


/-- Least `k' ≥ k` with `num < den * 10^k'` (within `fuel` steps). -/
def decPointUp : Nat → Nat → Nat → Nat → Nat
  | 0, _, _, k => k
  | fuel + 1, num, den, k => if num < den * 10 ^ k then k else decPointUp fuel num den (k + 1)

/-- Least `j' ≥ j` with `den ≤ num * 10^(j'+1)` (within `fuel` steps). -/
def decPointDown : Nat → Nat → Nat → Nat → Nat
  | 0, _, _, j => j
  | fuel + 1, num, den, j =>
    if den ≤ num * 10 ^ (j + 1) then j else decPointDown fuel num den (j + 1)

/-- Position `dp` of the decimal point of `num / den > 0`:
`10^(dp-1) ≤ num / den < 10^dp`. -/
def decPoint (num den : Nat) : Int :=
  if den ≤ num then (decPointUp 400 num den 1 : Nat) else -((decPointDown 400 num den 0 : Nat) : Int)

/-- The natural number `max x 0` of an integer. -/
def posPart (x : Int) : Nat := x.toNat

/-- The natural number `max (-x) 0` of an integer. -/
def negPart (x : Int) : Nat := (-x).toNat

/-- Whether the decimal `c * 10^p` rounds to the float64 `m * 2^e` (`m > 0`): it lies
in the rounding interval of the float, whose ends count when `m` is even. -/
def roundsTo (m : Nat) (e : Int) (c : Nat) (p : Int) : Bool :=
  -- in units of 2^(e-2): the value is 4m, the interval [4m - lo, 4m + 2]
  let lo : Nat := if m = 2 ^ 52 ∧ e > -1074 then 1 else 2
  let lhs : Nat := c * 10 ^ posPart p * 2 ^ negPart (e - 2)
  let scale : Nat := 2 ^ posPart (e - 2) * 10 ^ negPart p
  if m % 2 = 0 then (4 * m - lo) * scale ≤ lhs && lhs ≤ (4 * m + 2) * scale
  else (4 * m - lo) * scale < lhs && lhs < (4 * m + 2) * scale

/-- The shortest decimal `c * 10^p` that rounds to the float64 `m * 2^e`, tried with
`nd, nd + 1, ...` digits: among the decimals of that length the one nearest to the
value. -/
def shortestFrom (m : Nat) (e : Int) (dp : Int) : Nat → Nat → Nat × Int
  | 0, nd => (m, e)
  | fuel + 1, nd =>
    let p : Int := dp - nd
    let num : Nat := m * 2 ^ posPart e * 10 ^ negPart p
    let den : Nat := 2 ^ negPart e * 10 ^ posPart p
    let a := num / den
    let r := num % den
    let okLow := roundsTo m e a p
    let okHigh := roundsTo m e (a + 1) p
    let preferHigh : Bool := 2 * r > den || (2 * r = den && a % 2 = 1)
    if okLow && okHigh then (if preferHigh then (a + 1, p) else (a, p))
    else if okLow then (a, p)
    else if okHigh then (a + 1, p)
    else if fuel = 0 then (if preferHigh then (a + 1, p) else (a, p))
    else shortestFrom m e dp fuel (nd + 1)

/-- Removes the trailing zeros of a digit string. -/
def stripZeros (ds : Str) : Str := (trimLeftBy (fun c => c = '0') ds.reverse).reverse

/-- Digit `i` of `ds`, `0` outside it. -/
def digitAt (ds : Str) (i : Int) : Char :=
  if 0 ≤ i then ds.getD i.toNat '0' else '0'

/-- Go `strconv.FormatFloat(x, 'g', -1, 64)` as `fmt` prints a float64 with `%v`. -/
def formatFloat : F64 → Str
  | .nan => "NaN".toList
  | .inf false => "+Inf".toList
  | .inf true => "-Inf".toList
  | .fin neg m e =>
    let sign : Str := if neg then ['-'] else []
    if m = 0 then sign ++ ['0']
    else
      let dp0 := decPoint (m * 2 ^ posPart e) (2 ^ negPart e)
      let cp := shortestFrom m e dp0 17 1
      let full := natDigits (cp.1 + 1) cp.1
      let dp : Int := (full.length : Int) + cp.2
      let ds := stripZeros full
      let nd := ds.length
      let exp : Int := dp - 1
      if exp < -4 || exp ≥ 6 then
        let frac : Str := if nd > 1 then '.' :: ds.drop 1 else []
        let ex : Nat := exp.natAbs
        let exDigits : Str := if ex < 10 then '0' :: natDigits 2 ex else natDigits (ex + 1) ex
        sign ++ ds.take 1 ++ frac ++ ['e', if exp < 0 then '-' else '+'] ++ exDigits
      else
        let intPart : Str :=
          if dp > 0 then (List.range dp.toNat).map (fun i => digitAt ds i) else ['0']
        let prec : Nat := ((nd : Int) - dp).toNat
        let frac : Str :=
          if prec > 0 then '.' :: (List.range prec).map (fun i => digitAt ds (dp + i)) else []
        sign ++ intPart ++ frac


/-! ## Dynamic values (the Go `any` values the interpreter handles) -/

/-- A dynamic value.  A slice of `any` and a map are held by reference, as in Go:
the slice by the address of its backing array and its length, the map by its
address; their contents are in the `Heap`.  A slice of strings is held by its
contents: no statement of the source writes into one. -/
inductive Value where
  | str (s : Str)
  | int (i : Int)
  | int64 (i : Int)
  | float (f : F64)
  | bool (b : Bool)
  | list (a : Nat) (n : Nat)
  | strs (xs : List Str)
  | dict (a : Nat)
  | nil
deriving Repr, DecidableEq

/-- An object that values refer to: the backing array of a slice of `any` (its
capacity and the cells written so far, at most `cap`), or a map. -/
inductive Obj where
  | arr (cap : Nat) (cells : List Value)
  | map (kvs : List (Str × Value))
deriving Repr, DecidableEq

/-- The objects allocated so far; the address of an object is its index. -/
abbrev Heap := List Obj

/-- The element at index `idx` of the backing array `a` (nil in a cell not yet
written). -/
def Heap.cell (hp : Heap) (a idx : Nat) : Value :=
  match hp[a]? with
  | some (.arr _ cs) => cs.getD idx .nil
  | _ => .nil

/-- The elements of the slice with backing array `a` and length `n`. -/
def Heap.cells (hp : Heap) (a n : Nat) : List Value :=
  (List.range n).map (hp.cell a)

/-- The entries of the map at address `a`. -/
def Heap.mapAt (hp : Heap) (a : Nat) : List (Str × Value) :=
  match hp[a]? with
  | some (.map m) => m
  | _ => []

/-- A bound on the number of distinct slices and maps that the values of the heap
refer to: a chain of nested values longer than this passes twice through one of
them. -/
def Heap.bound : Heap → Nat
  | [] => 1
  | .arr _ cs :: rest => cs.length + 1 + Heap.bound rest
  | .map _ :: rest => 1 + Heap.bound rest

/-- Go `<` on strings. -/
def strLt : Str → Str → Bool
  | [], [] => false
  | [], _ :: _ => true
  | _ :: _, [] => false
  | a :: as, b :: bs => a.toNat < b.toNat || (a = b && strLt as bs)

/-- Insertion of a pair into a list of pairs sorted by key. -/
def insertByKey {α : Type} (x : Str × α) : List (Str × α) → List (Str × α)
  | [] => [x]
  | y :: ys => if strLt y.1 x.1 then y :: insertByKey x ys else x :: y :: ys

/-- The pairs sorted by key, as `fmt` prints a map. -/
def sortByKey {α : Type} : List (Str × α) → List (Str × α)
  | [] => []
  | x :: xs => insertByKey x (sortByKey xs)

/-- The recursion of `fmt.Sprint(v)` over nested slices and maps, `depth` levels
deep; `none` when the value nests deeper. -/
def sprintDepth (hp : Heap) : Nat → Value → Option Str
  | 0 => fun v =>
    match v with
    | .str s => some s
    | .int i => some (Itoa i)
    | .int64 i => some (Itoa i)
    | .float f => some (formatFloat f)
    | .bool b => some (if b then "true".toList else "false".toList)
    | .strs xs => some ("[".toList ++ Join xs " ".toList ++ "]".toList)
    | .nil => some "<nil>".toList
    | .list _ _ => none
    | .dict _ => none
  | depth + 1 => fun v =>
    match v with
    | .str s => some s
    | .int i => some (Itoa i)
    | .int64 i => some (Itoa i)
    | .float f => some (formatFloat f)
    | .bool b => some (if b then "true".toList else "false".toList)
    | .strs xs => some ("[".toList ++ Join xs " ".toList ++ "]".toList)
    | .nil => some "<nil>".toList
    | .list a n =>
      ((hp.cells a n).mapM (sprintDepth hp depth)).map
        (fun ss => "[".toList ++ Join ss " ".toList ++ "]".toList)
    | .dict a =>
      ((hp.mapAt a).mapM (fun kv => (sprintDepth hp depth kv.2).map (fun s => (kv.1, s)))).map
        (fun ps => "map[".toList ++ Join ((sortByKey ps).map (fun p => p.1 ++ ':' :: p.2))
          " ".toList ++ "]".toList)

/-- Go `fmt.Sprint(v)` for one operand; `none` when the value contains itself:
`fmt` then recurses until the Go runtime ends the process for want of stack. -/
def Sprint (hp : Heap) (v : Value) : Option Str := sprintDepth hp hp.bound v

/-- Function `toString` of stdlib.go; `none` when `fmt.Sprint` does not return. -/
def toString (hp : Heap) (v : Value) : Option Str :=
  match v with
  | .str s => some s
  | _ => (Sprint hp v).map (fun s => TrimSpace (Trim s "\n".toList))

/-- Function `toFloat` of stdlib.go. -/
def toFloat (v : Value) : F64 :=
  match v with
  | .int i => F64.ofInt i
  | .int64 i => F64.ofInt i
  | .float f => f
  | .str s => (ParseFloat (TrimSpace s)).1
  | _ => F64.fin false 0 (-1074)

/-- The type name `fmt` prints for `%T`. -/
def typeName : Value → Str
  | .str _ => "string".toList
  | .int _ => "int".toList
  | .int64 _ => "int64".toList
  | .float _ => "float64".toList
  | .bool _ => "bool".toList
  | .list _ _ => "[]interface \x7b\x7d".toList
  | .strs _ => "[]string".toList
  | .dict _ => "map[string]interface \x7b\x7d".toList
  | .nil => "<nil>".toList

/-- Wrap-around of a mathematical integer to the 64-bit Go `int`. -/
def wrapInt (i : Int) : Int := (i + 2 ^ 63) % 2 ^ 64 - 2 ^ 63

/-! ## Go maps with string keys, as association lists with distinct keys -/

/-- Lookup `m[k]`: the value, or `none` when the key is absent. -/
def mapGet {α : Type} : List (Str × α) → Str → Option α
  | [], _ => none
  | (k', v) :: rest, k => if k' = k then some v else mapGet rest k

/-- Assignment `m[k] = v`. -/
def mapSet {α : Type} : List (Str × α) → Str → α → List (Str × α)
  | [], k, v => [(k, v)]
  | (k', v') :: rest, k, v => if k' = k then (k, v) :: rest else (k', v') :: mapSet rest k v

/-- Go `delete(m, k)`. -/
def mapDelete {α : Type} : List (Str × α) → Str → List (Str × α)
  | [], _ => []
  | (k', v') :: rest, k => if k' = k then mapDelete rest k else (k', v') :: mapDelete rest k

/-! ## Slices and decoded JSON in the heap -/

/-- What `json.Unmarshal` decodes into an `any`: strings, float64 numbers, booleans,
nil, slices of `any` and maps. -/
inductive JVal where
  | str (s : Str)
  | num (f : F64)
  | bool (b : Bool)
  | null
  | arr (xs : List JVal)
  | obj (kvs : List (Str × JVal))

/-- Capacity of the backing array after `n` calls of `append` that started from a
slice without one (`var s []any`, or `make([]any, 0)`): `append` allocates a larger
array whenever the array is full. -/
def capAfter (grow : Nat → Nat → Nat) : Nat → Nat
  | 0 => 0
  | n + 1 =>
    if n + 1 ≤ capAfter grow n then capAfter grow n
    else max (n + 1) (grow (capAfter grow n) (n + 1))

/-- The slice that a loop of `s = append(s, item)` over `items` builds from a slice
without backing array (also `[]any` of no element): a new backing array that holds
the items.  The arrays that the loop allocates and abandons on the way are left out;
no value refers to them. -/
def allocSlice (grow : Nat → Nat → Nat) (items : List Value) (hp : Heap) : Value × Heap :=
  (.list hp.length items.length, hp ++ [.arr (capAfter grow items.length) items])

/-- Go `append(s, v)` for the slice `s` with backing array `a` and length `n`: while
the array has room the item is written into cell `n` of that array, which every
other slice on the array shares; else the first `n` cells are copied into a new
array. -/
def appendSlice (grow : Nat → Nat → Nat) (hp : Heap) (a n : Nat) (v : Value) : Value × Heap :=
  match hp[a]? with
  | some (.arr cap cells) =>
    if n < cap then
      (.list a (n + 1), hp.set a (.arr cap (cells.take n ++ v :: cells.drop (n + 1))))
    else
      (.list hp.length (n + 1), hp ++ [.arr (max (n + 1) (grow cap (n + 1))) (cells.take n ++ [v])])
  | _ => (.list hp.length (n + 1), hp ++ [.arr (max (n + 1) (grow 0 (n + 1))) [v]])

/-- The value that `json.Unmarshal` stores into an `any`: an array becomes a new
slice, an object a new map (a key that occurs again replaces the earlier entry). -/
def allocJ (grow : Nat → Nat → Nat) : JVal → Heap → Value × Heap
  | .str s, hp => (.str s, hp)
  | .num f, hp => (.float f, hp)
  | .bool b, hp => (.bool b, hp)
  | .null, hp => (.nil, hp)
  | .arr xs, hp => allocSlice grow (allocAll xs hp).1 (allocAll xs hp).2
  | .obj kvs, hp =>
    (.dict (allocPairs kvs [] hp).2.length,
      (allocPairs kvs [] hp).2 ++ [.map (allocPairs kvs [] hp).1])
where
  /-- The elements of an array, decoded in order. -/
  allocAll : List JVal → Heap → List Value × Heap
    | [], hp => ([], hp)
    | x :: xs, hp =>
      ((allocJ grow x hp).1 :: (allocAll xs (allocJ grow x hp).2).1,
        (allocAll xs (allocJ grow x hp).2).2)
  /-- The members of an object, decoded in order and stored under their keys into
  the entries `acc`. -/
  allocPairs : List (Str × JVal) → List (Str × Value) → Heap → List (Str × Value) × Heap
    | [], acc, hp => (acc, hp)
    | (k, x) :: xs, acc, hp =>
      allocPairs xs (mapSet acc k (allocJ grow x hp).1) (allocJ grow x hp).2

/-! ## The host: file system, clock, JSON codec and Unicode tables

The builtin functions and `Backup` reach the operating system and Go library
tables through the primitives of a `Host`; `W` is the state of the outside world. -/

/-- Primitives of the Go runtime and the operating system that the source calls. -/
structure Host (W : Type) where
  /-- Go `os.ReadFile`: the error message or the data. -/
  readFile : W → Str → Except Str Str
  /-- Go `os.WriteFile`: the world after the call and the error, if any. -/
  writeFile : W → Str → Str → W × Option Str
  /-- Opening a file for appending and writing to it. -/
  appendFile : W → Str → Str → W × Option Str
  /-- Go `os.Stat`: the error message, or whether the path is a directory and its size. -/
  stat : W → Str → Except Str (Bool × Int)
  /-- Go `os.MkdirAll`. -/
  mkdirAll : W → Str → W × Option Str
  /-- Go `os.Open`, `os.Create` and `io.Copy` from the first path to the second. -/
  copyFile : W → Str → Str → W × Option Str
  /-- Go `filepath.Join`. -/
  pathJoin : List Str → Str
  /-- Go `filepath.Dir`. -/
  pathDir : Str → Str
  /-- Go `filepath.Base`. -/
  pathBase : Str → Str
  /-- Go `filepath.Ext`. -/
  pathExt : Str → Str
  /-- Go `time.Now().Format(time.RFC3339)`. -/
  now : W → Str × W
  /-- Go `time.Now().Unix()`. -/
  unix : W → Int × W
  /-- Go `time.Sleep` for a number of milliseconds. -/
  sleep : W → Int → W
  /-- Go `time.Unix(ts, 0).Format(layout)`. -/
  timeFormat : W → Int → Str → Str
  /-- Go `json.Unmarshal` into an `any`: the error message or the value decoded. -/
  jsonParse : Str → Except Str JVal
  /-- Go `json.Marshal` of a value, whose slices and maps are in the heap. -/
  jsonStringify : Heap → Value → Except Str Str
  /-- Go runtime `growslice` for a slice of `any`: the capacity of the backing array
  that `append` allocates, from the capacity of the full array and the length
  needed (which the result is not below). -/
  growCap : Nat → Nat → Nat
  /-- Go `math.Sqrt`. -/
  sqrt : F64 → F64
  /-- Go `unicode.ToUpper` outside ASCII. -/
  upperRune : Char → Char
  /-- Go `unicode.ToLower` outside ASCII. -/
  lowerRune : Char → Char

/-! ## stdlib.go -/

/-- BuiltinFunc represents a standard library function: from the arguments, the heap
and the world to the value, the error (`none` for nil), the heap and the world after
the call; `none` when the call does not return (it prints a value that contains
itself). -/
abbrev BuiltinFunc (W : Type) :=
  List Value → Heap → W → Option (Value × Option Str × Heap × W)

/-- Go `strings.ToUpper`. -/
def ToUpper {W : Type} (h : Host W) (s : Str) : Str :=
  s.map (fun c => if c.toNat < 128 then c.toUpper else h.upperRune c)

/-- Go `strings.ToLower`. -/
def ToLower {W : Type} (h : Host W) (s : Str) : Str :=
  s.map (fun c => if c.toNat < 128 then c.toLower else h.lowerRune c)

/-- Go `strings.ReplaceAll(s, "\r\n", "\n")`. -/
def replaceCRLF : Str → Str
  | [] => []
  | [c] => [c]
  | c :: d :: rest =>
    if c = '\r' ∧ d = '\n' then '\n' :: replaceCRLF rest else c :: replaceCRLF (d :: rest)

/-- The loop of Go `strings.Split(s, sep)` for a non-empty separator. -/
def splitLoop (sep : Str) : Nat → Str → List Str
  | 0, s => [s]
  | fuel + 1, s =>
    match cutAt sep s with
    | some (a, b) => a :: splitLoop sep fuel b
    | none => [s]

/-- Go `strings.Split(s, sep)` for any separator. -/
def SplitStr (s sep : Str) : List Str :=
  if sep.isEmpty then s.map (fun c => [c]) else splitLoop sep s.length s

/-- The zero float64. -/
def zeroF : F64 := F64.fin false 0 (-1074)

/-- Module `io`, function `read`. -/
def ioRead {W : Type} (h : Host W) : BuiltinFunc W := fun args hp w =>
  match args with
  | [] => some (.str [], some "io.read expects path".toList, hp, w)
  | a :: _ =>
    match toString hp a with
    | none => none
    | some path =>
      match h.readFile w path with
      | .error e => some (.str [], some e, hp, w)
      | .ok data => some (.str data, none, hp, w)

/-- Module `io`, function `write`. -/
def ioWrite {W : Type} (h : Host W) : BuiltinFunc W := fun args hp w =>
  match args with
  | a :: b :: _ =>
    match toString hp a, toString hp b with
    | some path, some data =>
      some (.nil, (h.writeFile w path data).2, hp, (h.writeFile w path data).1)
    | _, _ => none
  | _ => some (.nil, some "io.write expects path and data".toList, hp, w)

/-- Module `io`, function `append`. -/
def ioAppend {W : Type} (h : Host W) : BuiltinFunc W := fun args hp w =>
  match args with
  | a :: b :: _ =>
    match toString hp a, toString hp b with
    | some path, some data =>
      some (.nil, (h.appendFile w path data).2, hp, (h.appendFile w path data).1)
    | _, _ => none
  | _ => some (.nil, some "io.append expects path and data".toList, hp, w)

/-- Whether `os.Stat` returns no error. -/
def statOk {W : Type} (h : Host W) (w : W) (path : Str) : Bool :=
  match h.stat w path with
  | .ok _ => true
  | .error _ => false

/-- Module `io`, function `exists`. -/
def ioExists {W : Type} (h : Host W) : BuiltinFunc W := fun args hp w =>
  match args with
  | [] => some (.bool false, some "io.exists expects path".toList, hp, w)
  | a :: _ => (toString hp a).map (fun path => (.bool (statOk h w path), none, hp, w))

/-- Removes the last line when it is empty, as `io.read_lines` does. -/
def dropLastEmpty (lines : List Str) : List Str :=
  if lines.getLast? = some [] then lines.dropLast else lines

/-- Module `io`, function `read_lines`. -/
def ioReadLines {W : Type} (h : Host W) : BuiltinFunc W := fun args hp w =>
  match args with
  | [] => some (.strs [], some "io.read_lines expects path".toList, hp, w)
  | a :: _ =>
    match toString hp a with
    | none => none
    | some path =>
      match h.readFile w path with
      | .error e => some (.strs [], some e, hp, w)
      | .ok data => some (.strs (dropLastEmpty (Split (replaceCRLF data) '\n')), none, hp, w)

/-- Module `io`, function `size`. -/
def ioSize {W : Type} (h : Host W) : BuiltinFunc W := fun args hp w =>
  match args with
  | [] => some (.int 0, some "io.size expects path".toList, hp, w)
  | a :: _ =>
    match toString hp a with
    | none => none
    | some path =>
      match h.stat w path with
      | .error e => some (.int 0, some e, hp, w)
      | .ok info => some (.int64 info.2, none, hp, w)

/-- Module `io`, function `dirname`. -/
def ioDirname {W : Type} (h : Host W) : BuiltinFunc W := fun args hp w =>
  match args with
  | [] => some (.str [], some "io.dirname expects path".toList, hp, w)
  | a :: _ => (toString hp a).map (fun path => (.str (h.pathDir path), none, hp, w))

/-- Module `io`, function `basename`. -/
def ioBasename {W : Type} (h : Host W) : BuiltinFunc W := fun args hp w =>
  match args with
  | [] => some (.str [], some "io.basename expects path".toList, hp, w)
  | a :: _ => (toString hp a).map (fun path => (.str (h.pathBase path), none, hp, w))

/-- Function `ioModule` of stdlib.go. -/
def ioModule {W : Type} (h : Host W) : List (Str × BuiltinFunc W) :=
  [("read".toList, ioRead h), ("write".toList, ioWrite h), ("append".toList, ioAppend h),
   ("exists".toList, ioExists h), ("read_lines".toList, ioReadLines h),
   ("size".toList, ioSize h), ("dirname".toList, ioDirname h),
   ("basename".toList, ioBasename h)]

/-- Module `text`, function `length`. -/
def textLength {W : Type} : BuiltinFunc W := fun args hp w =>
  match args with
  | [] => some (.int 0, some "text.length expects string".toList, hp, w)
  | a :: _ => (toString hp a).map (fun s => (.int s.length, none, hp, w))

/-- Module `text`, function `upper`. -/
def textUpper {W : Type} (h : Host W) : BuiltinFunc W := fun args hp w =>
  match args with
  | [] => some (.str [], some "text.upper expects string".toList, hp, w)
  | a :: _ => (toString hp a).map (fun s => (.str (ToUpper h s), none, hp, w))

/-- Module `text`, function `lower`. -/
def textLower {W : Type} (h : Host W) : BuiltinFunc W := fun args hp w =>
  match args with
  | [] => some (.str [], some "text.lower expects string".toList, hp, w)
  | a :: _ => (toString hp a).map (fun s => (.str (ToLower h s), none, hp, w))

/-- Module `text`, function `trim`. -/
def textTrim {W : Type} : BuiltinFunc W := fun args hp w =>
  match args with
  | [] => some (.str [], some "text.trim expects string".toList, hp, w)
  | [a] => (toString hp a).map (fun s => (.str (Trim s " ".toList), none, hp, w))
  | a :: b :: _ =>
    match toString hp a, toString hp b with
    | some s, some cutset => some (.str (Trim s cutset), none, hp, w)
    | _, _ => none

/-- Module `text`, function `split`. -/
def textSplit {W : Type} : BuiltinFunc W := fun args hp w =>
  match args with
  | a :: b :: _ =>
    match toString hp a, toString hp b with
    | some s, some sep => some (.strs (SplitStr s sep), none, hp, w)
    | _, _ => none
  | _ => some (.strs [], some "text.split expects string and delimiter".toList, hp, w)

/-- Module `text`, function `contains`. -/
def textContains {W : Type} : BuiltinFunc W := fun args hp w =>
  match args with
  | a :: b :: _ =>
    match toString hp a, toString hp b with
    | some s, some sub => some (.bool (Contains s sub), none, hp, w)
    | _, _ => none
  | _ => some (.bool false, some "text.contains expects haystack and needle".toList, hp, w)

/-- Module `text`, function `starts_with`. -/
def textStartsWith {W : Type} : BuiltinFunc W := fun args hp w =>
  match args with
  | a :: b :: _ =>
    match toString hp a, toString hp b with
    | some s, some p => some (.bool (HasPrefix s p), none, hp, w)
    | _, _ => none
  | _ => some (.bool false, some "text.starts_with expects haystack and prefix".toList, hp, w)

/-- Module `text`, function `ends_with`. -/
def textEndsWith {W : Type} : BuiltinFunc W := fun args hp w =>
  match args with
  | a :: b :: _ =>
    match toString hp a, toString hp b with
    | some s, some p => some (.bool (HasSuffix s p), none, hp, w)
    | _, _ => none
  | _ => some (.bool false, some "text.ends_with expects haystack and suffix".toList, hp, w)

/-- Function `textModule` of stdlib.go. -/
def textModule {W : Type} (h : Host W) : List (Str × BuiltinFunc W) :=
  [("length".toList, textLength), ("upper".toList, textUpper h),
   ("lower".toList, textLower h), ("trim".toList, textTrim), ("split".toList, textSplit),
   ("contains".toList, textContains), ("starts_with".toList, textStartsWith),
   ("ends_with".toList, textEndsWith)]

/-- Function `numericFold` of stdlib.go. -/
def numericFold (args : List Value) (seed : F64) (op : F64 → F64 → F64) : F64 :=
  args.foldl (fun total v => op total (toFloat v)) seed

/-- Module `math`, function `add`. -/
def mathAdd {W : Type} : BuiltinFunc W := fun args hp w =>
  some (.float (numericFold args zeroF F64.add), none, hp, w)

/-- Module `math`, function `sub`. -/
def mathSub {W : Type} : BuiltinFunc W := fun args hp w =>
  match args with
  | a :: b :: rest =>
    some (.float ((b :: rest).foldl (fun start v => F64.sub start (toFloat v)) (toFloat a)),
      none, hp, w)
  | _ => some (.int 0, some "math.sub expects at least 2 numbers".toList, hp, w)

/-- Module `math`, function `mul`. -/
def mathMul {W : Type} : BuiltinFunc W := fun args hp w =>
  some (.float (numericFold args (F64.ofInt 1) F64.mul), none, hp, w)

/-- The loop of `math.div`: the quotient, or `none` at the first zero divisor. -/
def divLoop : List Value → F64 → Option F64
  | [], start => some start
  | v :: rest, start =>
    if !(toFloat v).nonzero then none else divLoop rest (F64.div start (toFloat v))

/-- Module `math`, function `div`. -/
def mathDiv {W : Type} : BuiltinFunc W := fun args hp w =>
  match args with
  | a :: b :: rest =>
    match divLoop (b :: rest) (toFloat a) with
    | none => some (.int 0, some "division by zero".toList, hp, w)
    | some q => some (.float q, none, hp, w)
  | _ => some (.int 0, some "math.div expects at least 2 numbers".toList, hp, w)

/-- Module `math`, function `sqrt`. -/
def mathSqrt {W : Type} (h : Host W) : BuiltinFunc W := fun args hp w =>
  match args with
  | [] => some (.int 0, some "math.sqrt expects number".toList, hp, w)
  | a :: _ => some (.float (h.sqrt (toFloat a)), none, hp, w)

/-- Module `math`, function `abs`. -/
def mathAbs {W : Type} : BuiltinFunc W := fun args hp w =>
  match args with
  | [] => some (.int 0, some "math.abs expects number".toList, hp, w)
  | a :: _ => some (.float (F64.abs (toFloat a)), none, hp, w)

/-- Function `mathModule` of stdlib.go. -/
def mathModule {W : Type} (h : Host W) : List (Str × BuiltinFunc W) :=
  [("add".toList, mathAdd), ("sub".toList, mathSub), ("mul".toList, mathMul),
   ("div".toList, mathDiv), ("sqrt".toList, mathSqrt h), ("abs".toList, mathAbs)]

/-- Module `list`, function `length`. -/
def listLength {W : Type} : BuiltinFunc W := fun args hp w =>
  match args with
  | [] => some (.int 0, some "list.length expects list".toList, hp, w)
  | .list _ n :: _ => some (.int n, none, hp, w)
  | .strs v :: _ => some (.int v.length, none, hp, w)
  | a :: _ =>
    some (.int 0, some ("list.length: got ".toList ++ typeName a ++ ", expected list".toList),
      hp, w)

/-- Module `list`, function `append`: Go `append` on the slice of the first
argument. -/
def listAppend {W : Type} (h : Host W) : BuiltinFunc W := fun args hp w =>
  match args with
  | .list a n :: b :: _ =>
    some ((appendSlice h.growCap hp a n b).1, none, (appendSlice h.growCap hp a n b).2, w)
  | _ :: _ :: _ => some (.nil, some "list.append: first arg must be list".toList, hp, w)
  | _ => some (.nil, some "list.append expects list and item".toList, hp, w)

/-- Element `idx` of a list, or the out-of-bounds error of `list.at`. -/
def atIndex {W : Type} (xs : List Value) (idx : Int) (hp : Heap) (w : W) :
    Value × Option Str × Heap × W :=
  if idx < 0 ∨ idx ≥ xs.length then (.nil, some "list.at: index out of bounds".toList, hp, w)
  else (xs.getD idx.toNat .nil, none, hp, w)

/-- Module `list`, function `at`. -/
def listAt {W : Type} : BuiltinFunc W := fun args hp w =>
  match args with
  | .list a n :: b :: _ => some (atIndex (hp.cells a n) (F64.toInt (toFloat b)) hp w)
  | .strs v :: b :: _ => some (atIndex (v.map Value.str) (F64.toInt (toFloat b)) hp w)
  | a :: _ :: _ =>
    some (.nil, some ("list.at: got ".toList ++ typeName a ++ ", expected list".toList), hp, w)
  | _ => some (.nil, some "list.at expects list and index".toList, hp, w)

/-- The loop of `list.contains` over a slice of `any`: whether an element prints
like the item; `none` when a print does not return. -/
def containsLoop (hp : Heap) (item : Value) : List Value → Option Bool
  | [] => some false
  | x :: xs =>
    match Sprint hp x, Sprint hp item with
    | some sx, some si => if sx = si then some true else containsLoop hp item xs
    | _, _ => none

/-- Module `list`, function `contains`. -/
def listContains {W : Type} : BuiltinFunc W := fun args hp w =>
  match args with
  | .list a n :: item :: _ =>
    (containsLoop hp item (hp.cells a n)).map (fun b => (.bool b, none, hp, w))
  | .strs v :: item :: _ =>
    (toString hp item).map (fun s => (.bool (v.any (fun x => x = s)), none, hp, w))
  | _ :: _ :: _ => some (.bool false, none, hp, w)
  | _ => some (.bool false, some "list.contains expects list and item".toList, hp, w)

/-- Function `listModule` of stdlib.go. -/
def listModule {W : Type} (h : Host W) : List (Str × BuiltinFunc W) :=
  [("length".toList, listLength), ("append".toList, listAppend h), ("at".toList, listAt),
   ("contains".toList, listContains)]

/-- Module `dict`, function `get`. -/
def dictGet {W : Type} : BuiltinFunc W := fun args hp w =>
  match args with
  | .dict a :: k :: _ =>
    match toString hp k with
    | none => none
    | some key =>
      match mapGet (hp.mapAt a) key with
      | some val => some (val, none, hp, w)
      | none => some (.nil, none, hp, w)
  | _ :: _ :: _ => some (.nil, some "dict.get: first arg must be dict".toList, hp, w)
  | _ => some (.nil, some "dict.get expects dict and key".toList, hp, w)

/-- Module `dict`, function `set`: the entry is written into the map of the first
argument, which is returned; a first argument that is no map stands for a new map. -/
def dictSet {W : Type} : BuiltinFunc W := fun args hp w =>
  match args with
  | .dict a :: k :: v :: _ =>
    (toString hp k).map
      (fun key => (.dict a, none, hp.set a (.map (mapSet (hp.mapAt a) key v)), w))
  | _ :: k :: v :: _ =>
    (toString hp k).map (fun key => (.dict hp.length, none, hp ++ [.map [(key, v)]], w))
  | _ => some (.nil, some "dict.set expects dict, key, and value".toList, hp, w)

/-- Module `dict`, function `keys` (in the order of the model; Go leaves the order
of a map iteration open). -/
def dictKeys {W : Type} : BuiltinFunc W := fun args hp w =>
  match args with
  | [] => some (.strs [], some "dict.keys expects dict".toList, hp, w)
  | .dict a :: _ => some (.strs ((hp.mapAt a).map (fun kv => kv.1)), none, hp, w)
  | _ :: _ => some (.strs [], some "dict.keys: arg must be dict".toList, hp, w)

/-- Module `dict`, function `values` (in the order of the model): a new slice. -/
def dictValues {W : Type} (h : Host W) : BuiltinFunc W := fun args hp w =>
  match args with
  | [] =>
    some ((allocSlice h.growCap [] hp).1, some "dict.values expects dict".toList,
      (allocSlice h.growCap [] hp).2, w)
  | .dict a :: _ =>
    some ((allocSlice h.growCap ((hp.mapAt a).map (fun kv => kv.2)) hp).1, none,
      (allocSlice h.growCap ((hp.mapAt a).map (fun kv => kv.2)) hp).2, w)
  | _ :: _ =>
    some ((allocSlice h.growCap [] hp).1, some "dict.values: arg must be dict".toList,
      (allocSlice h.growCap [] hp).2, w)

/-- Function `dictModule` of stdlib.go. -/
def dictModule {W : Type} (h : Host W) : List (Str × BuiltinFunc W) :=
  [("get".toList, dictGet), ("set".toList, dictSet), ("keys".toList, dictKeys),
   ("values".toList, dictValues h)]

/-- Module `time`, function `now`. -/
def timeNow {W : Type} (h : Host W) : BuiltinFunc W := fun _ hp w =>
  some (.str (h.now w).1, none, hp, (h.now w).2)

/-- Module `time`, function `timestamp`. -/
def timeTimestamp {W : Type} (h : Host W) : BuiltinFunc W := fun _ hp w =>
  some (.int64 (h.unix w).1, none, hp, (h.unix w).2)

/-- Module `time`, function `sleep`. -/
def timeSleep {W : Type} (h : Host W) : BuiltinFunc W := fun args hp w =>
  match args with
  | [] => some (.nil, some "time.sleep expects milliseconds".toList, hp, w)
  | a :: _ => some (.nil, none, hp, h.sleep w (F64.toInt (toFloat a)))

/-- Module `time`, function `format`. -/
def timeFormat {W : Type} (h : Host W) : BuiltinFunc W := fun args hp w =>
  match args with
  | a :: b :: _ =>
    (toString hp b).map
      (fun layout => (.str (h.timeFormat w (F64.toInt (toFloat a)) layout), none, hp, w))
  | _ => some (.str [], some "time.format expects timestamp and layout".toList, hp, w)

/-- Function `timeModule` of stdlib.go. -/
def timeModule {W : Type} (h : Host W) : List (Str × BuiltinFunc W) :=
  [("now".toList, timeNow h), ("timestamp".toList, timeTimestamp h),
   ("sleep".toList, timeSleep h), ("format".toList, timeFormat h)]

/-- Module `json`, function `parse`. -/
def jsonParse {W : Type} (h : Host W) : BuiltinFunc W := fun args hp w =>
  match args with
  | [] => some (.nil, some "json.parse expects string".toList, hp, w)
  | a :: _ =>
    match toString hp a with
    | none => none
    | some jsonStr =>
      match h.jsonParse jsonStr with
      | .error e => some (.nil, some e, hp, w)
      | .ok v => some ((allocJ h.growCap v hp).1, none, (allocJ h.growCap v hp).2, w)

/-- Module `json`, function `stringify`. -/
def jsonStringify {W : Type} (h : Host W) : BuiltinFunc W := fun args hp w =>
  match args with
  | [] => some (.str [], some "json.stringify expects value".toList, hp, w)
  | a :: _ =>
    match h.jsonStringify hp a with
    | .error e => some (.str [], some e, hp, w)
    | .ok s => some (.str s, none, hp, w)

/-- Function `jsonModule` of stdlib.go. -/
def jsonModule {W : Type} (h : Host W) : List (Str × BuiltinFunc W) :=
  [("parse".toList, jsonParse h), ("stringify".toList, jsonStringify h)]

/-- Module `path`, function `join`. -/
def pathJoin {W : Type} (h : Host W) : BuiltinFunc W := fun args hp w =>
  match args with
  | [] => some (.str [], some "path.join expects at least one path".toList, hp, w)
  | _ :: _ => (args.mapM (toString hp)).map (fun parts => (.str (h.pathJoin parts), none, hp, w))

/-- Module `path`, function `dir`. -/
def pathDir {W : Type} (h : Host W) : BuiltinFunc W := fun args hp w =>
  match args with
  | [] => some (.str [], some "path.dir expects path".toList, hp, w)
  | a :: _ => (toString hp a).map (fun p => (.str (h.pathDir p), none, hp, w))

/-- Module `path`, function `base`. -/
def pathBase {W : Type} (h : Host W) : BuiltinFunc W := fun args hp w =>
  match args with
  | [] => some (.str [], some "path.base expects path".toList, hp, w)
  | a :: _ => (toString hp a).map (fun p => (.str (h.pathBase p), none, hp, w))

/-- Module `path`, function `ext`. -/
def pathExt {W : Type} (h : Host W) : BuiltinFunc W := fun args hp w =>
  match args with
  | [] => some (.str [], some "path.ext expects path".toList, hp, w)
  | a :: _ => (toString hp a).map (fun p => (.str (h.pathExt p), none, hp, w))

/-- Module `path`, function `exists`. -/
def pathExists {W : Type} (h : Host W) : BuiltinFunc W := fun args hp w =>
  match args with
  | [] => some (.bool false, some "path.exists expects path".toList, hp, w)
  | a :: _ => (toString hp a).map (fun p => (.bool (statOk h w p), none, hp, w))

/-- Function `pathModule` of stdlib.go. -/
def pathModule {W : Type} (h : Host W) : List (Str × BuiltinFunc W) :=
  [("join".toList, pathJoin h), ("dir".toList, pathDir h), ("base".toList, pathBase h),
   ("ext".toList, pathExt h), ("exists".toList, pathExists h)]

/-- StdlibModules holds the core modules bundled in the binary. -/
def StdlibModules {W : Type} (h : Host W) : List (Str × List (Str × BuiltinFunc W)) :=
  [("io".toList, ioModule h), ("text".toList, textModule h), ("math".toList, mathModule h),
   ("list".toList, listModule h), ("dict".toList, dictModule h), ("time".toList, timeModule h),
   ("json".toList, jsonModule h), ("path".toList, pathModule h)]

/-! ## interpreter.go -/

/-- TaskDef stores a task body and parameter list. -/
structure TaskDef where
  Body : List Node
  Params : List Str
deriving Repr

/-- Interpreter executes Athera programs: the fields of the Go struct (`stdlib`
always holds `StdlibModules` and is left out), the lines written to standard output
so far, the state of the outside world, and the heap of the slices and maps that
the values refer to. -/
structure Interpreter (W : Type) where
  tasks : List (Str × TaskDef)
  /-- Field `variables` of the Go struct. -/
  vars : List (Str × Value)
  modules : List (Str × Bool)
  returnValue : Value
  errorOccurred : Bool
  lastError : Option Str
  out : List Str
  world : W
  heap : Heap

/-- NewInterpreter creates a fresh interpreter instance (writing to the output
`out`, in the world `w`, with no slice or map allocated yet). -/
def NewInterpreter {W : Type} (out : List Str) (w : W) : Interpreter W :=
  ⟨[], [], [], .nil, false, none, out, w, []⟩

/-- Writes one line to standard output (`fmt.Println`, or `fmt.Printf` of a format
that ends in a newline). -/
def Interpreter.print {W : Type} (i : Interpreter W) (line : Str) : Interpreter W :=
  { i with out := i.out ++ [line] }

/-- Whether `returnValue != nil`. -/
def Value.isNil : Value → Bool
  | .nil => true
  | _ => false

/-- Go `strings.EqualFold(s, t)` for a `t` of lower-case ASCII letters: besides the
two cases of a letter, the long s (U+017F) folds to `s` and the Kelvin sign
(U+212A) to `k`. -/
def EqualFold : Str → Str → Bool
  | [], [] => true
  | c :: cs, t :: ts =>
    (c = t || c = t.toUpper || (t = 's' && c.toNat = 0x17F) || (t = 'k' && c.toNat = 0x212A))
      && EqualFold cs ts
  | _, _ => false

/-- The UTF-8 bytes of a code point. -/
def utf8Bytes (c : Char) : List Nat :=
  let n := c.toNat
  if n < 0x80 then [n]
  else if n < 0x800 then [0xC0 + n / 64, 0x80 + n % 64]
  else if n < 0x10000 then [0xE0 + n / 4096, 0x80 + n / 64 % 64, 0x80 + n % 64]
  else [0xF0 + n / 262144, 0x80 + n / 4096 % 64, 0x80 + n / 64 % 64, 0x80 + n % 64]

/-- What `current += string(ch)` appends over the bytes `ch` of one code point:
Go converts each byte to the code point of that number. -/
def byteString (c : Char) : Str := (utf8Bytes c).map Char.ofNat

/-- The loop of `Interpreter.parseList` over the text `inner`: the texts it passes
to `evaluateExpression`, in order.  (The loop itself evaluates each text where it
finds the comma; it reads nothing that an evaluation writes.) -/
def listItems : Str → Str → Bool → Char → Nat → List Str
  | [], current, _, _, _ => if (TrimSpace current).isEmpty then [] else [current]
  | ch :: rest, current, inQuotes, quoteChar, bracketDepth =>
    if ch = '\'' ∨ ch = '"' then
      if !inQuotes then listItems rest (current ++ [ch]) true ch bracketDepth
      else if quoteChar = ch then listItems rest (current ++ [ch]) false quoteChar bracketDepth
      else listItems rest (current ++ [ch]) inQuotes quoteChar bracketDepth
    else if ch = '[' then
      listItems rest (current ++ [ch]) inQuotes quoteChar
        (if !inQuotes then bracketDepth + 1 else bracketDepth)
    else if ch = ']' then
      listItems rest (current ++ [ch]) inQuotes quoteChar
        (if !inQuotes && bracketDepth > 0 then bracketDepth - 1 else bracketDepth)
    else if ch = ',' then
      if inQuotes || bracketDepth > 0 then
        listItems rest (current ++ [ch]) inQuotes quoteChar bracketDepth
      else current :: listItems rest [] inQuotes quoteChar bracketDepth
    else listItems rest (current ++ byteString ch) inQuotes quoteChar bracketDepth

/-- The closure `flush` of `splitArgsRespectingQuotes`: what it appends to `args`. -/
def flushArg (current : Str) : List Str :=
  if (TrimSpace current).isEmpty then [] else [TrimSpace current]

/-- The loop of `splitArgsRespectingQuotes`. -/
def splitArgsLoop : Str → Str → Bool → Char → Nat → List Str
  | [], current, _, _, _ => flushArg current
  | ch :: rest, current, inQuotes, quoteChar, bracketDepth =>
    if ch = '\'' ∨ ch = '"' then
      if !inQuotes then splitArgsLoop rest (current ++ [ch]) true ch bracketDepth
      else if quoteChar = ch then splitArgsLoop rest (current ++ [ch]) false quoteChar bracketDepth
      else splitArgsLoop rest (current ++ [ch]) inQuotes quoteChar bracketDepth
    else if ch = '[' then
      splitArgsLoop rest (current ++ [ch]) inQuotes quoteChar
        (if !inQuotes then bracketDepth + 1 else bracketDepth)
    else if ch = ']' then
      splitArgsLoop rest (current ++ [ch]) inQuotes quoteChar
        (if !inQuotes && bracketDepth > 0 then bracketDepth - 1 else bracketDepth)
    else if ch = ',' then
      if inQuotes || bracketDepth > 0 then
        splitArgsLoop rest (current ++ [ch]) inQuotes quoteChar bracketDepth
      else flushArg current ++ splitArgsLoop rest [] inQuotes quoteChar bracketDepth
    else splitArgsLoop rest (current ++ [ch]) inQuotes quoteChar bracketDepth

/-- Function `splitArgsRespectingQuotes`. -/
def splitArgsRespectingQuotes (input : Str) : List Str :=
  splitArgsLoop input [] false (Char.ofNat 0) 0

/-- Function `copyMap`: a new map with the same bindings.  A slice or a map among
the values is copied as the reference it is: the copy refers to the same backing
array or map as the original. -/
def copyMap (m : List (Str × Value)) : List (Str × Value) := m

/-- Evaluates the texts in order with `ev`, threading the interpreter through. -/
def evalAll {W : Type} (ev : Interpreter W → Str → Option (Value × Interpreter W)) :
    List Str → Interpreter W → Option (List Value × Interpreter W)
  | [], i => some ([], i)
  | e :: es, i =>
    match ev i e with
    | none => none
    | some (v, i1) =>
      match evalAll ev es i1 with
      | none => none
      | some (vs, i2) => some (v :: vs, i2)

/-- The property access of `evaluateExpression` (`base.length`, `base.is_empty`):
the value returned, or `none` when control falls through to the module call. -/
def propertyAccess (vars : List (Str × Value)) (expr : Str) : Option Value :=
  if Contains expr ".".toList && !Contains expr " ".toList then
    match Split expr '.' with
    | [base, prop] =>
      match mapGet vars base with
      | some val =>
        if prop = "length".toList then
          match val with
          | .str v => some (.int v.length)
          | .list _ n => some (.int n)
          | .strs v => some (.int v.length)
          | _ => none
        else if prop = "is_empty".toList then
          match val with
          | .str v => some (.bool v.isEmpty)
          | .list _ n => some (.bool (n == 0))
          | .strs v => some (.bool v.isEmpty)
          | _ => none
        else none
      | none => none
    | _ => none
  else none

/-- The builtin function that the dotted call `expr` names and the text of its
arguments, when `expr` contains a dot and the registry has the module and the
function. -/
def moduleCall {W : Type} (h : Host W) (expr : Str) : Option (BuiltinFunc W × Str) :=
  if Contains expr ".".toList then
    match SplitN2 expr ".".toList with
    | [m, r] =>
      let modName := TrimSpace m
      let rest := TrimSpace r
      let fnParts := SplitN2 rest " ".toList
      let fnName := TrimSpace (fnParts.headD [])
      let argStr := (fnParts.tail).headD []
      match mapGet (StdlibModules h) modName with
      | some modFuncs =>
        match mapGet modFuncs fnName with
        | some fn => some (fn, argStr)
        | none => none
      | none => none
    | _ => none
  else none

/-- The `switch` on the operands of `+` in `evaluateExpression`: the value returned,
`some none` when no case returns, and `none` when `toString` does not return. -/
def addValues (hp : Heap) (left right : Value) : Option (Option Value) :=
  match left with
  | .int l =>
    match right with
    | .int r => some (some (.int (wrapInt (l + r))))
    | .float r => some (some (.float (F64.add (F64.ofInt l) r)))
    | _ => some none
  | .float l =>
    match right with
    | .int r => some (some (.float (F64.add l (F64.ofInt r))))
    | .float r => some (some (.float (F64.add l r)))
    | _ => some none
  | .str l => (toString hp right).map (fun s => some (.str (l ++ s)))
  | _ => some none

/-- Whether `expr` is a quoted literal for `evaluateExpression`. -/
def isQuoted (expr : Str) : Bool :=
  (HasPrefix expr "\"".toList && HasSuffix expr "\"".toList) ||
  (HasPrefix expr "'".toList && HasSuffix expr "'".toList)

/-- The interpreter after the allocation of a slice that holds `items`, and the
slice. -/
def newSlice {W : Type} (h : Host W) (items : List Value) (i : Interpreter W) :
    Value × Interpreter W :=
  ((allocSlice h.growCap items i.heap).1, { i with heap := (allocSlice h.growCap items i.heap).2 })

/-- Method `Interpreter.parseList`, the items evaluated by `ev`: a new slice. -/
def parseList {W : Type} (h : Host W)
    (ev : Interpreter W → Str → Option (Value × Interpreter W))
    (i : Interpreter W) (expr : Str) : Option (Value × Interpreter W) :=
  if (TrimSpace (TrimSuffix (TrimPrefix expr "[".toList) "]".toList)).isEmpty then
    some (newSlice h [] i)
  else
    match evalAll ev
        (listItems (TrimSpace (TrimSuffix (TrimPrefix expr "[".toList) "]".toList)) [] false
          (Char.ofNat 0) 0) i with
    | none => none
    | some (items, i1) => some (newSlice h items i1)

/-- The dotted call of `evaluateExpression` once the builtin `fn` is found: the
arguments are evaluated by `ev`, the builtin is called, and an error it returns is
reported and turned into nil; `none` also when the builtin does not return. -/
def callBuiltin {W : Type} (ev : Interpreter W → Str → Option (Value × Interpreter W))
    (fn : BuiltinFunc W) (argStr : Str) (i : Interpreter W) : Option (Value × Interpreter W) :=
  match evalAll ev (splitArgsRespectingQuotes argStr) i with
  | none => none
  | some (args, i1) =>
    match fn args i1.heap i1.world with
    | none => none
    | some (_, some err, hp, w) =>
      some (.nil,
        { i1 with world := w, heap := hp }.print ("[Error: ".toList ++ err ++ "]".toList))
    | some (res, none, hp, w) => some (res, { i1 with world := w, heap := hp })

/-- The end of `evaluateExpression`: the addition of two operands, evaluated by
`ev`, and the fallback to the text itself. -/
def evalPlus {W : Type} (ev : Interpreter W → Str → Option (Value × Interpreter W))
    (i : Interpreter W) (expr : Str) : Option (Value × Interpreter W) :=
  match (if Contains expr "+".toList then Split expr '+' else []) with
  | [p0, p1] =>
    match ev i p0 with
    | none => none
    | some (left, i1) =>
      match ev i1 p1 with
      | none => none
      | some (right, i2) =>
        match addValues i2.heap left right with
        | none => none
        | some (some v) => some (v, i2)
        | some none => some (.str expr, i2)
  | _ => some (.str expr, i)

/-- Method `Interpreter.evaluateExpression`: the value and the interpreter after the
call, whose output, world and heap may have changed; `none`: no result, for want of
fuel or because a call of `toString` does not return. -/
def evaluateExpression {W : Type} (h : Host W) :
    Nat → Interpreter W → Str → Option (Value × Interpreter W)
  | 0, _, _ => none
  | fuel + 1, i, expr =>
    if (TrimSpace expr).isEmpty then some (.str [], i)
    else if isQuoted (TrimSpace expr) then some (.str (Trim (TrimSpace expr) "\"'".toList), i)
    else if HasPrefix (TrimSpace expr) "[".toList && HasSuffix (TrimSpace expr) "]".toList then
      parseList h (evaluateExpression h fuel) i (TrimSpace expr)
    else if EqualFold (TrimSpace expr) "true".toList then some (.bool true, i)
    else if EqualFold (TrimSpace expr) "false".toList then some (.bool false, i)
    else if (Atoi (TrimSpace expr)).2 then some (.int (Atoi (TrimSpace expr)).1, i)
    else if (ParseFloat (TrimSpace expr)).2 then some (.float (ParseFloat (TrimSpace expr)).1, i)
    else
      match mapGet i.vars (TrimSpace expr) with
      | some val => some (val, i)
      | none =>
        match propertyAccess i.vars (TrimSpace expr) with
        | some v => some (v, i)
        | none =>
          match moduleCall h (TrimSpace expr) with
          | some (fn, argStr) => callBuiltin (evaluateExpression h fuel) fn argStr i
          | none => evalPlus (evaluateExpression h fuel) i (TrimSpace expr)

/-- Result of executing statements: the interpreter after a normal return, a Go
panic raised with the interpreter as it then stands, or no result: the fuel ran
out, or the Go runtime ended the process (a value that contains itself was printed,
or a goroutine of RunParallel panicked). -/
inductive Res (W : Type) where
  | ok (i : Interpreter W)
  | panic (msg : Str) (i : Interpreter W)
  | outOfFuel

/-- Method `Interpreter.executeInlineAction`; `none`: no result. -/
def executeInlineAction {W : Type} (h : Host W) (fuel : Nat) (i : Interpreter W)
    (action : Str) : Option (Interpreter W) :=
  if HasPrefix (TrimSpace action) "greet ".toList then
    match evaluateExpression h fuel i (TrimSpace ((TrimSpace action).drop 6)) with
    | none => none
    | some (msgVal, i1) => (toString i1.heap msgVal).map i1.print
  else some i

/-- The truthiness `switch` of `evaluateCondition` on the value of a bound
variable; `none` when no case returns. -/
def truthyVar (val : Value) : Option Bool :=
  match val with
  | .bool v => some v
  | .int v => some (v ≠ 0)
  | .float v => some v.nonzero
  | .str v => some (!v.isEmpty)
  | .list _ n => some (n > 0)
  | .strs v => some (v.length > 0)
  | _ => none

/-- The truthiness `switch` of `evaluateCondition` on the value of the expression;
`none` when no case returns. -/
def truthyRes (res : Value) : Option Bool :=
  match res with
  | .bool v => some v
  | .int v => some (v ≠ 0)
  | .float v => some v.nonzero
  | .str v => some (!v.isEmpty)
  | _ => none

/-- Method `Interpreter.evaluateCondition`; `none`: no result. -/
def evaluateCondition {W : Type} (h : Host W) (fuel : Nat) (i : Interpreter W)
    (expr0 : Str) : Option (Bool × Interpreter W) :=
  let expr := TrimSpace expr0
  if HasPrefix expr "\"".toList || HasPrefix expr "'".toList then
    match evaluateExpression h fuel i (Trim expr "\"'".toList) with
    | none => none
    | some (p, i1) => (toString i1.heap p).map (fun path => (statOk h i1.world path, i1))
  else
    match (mapGet i.vars expr).bind truthyVar with
    | some b => some (b, i)
    | none =>
      match evaluateExpression h fuel i expr with
      | none => none
      | some (res, i1) => some ((truthyRes res).getD false, i1)

/-- Method `Interpreter.executeBackup`; `none`: no result. -/
def executeBackup {W : Type} (h : Host W) (fuel : Nat) (i : Interpreter W)
    (source dest : Str) : Option (Interpreter W) :=
  match evaluateExpression h fuel i source with
  | none => none
  | some (s, i1) =>
    match toString i1.heap s with
    | none => none
    | some srcText =>
      match evaluateExpression h fuel i1 dest with
      | none => none
      | some (d, i2) =>
        match toString i2.heap d with
        | none => none
        | some dstText =>
          let src := Trim srcText "\"'".toList
          let dst := Trim dstText "\"'".toList
          if src.isEmpty || dst.isEmpty then
            some (i2.print "[Backup error: source or destination missing]".toList)
          else
            match h.mkdirAll i2.world dst with
            | (w1, some e) =>
              some ({ i2 with world := w1 }.print
                ("[Backup error: ".toList ++ e ++ "]".toList))
            | (w1, none) =>
              match h.stat w1 src with
              | .error e =>
                some ({ i2 with world := w1 }.print
                  ("[Backup error: ".toList ++ e ++ "]".toList))
              | .ok info =>
                let destPath := h.pathJoin [dst, h.pathBase src]
                if info.1 then
                  some ({ i2 with world := w1 }.print
                    ("[Backup warning: directory backup not yet supported: ".toList ++ src ++
                      "]".toList))
                else
                  match h.copyFile w1 src destPath with
                  | (w2, some e) =>
                    some ({ i2 with world := w2 }.print
                      ("[Backup error: ".toList ++ e ++ "]".toList))
                  | (w2, none) =>
                    some ({ i2 with world := w2 }.print
                      ("[Backed up: ".toList ++ src ++ " -> ".toList ++ destPath ++
                        "]".toList))

/-- Method `Interpreter.executeUse`. -/
def executeUse {W : Type} (h : Host W) (i : Interpreter W) (module : Str) : Interpreter W :=
  match mapGet (StdlibModules h) (TrimSpace module) with
  | some _ =>
    { i with modules := mapSet i.modules (TrimSpace module) true }.print
      ("[Imported built-in module: ".toList ++ TrimSpace module ++ "]".toList)
  | none => i.print ("[Warning: module ".toList ++ TrimSpace module ++ " not found]".toList)

/-- The loop of `Interpreter.Execute`, and of every body that runs to its end. -/
def execList {W : Type} (exec : Node → Interpreter W → Res W) :
    List Node → Interpreter W → Res W
  | [], i => .ok i
  | n :: ns, i =>
    match exec n i with
    | .ok i1 => execList exec ns i1
    | r => r

/-- The outer loop of a `RepeatNNode`: `count` turns of `body`. -/
def repeatLoop {W : Type} (body : Interpreter W → Res W) : Nat → Interpreter W → Res W
  | 0, i => .ok i
  | n + 1, i =>
    match body i with
    | .ok i1 => repeatLoop body n i1
    | r => r

/-- The loop of a `RepeatEachNode` over a slice of `any` with backing array `a`:
`count` turns from index `idx` on.  Each turn reads its item from the array as it
then is. -/
def eachCell {W : Type} (body : Interpreter W → Res W) (var : Str) (a : Nat) :
    Nat → Nat → Interpreter W → Res W
  | 0, _, i => .ok i
  | count + 1, idx, i =>
    match body { i with vars := mapSet i.vars var (i.heap.cell a idx) } with
    | .ok i1 => eachCell body var a count (idx + 1) i1
    | r => r

/-- The loop of a `RepeatEachNode` over the items of a slice of strings. -/
def eachLoop {W : Type} (body : Interpreter W → Res W) (var : Str) :
    List Value → Interpreter W → Res W
  | [], i => .ok i
  | item :: rest, i =>
    match body { i with vars := mapSet i.vars var item } with
    | .ok i1 => eachLoop body var rest i1
    | r => r

/-- Name and argument texts that `executeRun` reads from the target of a Run. -/
def runTarget (target0 : Str) : Str × List Str :=
  let target := TrimSpace target0
  if Contains target " ".toList then
    match SplitN2 target " ".toList with
    | [name, rest] => (name, splitArgsRespectingQuotes rest)
    | _ => (target, [])
  else (target, [])

/-- The first loop of `executeRun`: binds each parameter to the value of its
argument, or to nil when the arguments have run out. -/
def bindParams {W : Type} (ev : Interpreter W → Str → Option (Value × Interpreter W)) :
    List Str → List Str → Interpreter W → Option (Interpreter W)
  | [], _, i => some i
  | p :: ps, [], i => bindParams ev ps [] { i with vars := mapSet i.vars p .nil }
  | p :: ps, a :: as, i =>
    match ev i a with
    | none => none
    | some (v, i1) => bindParams ev ps as { i1 with vars := mapSet i1.vars p v }

/-- The second loop of `executeRun`: the body, left at the first statement after
which the return slot is not nil. -/
def runBody {W : Type} (exec : Node → Interpreter W → Res W) :
    List Node → Interpreter W → Res W
  | [], i => .ok i
  | stmt :: rest, i =>
    match exec stmt i with
    | .ok i1 => if i1.returnValue.isNil then runBody exec rest i1 else .ok i1
    | r => r

/-- The third loop of `executeRun`: restores or deletes each parameter. -/
def restoreParams (saved : List (Str × Value)) :
    List Str → List (Str × Value) → List (Str × Value)
  | [], vars => vars
  | p :: ps, vars =>
    match mapGet saved p with
    | some val => restoreParams saved ps (mapSet vars p val)
    | none => restoreParams saved ps (mapDelete vars p)

/-- Method `Interpreter.executeRun`, the statements of the body run by `exec`. -/
def executeRun {W : Type} (h : Host W) (fuel : Nat)
    (exec : Node → Interpreter W → Res W) (i : Interpreter W) (target : Str) : Res W :=
  match mapGet i.tasks (runTarget target).1 with
  | none =>
    .ok (i.print ("[Error: task '".toList ++ (runTarget target).1 ++ "' not found]".toList))
  | some d =>
    match bindParams (evaluateExpression h fuel) d.Params (runTarget target).2 i with
    | none => .outOfFuel
    | some i1 =>
      match runBody exec d.Body { i1 with returnValue := .nil } with
      | .ok i2 =>
        .ok { i2 with vars := restoreParams (copyMap i.vars) d.Params i2.vars }
      | r => r

/-- The loop of `executeProtect` over the protect body, left at the first statement
after which the error flag is set. -/
def protectLoop {W : Type} (exec : Node → Interpreter W → Res W) :
    List Node → Interpreter W → Res W
  | [], i => .ok i
  | stmt :: rest, i =>
    match exec stmt i with
    | .ok i1 => if i1.errorOccurred then .ok i1 else protectLoop exec rest i1
    | r => r

/-- Method `Interpreter.executeProtect`: a panic of the protect body is recovered by
the deferred function, which runs the handle body. -/
def executeProtect {W : Type} (exec : Node → Interpreter W → Res W) (i : Interpreter W)
    (protect handle : List Node) : Res W :=
  match protectLoop exec protect { i with errorOccurred := false, lastError := none } with
  | .panic msg i1 =>
    execList exec handle
      ({ i1 with errorOccurred := true, lastError := some msg }.print
        ("[Error caught: ".toList ++ msg ++ "]".toList))
  | r => r

/-- The loop of `executeRunParallel` over the task names, under one schedule of the
goroutines: each unit runs to its end before the loop goes on (Go may run the units
in any order and interleave their steps).  A unit works on a fresh interpreter that
shares the tasks map, standard output, the world and the heap with the caller and
holds a copy of the variables.  A panic that leaves a unit is recovered by no
deferred call (those of the caller are in another goroutine): the Go runtime ends
the process, and there is no result. -/
def parallelLoop {W : Type} (exec : Node → Interpreter W → Res W) :
    List Str → Interpreter W → Res W
  | [], i => .ok i
  | taskName :: rest, i =>
    match mapGet i.tasks (TrimSpace taskName) with
    | none =>
      parallelLoop exec rest
        (i.print ("[Warning: task ".toList ++ TrimSpace taskName ++
          " not found for parallel run]".toList))
    | some td =>
      match execList exec td.Body
          { NewInterpreter i.out i.world with
            tasks := i.tasks, vars := copyMap i.vars, heap := i.heap } with
      | .ok l =>
        parallelLoop exec rest
          { i with tasks := l.tasks, out := l.out, world := l.world, heap := l.heap }
      | .panic _ _ => .outOfFuel
      | .outOfFuel => .outOfFuel

/-- Method `Interpreter.executeRunParallel`. -/
def executeRunParallel {W : Type} (exec : Node → Interpreter W → Res W) (i : Interpreter W)
    (tasks : List Str) : Res W :=
  match parallelLoop exec tasks i with
  | .ok i1 =>
    .ok (i1.print ("[Parallel execution complete: ".toList ++ Itoa tasks.length ++
      " tasks]".toList))
  | r => r

/-- Lifts a call that cannot panic to a result. -/
def Res.ofOption {W : Type} (r : Option (Interpreter W)) : Res W :=
  match r with
  | some i => .ok i
  | none => .outOfFuel

/-- Method `Interpreter.executeNode`. -/
def executeNode {W : Type} (h : Host W) : Nat → Node → Interpreter W → Res W
  | 0, _, _ => .outOfFuel
  | fuel + 1, n, i =>
    match n with
    | .Task name params body => .ok { i with tasks := mapSet i.tasks name ⟨body, params⟩ }
    | .Greet message =>
      match evaluateExpression h fuel i message with
      | none => .outOfFuel
      | some (msg, i1) => Res.ofOption ((toString i1.heap msg).map i1.print)
    | .Backup source dest => Res.ofOption (executeBackup h fuel i source dest)
    | .Check condition action =>
      match evaluateCondition h fuel i condition with
      | none => .outOfFuel
      | some (true, i1) => Res.ofOption (executeInlineAction h fuel i1 action)
      | some (false, i1) => .ok i1
    | .RepeatN count body => repeatLoop (execList (executeNode h fuel) body) count.toNat i
    | .RepeatEach var listExpr body =>
      match evaluateExpression h fuel i listExpr with
      | none => .outOfFuel
      | some (.list a n, i1) => eachCell (execList (executeNode h fuel) body) var a n 0 i1
      | some (.strs sArr, i1) =>
        eachLoop (execList (executeNode h fuel) body) var (sArr.map Value.str) i1
      | some (listVal, i1) =>
        .ok (i1.print ("[Warning: expected list, got ".toList ++ typeName listVal ++ "]".toList))
    | .Set var value =>
      match evaluateExpression h fuel i value with
      | none => .outOfFuel
      | some (v, i1) => .ok { i1 with vars := mapSet i1.vars var v }
    | .Run target => executeRun h fuel (executeNode h fuel) i target
    | .Use module => .ok (executeUse h i module)
    | .Protect protect handle => executeProtect (executeNode h fuel) i protect handle
    | .HandleInline _ action =>
      if i.errorOccurred then Res.ofOption (executeInlineAction h fuel i action) else .ok i
    | .RunParallel tasks => executeRunParallel (executeNode h fuel) i tasks
    | .Return expr =>
      match evaluateExpression h fuel i expr with
      | none => .outOfFuel
      | some (v, i1) => .ok { i1 with returnValue := v }

/-- Execute runs a list of AST nodes. -/
def Execute {W : Type} (h : Host W) (fuel : Nat) (nodes : List Node) (i : Interpreter W) :
    Res W :=
  execList (executeNode h fuel) nodes i

/-- RunSource runs Athera code from a string using a fresh interpreter: `none` when
the lexer panics or the parser runs out of fuel. -/
def RunSource {W : Type} (h : Host W) (fuel : Nat) (src : Str) (w : W) : Option (Res W) :=
  match Tokenize src with
  | none => none
  | some tokens =>
    match Parse fuel tokens with
    | none => none
    | some ast => some (Execute h fuel ast (NewInterpreter [] w))

/-! ## Definitions used to state the properties -/

/-- A host whose file system is empty and whose clock stands still, for running
the interpreter on concrete programs. -/
def nullHost : Host Unit where
  readFile := fun _ _ => .error "no such file".toList
  writeFile := fun w _ _ => (w, some "read-only file system".toList)
  appendFile := fun w _ _ => (w, some "read-only file system".toList)
  stat := fun _ _ => .error "no such file".toList
  mkdirAll := fun w _ => (w, some "read-only file system".toList)
  copyFile := fun w _ _ => (w, some "no such file".toList)
  pathJoin := fun ps => Join ps "/".toList
  pathDir := fun p => p
  pathBase := fun p => p
  pathExt := fun _ => []
  now := fun w => ("1970-01-01T00:00:00Z".toList, w)
  unix := fun w => (0, w)
  sleep := fun w _ => w
  timeFormat := fun _ _ _ => []
  jsonParse := fun _ => .error "unexpected end of JSON input".toList
  jsonStringify := fun _ _ => .error "unsupported value".toList
  growCap := fun cap n => if 2 * cap < n then n else 2 * cap
  sqrt := fun x => x
  upperRune := fun c => c
  lowerRune := fun c => c

/-- The interpreter of a result that returned normally. -/
def Res.toOption {W : Type} (r : Res W) : Option (Interpreter W) :=
  match r with
  | .ok i => some i
  | _ => none

/-- The task table of the program `task greeter with name:` / `greet name` /
`set name = 7`. -/
def greeterTasks : List (Str × TaskDef) :=
  [("greeter".toList,
    ⟨[Node.Greet "name".toList, Node.Set "name".toList "7".toList], ["name".toList]⟩)]

/-- An interpreter that knows the task `greeter`, with the given variables and
output. -/
def greeterInterp (vars : List (Str × Value)) (out : List Str) : Interpreter Unit :=
  ⟨greeterTasks, vars, [], .nil, false, none, out, (), []⟩

/-- The state `(inQuotes, quoteChar, bracketDepth)` in which the scanner of
`splitArgsRespectingQuotes` leaves the text `a` when it enters it in the given
state; `none` when the text has a comma outside quotes and brackets. -/
def scanArg : Str → Bool → Char → Nat → Option (Bool × Char × Nat)
  | [], inQuotes, quoteChar, bracketDepth => some (inQuotes, quoteChar, bracketDepth)
  | ch :: rest, inQuotes, quoteChar, bracketDepth =>
    if ch = '\'' ∨ ch = '"' then
      if !inQuotes then scanArg rest true ch bracketDepth
      else if quoteChar = ch then scanArg rest false quoteChar bracketDepth
      else scanArg rest inQuotes quoteChar bracketDepth
    else if ch = '[' then
      scanArg rest inQuotes quoteChar (if !inQuotes then bracketDepth + 1 else bracketDepth)
    else if ch = ']' then
      scanArg rest inQuotes quoteChar
        (if !inQuotes && bracketDepth > 0 then bracketDepth - 1 else bracketDepth)
    else if ch = ',' then
      if inQuotes || bracketDepth > 0 then scanArg rest inQuotes quoteChar bracketDepth
      else none
    else scanArg rest inQuotes quoteChar bracketDepth

/-- An argument expression: a trimmed, non-empty text with no comma outside quotes
and brackets, in which every quote and every bracket is closed. -/
def isArgument (a : Str) : Bool :=
  TrimSpace a == a && !a.isEmpty &&
  match scanArg a false (Char.ofNat 0) 0 with
  | some (false, _, 0) => true
  | _ => false

/-- A line of the program: the trimmed text `s` behind `k` blanks. -/
def indentLine (k : Nat) (s : Str) : Str := List.replicate k ' ' ++ s

/-- Node of a statement that is one token long and that both `parseStatement` and
`parseBlockStatement` accept: greet, backup, check, set, run, use, return. -/
def simpleNode (t : Token) : Option Node :=
  if t.Typ = "GREET" then some (parseGreet [t]).1
  else if t.Typ = "BACKUP" then some (parseBackup [t]).1
  else if t.Typ = "CHECK" then some (parseCheck [t]).1
  else if t.Typ = "SET" then some (parseSet [t]).1
  else if t.Typ = "RUN" then some (parseRun [t]).1
  else if t.Typ = "USE" then some (parseUse [t]).1
  else if t.Typ = "RETURN" then some (parseReturn [t]).1
  else none

/-- Node that `parseTask` or `parseRepeatN` builds from the block-opening token
(its type and value) around the parsed body. -/
def blockNode (tv : String × Str) (body : List Node) : Node :=
  if tv.1 = "TASK" then Node.Task (taskName tv.2) (taskParams tv.2) body
  else Node.RepeatN (Atoi tv.2).1 body

/-- Tokens of a sequence of indented one-token statements: per line its INDENT
token, its content token and its NEWLINE token. -/
def indentedToks : List (Token × Token × Token) → List Token
  | [] => []
  | l :: ls => l.1 :: l.2.1 :: l.2.2 :: indentedToks ls

/-- Tokens of a sequence of non-indented one-token statements: per line its
content token and its NEWLINE token. -/
def flatToks : List (Token × Token) → List Token
  | [] => []
  | l :: ls => l.1 :: l.2 :: flatToks ls

/-- The tokens a dedented line starts with: none at column 0, else one INDENT token
whose value is positive and below the base indent `b`. -/
def isDedent (b : Int) (d : List Token) : Prop :=
  d = [] ∨ ∃ ind, d = [ind] ∧ ind.Typ = "INDENT" ∧ 0 < (Atoi ind.Value).1 ∧
    (Atoi ind.Value).1 < b

/-- The node of the trimmed one-line statement `s` (greet, backup, check, set, run,
use, return), when the lexer makes one such token of it. -/
def simpleLine (s : Str) : Option Node :=
  if TrimSpace s = s ∧ '\n' ∉ s then
    match classifyLine s with
    | some [tv] => simpleNode ⟨tv.1, tv.2, 0⟩
    | _ => none
  else none

/-- Type and value of the token of the trimmed block-opening line `o`, when the
lexer makes a TASK or REPEAT_N token of it. -/
def openerLine (o : Str) : Option (String × Str) :=
  if TrimSpace o = o ∧ '\n' ∉ o then
    match classifyLine o with
    | some [tv] => if tv.1 = "TASK" ∨ tv.1 = "REPEAT_N" then some tv else none
    | _ => none
  else none

/-- The content token the lexer makes of the trimmed line `s` on line `ln`. -/
def contentToken (s : Str) (ln : Nat) : Token :=
  match classifyLine s with
  | some [tv] => ⟨tv.1, tv.2, ln⟩
  | _ => eofToken

/-- The tokens of the indented lines `(k, s)` (text `s` behind `k` blanks), the first
of them at index `idx` of the source. -/
def bodyTriples : Nat → List (Nat × Str) → List (Token × Token × Token)
  | _, [] => []
  | idx, x :: xs =>
    (⟨"INDENT", Itoa (Int.ofNat x.1), idx + 1⟩, contentToken x.2 (idx + 1),
      ⟨"NEWLINE", [], idx + 1⟩) :: bodyTriples (idx + 1) xs

/-- The two interpreters differ at most in their output, their world and their
heap. -/
def sameContext {W : Type} (i j : Interpreter W) : Prop :=
  j.tasks = i.tasks ∧ j.vars = i.vars ∧ j.modules = i.modules ∧
  j.returnValue = i.returnValue ∧ j.errorOccurred = i.errorOccurred ∧
  j.lastError = i.lastError

/-- The text is none of the literals that `evaluateExpression` recognises before it
looks up a variable: not empty, not quoted, not bracketed, no boolean, no integer,
no float. -/
def notLiteral (e : Str) : Bool :=
  !e.isEmpty && !isQuoted e && !(HasPrefix e "[".toList && HasSuffix e "]".toList) &&
  !EqualFold e "true".toList && !EqualFold e "false".toList && !(Atoi e).2 &&
  !(ParseFloat e).2

/-- No rule of `evaluateExpression` that comes before `+` applies to the trimmed text
`e`: it is no literal, no bound variable, no property access that returns, and no
call of a registered builtin. -/
def plusRuleReached {W : Type} (h : Host W) (i : Interpreter W) (e : Str) : Prop :=
  notLiteral e = true ∧ mapGet i.vars e = none ∧ propertyAccess i.vars e = none ∧
  (moduleCall h e).isNone = true

/-- The tokens of the non-indented lines `ss`, the first of them at index `idx` of
the source. -/
def flatPairs : Nat → List Str → List (Token × Token)
  | _, [] => []
  | idx, s :: ss =>
    (contentToken s (idx + 1), ⟨"NEWLINE", [], idx + 1⟩) :: flatPairs (idx + 1) ss

/-- The task table of the program `task t with p1, p2:` / `set r1 = p1` /
`set r2 = p2`. -/
def pairTasks : List (Str × TaskDef) :=
  [("t".toList,
    ⟨[Node.Set "r1".toList "p1".toList, Node.Set "r2".toList "p2".toList],
      ["p1".toList, "p2".toList]⟩)]

/-- An interpreter that knows the task `t` of `pairTasks` and has no variables. -/
def pairInterp : Interpreter Unit :=
  ⟨pairTasks, [], [], .nil, false, none, [], (), []⟩

/-- The variables of the interpreter after a run of the source that returned. -/
def finalVars (r : Option (Res Unit)) : Option (List (Str × Value)) :=
  (r.bind Res.toOption).map (fun i => i.vars)

/-- The output of the interpreter after a run of the source that returned. -/
def finalOut (r : Option (Res Unit)) : Option (List Str) :=
  (r.bind Res.toOption).map (fun i => i.out)

/-- An interpreter without tasks that binds `a` to 2 and `b` to 3. -/
def abInterp : Interpreter Unit :=
  ⟨[], [("a".toList, .int 2), ("b".toList, .int 3)], [], .nil, false, none, [], (), []⟩

/-! ## Definitions that state the claims on the evaluator and the statements -/

/-- The reading that the specification gives of a `RepeatNNode`: `Execute` applied
to the concatenation of `n` copies of the body. -/
def executeCopies {W : Type} (h : Host W) (fuel : Nat) (n : Nat) (body : List Node)
    (i : Interpreter W) : Res W :=
  Execute h fuel (List.replicate n body).flatten i

/-- An interpreter without tasks that binds `d` to the mapping with the one key `a`
(value 1). -/
def dictInterp : Interpreter Unit :=
  ⟨[], [("d".toList, .dict 0)], [], .nil, false, none, [], (),
    [.map [("a".toList, .int 1)]]⟩

/-- An interpreter without tasks that binds `l` to the list [1, 2]. -/
def listInterp : Interpreter Unit :=
  ⟨[], [("l".toList, .list 0 2)], [], .nil, false, none, [], (),
    [.arr 2 [.int 1, .int 2]]⟩

/-- The ASCII letters. -/
def asciiLetters : Str := "abcdefghijklmnopqrstuvwxyzABCDEFGHIJKLMNOPQRSTUVWXYZ".toList

/-- The spellings of a lower-case ASCII word in every letter case. -/
def letterCases : Str → List Str
  | [] => [[]]
  | c :: cs =>
    (letterCases cs).map (fun t => c :: t) ++ (letterCases cs).map (fun t => c.toUpper :: t)

/-- An interpreter whose variables are named like literals: `5`, `-12`, `TRUE` and
`false`. -/
def shadowInterp : Interpreter Unit :=
  ⟨[], [("5".toList, .str "five".toList), ("-12".toList, .bool true),
      ("TRUE".toList, .int 0), ("false".toList, .str "yes".toList)], [], .nil, false, none,
    [], (), []⟩

/-- Whether `readFloat` takes the text behind the sign for hexadecimal: the test of
the base prefix in `parseNumber`. -/
def hexFlag (t : Str) : Bool :=
  match t with
  | '0' :: x :: _ :: _ => lowerByte x = 'x'
  | _ => false

/-- The optional exponent of `readFloat`, as `parseNumber` reads it from the text
`rest` behind the significand: the decimal point moved by the exponent, whether an
underscore was seen, and the text left. -/
def readExponent (hex : Bool) (dp1 : Int) (u : Bool) (rest : Str) : Option (Int × Bool × Str) :=
  match rest with
  | c :: cs =>
    if lowerByte c = (if hex then 'p' else 'e') then
      match (if cs.head? = some '-' || cs.head? = some '+' then cs.tail else cs) with
      | d :: _ =>
        if d.isDigit then
          some (dp1 + ((scanExpDigits
              (if cs.head? = some '-' || cs.head? = some '+' then cs.tail else cs) 0 u).1 : Int) *
                (if cs.head? = some '-' then -1 else 1),
            (scanExpDigits
              (if cs.head? = some '-' || cs.head? = some '+' then cs.tail else cs) 0 u).2.1,
            (scanExpDigits
              (if cs.head? = some '-' || cs.head? = some '+' then cs.tail else cs) 0 u).2.2)
        else none
      | [] => none
    else if hex then none
    else some (dp1, u, c :: cs)
  | [] => if hex then none else some (dp1, u, [])

/-- The text that `parseNumber` scans for the significand: the text behind the sign
and the base prefix. -/
def floatBody (s : Str) : Str :=
  if hexFlag (if s.head? = some '-' || s.head? = some '+' then s.tail else s) then
    (if s.head? = some '-' || s.head? = some '+' then s.tail else s).drop 2
  else (if s.head? = some '-' || s.head? = some '+' then s.tail else s)

/-- The state and the text left after the significand of `parseNumber`. -/
def floatMantissa (s : Str) : FloatScan × Str :=
  scanMantissa (hexFlag (if s.head? = some '-' || s.head? = some '+' then s.tail else s))
    (floatBody s) ⟨false, false, false, 0, 0, 0⟩

/-- A character that no float literal holds: it stops the scan of the significand
and of the exponent, is no sign, no exponent mark, no base mark, and no letter of
`infinity` or `nan`. -/
def floatStop (x : Char) : Bool :=
  x ≠ '_' && x ≠ '.' && !x.isDigit &&
  !('a'.toNat ≤ (lowerByte x).toNat && (lowerByte x).toNat ≤ 'f'.toNat) &&
  !("ep+-x0intya".toList.contains (lowerByte x))

/-- The value that `parseNumber` returns for a text it has read to its end: the
significand of `floatMantissa s`, not zero, with the decimal (or binary) point at
`dp`, rounded to float64. -/
def floatValue (s : Str) (dp : Int) : F64 × Bool :=
  if hexFlag (if s.head? = some '-' || s.head? = some '+' then s.tail else s) then
    match dp - (if hexFlag (if s.head? = some '-' || s.head? = some '+' then s.tail else s)
        then ((floatMantissa s).1.nd : Int) * 4 else (floatMantissa s).1.nd) with
    | Int.ofNat k => roundRat (s.head? = some '-') ((floatMantissa s).1.mant * 2 ^ k) 1
    | Int.negSucc k => roundRat (s.head? = some '-') (floatMantissa s).1.mant (2 ^ (k + 1))
  else
    match dp - (if hexFlag (if s.head? = some '-' || s.head? = some '+' then s.tail else s)
        then ((floatMantissa s).1.nd : Int) * 4 else (floatMantissa s).1.nd) with
    | Int.ofNat k => roundRat (s.head? = some '-') ((floatMantissa s).1.mant * 10 ^ k) 1
    | Int.negSucc k => roundRat (s.head? = some '-') (floatMantissa s).1.mant (10 ^ (k + 1))

/-- The rules of `evaluateExpression` that come after the property access: the
dotted call of a builtin, then `+`, then the text itself. -/
def laterRules {W : Type} (h : Host W) (fuel : Nat) (i : Interpreter W) (e : Str) :
    Option (Value × Interpreter W) :=
  match moduleCall h e with
  | some (fn, argStr) => callBuiltin (evaluateExpression h fuel) fn argStr i
  | none => evalPlus (evaluateExpression h fuel) i e

/-- An interpreter that binds `s` to a string of five code points, `l` to a list of
two elements, `n` to an integer, and the dotted name `s.length` to 7. -/
def propInterp (shadow : Bool) : Interpreter Unit :=
  ⟨[], [("s".toList, .str "h\u00e9llo".toList), ("l".toList, .list 0 2),
      ("n".toList, .int 5)] ++
      (if shadow then [("s.length".toList, .int 7)] else []), [], .nil, false, none, [], (),
    [.arr 2 [.int 1, .int 2]]⟩

/-- An interpreter without tasks that binds `text` to the string `abc`. -/
def textInterp : Interpreter Unit :=
  ⟨[], [("text".toList, .str "abc".toList)], [], .nil, false, none, [], (), []⟩

/-- The interpreter `i` with one more line of output. -/
def withLine (i : Interpreter Unit) (line : Str) : Interpreter Unit :=
  ⟨i.tasks, i.vars, i.modules, i.returnValue, i.errorOccurred, i.lastError, i.out ++ [line],
    i.world, i.heap⟩

/-- The interpreter `i` with one more object allocated. -/
def withObj (i : Interpreter Unit) (o : Obj) : Interpreter Unit :=
  ⟨i.tasks, i.vars, i.modules, i.returnValue, i.errorOccurred, i.lastError, i.out, i.world,
    i.heap ++ [o]⟩

/-! ## Definitions that state the claims on Protect, RunParallel, Use and the lexer -/

/-- The interpreter `i` with the set of imported modules replaced by `m`. -/
def setModules {W : Type} (m : List (Str × Bool)) (i : Interpreter W) : Interpreter W :=
  { i with modules := m }

/-- The statements run one after the other, each returning normally with the error
flag clear: the interpreter after the last one, `none` when a statement faults or
leaves the error flag set. -/
def cleanRun {W : Type} (exec : Node → Interpreter W → Res W) :
    List Node → Interpreter W → Option (Interpreter W)
  | [], i => some i
  | s :: rest, i =>
    match exec s i with
    | .ok i1 => if i1.errorOccurred then none else cleanRun exec rest i1
    | _ => none

/-- A statement executor in which every Run raises the runtime fault `boom`; the
other statements are those of the interpreter. -/
def faultyExec (n : Node) (i : Interpreter Unit) : Res Unit :=
  match n with
  | .Run _ => .panic "boom".toList i
  | other => executeNode nullHost 5 other i

/-- The output of a result: of the interpreter returned, or of the interpreter at
the panic. -/
def Res.out {W : Type} (r : Res W) : List Str :=
  match r with
  | .ok i => i.out
  | .panic _ i => i.out
  | .outOfFuel => []

/-- An interpreter that knows the task `a`, whose body sets `x`, and no task `b`. -/
def oneTaskInterp : Interpreter Unit :=
  ⟨[("a".toList, ⟨[Node.Set "x".toList "1".toList], []⟩)], [], [], .nil, false, none, [], (), []⟩

mutual
/-- No task definition occurs in the statement, at any depth. -/
def taskFree : Node → Bool
  | .Task _ _ _ => false
  | .RepeatN _ body => taskFreeList body
  | .RepeatEach _ _ body => taskFreeList body
  | .Protect protect handle => taskFreeList protect && taskFreeList handle
  | _ => true
/-- No task definition occurs in the statements, at any depth. -/
def taskFreeList : List Node → Bool
  | [] => true
  | n :: ns => taskFree n && taskFreeList ns
end

/-- No body stored in the tasks map contains a task definition. -/
def tasksClean (tasks : List (Str × TaskDef)) : Bool :=
  tasks.all (fun p => taskFreeList p.2.Body)

/-- What a statement free of faults leaves in place, from `i` to `j`: a clear error
flag stays clear, and (when `tf` holds and no stored body defines a task) the tasks
map is the same. -/
def Rel {W : Type} (tf : Bool) (i j : Interpreter W) : Prop :=
  (i.errorOccurred = false → j.errorOccurred = false) ∧
  (tf = true → tasksClean i.tasks = true → j.tasks = i.tasks)

/-- The step `f` never faults, and what it returns is related to where it started
by `Rel tf`. -/
def Keeps {W : Type} (tf : Bool) (f : Interpreter W → Res W) : Prop :=
  ∀ i, (∀ msg j, f i ≠ .panic msg j) ∧ ∀ j, f i = .ok j → Rel tf i j

/-- An interpreter whose task `a` has a body that defines the task `b`. -/
def nestedTaskInterp : Interpreter Unit :=
  ⟨[("a".toList, ⟨[Node.Task "b".toList [] []], []⟩)], [], [], .nil, false, none, [], (), []⟩

/-- The items of an ordered sequence: of a list, as the heap holds them, or of a list
of strings. -/
def seqItems (hp : Heap) : Value → Option (List Value)
  | .list a n => some (hp.cells a n)
  | .strs sArr => some (sArr.map Value.str)
  | _ => none

/-- The texts of the values, `none` when `toString` does not return for one of
them. -/
def textsOf (hp : Heap) : List Value → Option (List Str)
  | [] => some []
  | v :: vs =>
    match toString hp v, textsOf hp vs with
    | some s, some ss => some (s :: ss)
    | _, _ => none

/-- Binds `x` to each item in turn and writes the text of the item; `none` when the
text of an item cannot be written. -/
def greetEach {W : Type} (x : Str) : List Value → Interpreter W → Option (Interpreter W)
  | [], i => some i
  | v :: rest, i =>
    match toString i.heap v with
    | some s => greetEach x rest ({ i with vars := mapSet i.vars x v }.print s)
    | none => none

/-- The test of `Lexer.Tokenize` for a line that emits no token: blank after
trimming, or a comment. -/
def skipped (raw : Str) : Bool :=
  (TrimSpace raw).isEmpty || HasPrefix (TrimSpace raw) "#".toList

/-- The source without its blank and comment lines. -/
def dropSkipped (src : Str) : Str :=
  Join ((Split src '\n').filter (fun l => !skipped l)) "\n".toList

/-- Type and value of each token, the line numbers left out. -/
def typeValues (ts : List Token) : List (String × Str) :=
  ts.map (fun t => (t.Typ, t.Value))

/-- An identifier: a non-empty text of letters, digits and underscores. -/
def isIdent (x : Str) : Bool := !x.isEmpty && x.all isWordChar

/-- The tokens `Tokenize` makes of a source of one line that holds one TASK
token. -/
def taskTokens (value : Str) : List Token :=
  [⟨"TASK", value, 1⟩, ⟨"NEWLINE", [], 1⟩, ⟨"EOF", [], 1⟩]

/-- The tokens of the line `(k, s)` (text `s` behind `k` blanks) at index `idx` of
the source: its INDENT token when `k ≥ 1`, its content token and its NEWLINE. -/
def lineToks (idx : Nat) (x : Nat × Str) : List Token :=
  (if 0 < x.1 then [⟨"INDENT", Itoa (Int.ofNat x.1), idx + 1⟩] else []) ++
    [contentToken x.2 (idx + 1), ⟨"NEWLINE", [], idx + 1⟩]

/-- The tokens of the lines `(k, s)`, indented or not, the first of them at index
`idx` of the source. -/
def mixedToks : Nat → List (Nat × Str) → List Token
  | _, [] => []
  | idx, x :: xs => lineToks idx x ++ mixedToks (idx + 1) xs

/-- The tokens of the line `handle:` behind `k` blanks, at index `idx`. -/
def handleToks (idx k : Nat) : List Token :=
  (if 0 < k then [⟨"INDENT", Itoa (Int.ofNat k), idx + 1⟩] else []) ++
    [⟨"HANDLE", [], idx + 1⟩, ⟨"NEWLINE", [], idx + 1⟩]

/-- The nodes of the lines `(k, s)` of simple statements. -/
def lineNodes (S : List (Nat × Str)) : List Node :=
  S.filterMap (fun x => simpleLine x.2)

/-- A statement as Parse returns it at top level: a task definition whose body
defines no task, or a statement that defines no task at any depth. -/
def topClean : Node → Bool
  | .Task _ _ body => taskFreeList body
  | n => taskFree n

/-! ## Definitions that state the claims on termination, task bodies, conditions and Run -/

/-- A program in which a task line stands inside the body of a task. -/
def nestedTaskSource : Str := "task a:\n  task b:\n  greet 1\nrun a".toList

/-- The statements run one after the other, each returning normally with the return
slot absent: the interpreter after the last one, `none` when a statement faults or
leaves a value in the return slot. -/
def quietRun {W : Type} (exec : Node → Interpreter W → Res W) :
    List Node → Interpreter W → Option (Interpreter W)
  | [], i => some i
  | s :: rest, i =>
    match exec s i with
    | .ok i1 => if i1.returnValue.isNil then quietRun exec rest i1 else none
    | _ => none

/-- An interpreter that knows the task `inner` with the given body and the task
`outer`, which greets, runs `inner` and greets again. -/
def nestInterp (innerBody : List Node) : Interpreter Unit :=
  ⟨[("inner".toList, ⟨innerBody, []⟩),
    ("outer".toList,
      ⟨[Node.Greet "\"before\"".toList] ++
        Node.Run "inner".toList :: [Node.Greet "\"after\"".toList], []⟩)],
   [], [], .nil, false, none, [], (), []⟩

/-- The interpreter of `pairTasks` in which `p1` is bound to 1. -/
def reboundInterp : Interpreter Unit :=
  ⟨pairTasks, [("p1".toList, .int 1)], [], .nil, false, none, [], (), []⟩

/-- The token types that `tokenizeLine` emits. -/
def contentTypes : List String :=
  ["TASK", "GREET", "BACKUP", "CHECK", "REPEAT_EACH", "REPEAT_N", "SET", "RUN_PARALLEL", "RUN",
    "USE", "PROTECT", "HANDLE", "HANDLE_INLINE", "RETURN", "UNKNOWN"]

/-- An INDENT token carries the decimal text of a positive integer. -/
def indentOk (t : Token) : Prop :=
  t.Typ = "INDENT" → ∃ k : Nat, 0 < k ∧ t.Value = Itoa (Int.ofNat k)

/-- Every INDENT token of the sequence has a positive value, as `strconv.Atoi` reads
it. -/
def indentsPositive (p : List Token) : Prop :=
  ∀ t ∈ p, t.Typ = "INDENT" → 0 < (Atoi t.Value).1

/-- A program of a task with an indented body and a statement at top level. -/
def blockSource : Str := "task t:\n  greet 1\nrun t".toList

/-- A token sequence that the lexer cannot make: a token of unknown type behind an
INDENT token, an INDENT token in front of a TASK token, and no EOF token. -/
def strayToks : List Token :=
  [⟨"INDENT", "2".toList, 1⟩, ⟨"BOGUS", [], 1⟩, ⟨"INDENT", "1".toList, 2⟩,
    ⟨"TASK", "t".toList, 2⟩]

/-- Whether the value is a reference: a slice of `any` or a map, whose contents are
in the heap. -/
def Value.isRef : Value → Bool
  | .list _ _ => true
  | .dict _ => true
  | _ => false

/-- A program whose task `t` writes an entry into the map it is given as the
parameter `p`; the caller binds `p` to a map, prints it, runs `t` on it, and prints
it again. -/
def dictParamSource : Str :=
  ("task t with p:\n  set x = dict.set p, k, 1\n" ++
    "set p = dict.set 0, a, 1\ngreet p\nrun t p\ngreet p").toList

/-- A program whose task `t` appends to the list it is given as the parameter `b`;
the caller binds `a` to a list of three elements (in an array with room for four)
and `b` to that list with one more element, prints `b`, runs `t` on `a`, and prints
`b` again. -/
def listParamSource : Str :=
  ("task t with b:\n  set x = list.append b, 9\n" ++
    "set a = [1, 2, 3]\nset b = list.append a, 4\ngreet b\nrun t a\ngreet b").toList

/-- A program that builds a list which contains itself: `b` is `a` with one more
element in the same backing array, and `list.append a, b` overwrites that element
with `b`. -/
def selfListSource : Str :=
  "set a = [1, 2, 3]\nset b = list.append a, 4\nset c = list.append a, b".toList

/-- The interpreter that the program `selfListSource` leaves: the three variables
are slices of the array at address 0, whose fourth cell holds the slice `b`. -/
def selfListInterp : Interpreter Unit :=
  ⟨[], [("a".toList, .list 0 3), ("b".toList, .list 0 4), ("c".toList, .list 0 4)], [], .nil,
    false, none, [], (), [.arr 4 [.int 1, .int 2, .int 3, .list 0 4]]⟩

theorem digitChar_toNat (n : Nat) (h : n < 10) :
    (Char.ofNat (48 + n)).isDigit = true ∧ (Char.ofNat (48 + n)).toNat - 48 = n := by
  interval_cases n <;> decide

theorem natDigits_spec :
    ∀ (fuel n : Nat), n < fuel →
      (natDigits fuel n).all Char.isDigit = true ∧ natDigits fuel n ≠ [] ∧
      (natDigits fuel n).foldl (fun acc c => acc * 10 + (c.toNat - 48)) 0 = n := by
  intro fuel
  induction fuel with
  | zero => intro n h; omega
  | succ f ih =>
    intro n h
    unfold natDigits
    by_cases h10 : n < 10
    · have := digitChar_toNat n h10
      simp [h10, this.1, this.2]
    · have hdiv : n / 10 < f := by omega
      have hmod := digitChar_toNat (n % 10) (Nat.mod_lt _ (by decide))
      obtain ⟨h1, h2, h3⟩ := ih (n / 10) hdiv
      simp only [h10, if_false, List.all_append, h1, List.foldl_append, h3]
      simp [hmod.1, hmod.2]
      omega

theorem Atoi_Itoa (k : Nat) :
    (Atoi (Itoa (Int.ofNat k))).1 = if k < 2 ^ 63 then (k : Int) else 2 ^ 63 - 1 := by
  obtain ⟨h1, h2, h3⟩ := natDigits_spec (k + 1) k (Nat.lt_succ_self k)
  have hItoa : Itoa (Int.ofNat k) = natDigits (k + 1) k := rfl
  rw [hItoa]
  cases hd : natDigits (k + 1) k with
  | nil => exact absurd hd h2
  | cons c cs =>
    rw [hd] at h1 h3
    have hc : c.isDigit = true := by
      simp only [List.all_cons, Bool.and_eq_true] at h1; exact h1.1
    have hm : c ≠ '-' := by rintro rfl; revert hc; decide
    have hp : c ≠ '+' := by rintro rfl; revert hc; decide
    unfold Atoi
    simp only [List.head?_cons, Option.some.injEq, hm, hp, decide_False, Bool.or_self,
      Bool.false_eq_true, if_false, h1, List.isEmpty_cons, Bool.not_true, h3]
    split_ifs with a b b <;> first | rfl | (exfalso; omega)

theorem classifyLine_hash (r : Str) : classifyLine ('#' :: r) = some [("UNKNOWN", '#' :: r)] := by
  simp [classifyLine, HasPrefix, List.isPrefixOf]

theorem classifyLine_nil : classifyLine [] = some [("UNKNOWN", [])] := by
  simp [classifyLine, HasPrefix, List.isPrefixOf]

theorem trimLeftBy_length_le (p : Char → Bool) (s : Str) : (trimLeftBy p s).length ≤ s.length := by
  induction s with
  | nil => simp [trimLeftBy]
  | cons c cs ih =>
    unfold trimLeftBy
    split_ifs
    · simp only [List.length_cons]; omega
    · exact le_refl _

theorem trimRightBy_length_le (p : Char → Bool) (s : Str) :
    (trimRightBy p s).length ≤ s.length := by
  unfold trimRightBy
  have := trimLeftBy_length_le p s.reverse
  simpa using this

theorem trimLeftBy_replicate (p : Char → Bool) (c : Char) (hc : p c = true) (k : Nat) (s : Str) :
    trimLeftBy p (List.replicate k c ++ s) = trimLeftBy p s := by
  induction k with
  | zero => simp
  | succ k ih => simp [List.replicate_succ, trimLeftBy, hc, ih]

theorem trimmed_head (s : Str) (h : TrimSpace s = s) (hne : s ≠ []) :
    ∃ c cs, s = c :: cs ∧ isSpace c = false := by
  cases s with
  | nil => exact absurd rfl hne
  | cons c cs =>
    refine ⟨c, cs, rfl, ?_⟩
    by_contra hsp
    have hsp' : isSpace c = true := by simpa using hsp
    have h1 : (TrimSpace (c :: cs)).length ≤ (trimLeftBy isSpace (c :: cs)).length :=
      trimRightBy_length_le _ _
    have h2 : trimLeftBy isSpace (c :: cs) = trimLeftBy isSpace cs := by
      simp [trimLeftBy, hsp']
    have h3 := trimLeftBy_length_le isSpace cs
    rw [h, h2] at h1
    simp only [List.length_cons] at h1
    omega

theorem lineTokens_indentLine (idx k : Nat) (s : Str) (tv : String × Str)
    (htrim : TrimSpace s = s) (hcl : classifyLine s = some [tv]) (hu : tv.1 ≠ "UNKNOWN") :
    lineTokens idx (indentLine k s) =
      some ((if 0 < k then [⟨"INDENT", Itoa (Int.ofNat k), idx + 1⟩] else []) ++
        [⟨tv.1, tv.2, idx + 1⟩, ⟨"NEWLINE", [], idx + 1⟩]) := by
  have hne : s ≠ [] := by
    rintro rfl
    rw [classifyLine_nil] at hcl
    simp only [Option.some.injEq, List.cons.injEq, and_true] at hcl
    exact hu (by rw [← hcl])
  obtain ⟨c, cs, rfl, hc⟩ := trimmed_head s htrim hne
  have hhash : c ≠ '#' := by
    rintro rfl
    rw [classifyLine_hash] at hcl
    simp only [Option.some.injEq, List.cons.injEq, and_true] at hcl
    exact hu (by rw [← hcl])
  have hT : TrimSpace (indentLine k (c :: cs)) = c :: cs := by
    unfold TrimSpace indentLine
    rw [trimLeftBy_replicate isSpace ' ' (by decide)]
    exact htrim
  have hsp : c ≠ ' ' := by rintro rfl; revert hc; decide
  have htab : c ≠ '\t' := by rintro rfl; revert hc; decide
  have hL : TrimLeft (indentLine k (c :: cs)) " \t".toList = c :: cs := by
    unfold TrimLeft indentLine
    rw [trimLeftBy_replicate _ ' ' (by decide)]
    simp [trimLeftBy, hsp, htab]
  have hlen : (indentLine k (c :: cs)).length - (c :: cs).length = k := by
    simp [indentLine]
  unfold lineTokens
  simp only [hT, hL, hlen, tokenizeLine, hcl]
  simp [HasPrefix, List.isPrefixOf, Ne.symm hhash]

theorem Split_ne_nil (s : Str) (sep : Char) : Split s sep ≠ [] := by
  induction s with
  | nil => simp [Split]
  | cons c cs ih =>
    unfold Split
    split
    · simp
    · split_ifs <;> simp

theorem Split_no_sep (sep : Char) (s : Str) (h : sep ∉ s) : Split s sep = [s] := by
  induction s with
  | nil => simp [Split]
  | cons c cs ih =>
    have hc : c ≠ sep := fun e => h (by simp [e])
    have hcs : sep ∉ cs := fun e => h (by simp [e])
    unfold Split
    rw [ih hcs]
    simp [hc]

theorem Split_append_sep (sep : Char) (s r : Str) (h : sep ∉ s) :
    Split (s ++ sep :: r) sep = s :: Split r sep := by
  induction s with
  | nil =>
    simp only [List.nil_append]
    rw [Split]
    cases hS : Split r sep with
    | nil => exact absurd hS (Split_ne_nil _ _)
    | cons p ps => simp
  | cons c cs ih =>
    have hc : c ≠ sep := fun e => h (by simp [e])
    have hcs : sep ∉ cs := fun e => h (by simp [e])
    simp only [List.cons_append]
    rw [Split, ih hcs]
    simp [hc]

theorem Split_Join (lines : List Str) (hne : lines ≠ []) (h : ∀ l ∈ lines, '\n' ∉ l) :
    Split (Join lines "\n".toList) '\n' = lines := by
  induction lines with
  | nil => exact absurd rfl hne
  | cons p rest ih =>
    cases rest with
    | nil => simpa [Join] using Split_no_sep '\n' p (h p (by simp))
    | cons q rest =>
      have := ih (by simp) (fun l hl => h l (List.mem_cons_of_mem _ hl))
      have e : Join (p :: q :: rest) "\n".toList = p ++ '\n' :: Join (q :: rest) "\n".toList := by
        simp [Join]
      rw [e, Split_append_sep '\n' p _ (h p (by simp)), this]

theorem parseBlockStatement_simple (t : Token) (n : Node) (rest : Parser) (fuel : Nat)
    (h : simpleNode t = some n) :
    parseBlockStatement (fuel + 1) (t :: rest) = some (some n, consume "NEWLINE" rest) := by
  unfold simpleNode at h
  split_ifs at h with h1 h2 h3 h4 h5 h6 h7 <;>
    simp_all [parseBlockStatement, peek, simpleStmt, parseGreet, parseBackup, parseCheck,
      parseSet, parseRun, parseUse, parseReturn, advance]

theorem parseStatementKind_simple (t : Token) (n : Node) (rest : Parser) (fuel : Nat)
    (h : simpleNode t = some n) :
    parseStatementKind fuel (t :: rest) = some (some n, rest) := by
  unfold simpleNode at h
  split_ifs at h with h1 h2 h3 h4 h5 h6 h7 <;>
    simp_all [parseStatementKind, peek, parseGreet, parseBackup, parseCheck,
      parseSet, parseRun, parseUse, parseReturn, advance]

theorem simpleNode_typ (t : Token) (n : Node) (h : simpleNode t = some n) :
    t.Typ ≠ "EOF" ∧ t.Typ ≠ "INDENT" ∧ t.Typ ≠ "NEWLINE" ∧ t.Typ ≠ "TASK" ∧
    t.Typ ≠ "REPEAT_N" ∧ t.Typ ≠ "HANDLE" ∧ t.Typ ≠ "UNKNOWN" := by
  unfold simpleNode at h
  split_ifs at h with h1 h2 h3 h4 h5 h6 h7 <;> simp_all

theorem simpleNode_line (t : String) (v : Str) (n m : Nat) :
    simpleNode ⟨t, v, n⟩ = simpleNode ⟨t, v, m⟩ := by
  simp [simpleNode, parseGreet, parseBackup, parseCheck, parseSet, parseRun, parseUse,
    parseReturn, peek]

theorem parseBlock_indented (b : Int) :
    ∀ (ls : List (Token × Token × Token)) (rest : Parser) (acc : List Node) (fuel : Nat),
      (∀ l ∈ ls, l.1.Typ = "INDENT" ∧ b ≤ (Atoi l.1.Value).1 ∧
        (simpleNode l.2.1).isSome = true ∧ l.2.2.Typ = "NEWLINE") →
      parseBlock (fuel + 2 + ls.length) (indentedToks ls ++ rest) acc (some b) =
        parseBlock (fuel + 2) rest (acc ++ ls.filterMap (fun l => simpleNode l.2.1)) (some b) := by
  intro ls
  induction ls with
  | nil => intro rest acc fuel _; simp [indentedToks]
  | cons l ls ih =>
    intro rest acc fuel h
    obtain ⟨h1, h2, h3, h4⟩ := h l (List.mem_cons_self _ _)
    obtain ⟨n, hn⟩ := Option.isSome_iff_exists.mp h3
    have hrest := ih rest (acc ++ [n]) fuel (fun x hx => h x (List.mem_cons_of_mem _ hx))
    have hlen : fuel + 2 + (l :: ls).length = (fuel + 1 + ls.length + 1) + 1 := by
      simp only [List.length_cons]; omega
    rw [hlen, parseBlock]
    have hstmt := parseBlockStatement_simple l.2.1 n (l.2.2 :: (indentedToks ls ++ rest))
      (fuel + 1 + ls.length) hn
    have hlen2 : fuel + 1 + ls.length + 1 = fuel + 2 + ls.length := by omega
    simp only [indentedToks, List.cons_append, isAtEnd, peek, advance, List.tail_cons, h1,
      hstmt, consume, h4]
    simp [not_lt.mpr h2, hlen2, hrest, hn, List.filterMap_cons]

theorem parseBlock_flat :
    ∀ (ls : List (Token × Token)) (rest : Parser) (acc : List Node) (fuel : Nat),
      (∀ l ∈ ls, (simpleNode l.1).isSome = true ∧ l.2.Typ = "NEWLINE") →
      parseBlock (fuel + 2 + ls.length) (flatToks ls ++ rest) acc none =
        parseBlock (fuel + 2) rest (acc ++ ls.filterMap (fun l => simpleNode l.1)) none := by
  intro ls
  induction ls with
  | nil => intro rest acc fuel _; simp [flatToks]
  | cons l ls ih =>
    intro rest acc fuel h
    obtain ⟨h3, h4⟩ := h l (List.mem_cons_self _ _)
    obtain ⟨n, hn⟩ := Option.isSome_iff_exists.mp h3
    obtain ⟨t1, t2, t3, _, _, _⟩ := simpleNode_typ _ _ hn
    have hrest := ih rest (acc ++ [n]) fuel (fun x hx => h x (List.mem_cons_of_mem _ hx))
    have hlen : fuel + 2 + (l :: ls).length = (fuel + 1 + ls.length + 1) + 1 := by
      simp only [List.length_cons]; omega
    rw [hlen, parseBlock]
    have hstmt := parseBlockStatement_simple l.1 n (l.2 :: (flatToks ls ++ rest))
      (fuel + 1 + ls.length) hn
    have hlen2 : fuel + 1 + ls.length + 1 = fuel + 2 + ls.length := by omega
    simp only [flatToks, List.cons_append, isAtEnd, peek, advance, List.tail_cons,
      hstmt, consume, h4]
    simp [t1, t2, t3, hlen2, hrest, hn, List.filterMap_cons]

theorem parseBlock_stops (b : Int) (d : List Token) (c : Token) (n : Node) (tl : Parser)
    (acc : List Node) (fuel : Nat) (hd : isDedent b d) (hc : simpleNode c = some n) :
    parseBlock (fuel + 1) (d ++ c :: tl) acc (some b) = some (acc, d ++ c :: tl) := by
  obtain ⟨t1, t2, t3, _, _, _⟩ := simpleNode_typ _ _ hc
  rcases hd with rfl | ⟨ind, rfl, hi, _, hlt⟩
  · simp [parseBlock, isAtEnd, peek, t1, t2, t3]
  · simp [parseBlock, isAtEnd, peek, hi, hlt]

theorem parseLoop_last (b : Int) (d : List Token) (c nl eof : Token) (n : Node)
    (nodes : List Node) (fuel : Nat) (hd : isDedent b d) (hc : simpleNode c = some n)
    (hnl : nl.Typ = "NEWLINE") (heof : eof.Typ = "EOF") :
    parseLoop (fuel + 3) (d ++ [c, nl, eof]) nodes = some (nodes ++ [n]) := by
  obtain ⟨t1, t2, t3, _, _, _⟩ := simpleNode_typ _ _ hc
  have hk := parseStatementKind_simple c n [nl, eof] (fuel + 2) hc
  rcases hd with rfl | ⟨ind, rfl, hi, hpos, hlt⟩
  · simp [parseLoop, isAtEnd, peek, parseStatement, t1, t2, t3, hk, hnl, heof, advance]
  · simp [parseLoop, isAtEnd, peek, parseStatement, hi, not_le.mpr hpos, hk, hnl, heof,
      advance]

theorem parseStatement_block (tv : String × Str) (l0 : Nat) (nl0 : Token)
    (first : Token × Token × Token) (ls : List (Token × Token × Token))
    (d : List Token) (c : Token) (n n1 : Node) (tl : Parser) (fuel : Nat)
    (ho : tv.1 = "TASK" ∨ tv.1 = "REPEAT_N") (hnl0 : nl0.Typ = "NEWLINE")
    (hf1 : first.1.Typ = "INDENT") (hf2 : simpleNode first.2.1 = some n1)
    (hf3 : first.2.2.Typ = "NEWLINE")
    (hls : ∀ l ∈ ls, l.1.Typ = "INDENT" ∧ (Atoi first.1.Value).1 ≤ (Atoi l.1.Value).1 ∧
        (simpleNode l.2.1).isSome = true ∧ l.2.2.Typ = "NEWLINE")
    (hd : isDedent (Atoi first.1.Value).1 d) (hc : simpleNode c = some n) :
    parseStatement (fuel + ls.length + 5)
        (⟨tv.1, tv.2, l0⟩ :: nl0 :: indentedToks (first :: ls) ++ (d ++ c :: tl)) 0 =
      some (some (blockNode tv (n1 :: ls.filterMap (fun l => simpleNode l.2.1))),
        d ++ c :: tl) := by
  have hblock : ∀ g : Nat, parseBlock (g + 2 + ls.length + 1 + 1)
      (indentedToks (first :: ls) ++ (d ++ c :: tl)) [] none =
      some (n1 :: ls.filterMap (fun l => simpleNode l.2.1), d ++ c :: tl) := by
    intro g
    rw [parseBlock]
    have hstmt := parseBlockStatement_simple first.2.1 n1
      (first.2.2 :: (indentedToks ls ++ (d ++ c :: tl))) (g + 2 + ls.length) hf2
    simp only [indentedToks, List.cons_append, isAtEnd, peek, advance, List.tail_cons, hf1,
      hstmt, consume, hf3]
    simp only [String.reduceEq, decide_False, Bool.false_eq_true, if_false, if_true,
      List.nil_append, Option.toList]
    have h1 : g + 2 + ls.length + 1 = (g + 1) + 2 + ls.length := by omega
    rw [h1, parseBlock_indented _ ls _ _ _ hls, parseBlock_stops _ d c n tl _ _ hd hc]
    simp
  rcases ho with h | h
  · have e : fuel + ls.length + 5 = (fuel + 1) + 2 + ls.length + 1 + 1 := by omega
    simp [parseStatement, peek, h, parseStatementKind, parseTask, advance, consume, hnl0,
      blockNode, e, hblock]
  · have e : fuel + ls.length + 5 = (fuel + 2 + ls.length + 1 + 1) + 1 := by omega
    rw [e]
    simp [parseStatement, peek, h, parseStatementKind, parseRepeatN, advance, consume, hnl0,
      blockNode, hblock]

theorem simpleLine_spec (s : Str) (n : Node) (h : simpleLine s = some n) :
    TrimSpace s = s ∧ '\n' ∉ s ∧ ∃ tv, classifyLine s = some [tv] ∧ tv.1 ≠ "UNKNOWN" ∧
      ∀ ln, simpleNode ⟨tv.1, tv.2, ln⟩ = some n := by
  unfold simpleLine at h
  split_ifs at h with hc
  split at h
  · rename_i tv htv
    refine ⟨hc.1, hc.2, tv, htv, ?_, ?_⟩
    · exact (simpleNode_typ _ _ h).2.2.2.2.2.2
    · intro ln; rw [simpleNode_line _ _ ln 0]; exact h
  · exact absurd h (by simp)

theorem openerLine_spec (o : Str) (tv : String × Str) (h : openerLine o = some tv) :
    TrimSpace o = o ∧ '\n' ∉ o ∧ classifyLine o = some [tv] ∧
      (tv.1 = "TASK" ∨ tv.1 = "REPEAT_N") := by
  unfold openerLine at h
  split_ifs at h with hc
  split at h
  · rename_i tv' htv
    split_ifs at h with ht
    simp only [Option.some.injEq] at h
    subst h
    exact ⟨hc.1, hc.2, htv, ht⟩
  · exact absurd h (by simp)

theorem lineTokens_simple (idx k : Nat) (s : Str) (n : Node) (h : simpleLine s = some n) :
    lineTokens idx (indentLine k s) =
      some ((if 0 < k then [⟨"INDENT", Itoa (Int.ofNat k), idx + 1⟩] else []) ++
        [contentToken s (idx + 1), ⟨"NEWLINE", [], idx + 1⟩]) ∧
    simpleNode (contentToken s (idx + 1)) = some n := by
  obtain ⟨h1, _, tv, h3, h4, h5⟩ := simpleLine_spec s n h
  refine ⟨?_, ?_⟩
  · rw [lineTokens_indentLine idx k s tv h1 h3 h4]; simp [contentToken, h3]
  · simp [contentToken, h3, h5]

theorem tokenizeFrom_body :
    ∀ (rest : List (Nat × Str)) (idx : Nat) (tail : List Str) (tailtoks : List Token),
      (∀ x ∈ rest, 0 < x.1 ∧ (simpleLine x.2).isSome = true) →
      tokenizeFrom (idx + rest.length) tail = some tailtoks →
      tokenizeFrom idx (rest.map (fun x => indentLine x.1 x.2) ++ tail) =
        some (indentedToks (bodyTriples idx rest) ++ tailtoks) := by
  intro rest
  induction rest with
  | nil => intro idx tail tailtoks _ h; simpa [bodyTriples, indentedToks] using h
  | cons x xs ih =>
    intro idx tail tailtoks hx h
    obtain ⟨hk, hs⟩ := hx x (List.mem_cons_self _ _)
    obtain ⟨n, hn⟩ := Option.isSome_iff_exists.mp hs
    have h' : tokenizeFrom (idx + 1 + xs.length) tail = some tailtoks := by
      rw [← h]; congr 1; simp only [List.length_cons]; omega
    have := ih (idx + 1) tail tailtoks (fun y hy => hx y (List.mem_cons_of_mem _ hy)) h'
    simp only [List.map_cons, List.cons_append]
    rw [tokenizeFrom, (lineTokens_simple idx x.1 x.2 n hn).1, this]
    simp [hk, bodyTriples, indentedToks]

theorem bodyTriples_spec (b : Nat) (hb : b < 2 ^ 63) :
    ∀ (rest : List (Nat × Str)) (idx : Nat),
      (∀ x ∈ rest, b ≤ x.1 ∧ (simpleLine x.2).isSome = true) →
      (∀ l ∈ bodyTriples idx rest, l.1.Typ = "INDENT" ∧ (b : Int) ≤ (Atoi l.1.Value).1 ∧
        (simpleNode l.2.1).isSome = true ∧ l.2.2.Typ = "NEWLINE") ∧
      (bodyTriples idx rest).filterMap (fun l => simpleNode l.2.1) =
        rest.filterMap (fun x => simpleLine x.2) ∧
      (bodyTriples idx rest).length = rest.length := by
  intro rest
  induction rest with
  | nil => intro idx _; simp [bodyTriples]
  | cons x xs ih =>
    intro idx hx
    obtain ⟨hk, hs⟩ := hx x (List.mem_cons_self _ _)
    obtain ⟨n, hn⟩ := Option.isSome_iff_exists.mp hs
    obtain ⟨i1, i2, i3⟩ := ih (idx + 1) (fun y hy => hx y (List.mem_cons_of_mem _ hy))
    have hc := (lineTokens_simple idx x.1 x.2 n hn).2
    have hA : (b : Int) ≤ (Atoi (Itoa (Int.ofNat x.1))).1 := by
      rw [Atoi_Itoa]
      split_ifs <;> omega
    refine ⟨?_, ?_, ?_⟩
    · intro l hl
      simp only [bodyTriples, List.mem_cons] at hl
      rcases hl with rfl | hl
      · exact ⟨rfl, hA, by simp [hc], rfl⟩
      · exact i1 l hl
    · simp [bodyTriples, List.filterMap_cons, hc, hn, i2]
    · simp [bodyTriples, i3]

theorem indentLine_no_newline (k : Nat) (s : Str) (h : '\n' ∉ s) : '\n' ∉ indentLine k s := by
  unfold indentLine
  simp only [List.mem_append, not_or]
  refine ⟨?_, h⟩
  intro hm
  have := List.eq_of_mem_replicate hm
  revert this; decide

theorem tokenizeFrom_single (idx : Nat) (raw : Str) (ts : List Token)
    (h : lineTokens idx raw = some ts) : tokenizeFrom idx [raw] = some ts := by
  simp [tokenizeFrom, h]

theorem lineTokens_opener (o : Str) (tv : String × Str) (ho : openerLine o = some tv) :
    lineTokens 0 o = some [⟨tv.1, tv.2, 1⟩, ⟨"NEWLINE", [], 1⟩] := by
  obtain ⟨h1, _, h3, h4⟩ := openerLine_spec o tv ho
  have hu : tv.1 ≠ "UNKNOWN" := by rcases h4 with h | h <;> simp [h]
  have := lineTokens_indentLine 0 0 o tv h1 h3 hu
  simpa [indentLine] using this

/-- Claim C5: for a block-opening line `o` at column 0 (`task t:` or
`repeat N times:`), then simple-statement lines of which the first is indented by
`b ≥ 1` columns and the others by at least `b` columns, then one simple-statement
line `s` indented by `k < b` columns, the lexer returns tokens on which Parse (with
enough fuel) returns exactly two nodes: the block node whose body is the indented
statements in source order, and the node of the last line. The statement that
parses the block leaves all tokens of the dedented line, its INDENT token included,
unconsumed. The indent `b` is a Go int, hence below 2^63. -/
theorem block_body_then_dedent (o : Str) (tv : String × Str) (b : Nat) (s1 : Str)
    (rest : List (Nat × Str)) (k : Nat) (s : Str) (n : Node) (fuel : Nat)
    (ho : openerLine o = some tv) (hb : 1 ≤ b) (hb63 : b < 2 ^ 63)
    (h1 : (simpleLine s1).isSome = true)
    (hrest : ∀ x ∈ rest, b ≤ x.1 ∧ (simpleLine x.2).isSome = true)
    (hk : k < b) (hs : simpleLine s = some n) :
    ∃ toks dedented,
      Tokenize (Join (o :: indentLine b s1 ::
        (rest.map (fun x => indentLine x.1 x.2) ++ [indentLine k s])) "\n".toList) = some toks ∧
      lineTokens (rest.length + 2) (indentLine k s) = some dedented ∧
      parseStatement (fuel + rest.length + 5) toks 0 =
        some (some (blockNode tv (((b, s1) :: rest).filterMap (fun x => simpleLine x.2))),
          dedented ++ [⟨"EOF", [], rest.length + 3⟩]) ∧
      Parse (fuel + rest.length + 9) toks =
        some [blockNode tv (((b, s1) :: rest).filterMap (fun x => simpleLine x.2)), n] := by
  obtain ⟨o1, o2, o3, o4⟩ := openerLine_spec o tv ho
  obtain ⟨n1, hn1⟩ := Option.isSome_iff_exists.mp h1
  obtain ⟨_, s1nl, _⟩ := simpleLine_spec s1 n1 hn1
  obtain ⟨_, snl, _⟩ := simpleLine_spec s n hs
  -- the lines of the source
  have hlines : Split (Join (o :: indentLine b s1 ::
      (rest.map (fun x => indentLine x.1 x.2) ++ [indentLine k s])) "\n".toList) '\n' =
      o :: indentLine b s1 :: (rest.map (fun x => indentLine x.1 x.2) ++ [indentLine k s]) := by
    apply Split_Join _ (by simp)
    intro l hl
    simp only [List.mem_cons, List.mem_append, List.mem_map, List.mem_singleton,
      List.not_mem_nil, or_false] at hl
    rcases hl with rfl | rfl | ⟨x, hx, rfl⟩ | rfl
    · exact o2
    · exact indentLine_no_newline _ _ s1nl
    · obtain ⟨m, hm⟩ := Option.isSome_iff_exists.mp (hrest x hx).2
      exact indentLine_no_newline _ _ (simpleLine_spec _ _ hm).2.1
    · exact indentLine_no_newline _ _ snl
  -- the tokens of the last line
  obtain ⟨hlast, hc⟩ := lineTokens_simple (rest.length + 2) k s n hs
  -- the tokens of the body
  have hbody := tokenizeFrom_body ((b, s1) :: rest) 1 [indentLine k s] _
    (by
      intro x hx
      simp only [List.mem_cons] at hx
      rcases hx with rfl | hx
      · exact ⟨hb, h1⟩
      · exact ⟨lt_of_lt_of_le hb (hrest x hx).1, (hrest x hx).2⟩)
    (tokenizeFrom_single _ _ _ (by
      have e : 1 + ((b, s1) :: rest).length = rest.length + 2 := by
        simp only [List.length_cons]; omega
      rw [e]; exact hlast))
  obtain ⟨t1, t2, t3⟩ := bodyTriples_spec b hb63 rest 2 hrest
  have hfirst := lineTokens_simple 1 b s1 n1 hn1
  have hAb : (Atoi (Itoa (Int.ofNat b))).1 = (b : Int) := by
    rw [Atoi_Itoa, if_pos hb63]
  have hded : isDedent (b : Int)
      (if 0 < k then [(⟨"INDENT", Itoa (Int.ofNat k), rest.length + 2 + 1⟩ : Token)] else []) := by
    by_cases hk0 : 0 < k
    · right
      refine ⟨⟨"INDENT", Itoa (Int.ofNat k), rest.length + 2 + 1⟩, by simp [hk0], rfl, ?_, ?_⟩
      · rw [Atoi_Itoa]; split_ifs <;> omega
      · rw [Atoi_Itoa]; split_ifs <;> omega
    · left; simp [hk0]
  have hTok : Tokenize (Join (o :: indentLine b s1 ::
        (rest.map (fun x => indentLine x.1 x.2) ++ [indentLine k s])) "\n".toList) =
      some ((⟨tv.1, tv.2, 1⟩ : Token) :: ⟨"NEWLINE", [], 1⟩ ::
        indentedToks ((⟨"INDENT", Itoa (Int.ofNat b), 2⟩, contentToken s1 2,
          ⟨"NEWLINE", [], 2⟩) :: bodyTriples 2 rest) ++
        ((if 0 < k then [(⟨"INDENT", Itoa (Int.ofNat k), rest.length + 2 + 1⟩ : Token)] else []) ++
          contentToken s (rest.length + 2 + 1) ::
          [⟨"NEWLINE", [], rest.length + 2 + 1⟩, ⟨"EOF", [], rest.length + 3⟩])) := by
    unfold Tokenize NewLexer Lexer.Tokenize
    simp only [hlines]
    rw [tokenizeFrom, lineTokens_opener o tv ho]
    have e : (indentLine b s1 :: (rest.map (fun x => indentLine x.1 x.2) ++ [indentLine k s])) =
        (((b, s1) :: rest).map (fun x => indentLine x.1 x.2) ++ [indentLine k s]) := by simp
    rw [e, hbody]
    simp [bodyTriples, List.length_cons]
  have hps := parseStatement_block tv 1 ⟨"NEWLINE", [], 1⟩
      (⟨"INDENT", Itoa (Int.ofNat b), 2⟩, contentToken s1 2, ⟨"NEWLINE", [], 2⟩)
      (bodyTriples 2 rest)
      (if 0 < k then [(⟨"INDENT", Itoa (Int.ofNat k), rest.length + 2 + 1⟩ : Token)] else [])
      (contentToken s (rest.length + 2 + 1)) n n1
      [⟨"NEWLINE", [], rest.length + 2 + 1⟩, ⟨"EOF", [], rest.length + 3⟩]
  simp only [t3, t2, hAb] at hps
  refine ⟨_, _, hTok, hlast, ?_, ?_⟩
  · rw [hps fuel o4 trivial trivial hfirst.2 trivial t1 hded hc]
    simp [List.filterMap_cons, hn1]
  · unfold Parse
    have e : fuel + rest.length + 9 = (fuel + 3 + rest.length + 5) + 1 := by omega
    rw [e, parseLoop]
    have hne : isAtEnd ((⟨tv.1, tv.2, 1⟩ : Token) :: ⟨"NEWLINE", [], 1⟩ ::
        indentedToks ((⟨"INDENT", Itoa (Int.ofNat b), 2⟩, contentToken s1 2,
          ⟨"NEWLINE", [], 2⟩) :: bodyTriples 2 rest) ++
        ((if 0 < k then [(⟨"INDENT", Itoa (Int.ofNat k), rest.length + 2 + 1⟩ : Token)] else []) ++
          contentToken s (rest.length + 2 + 1) ::
          [⟨"NEWLINE", [], rest.length + 2 + 1⟩, ⟨"EOF", [], rest.length + 3⟩])) = false := by
      rcases o4 with h | h <;> simp [isAtEnd, peek, h]
    rw [hne, hps (fuel + 3) o4 trivial trivial hfirst.2 trivial t1 hded hc]
    have e2 : fuel + 3 + rest.length + 5 = (fuel + rest.length + 5) + 3 := by omega
    simp only [Bool.false_eq_true, if_false, Option.toList, List.nil_append]
    rw [e2, parseLoop_last (b : Int) _ _ _ _ n _ _ hded hc rfl rfl]
    simp [List.filterMap_cons, hn1]

/-! ## Lemmas on maps -/

theorem mapGet_mapSet {α : Type} (m : List (Str × α)) (k k' : Str) (v : α) :
    mapGet (mapSet m k v) k' = if k = k' then some v else mapGet m k' := by
  induction m with
  | nil => simp [mapSet, mapGet]
  | cons x xs ih =>
    obtain ⟨a, b⟩ := x
    by_cases h1 : a = k
    · subst h1
      by_cases h2 : a = k' <;> simp [mapSet, mapGet, h2]
    · by_cases h2 : k = k'
      · subst h2; simp [mapSet, mapGet, h1, ih]
      · have h2' : ¬ k' = k := fun e => h2 e.symm
        by_cases h3 : a = k'
        · subst h3; simp [mapSet, mapGet, h2, h2']
        · simp [mapSet, mapGet, h1, h2, h3, ih]

theorem mapGet_mapDelete {α : Type} (m : List (Str × α)) (k k' : Str) :
    mapGet (mapDelete m k) k' = if k = k' then none else mapGet m k' := by
  induction m with
  | nil => simp [mapDelete, mapGet]
  | cons x xs ih =>
    obtain ⟨a, b⟩ := x
    by_cases h1 : a = k
    · subst h1
      by_cases h2 : a = k'
      · subst h2; simpa [mapDelete, mapGet] using ih
      · simp [mapDelete, mapGet, h2, ih]
    · by_cases h2 : k = k'
      · subst h2; simp [mapDelete, mapGet, h1, ih]
      · have h2' : ¬ k' = k := fun e => h2 e.symm
        by_cases h3 : a = k'
        · subst h3; simp [mapDelete, mapGet, h2, h2']
        · simp [mapDelete, mapGet, h1, h2, h3, ih]

theorem restoreParams_keeps (saved : List (Str × Value)) (p : Str) :
    ∀ (ps : List Str) (vars : List (Str × Value)),
      mapGet vars p = mapGet saved p → mapGet (restoreParams saved ps vars) p = mapGet saved p := by
  intro ps
  induction ps with
  | nil => intro vars h; simpa [restoreParams] using h
  | cons q qs ih =>
    intro vars h
    unfold restoreParams
    cases hq : mapGet saved q with
    | none =>
      apply ih
      rw [mapGet_mapDelete]
      by_cases e : q = p
      · subst e; simp [hq]
      · simp [e, h]
    | some val =>
      apply ih
      rw [mapGet_mapSet]
      by_cases e : q = p
      · subst e; simp [hq]
      · simp [e, h]

theorem restoreParams_restores (saved : List (Str × Value)) :
    ∀ (ps : List Str) (vars : List (Str × Value)) (p : Str), p ∈ ps →
      mapGet (restoreParams saved ps vars) p = mapGet saved p := by
  intro ps
  induction ps with
  | nil => intro vars p hp; simp at hp
  | cons q qs ih =>
    intro vars p hp
    by_cases e : p = q
    · subst e
      unfold restoreParams
      cases hq : mapGet saved p with
      | none =>
        rw [restoreParams_keeps saved p qs _ (by rw [mapGet_mapDelete]; simp [hq]), hq]
      | some val =>
        rw [restoreParams_keeps saved p qs _ (by rw [mapGet_mapSet]; simp [hq]), hq]
    · have hp' : p ∈ qs := by
        rcases List.mem_cons.mp hp with h | h
        · exact absurd h e
        · exact h
      unfold restoreParams
      cases hq : mapGet saved q with
      | none => exact ih _ p hp'
      | some val => exact ih _ p hp'

/-! ## Run: the parameters are restored (C6) -/

theorem sprintDepth_scalar (hp hp' : Heap) (v : Value) (hv : v.isRef = false) :
    ∀ d d' : Nat, sprintDepth hp d v = sprintDepth hp' d' v := by
  intro d d'
  cases v <;> first
    | (cases d <;> cases d' <;> rfl)
    | exact absurd hv (by simp [Value.isRef])

theorem toString_scalar (hp hp' : Heap) (v : Value) (hv : v.isRef = false) :
    toString hp v = toString hp' v := by
  have hs : Sprint hp v = Sprint hp' v := sprintDepth_scalar hp hp' v hv _ _
  cases v <;> first
    | rfl
    | (simp only [toString, hs])

/-- Claim C6 (amended): when `executeRun` of `run t args` returns for a defined task
`t`, each parameter name of `t` is bound to the very value it was bound to before
the call, or unbound if it was unbound before the call (`mapGet` gives `none` for an
unbound name), whatever the body did. A value that is no list and no map has the
text it had before the call. A list or a map is restored as the reference it is: it
is the same slice or map as before the call, with the contents the call left. -/
theorem executeRun_restores_parameters {W : Type} (h : Host W) (fuel : Nat)
    (i i' : Interpreter W) (target : Str) (d : TaskDef)
    (hdef : mapGet i.tasks (runTarget target).1 = some d)
    (hret : executeNode h (fuel + 1) (Node.Run target) i = Res.ok i') :
    ∀ p ∈ d.Params, mapGet i'.vars p = mapGet i.vars p ∧
      ∀ v, mapGet i.vars p = some v → v.isRef = false →
        mapGet i'.vars p = some v ∧ toString i'.heap v = toString i.heap v := by
  intro p hp
  have key : mapGet i'.vars p = mapGet i.vars p := by
    simp only [executeNode, executeRun, hdef] at hret
    split at hret
    · exact absurd hret (by simp)
    · rename_i i1 _
      split at hret
      · rename_i i2 _
        simp only [Res.ok.injEq] at hret
        subst hret
        exact restoreParams_restores _ _ _ p hp
      · rename_i r hr
        exact absurd hret (hr i')
  exact ⟨key, fun v hv hr => ⟨key.trans hv, toString_scalar _ _ v hr⟩⟩

/-- Witness of C6 (amended): `run greeter "Ada"` with `name` unbound before the
call, and with `name` bound to 5 before the call; the body rebinds `name` to 7 in
both runs. -/
theorem executeRun_restores_parameters_witness :
    (executeNode nullHost 6 (Node.Run "greeter \"Ada\"".toList) (greeterInterp [] []) =
        Res.ok (greeterInterp [] ["Ada".toList]) ∧
      ∀ p ∈ ["name".toList],
        mapGet (greeterInterp [] ["Ada".toList]).vars p = mapGet (greeterInterp [] []).vars p ∧
        ∀ v, mapGet (greeterInterp [] []).vars p = some v → v.isRef = false →
          mapGet (greeterInterp [] ["Ada".toList]).vars p = some v ∧
          toString (greeterInterp [] ["Ada".toList]).heap v =
            toString (greeterInterp [] []).heap v) ∧
    (executeNode nullHost 6 (Node.Run "greeter \"Ada\"".toList)
        (greeterInterp [("name".toList, .int 5)] []) =
        Res.ok (greeterInterp [("name".toList, .int 5)] ["Ada".toList]) ∧
      ∀ p ∈ ["name".toList],
        mapGet (greeterInterp [("name".toList, .int 5)] ["Ada".toList]).vars p =
          mapGet (greeterInterp [("name".toList, .int 5)] []).vars p ∧
        ∀ v, mapGet (greeterInterp [("name".toList, .int 5)] []).vars p = some v →
          v.isRef = false →
          mapGet (greeterInterp [("name".toList, .int 5)] ["Ada".toList]).vars p = some v ∧
          toString (greeterInterp [("name".toList, .int 5)] ["Ada".toList]).heap v =
            toString (greeterInterp [("name".toList, .int 5)] []).heap v) :=
  ⟨⟨rfl, executeRun_restores_parameters nullHost 5 _ _ "greeter \"Ada\"".toList
      ⟨[Node.Greet "name".toList, Node.Set "name".toList "7".toList], ["name".toList]⟩ rfl rfl⟩,
   ⟨rfl, executeRun_restores_parameters nullHost 5 _ _ "greeter \"Ada\"".toList
      ⟨[Node.Greet "name".toList, Node.Set "name".toList "7".toList], ["name".toList]⟩ rfl rfl⟩⟩

/-- Counterexample to C6 as stated: the caller binds `p` to a map with the one entry
`a`, and the task `t` with the parameter `p` writes the entry `k` into the map it is
given. After `run t p` the name `p` is bound to the same map, which now holds both
entries: `greet p` writes `map[a:1]` before the run and `map[a:1 k:1]` after it.
In the same way a list `b` that shares its backing array with the argument `a` has
its last element overwritten by a `list.append` of the body: `greet b` writes
`[1 2 3 4]` before the run and `[1 2 3 9]` after it. -/
theorem reference_parameter_changed_by_body :
    finalOut (RunSource nullHost 20 dictParamSource ()) =
      some ["map[a:1]".toList, "map[a:1 k:1]".toList] ∧
    finalOut (RunSource nullHost 20 listParamSource ()) =
      some ["[1 2 3 4]".toList, "[1 2 3 9]".toList] :=
  ⟨by decide!, by decide!⟩

/-! ## The expression evaluator changes output and world only -/

theorem sameContext_refl {W : Type} (i : Interpreter W) : sameContext i i :=
  ⟨rfl, rfl, rfl, rfl, rfl, rfl⟩

theorem sameContext_trans {W : Type} {i j k : Interpreter W} (h1 : sameContext i j)
    (h2 : sameContext j k) : sameContext i k :=
  ⟨h2.1.trans h1.1, h2.2.1.trans h1.2.1, h2.2.2.1.trans h1.2.2.1,
    h2.2.2.2.1.trans h1.2.2.2.1, h2.2.2.2.2.1.trans h1.2.2.2.2.1,
    h2.2.2.2.2.2.trans h1.2.2.2.2.2⟩

theorem sameContext_of_some {W : Type} {i j : Interpreter W} {v w : Value}
    (hh : some (v, i) = some (w, j)) : sameContext i j := by
  simp only [Option.some.injEq, Prod.mk.injEq] at hh
  rw [← hh.2]; exact sameContext_refl i

theorem sameContext_newSlice {W : Type} (h : Host W) (items : List Value)
    (i : Interpreter W) : sameContext i (newSlice h items i).2 :=
  ⟨rfl, rfl, rfl, rfl, rfl, rfl⟩

theorem evalAll_frame {W : Type} (ev : Interpreter W → Str → Option (Value × Interpreter W))
    (hev : ∀ i e v j, ev i e = some (v, j) → sameContext i j) :
    ∀ (es : List Str) (i : Interpreter W) (vs : List Value) (j : Interpreter W),
      evalAll ev es i = some (vs, j) → sameContext i j := by
  intro es
  induction es with
  | nil =>
    intro i vs j hh
    simp only [evalAll, Option.some.injEq, Prod.mk.injEq] at hh
    rw [← hh.2]; exact sameContext_refl i
  | cons e es ih =>
    intro i vs j hh
    simp only [evalAll] at hh
    split at hh
    · exact absurd hh (by simp)
    · rename_i v i1 h1
      split at hh
      · exact absurd hh (by simp)
      · rename_i vs' i2 h2
        simp only [Option.some.injEq, Prod.mk.injEq] at hh
        rw [← hh.2]
        exact sameContext_trans (hev _ _ _ _ h1) (ih _ _ _ h2)

theorem evaluateExpression_frame {W : Type} (h : Host W) :
    ∀ (fuel : Nat) (i : Interpreter W) (e : Str) (v : Value) (j : Interpreter W),
      evaluateExpression h fuel i e = some (v, j) → sameContext i j := by
  intro fuel
  induction fuel with
  | zero => intro i e v j hh; simp [evaluateExpression] at hh
  | succ n ih =>
    intro i e v j hh
    have hall := evalAll_frame (evaluateExpression h n) ih
    unfold evaluateExpression at hh
    split_ifs at hh
    all_goals try exact sameContext_of_some hh
    · -- list literal
      unfold parseList at hh
      split_ifs at hh
      · simp only [Option.some.injEq] at hh
        have hs := sameContext_newSlice h [] i
        rw [hh] at hs; exact hs
      · split at hh
        · exact absurd hh (by simp)
        · rename_i items i1 h1
          simp only [Option.some.injEq] at hh
          have hs := sameContext_newSlice h items i1
          rw [hh] at hs
          exact sameContext_trans (hall _ _ _ _ h1) hs
    · split at hh
      · exact sameContext_of_some hh
      · split at hh
        · exact sameContext_of_some hh
        · split at hh
          · -- builtin call
            unfold callBuiltin at hh
            split at hh
            · exact absurd hh (by simp)
            · rename_i args i1 h1
              have f1 := hall _ _ _ _ h1
              split at hh
              · exact absurd hh (by simp)
              · simp only [Option.some.injEq, Prod.mk.injEq] at hh
                rw [← hh.2]; exact f1
              · simp only [Option.some.injEq, Prod.mk.injEq] at hh
                rw [← hh.2]; exact f1
          · -- plus and fallback
            unfold evalPlus at hh
            split at hh
            · split at hh
              · exact absurd hh (by simp)
              · rename_i left i1 h1
                split at hh
                · exact absurd hh (by simp)
                · rename_i right i2 h2
                  have f := sameContext_trans (ih _ _ _ _ h1) (ih _ _ _ _ h2)
                  split at hh
                  · exact absurd hh (by simp)
                  · simp only [Option.some.injEq, Prod.mk.injEq] at hh
                    rw [← hh.2]; exact f
                  · simp only [Option.some.injEq, Prod.mk.injEq] at hh
                    rw [← hh.2]; exact f
            · exact sameContext_of_some hh

/-! ## The rule for `+` -/

theorem evaluateExpression_bound {W : Type} (h : Host W) (fuel : Nat) (i : Interpreter W)
    (e : Str) (v : Value) (hl : notLiteral (TrimSpace e) = true)
    (hv : mapGet i.vars (TrimSpace e) = some v) :
    evaluateExpression h (fuel + 1) i e = some (v, i) := by
  simp only [notLiteral, Bool.and_eq_true, Bool.not_eq_true'] at hl
  obtain ⟨⟨⟨⟨⟨⟨h1, h2⟩, h3⟩, h4⟩, h5⟩, h6⟩, h7⟩ := hl
  unfold evaluateExpression
  simp only [h1, h2, h3, h4, h5, h6, h7, hv, Bool.false_eq_true, if_false]

theorem evaluateExpression_plus {W : Type} (h : Host W) (fuel : Nat) (i : Interpreter W)
    (e : Str) (hr : plusRuleReached h i (TrimSpace e)) :
    evaluateExpression h (fuel + 1) i e =
      evalPlus (evaluateExpression h fuel) i (TrimSpace e) := by
  obtain ⟨hl, hv, hp, hm⟩ := hr
  simp only [notLiteral, Bool.and_eq_true, Bool.not_eq_true'] at hl
  obtain ⟨⟨⟨⟨⟨⟨h1, h2⟩, h3⟩, h4⟩, h5⟩, h6⟩, h7⟩ := hl
  have hm' : moduleCall h (TrimSpace e) = none := by
    cases hc : moduleCall h (TrimSpace e) with
    | none => rfl
    | some x => rw [hc] at hm; simp at hm
  unfold evaluateExpression
  simp only [h1, h2, h3, h4, h5, h6, h7, hv, hp, hm', Bool.false_eq_true, if_false]

theorem Contains_append_sep (l r : Str) (c : Char) : Contains (l ++ c :: r) [c] = true := by
  induction l with
  | nil => simp [Contains, List.isPrefixOf]
  | cons x xs ih => simp [Contains, ih]

theorem evalPlus_two {W : Type} (ev : Interpreter W → Str → Option (Value × Interpreter W))
    (i i1 i2 : Interpreter W) (l r : Str) (vl vr : Value) (hl : '+' ∉ l) (hr : '+' ∉ r)
    (h1 : ev i l = some (vl, i1)) (h2 : ev i1 r = some (vr, i2)) :
    evalPlus ev i (l ++ '+' :: r) =
      (addValues i2.heap vl vr).map (fun v => (v.getD (.str (l ++ '+' :: r)), i2)) := by
  have hc : Contains (l ++ '+' :: r) "+".toList = true := Contains_append_sep l r '+'
  have hs : Split (l ++ '+' :: r) '+' = [l, r] := by
    rw [Split_append_sep '+' l r hl, Split_no_sep '+' r hr]
  unfold evalPlus
  simp only [hc, if_true, hs, h1, h2]
  cases addValues i2.heap vl vr with
  | none => rfl
  | some v => cases v <;> rfl

/-! ## Numeric `+` (C9) -/

theorem splitArgsLoop_scan :
    ∀ (a rest cur : Str) (q : Bool) (qc : Char) (d : Nat) (st : Bool × Char × Nat),
      scanArg a q qc d = some st →
      splitArgsLoop (a ++ rest) cur q qc d = splitArgsLoop rest (cur ++ a) st.1 st.2.1 st.2.2 := by
  intro a
  induction a with
  | nil =>
    intro rest cur q qc d st hs
    simp only [scanArg, Option.some.injEq] at hs
    subst hs; simp
  | cons ch a ih =>
    intro rest cur q qc d st hs
    have e : cur ++ ch :: a = (cur ++ [ch]) ++ a := by simp
    rw [e]
    simp only [List.cons_append]
    unfold scanArg at hs
    rw [splitArgsLoop]
    split_ifs at hs ⊢ <;> exact ih _ _ _ _ _ _ hs

theorem splitArgsLoop_quoteChar :
    ∀ (s cur : Str) (qc qc' : Char) (d : Nat),
      splitArgsLoop s cur false qc d = splitArgsLoop s cur false qc' d := by
  intro s
  induction s with
  | nil => intro cur qc qc' d; simp [splitArgsLoop]
  | cons ch s ih =>
    intro cur qc qc' d
    unfold splitArgsLoop
    split_ifs <;> first
      | rfl
      | exact ih _ _ _ _
      | (rw [ih _ qc qc'])

theorem isArgument_spec (a : Str) (h : isArgument a = true) :
    TrimSpace a = a ∧ a ≠ [] ∧ ∃ qc, scanArg a false (Char.ofNat 0) 0 = some (false, qc, 0) := by
  unfold isArgument at h
  simp only [Bool.and_eq_true, beq_iff_eq, Bool.not_eq_true', List.isEmpty_eq_false] at h
  obtain ⟨⟨h1, h2⟩, h3⟩ := h
  refine ⟨h1, ?_, ?_⟩
  · intro e; subst e; simp at h2
  · split at h3
    · rename_i qc hq; exact ⟨qc, hq⟩
    · exact absurd h3 (by simp)

theorem TrimSpace_blank_cons (a : Str) : TrimSpace (' ' :: a) = TrimSpace a := by
  simp [TrimSpace, trimLeftBy, isSpace]

theorem splitArgs_two (a1 a2 : Str) (h1 : isArgument a1 = true) (h2 : isArgument a2 = true) :
    splitArgsRespectingQuotes (a1 ++ ',' :: ' ' :: a2) = [a1, a2] := by
  obtain ⟨t1, n1, q1, s1⟩ := isArgument_spec a1 h1
  obtain ⟨t2, n2, q2, s2⟩ := isArgument_spec a2 h2
  unfold splitArgsRespectingQuotes
  rw [splitArgsLoop_scan a1 _ [] _ _ _ _ s1]
  simp only [List.nil_append]
  rw [splitArgsLoop]
  simp only [Char.reduceEq, or_self, if_false, Bool.false_or, gt_iff_lt, lt_self_iff_false,
    decide_False, Bool.false_eq_true]
  rw [splitArgsLoop_quoteChar _ _ q1 (Char.ofNat 0), splitArgsLoop]
  simp only [Char.reduceEq, or_self, if_false]
  have := splitArgsLoop_scan a2 [] [' '] _ _ _ _ s2
  simp only [List.append_nil] at this
  simp only [if_true, List.nil_append]
  rw [this]
  have e1 : (TrimSpace a1).isEmpty = false := by
    rw [t1]; cases a1 with
    | nil => exact absurd rfl n1
    | cons c cs => rfl
  have e2 : (TrimSpace ([' '] ++ a2)).isEmpty = false := by
    rw [List.singleton_append, TrimSpace_blank_cons, t2]; cases a2 with
    | nil => exact absurd rfl n2
    | cons c cs => rfl
  simp only [splitArgsLoop, flushArg, e1, e2, Bool.false_eq_true, if_false, t1]
  rw [List.singleton_append, TrimSpace_blank_cons, t2]
  rw [t1] at e1
  simp [e1]

theorem cutAt_blank (t r : Str) (ht : ' ' ∉ t) : cutAt " ".toList (t ++ ' ' :: r) = some (t, r) := by
  induction t with
  | nil => simp [cutAt, List.isPrefixOf]
  | cons c cs ih =>
    have hc : c ≠ ' ' := fun e => ht (by simp [e])
    have hcs : ' ' ∉ cs := fun e => ht (by simp [e])
    simp only [List.cons_append]
    rw [cutAt, ih hcs]
    simp [List.isPrefixOf, Ne.symm hc]

theorem runTarget_two (t a1 a2 : Str) (ht : ' ' ∉ t)
    (hT : TrimSpace (t ++ ' ' :: (a1 ++ ',' :: ' ' :: a2)) = t ++ ' ' :: (a1 ++ ',' :: ' ' :: a2))
    (h1 : isArgument a1 = true) (h2 : isArgument a2 = true) :
    runTarget (t ++ ' ' :: (a1 ++ ',' :: ' ' :: a2)) = (t, [a1, a2]) := by
  unfold runTarget
  simp only [hT]
  have hc : Contains (t ++ ' ' :: (a1 ++ ',' :: ' ' :: a2)) " ".toList = true :=
    Contains_append_sep t _ ' '
  simp only [hc, if_true, SplitN2, cutAt_blank t _ ht, splitArgs_two a1 a2 h1 h2]

/-! ## A block opened right before non-indented statements (C4) -/

theorem tokenizeFrom_flat :
    ∀ (ss : List Str) (idx : Nat) (tail : List Str) (tailtoks : List Token),
      (∀ s ∈ ss, (simpleLine s).isSome = true) →
      tokenizeFrom (idx + ss.length) tail = some tailtoks →
      tokenizeFrom idx (ss ++ tail) = some (flatToks (flatPairs idx ss) ++ tailtoks) := by
  intro ss
  induction ss with
  | nil => intro idx tail tailtoks _ h; simpa [flatPairs, flatToks] using h
  | cons x xs ih =>
    intro idx tail tailtoks hx h
    obtain ⟨n, hn⟩ := Option.isSome_iff_exists.mp (hx x (List.mem_cons_self _ _))
    have h' : tokenizeFrom (idx + 1 + xs.length) tail = some tailtoks := by
      rw [← h]; congr 1; simp only [List.length_cons]; omega
    have := ih (idx + 1) tail tailtoks (fun y hy => hx y (List.mem_cons_of_mem _ hy)) h'
    have hl := (lineTokens_simple idx 0 x n hn).1
    simp only [indentLine, List.replicate_zero, List.nil_append, lt_self_iff_false,
      if_false] at hl
    simp only [List.cons_append]
    rw [tokenizeFrom, hl, this]
    simp [flatPairs, flatToks]

theorem flatPairs_spec :
    ∀ (ss : List Str) (idx : Nat), (∀ s ∈ ss, (simpleLine s).isSome = true) →
      (∀ l ∈ flatPairs idx ss, (simpleNode l.1).isSome = true ∧ l.2.Typ = "NEWLINE") ∧
      (flatPairs idx ss).filterMap (fun l => simpleNode l.1) = ss.filterMap simpleLine ∧
      (flatPairs idx ss).length = ss.length := by
  intro ss
  induction ss with
  | nil => intro idx _; simp [flatPairs]
  | cons x xs ih =>
    intro idx hx
    obtain ⟨n, hn⟩ := Option.isSome_iff_exists.mp (hx x (List.mem_cons_self _ _))
    obtain ⟨i1, i2, i3⟩ := ih (idx + 1) (fun y hy => hx y (List.mem_cons_of_mem _ hy))
    have hc := (lineTokens_simple idx 0 x n hn).2
    refine ⟨?_, ?_, ?_⟩
    · intro l hl
      simp only [flatPairs, List.mem_cons] at hl
      rcases hl with rfl | hl
      · exact ⟨by simp [hc], rfl⟩
      · exact i1 l hl
    · simp [flatPairs, List.filterMap_cons, hc, hn, i2]
    · simp [flatPairs, i3]

theorem parseStatement_block_flat (tv : String × Str) (l0 : Nat) (nl0 eof : Token)
    (ls : List (Token × Token)) (fuel : Nat)
    (ho : tv.1 = "TASK" ∨ tv.1 = "REPEAT_N") (hnl0 : nl0.Typ = "NEWLINE")
    (heof : eof.Typ = "EOF")
    (hls : ∀ l ∈ ls, (simpleNode l.1).isSome = true ∧ l.2.Typ = "NEWLINE") :
    parseStatement (fuel + ls.length + 4) (⟨tv.1, tv.2, l0⟩ :: nl0 :: flatToks ls ++ [eof]) 0 =
      some (some (blockNode tv (ls.filterMap (fun l => simpleNode l.1))), [eof]) := by
  have hblock : ∀ g : Nat, parseBlock (g + 2 + ls.length) (flatToks ls ++ [eof]) [] none =
      some (ls.filterMap (fun l => simpleNode l.1), [eof]) := by
    intro g
    rw [parseBlock_flat ls _ _ _ hls]
    simp [parseBlock, isAtEnd, peek, heof]
  rcases ho with h | h
  · have e : fuel + ls.length + 4 = (fuel + 2) + 2 + ls.length := by omega
    simp [parseStatement, peek, h, parseStatementKind, parseTask, advance, consume, hnl0,
      blockNode, e, hblock]
  · have e : fuel + ls.length + 4 = ((fuel + 1) + 2 + ls.length) + 1 := by omega
    rw [e]
    simp [parseStatement, peek, h, parseStatementKind, parseRepeatN, advance, consume, hnl0,
      blockNode, hblock]

theorem parseLoop_step (fuel : Nat) (p q : Parser) (nodes : List Node) (n : Option Node)
    (h1 : isAtEnd p = false) (h2 : parseStatement fuel p 0 = some (n, q)) :
    parseLoop (fuel + 1) p nodes = parseLoop fuel q (nodes ++ n.toList) := by
  simp [parseLoop, h1, h2]

/-- Claim C4 (amended): when a block-opening line (`task t:` or `repeat N times:`) is
followed at once by non-indented one-token statements (the first of them `s`) up to
the end of the source, no base indent is set, the lines do not end the block, and
Parse yields one node, the block whose body holds these statements in order. -/
theorem unindented_lines_join_open_block (o : Str) (tv : String × Str) (s : Str)
    (ss : List Str) (fuel : Nat) (ho : openerLine o = some tv)
    (hs : ∀ x ∈ s :: ss, (simpleLine x).isSome = true) :
    (Tokenize (Join (o :: s :: ss) "\n".toList)).bind (Parse (fuel + ss.length + 7)) =
      some [blockNode tv ((s :: ss).filterMap simpleLine)] := by
  obtain ⟨o1, o2, o3, o4⟩ := openerLine_spec o tv ho
  have hlines : Split (Join (o :: s :: ss) "\n".toList) '\n' = o :: s :: ss := by
    apply Split_Join _ (by simp)
    intro l hl
    rcases List.mem_cons.mp hl with rfl | hl
    · exact o2
    · obtain ⟨m, hm⟩ := Option.isSome_iff_exists.mp (hs l hl)
      exact (simpleLine_spec _ _ hm).2.1
  have hbody := tokenizeFrom_flat (s :: ss) 1 [] [] hs (by simp [tokenizeFrom])
  obtain ⟨t1, t2, t3⟩ := flatPairs_spec (s :: ss) 1 hs
  have hTok : Tokenize (Join (o :: s :: ss) "\n".toList) =
      some ((⟨tv.1, tv.2, 1⟩ : Token) :: ⟨"NEWLINE", [], 1⟩ ::
        flatToks (flatPairs 1 (s :: ss)) ++ [⟨"EOF", [], ss.length + 2⟩]) := by
    unfold Tokenize NewLexer Lexer.Tokenize
    simp only [hlines]
    rw [tokenizeFrom, lineTokens_opener o tv ho]
    have e : s :: ss = (s :: ss) ++ [] := by simp
    rw [e, hbody]
    simp
  have hps := parseStatement_block_flat tv 1 ⟨"NEWLINE", [], 1⟩ ⟨"EOF", [], ss.length + 2⟩
    (flatPairs 1 (s :: ss)) (fuel + 1) o4 rfl rfl t1
  rw [t3, t2] at hps
  rw [hTok]
  show parseLoop (fuel + ss.length + 7) _ [] = _
  have e : fuel + ss.length + 7 = (fuel + 1 + (s :: ss).length + 4) + 1 := by
    simp only [List.length_cons]; omega
  have hne : isAtEnd ((⟨tv.1, tv.2, 1⟩ : Token) :: ⟨"NEWLINE", [], 1⟩ ::
      flatToks (flatPairs 1 (s :: ss)) ++ [⟨"EOF", [], ss.length + 2⟩]) = false := by
    rcases o4 with h | h <;> simp [isAtEnd, peek, h]
  rw [e, parseLoop_step _ _ _ _ _ hne hps]
  simp [parseLoop, isAtEnd, peek]

/-- Counterexample to C4 as stated: for `task a:` followed by `greet "x"` at column 0
Parse yields the task with the greet in its body, not the task with an empty body
followed by the greet. -/
theorem unindented_line_does_not_end_block :
    (Tokenize "task a:\ngreet \"x\"".toList).bind (Parse 10) =
      some [Node.Task "a".toList [] [Node.Greet "\"x\"".toList]] ∧
    [Node.Task "a".toList [] [Node.Greet "\"x\"".toList]] ≠
      [Node.Task "a".toList [] [], Node.Greet "\"x\"".toList] :=
  ⟨rfl, by simp⟩

/-- Witness of C4 (amended): `task a:` followed by `greet "x"` and `run b` at
column 0. -/
theorem unindented_lines_join_open_block_witness :
    (Tokenize (Join ["task a:".toList, "greet \"x\"".toList, "run b".toList] "\n".toList)).bind
        (Parse 8) =
      some [blockNode ("TASK", "a".toList)
        (["greet \"x\"".toList, "run b".toList].filterMap simpleLine)] :=
  unindented_lines_join_open_block "task a:".toList ("TASK", "a".toList) "greet \"x\"".toList
    ["run b".toList] 0 (by decide) (by decide)

/-! ## The lexer and the parser on malformed input (C1, C2, C3) -/

/-- Claim C1 (fails): the lexer panics with an index out of range on `set = 5`, on
`backup to x`, on `check -> greet 1` and on `handle -> greet 1`: the text behind the
keyword no longer holds the separator, so `SplitN` yields one piece and `parts[1]`
is out of range. -/
theorem tokenize_panics_on_missing_operand :
    Tokenize "set = 5".toList = none ∧ Tokenize "backup to x".toList = none ∧
    Tokenize "check -> greet 1".toList = none ∧
    Tokenize "handle -> greet 1".toList = none := by
  decide

/-- Claim C2 (fails): the line `repeat foo:` yields no content token at all, only its
NEWLINE token: the `repeat` case of `tokenizeLine` falls out of the switch when
neither pattern matches, and the UNKNOWN token of the default case is not emitted. -/
theorem tokenize_repeat_without_content_token :
    Tokenize "repeat foo:".toList = some [⟨"NEWLINE", [], 1⟩, ⟨"EOF", [], 1⟩] := by
  decide

theorem parseLoop_stuck (v : Str) (l : Nat) (rest : List Token) (h : (Atoi v).1 ≤ 0) :
    ∀ (fuel : Nat) (nodes : List Node),
      parseLoop fuel (⟨"INDENT", v, l⟩ :: rest) nodes = none := by
  intro fuel
  induction fuel with
  | zero => intro nodes; simp [parseLoop]
  | succ k ih =>
    intro nodes
    simp [parseLoop, isAtEnd, peek, parseStatement, h, ih]

/-- Counterexample to C3 as stated: on the token sequence INDENT "0", EOF the loop
of Parse never ends: `parseStatement(0)` returns nil without consuming the INDENT
token, so no amount of fuel gives a result. The same holds for the value "x", which
is not a number. The lexer makes no such sequence. -/
theorem parse_hangs_on_indent_zero :
    (∀ fuel : Nat, Parse fuel [⟨"INDENT", "0".toList, 1⟩, ⟨"EOF", [], 1⟩] = none) ∧
    (∀ fuel : Nat, Parse fuel [⟨"INDENT", "x".toList, 1⟩, ⟨"EOF", [], 1⟩] = none) :=
  ⟨fun fuel => parseLoop_stuck _ _ _ (by decide) fuel [],
   fun fuel => parseLoop_stuck _ _ _ (by decide) fuel []⟩

/-- Witness of C5: `task t:`, then `greet 1` behind 2 blanks and `set x = 2` behind
4 blanks, then `run t` behind 1 blank. -/
theorem block_body_then_dedent_witness :
    ∃ toks dedented,
      Tokenize (Join ("task t:".toList :: indentLine 2 "greet 1".toList ::
        ([(4, "set x = 2".toList)].map (fun x => indentLine x.1 x.2) ++
          [indentLine 1 "run t".toList])) "\n".toList) = some toks ∧
      lineTokens (1 + 2) (indentLine 1 "run t".toList) = some dedented ∧
      parseStatement (0 + 1 + 5) toks 0 =
        some (some (blockNode ("TASK", "t".toList)
          (((2, "greet 1".toList) :: [(4, "set x = 2".toList)]).filterMap
            (fun x => simpleLine x.2))),
          dedented ++ [⟨"EOF", [], 1 + 3⟩]) ∧
      Parse (0 + 1 + 9) toks =
        some [blockNode ("TASK", "t".toList)
          (((2, "greet 1".toList) :: [(4, "set x = 2".toList)]).filterMap
            (fun x => simpleLine x.2)), Node.Run "t".toList] :=
  block_body_then_dedent "task t:".toList ("TASK", "t".toList) 2 "greet 1".toList
    [(4, "set x = 2".toList)] 1 "run t".toList (Node.Run "t".toList) 0
    (by decide) (by decide) (by norm_num) (by decide)
    (by intro x hx; simp only [List.mem_singleton] at hx; subst hx; exact ⟨by decide, by decide⟩)
    (by decide) rfl

/-! ## The argument list of Run (C7) and Return inside a repeat (C8) -/

/-- Claim C7 (amended): the argument list of Run is comma-separated. For a task `t`
with parameters `p1`, `p2` and body `body`, and two argument expressions `a1`, `a2`
(trimmed, non-empty, no comma outside quotes and brackets, quotes and brackets
closed), executing `run t a1, a2` evaluates `a1` in the context of the call, binds
`p1` to its value `v1`, evaluates `a2` in the context so updated, binds `p2` to its
value `v2`, and runs the body from these bindings: there `p2` is bound to `v2` and
`p1`, when it differs from `p2`, to `v1`. The parameters are restored afterwards. -/
theorem run_binds_comma_separated_arguments {W : Type} (h : Host W) (fuel : Nat)
    (i i1 i2 : Interpreter W) (t a1 a2 p1 p2 : Str) (body : List Node) (v1 v2 : Value)
    (ht : ' ' ∉ t)
    (hT : TrimSpace (t ++ ' ' :: (a1 ++ ',' :: ' ' :: a2)) = t ++ ' ' :: (a1 ++ ',' :: ' ' :: a2))
    (h1 : isArgument a1 = true) (h2 : isArgument a2 = true)
    (hdef : mapGet i.tasks t = some ⟨body, [p1, p2]⟩)
    (e1 : evaluateExpression h fuel i a1 = some (v1, i1))
    (e2 : evaluateExpression h fuel { i1 with vars := mapSet i1.vars p1 v1 } a2 =
      some (v2, i2)) :
    executeNode h (fuel + 1) (Node.Run (t ++ ' ' :: (a1 ++ ',' :: ' ' :: a2))) i =
      (match runBody (executeNode h fuel) body
          { i2 with vars := mapSet (mapSet i.vars p1 v1) p2 v2, returnValue := .nil } with
        | .ok i3 => .ok { i3 with vars := restoreParams i.vars [p1, p2] i3.vars }
        | r => r) ∧
    mapGet (mapSet (mapSet i.vars p1 v1) p2 v2) p2 = some v2 ∧
    (p1 ≠ p2 → mapGet (mapSet (mapSet i.vars p1 v1) p2 v2) p1 = some v1) := by
  have f1 := (evaluateExpression_frame h fuel _ _ _ _ e1).2.1
  have f2 := (evaluateExpression_frame h fuel _ _ _ _ e2).2.1
  simp only at f2
  refine ⟨?_, ?_, ?_⟩
  · simp only [executeNode, executeRun, runTarget_two t a1 a2 ht hT h1 h2, hdef, bindParams,
      e1, e2, copyMap]
    simp only [f2, f1]
  · simp [mapGet_mapSet]
  · intro hne
    have hne' : ¬ p2 = p1 := fun e => hne e.symm
    simp [mapGet_mapSet, hne']

/-- Witness of C7 (amended): `run t 1, 2` for the task `t` with parameters `p1`,
`p2` whose body copies them to `r1`, `r2`. -/
theorem run_binds_comma_separated_arguments_witness :
    executeNode nullHost (3 + 1) (Node.Run ("t".toList ++ ' ' :: ("1".toList ++ ',' :: ' ' :: "2".toList)))
        pairInterp =
      (match runBody (executeNode nullHost 3)
          [Node.Set "r1".toList "p1".toList, Node.Set "r2".toList "p2".toList]
          { ({ pairInterp with vars := mapSet pairInterp.vars "p1".toList (.int 1) } :
              Interpreter Unit) with
            vars := mapSet (mapSet pairInterp.vars "p1".toList (.int 1)) "p2".toList (.int 2),
            returnValue := .nil } with
        | .ok i3 =>
          .ok { i3 with vars := restoreParams pairInterp.vars ["p1".toList, "p2".toList] i3.vars }
        | r => r) ∧
    mapGet (mapSet (mapSet pairInterp.vars "p1".toList (.int 1)) "p2".toList (.int 2))
      "p2".toList = some (.int 2) ∧
    ("p1".toList ≠ "p2".toList →
      mapGet (mapSet (mapSet pairInterp.vars "p1".toList (.int 1)) "p2".toList (.int 2))
        "p1".toList = some (.int 1)) :=
  run_binds_comma_separated_arguments nullHost 3 pairInterp pairInterp
    { pairInterp with vars := mapSet pairInterp.vars "p1".toList (.int 1) }
    "t".toList "1".toList "2".toList "p1".toList "p2".toList
    [Node.Set "r1".toList "p1".toList, Node.Set "r2".toList "p2".toList] (.int 1) (.int 2)
    (by decide) (by decide) (by decide) (by decide) rfl rfl rfl

/-- Counterexample to C7 as stated: in `run t 1 2` the arguments `1` and `2` hold
no space, their values are the integers 1 and 2, yet the body of `t` sees `p1` bound
to the string `1 2` and `p2` bound to nil (the body copies them to `r1` and `r2`,
which outlive the call). -/
theorem run_space_separated_arguments_are_one :
    finalVars (RunSource nullHost 20
        "task t with p1, p2:\n  set r1 = p1\n  set r2 = p2\nrun t 1 2".toList ()) =
      some [("r1".toList, .str "1 2".toList), ("r2".toList, .nil)] ∧
    (evaluateExpression nullHost 2 pairInterp "1".toList).map (fun r => r.1) =
      some (.int 1) ∧
    (evaluateExpression nullHost 2 pairInterp "2".toList).map (fun r => r.1) =
      some (.int 2) ∧
    runTarget "t 1 2".toList = ("t".toList, ["1 2".toList]) :=
  ⟨rfl, rfl, rfl, rfl⟩

/-- Claim C8 (fails): in the task `t` whose body is `repeat 2 times:` around
`return 1` and `greet "after"`, followed by `greet "end"`, the Return inside the
repeat does not stop the repeat: `run t` prints `after` twice (once per iteration)
and only the statement behind the repeat, `greet "end"`, is skipped. -/
theorem return_inside_repeat_does_not_stop_it :
    finalOut (RunSource nullHost 20
        "task t:\n  repeat 2 times:\n    return 1\n    greet \"after\"\n  greet \"end\"\nrun t".toList ()) =
      some ["after".toList, "after".toList] ∧
    (Tokenize "task t:\n  repeat 2 times:\n    return 1\n    greet \"after\"\n  greet \"end\"\nrun t".toList).bind
        (Parse 20) =
      some [Node.Task "t".toList []
          [Node.RepeatN 2 [Node.Return "1".toList, Node.Greet "\"after\"".toList],
            Node.Greet "\"end\"".toList],
        Node.Run "t".toList] :=
  ⟨rfl, rfl⟩

/-! ## The claims on `+` (C9, C10) -/

/-- Claim C10 (amended): string `+` is concatenation when `evaluateExpression`
reaches its `+` rule: for operand texts `l` and `r` without `+` such that no earlier
rule applies to the trimmed text `l + r` (it is no literal, in particular not quoted
at both ends, no bound variable, no property access and no builtin call), if `l`
evaluates to the string `ls` and `r`, evaluated after it, to the value `vr`, then
`evaluateExpression` returns `ls` followed by the stringification of `vr` (and does
not return when `toString` does not: `vr` is a list or map that contains itself). -/
theorem string_plus_concatenates {W : Type} (h : Host W) (fuel : Nat)
    (i i1 i2 : Interpreter W) (e l r ls : Str) (vr : Value)
    (he : TrimSpace e = l ++ '+' :: r) (hl : '+' ∉ l) (hr : '+' ∉ r)
    (hreach : plusRuleReached h i (l ++ '+' :: r))
    (e1 : evaluateExpression h fuel i l = some (.str ls, i1))
    (e2 : evaluateExpression h fuel i1 r = some (vr, i2)) :
    evaluateExpression h (fuel + 1) i e =
      (toString i2.heap vr).map (fun s => (Value.str (ls ++ s), i2)) := by
  rw [← he] at hreach
  rw [evaluateExpression_plus h fuel i e hreach, he,
    evalPlus_two _ i i1 i2 l r (.str ls) vr hl hr e1 e2]
  simp only [addValues, Option.map_map]
  rfl

/-- Witness of C10 (amended): `"foo" + bar`, whose text does not end in a quote,
yields `foobar`; the operand `bar` is an unbound word and evaluates to its text. -/
theorem string_plus_concatenates_witness :
    evaluateExpression nullHost (1 + 1) abInterp "\"foo\" + bar".toList =
      (toString abInterp.heap (.str "bar".toList)).map
        (fun s => (Value.str ("foo".toList ++ s), abInterp)) ∧
    (toString abInterp.heap (.str "bar".toList)).map (fun s => "foo".toList ++ s) =
      some "foobar".toList :=
  ⟨string_plus_concatenates nullHost 1 abInterp abInterp abInterp "\"foo\" + bar".toList
     "\"foo\" ".toList " bar".toList "foo".toList (.str "bar".toList)
     (by decide) (by decide) (by decide) ⟨by decide, rfl, rfl, rfl⟩ rfl rfl,
   by decide⟩

/-- Counterexample to C10 as stated: the operand texts `"foo"` and `"bar"` hold no
`+` and evaluate to the strings `foo` and `bar`, yet `"foo" + "bar"` starts and
ends with a quote, is taken for one quoted literal, and yields `foo" + "bar`, not
`foobar`. -/
theorem quoted_operands_are_not_concatenated :
    (evaluateExpression nullHost 3 abInterp "\"foo\" ".toList).map (fun r => r.1) =
      some (.str "foo".toList) ∧
    (evaluateExpression nullHost 3 abInterp " \"bar\"".toList).map (fun r => r.1) =
      some (.str "bar".toList) ∧
    (evaluateExpression nullHost 3 abInterp "\"foo\" + \"bar\"".toList).map (fun r => r.1) =
      some (.str "foo\" + \"bar".toList) ∧
    (toString [] (.str "bar".toList)).map (fun s => "foo".toList ++ s) =
      some "foobar".toList ∧
    "foo\" + \"bar".toList ≠ "foobar".toList :=
  ⟨rfl, rfl, rfl, rfl, by decide⟩

/-! ## RepeatN against Execute of the copies of its body (C20) -/

theorem execList_append {W : Type} (exec : Node → Interpreter W → Res W) (a b : List Node) :
    ∀ i : Interpreter W,
      execList exec (a ++ b) i =
        (match execList exec a i with
          | .ok i1 => execList exec b i1
          | r => r) := by
  induction a with
  | nil => intro i; simp [execList]
  | cons x xs ih =>
    intro i
    simp only [List.cons_append, execList]
    cases exec x i with
    | ok i1 => simpa using ih i1
    | panic m j => rfl
    | outOfFuel => rfl

theorem repeatLoop_copies {W : Type} (exec : Node → Interpreter W → Res W) (body : List Node) :
    ∀ (n : Nat) (i : Interpreter W),
      repeatLoop (execList exec body) n i = execList exec (List.replicate n body).flatten i := by
  intro n
  induction n with
  | zero => intro i; simp [repeatLoop, execList]
  | succ k ih =>
    intro i
    simp only [repeatLoop, List.replicate_succ, List.flatten_cons, execList_append]
    cases execList exec body i with
    | ok i1 => simpa using ih i1
    | panic m j => rfl
    | outOfFuel => rfl

/-- Claim C20: executing the node `RepeatN` with count `n ≥ 0` and body `Body` gives
the same result (the same final interpreter with its variables, tasks, error state,
return slot and output, or the same panic) as `Execute` applied to the concatenation
of `n` copies of `Body`; for `n = 0` the interpreter is returned unchanged. Nothing
but the statements of the copies runs, so no loop variable is bound. -/
theorem repeatN_is_execute_of_copies {W : Type} (h : Host W) (fuel : Nat) (n : Nat)
    (body : List Node) (i : Interpreter W) :
    executeNode h (fuel + 1) (Node.RepeatN (Int.ofNat n) body) i =
      executeCopies h fuel n body i ∧
    executeNode h (fuel + 1) (Node.RepeatN 0 body) i = Res.ok i := by
  refine ⟨?_, ?_⟩
  · simp only [executeNode, executeCopies, Execute, Int.toNat_ofNat]
    exact repeatLoop_copies _ body n i
  · simp [executeNode, repeatLoop]

/-! ## A missing key of `dict.get` (C17) -/

/-- Claim C17 (amended): a missing key is no dispatch failure: for every mapping `d`
(the map at an address `a` of the heap) and every key `k` whose text is no key of
`d`, the builtin `dict.get` called with the arguments `(d, k)` returns the absent
value with a nil error, and leaves the heap and the world as they were; it returns
whenever `toString` returns the text of `k`. -/
theorem dictGet_missing_key_is_nil {W : Type} (hp : Heap) (a : Nat) (d : List (Str × Value))
    (k : Value) (w : W) (hd : hp[a]? = some (.map d))
    (hk : ∀ key, toString hp k = some key → mapGet d key = none) :
    dictGet [.dict a, k] hp w = (toString hp k).map (fun _ => (.nil, none, hp, w)) := by
  cases hs : toString hp k with
  | none => simp [dictGet, hs]
  | some key => simp [dictGet, Heap.mapAt, hd, hs, hk key hs]

/-- Witness of C17 (amended): the key `b` in the mapping with the one key `a`. -/
theorem dictGet_missing_key_is_nil_witness :
    dictGet [.dict 0, .str "b".toList] [.map [("a".toList, .int 1)]] () =
      some (.nil, none, [.map [("a".toList, .int 1)]], ()) :=
  dictGet_missing_key_is_nil [.map [("a".toList, .int 1)]] 0 [("a".toList, .int 1)]
    (.str "b".toList) () rfl (fun key hs => by cases hs; rfl)

/-- Counterexample to C17 as stated: `dict.get` on the mapping with the one key `a`
and the missing key `b` returns no error, and the evaluator, which reports every
error of a builtin, resolves `dict.get d, "b"` to nil without writing a line. -/
theorem dictGet_missing_key_returns_no_error :
    (dictGet [.dict 0, .str "b".toList] [.map [("a".toList, .int 1)]] ()).map
      (fun r => r.2.1) = some none ∧
    evaluateExpression nullHost 3 dictInterp "dict.get d, \"b\"".toList =
      some (.nil, dictInterp) :=
  ⟨rfl, rfl⟩
/-! ## Trimming a text that is already trimmed -/

theorem trimLeftBy_of_head (p : Char → Bool) (s : Str)
    (h : ∀ c, s.head? = some c → p c = false) : trimLeftBy p s = s := by
  cases s with
  | nil => rfl
  | cons c cs => simp [trimLeftBy, h c rfl]

theorem trimRightBy_of_last (p : Char → Bool) (s : Str)
    (h : ∀ c, s.getLast? = some c → p c = false) : trimRightBy p s = s := by
  unfold trimRightBy
  rw [trimLeftBy_of_head p s.reverse (by simpa using h)]
  simp

theorem trimLeftBy_head (p : Char → Bool) (s : Str) :
    ∀ c, (trimLeftBy p s).head? = some c → p c = false := by
  induction s with
  | nil => intro c hc; simp [trimLeftBy] at hc
  | cons x xs ih =>
    intro c hc
    unfold trimLeftBy at hc
    by_cases hx : p x = true
    · rw [if_pos hx] at hc; exact ih c hc
    · rw [if_neg hx] at hc
      simp only [List.head?_cons, Option.some.injEq] at hc
      subst hc; simpa using hx

theorem trimLeftBy_split (p : Char → Bool) (s : Str) :
    ∃ pre, s = pre ++ trimLeftBy p s := by
  induction s with
  | nil => exact ⟨[], rfl⟩
  | cons x xs ih =>
    unfold trimLeftBy
    by_cases hx : p x = true
    · obtain ⟨pre, hpre⟩ := ih
      rw [if_pos hx]
      exact ⟨x :: pre, by rw [List.cons_append, ← hpre]⟩
    · rw [if_neg hx]; exact ⟨[], rfl⟩

theorem trimRightBy_split (p : Char → Bool) (s : Str) :
    ∃ post, s = trimRightBy p s ++ post := by
  obtain ⟨pre, hpre⟩ := trimLeftBy_split p s.reverse
  refine ⟨pre.reverse, ?_⟩
  have := congrArg List.reverse hpre
  simpa [trimRightBy] using this

theorem trimRightBy_last (p : Char → Bool) (s : Str) :
    ∀ c, (trimRightBy p s).getLast? = some c → p c = false := by
  intro c hc
  unfold trimRightBy at hc
  rw [List.getLast?_reverse] at hc
  exact trimLeftBy_head p _ c hc

theorem TrimSpace_idem (s : Str) : TrimSpace (TrimSpace s) = TrimSpace s := by
  have hlast := trimRightBy_last isSpace (trimLeftBy isSpace s)
  have hhead : ∀ c, (TrimSpace s).head? = some c → isSpace c = false := by
    intro c hc
    obtain ⟨post, hpost⟩ := trimRightBy_split isSpace (trimLeftBy isSpace s)
    apply trimLeftBy_head isSpace s c
    rw [hpost]
    cases hu : trimRightBy isSpace (trimLeftBy isSpace s) with
    | nil => simp [TrimSpace, hu] at hc
    | cons x xs => simpa [TrimSpace, hu] using hc
  show TrimSpace (TrimSpace s) = TrimSpace s
  rw [TrimSpace, trimLeftBy_of_head isSpace (TrimSpace s) hhead]
  exact trimRightBy_of_last isSpace (TrimSpace s) hlast

theorem evaluateExpression_trim {W : Type} (h : Host W) (fuel : Nat) (i : Interpreter W)
    (e : Str) : evaluateExpression h fuel i (TrimSpace e) = evaluateExpression h fuel i e := by
  cases fuel with
  | zero => simp [evaluateExpression]
  | succ k =>
    rw [evaluateExpression, evaluateExpression]
    simp only [TrimSpace_idem]

/-! ## Conditions and inline actions (C18, C19) -/

theorem evaluateCondition_frame {W : Type} (h : Host W) (fuel : Nat) (i i1 : Interpreter W)
    (c : Str) (b : Bool) (hc : evaluateCondition h fuel i c = some (b, i1)) :
    sameContext i i1 := by
  unfold evaluateCondition at hc
  simp only at hc
  split at hc
  · split at hc
    · exact absurd hc (by simp)
    · rename_i p j he
      cases hs : toString j.heap p with
      | none => rw [hs] at hc; exact absurd hc (by simp)
      | some path =>
        rw [hs] at hc
        simp only [Option.map_some', Option.some.injEq, Prod.mk.injEq] at hc
        rw [← hc.2]
        exact evaluateExpression_frame h fuel _ _ _ _ he
  · split at hc
    · simp only [Option.some.injEq, Prod.mk.injEq] at hc
      rw [← hc.2]; exact sameContext_refl i
    · split at hc
      · exact absurd hc (by simp)
      · rename_i r j he
        simp only [Option.some.injEq, Prod.mk.injEq] at hc
        rw [← hc.2]
        exact evaluateExpression_frame h fuel _ _ _ _ he

/-- What `evaluateCondition` computes on a condition text that, once trimmed, does
not start with a quote character and does not name a bound variable: the truthiness
of the value of `evaluateExpression(condition)` under the rules of its second
switch, which has no case for a list: a boolean as-is, an integer iff nonzero, a
float iff nonzero, a string iff non-empty, and false for every other variant, a
list included. -/
theorem condition_truthiness_of_expression {W : Type} (h : Host W) (fuel : Nat)
    (i i1 : Interpreter W) (c : Str) (v : Value)
    (hq1 : HasPrefix (TrimSpace c) "\"".toList = false)
    (hq2 : HasPrefix (TrimSpace c) "'".toList = false)
    (hv : mapGet i.vars (TrimSpace c) = none)
    (he : evaluateExpression h fuel i c = some (v, i1)) :
    evaluateCondition h fuel i c =
      some ((match v with
        | .bool b => b
        | .int n => decide (n ≠ 0)
        | .float f => f.nonzero
        | .str s => !s.isEmpty
        | _ => false), i1) := by
  rw [← evaluateExpression_trim] at he
  unfold evaluateCondition
  simp only [hq1, hq2, Bool.or_self, Bool.false_eq_true, if_false, hv, Option.none_bind, he]
  cases v <;> rfl

/-- The conditions `[1, 2]`, `0`, `7` and `word` under the second switch. -/
theorem condition_truthiness_of_expression_witness :
    evaluateCondition nullHost 3 abInterp "[1, 2]".toList =
      some (false, withObj abInterp (.arr 2 [.int 1, .int 2])) ∧
    evaluateCondition nullHost 3 abInterp "0".toList = some (decide ((0 : Int) ≠ 0), abInterp) ∧
    evaluateCondition nullHost 3 abInterp "7".toList = some (decide ((7 : Int) ≠ 0), abInterp) ∧
    evaluateCondition nullHost 3 abInterp "word".toList =
      some (!("word".toList).isEmpty, abInterp) :=
  ⟨condition_truthiness_of_expression nullHost 3 abInterp
     (withObj abInterp (.arr 2 [.int 1, .int 2])) "[1, 2]".toList
     (.list 0 2) (by decide) (by decide) rfl rfl,
   condition_truthiness_of_expression nullHost 3 abInterp abInterp "0".toList (.int 0)
     (by decide) (by decide) rfl rfl,
   condition_truthiness_of_expression nullHost 3 abInterp abInterp "7".toList (.int 7)
     (by decide) (by decide) rfl rfl,
   condition_truthiness_of_expression nullHost 3 abInterp abInterp "word".toList
     (.str "word".toList) (by decide) (by decide) rfl rfl⟩

/-- Claim C18 (fails): the condition `[1, 2]` is not quoted and names no variable,
`evaluateExpression` gives the non-empty list [1, 2], yet `evaluateCondition` is
false, and `check [1, 2] -> greet "yes"` prints nothing; the same list bound to the
variable `l` is a true condition, and `check l -> greet "yes"` after `set l = [1, 2]`
prints `yes`. The second switch of `evaluateCondition` lacks the list cases that its
first switch has. -/
theorem list_condition_is_false :
    evaluateExpression nullHost 3 listInterp "[1, 2]".toList =
      some (.list 1 2, withObj listInterp (.arr 2 [.int 1, .int 2])) ∧
    evaluateCondition nullHost 3 listInterp "[1, 2]".toList =
      some (false, withObj listInterp (.arr 2 [.int 1, .int 2])) ∧
    evaluateCondition nullHost 3 listInterp "l".toList = some (true, listInterp) ∧
    finalOut (RunSource nullHost 20 "check [1, 2] -> greet \"yes\"".toList ()) = some [] ∧
    finalOut (RunSource nullHost 20 "set l = [1, 2]\ncheck l -> greet \"yes\"".toList ()) =
      some ["yes".toList] :=
  ⟨rfl, rfl, rfl, rfl, by decide!⟩

theorem trimRightBy_append_singleton (p : Char → Bool) (s : Str) (x : Char)
    (hx : p x = true) : trimRightBy p (s ++ [x]) = trimRightBy p s := by
  simp [trimRightBy, trimLeftBy, hx]

theorem quoteSet_contains (c : Char) (h : c ≠ '"' ∧ c ≠ '\'') :
    "\"'".toList.contains c = false := by
  cases hc : "\"'".toList.contains c with
  | false => rfl
  | true =>
    have hm : c ∈ "\"'".toList := List.mem_of_elem_eq_true hc
    have hm' : c ∈ ['"', '\''] := hm
    simp only [List.mem_cons, List.mem_singleton, List.not_mem_nil, or_false] at hm'
    rcases hm' with e | e
    · exact absurd e h.1
    · exact absurd e h.2

theorem trim_wrapped (p : Char → Bool) (q : Char) (s : Str) (hq : p q = true)
    (hh : ∀ c, s.head? = some c → p c = false)
    (hl : ∀ c, s.getLast? = some c → p c = false) :
    trimRightBy p (trimLeftBy p (q :: (s ++ [q]))) = s := by
  cases s with
  | nil =>
    have e1 : trimLeftBy p (q :: ([] ++ [q])) = [] := by
      simp only [List.nil_append, trimLeftBy, hq, if_true]
    rw [e1]; rfl
  | cons a t =>
    have e1 : trimLeftBy p (q :: (a :: t ++ [q])) = (a :: t) ++ [q] := by
      rw [trimLeftBy, if_pos hq]
      exact trimLeftBy_of_head p _ (fun c hc => hh c (by simpa using hc))
    rw [e1, trimRightBy_append_singleton _ _ _ hq]
    exact trimRightBy_of_last _ _ hl

theorem Trim_quotes (q : Char) (s : Str) (hq : q = '"' ∨ q = '\'')
    (hh : ∀ c, s.head? = some c → c ≠ '"' ∧ c ≠ '\'')
    (hl : ∀ c, s.getLast? = some c → c ≠ '"' ∧ c ≠ '\'') :
    Trim (q :: (s ++ [q])) "\"'".toList = s := by
  have hfq : "\"'".toList.contains q = true := by rcases hq with rfl | rfl <;> decide
  exact trim_wrapped _ q s hfq (fun c hc => quoteSet_contains c (hh c hc))
    (fun c hc => quoteSet_contains c (hl c hc))

/-- Claim C11: for every string `s` that neither begins nor ends with a quote character,
`evaluateExpression` of `s` wrapped in a pair of double quotes, or in a pair of single
quotes (`q` is the quote character), returns exactly the string `s`, whatever the
interpreter holds, and leaves the interpreter as it was. -/
theorem quoted_literal_yields_its_text {W : Type} (h : Host W) (fuel : Nat)
    (i : Interpreter W) (q : Char) (s : Str) (hq : q = '"' ∨ q = '\'')
    (hh : ∀ c, s.head? = some c → c ≠ '"' ∧ c ≠ '\'')
    (hl : ∀ c, s.getLast? = some c → c ≠ '"' ∧ c ≠ '\'') :
    evaluateExpression h (fuel + 1) i (q :: (s ++ [q])) = some (.str s, i) := by
  have hsp : isSpace q = false := by rcases hq with rfl | rfl <;> decide
  have hT : TrimSpace (q :: (s ++ [q])) = q :: (s ++ [q]) := by
    unfold TrimSpace
    rw [trimLeftBy_of_head isSpace _ (by intro c hc; simp at hc; rw [← hc]; exact hsp)]
    apply trimRightBy_of_last
    intro c hc
    have : (q :: (s ++ [q])).getLast? = some q := List.getLast?_concat (q :: s)
    rw [this] at hc
    simp only [Option.some.injEq] at hc
    rw [← hc]; exact hsp
  have hQ : isQuoted (q :: (s ++ [q])) = true := by
    rcases hq with rfl | rfl <;> simp [isQuoted, HasPrefix, HasSuffix]
  rw [evaluateExpression]
  simp only [hT, hQ, if_true, Trim_quotes q s hq hh hl, List.isEmpty_cons, Bool.false_eq_true,
    if_false]

/-- Witness of C11: `"hello"`, and `' a  b '` with its inner blanks, in an
interpreter that binds `a` and `b`. -/
theorem quoted_literal_yields_its_text_witness :
    evaluateExpression nullHost (0 + 1) abInterp ('"' :: ("hello".toList ++ ['"'])) =
      some (.str "hello".toList, abInterp) ∧
    evaluateExpression nullHost (0 + 1) abInterp ('\'' :: (" a  b ".toList ++ ['\''])) =
      some (.str " a  b ".toList, abInterp) ∧
    '"' :: ("hello".toList ++ ['"']) = "\"hello\"".toList :=
  ⟨quoted_literal_yields_its_text nullHost 0 abInterp '"' "hello".toList (Or.inl rfl)
     (by intro c hc; simp at hc; subst hc; decide)
     (by intro c hc; simp at hc; subst hc; decide),
   quoted_literal_yields_its_text nullHost 0 abInterp '\'' " a  b ".toList (Or.inr rfl)
     (by intro c hc; simp at hc; subst hc; decide)
     (by intro c hc; simp at hc; subst hc; decide),
   by decide⟩

/-! ## Integer and boolean literals (C13) -/

theorem digit_mem (c : Char) (h : c.isDigit = true) : c ∈ "0123456789".toList := by
  simp only [Char.isDigit, Bool.and_eq_true, decide_eq_true_eq] at h
  have h1 : 48 ≤ c.toNat := h.1
  have h2 : c.toNat ≤ 57 := h.2
  have hc : c = Char.ofNat c.toNat := (Char.ofNat_toNat c).symm
  rw [hc]
  generalize c.toNat = k at h1 h2
  interval_cases k <;> decide

theorem TrimSpace_of_all (s : Str) (h : ∀ c ∈ s, isSpace c = false) : TrimSpace s = s := by
  unfold TrimSpace
  rw [trimLeftBy_of_head isSpace s (fun c hc => h c (List.mem_of_mem_head? hc))]
  exact trimRightBy_of_last isSpace s (fun c hc => h c (List.mem_of_mem_getLast? hc))

theorem HasPrefix_singleton_false (c q : Char) (cs : Str) (h : c ≠ q) :
    HasPrefix (c :: cs) [q] = false := by
  have h' : q ≠ c := fun e => h e.symm
  simp [HasPrefix, List.isPrefixOf, h']

theorem isQuoted_false_of_head (c : Char) (cs : Str) (h1 : c ≠ '"') (h2 : c ≠ '\'') :
    isQuoted (c :: cs) = false := by
  have a : HasPrefix (c :: cs) "\"".toList = false := HasPrefix_singleton_false c '"' cs h1
  have b : HasPrefix (c :: cs) "'".toList = false := HasPrefix_singleton_false c '\'' cs h2
  simp only [isQuoted, a, b, Bool.false_and, Bool.or_self]

theorem EqualFold_false_of_head (c t : Char) (cs ts : Str) (h1 : c ≠ t) (h2 : c ≠ t.toUpper)
    (h3 : c.toNat ≠ 0x17F) (h4 : c.toNat ≠ 0x212A) :
    EqualFold (c :: cs) (t :: ts) = false := by
  simp [EqualFold, h1, h2, h3, h4]

theorem natDigits_mem (fuel n : Nat) (hn : n < fuel) :
    ∀ c ∈ natDigits fuel n, c ∈ "0123456789".toList := by
  intro c hc
  have hall := (natDigits_spec fuel n hn).1
  rw [List.all_eq_true] at hall
  exact digit_mem c (hall c hc)

theorem Itoa_chars (n : Int) : Itoa n ≠ [] ∧ ∀ c ∈ Itoa n, c ∈ "-0123456789".toList := by
  cases n with
  | ofNat k =>
    refine ⟨(natDigits_spec (k + 1) k (Nat.lt_succ_self k)).2.1, ?_⟩
    intro c hc
    exact List.mem_cons_of_mem _ (natDigits_mem (k + 1) k (Nat.lt_succ_self k) c hc)
  | negSucc m =>
    refine ⟨by simp [Itoa], ?_⟩
    intro c hc
    simp only [Itoa, List.mem_cons] at hc
    rcases hc with rfl | hc
    · decide
    · exact List.mem_cons_of_mem _ (natDigits_mem (m + 2) (m + 1) (by omega) c hc)

theorem Atoi_Itoa_range (n : Int) (h1 : -(2 ^ 63) ≤ n) (h2 : n < 2 ^ 63) :
    Atoi (Itoa n) = (n, true) := by
  cases n with
  | ofNat k =>
    obtain ⟨a1, a2, a3⟩ := natDigits_spec (k + 1) k (Nat.lt_succ_self k)
    have hItoa : Itoa (Int.ofNat k) = natDigits (k + 1) k := rfl
    rw [hItoa]
    cases hd : natDigits (k + 1) k with
    | nil => exact absurd hd a2
    | cons c cs =>
      rw [hd] at a1 a3
      have hc : c.isDigit = true := by
        simp only [List.all_cons, Bool.and_eq_true] at a1; exact a1.1
      have hm : c ≠ '-' := by rintro rfl; revert hc; decide
      have hp : c ≠ '+' := by rintro rfl; revert hc; decide
      have hk : k < 2 ^ 63 := by
        have : (k : Int) < 2 ^ 63 := h2
        exact_mod_cast this
      unfold Atoi
      simp only [List.head?_cons, Option.some.injEq, hm, hp, decide_False, Bool.or_self,
        Bool.false_eq_true, if_false, a1, List.isEmpty_cons, Bool.not_true, a3]
      rw [if_neg (by omega)]
      rfl
  | negSucc m =>
    obtain ⟨a1, a2, a3⟩ := natDigits_spec (m + 2) (m + 1) (by omega)
    have hItoa : Itoa (Int.negSucc m) = '-' :: natDigits (m + 2) (m + 1) := rfl
    have hm : m + 1 ≤ 2 ^ 63 := by
      rw [Int.negSucc_eq] at h1; omega
    rw [hItoa]
    unfold Atoi
    cases hd : natDigits (m + 2) (m + 1) with
    | nil => exact absurd hd a2
    | cons c cs =>
      rw [hd] at a1 a3
      simp only [List.head?_cons, List.tail_cons, decide_True, Bool.true_or, if_true, a1,
        List.isEmpty_cons, Bool.not_true, Bool.or_self, Bool.false_eq_true, if_false, a3]
      rw [if_neg (by omega)]
      simp [Int.negSucc_eq]

theorem signDigit_facts :
    ∀ c ∈ "-0123456789".toList,
      isSpace c = false ∧ c ≠ '"' ∧ c ≠ '\'' ∧ c ≠ '[' ∧ c ≠ 't' ∧ c ≠ 'T' ∧ c ≠ 'f' ∧
      c ≠ 'F' ∧ c.toNat ≠ 0x17F ∧ c.toNat ≠ 0x212A := by
  decide

set_option maxRecDepth 4000 in
theorem trueCases_facts :
    ∀ s ∈ letterCases "true".toList,
      TrimSpace s = s ∧ s.isEmpty = false ∧ isQuoted s = false ∧
      (HasPrefix s "[".toList && HasSuffix s "]".toList) = false ∧
      EqualFold s "true".toList = true := by
  decide

set_option maxRecDepth 4000 in
theorem falseCases_facts :
    ∀ s ∈ letterCases "false".toList,
      TrimSpace s = s ∧ s.isEmpty = false ∧ isQuoted s = false ∧
      (HasPrefix s "[".toList && HasSuffix s "]".toList) = false ∧
      EqualFold s "true".toList = false ∧ EqualFold s "false".toList = true := by
  decide

/-- Claim C13: literal rules win over variable lookup. Whatever the interpreter
binds, `evaluateExpression` of the decimal text of an integer `n` of the 64-bit range
returns the integer `n`, and `evaluateExpression` of `true` / `false` spelled in any
letter case returns the boolean true / false; the interpreter is left as it was. -/
theorem literal_wins_over_variable {W : Type} (h : Host W) (fuel : Nat) (i : Interpreter W) :
    (∀ n : Int, -(2 ^ 63) ≤ n → n < 2 ^ 63 →
      evaluateExpression h (fuel + 1) i (Itoa n) = some (.int n, i)) ∧
    (∀ s ∈ letterCases "true".toList,
      evaluateExpression h (fuel + 1) i s = some (.bool true, i)) ∧
    (∀ s ∈ letterCases "false".toList,
      evaluateExpression h (fuel + 1) i s = some (.bool false, i)) := by
  refine ⟨?_, ?_, ?_⟩
  · intro n h1 h2
    obtain ⟨hne, hall⟩ := Itoa_chars n
    have hA := Atoi_Itoa_range n h1 h2
    have hT : TrimSpace (Itoa n) = Itoa n :=
      TrimSpace_of_all _ (fun c hc => (signDigit_facts c (hall c hc)).1)
    cases hs : Itoa n with
    | nil => exact absurd hs hne
    | cons c cs =>
      rw [hs] at hT hA hall
      obtain ⟨_, f2, f3, f4, f5, f6, f7, f8, f9, f10⟩ :=
        signDigit_facts c (hall c (List.mem_cons_self _ _))
      have e1 : isQuoted (c :: cs) = false := isQuoted_false_of_head c cs f2 f3
      have e2 : HasPrefix (c :: cs) "[".toList = false := HasPrefix_singleton_false c '[' cs f4
      have e3 : EqualFold (c :: cs) "true".toList = false :=
        EqualFold_false_of_head c 't' cs _ f5 f6 f9 f10
      have e4 : EqualFold (c :: cs) "false".toList = false :=
        EqualFold_false_of_head c 'f' cs _ f7 f8 f9 f10
      rw [evaluateExpression]
      simp only [hT, List.isEmpty_cons, e1, e2, e3, e4, hA, Bool.false_and, Bool.false_eq_true,
        if_false, if_true]
  · intro s hs
    obtain ⟨g1, g2, g3, g4, g5⟩ := trueCases_facts s hs
    rw [evaluateExpression]
    simp only [g1, g2, g3, g4, g5, Bool.false_eq_true, if_false, if_true]
  · intro s hs
    obtain ⟨g1, g2, g3, g4, g5, g6⟩ := falseCases_facts s hs
    rw [evaluateExpression]
    simp only [g1, g2, g3, g4, g5, g6, Bool.false_eq_true, if_false, if_true]

/-- Witness of C13: in an interpreter whose variables are named `5`, `-12`, `TRUE` and
`false`, the texts `5` and `-12` are the integers, and `TRUE`, `false` the
booleans. -/
theorem literal_wins_over_variable_witness :
    mapGet shadowInterp.vars "5".toList = some (.str "five".toList) ∧
    evaluateExpression nullHost (0 + 1) shadowInterp (Itoa 5) = some (.int 5, shadowInterp) ∧
    evaluateExpression nullHost (0 + 1) shadowInterp (Itoa (-12)) =
      some (.int (-12), shadowInterp) ∧
    Itoa 5 = "5".toList ∧ Itoa (-12) = "-12".toList ∧
    evaluateExpression nullHost (0 + 1) shadowInterp "TRUE".toList =
      some (.bool true, shadowInterp) ∧
    evaluateExpression nullHost (0 + 1) shadowInterp "false".toList =
      some (.bool false, shadowInterp) :=
  ⟨rfl,
   (literal_wins_over_variable nullHost 0 shadowInterp).1 5 (by norm_num) (by norm_num),
   (literal_wins_over_variable nullHost 0 shadowInterp).1 (-12) (by norm_num) (by norm_num),
   by decide, by decide,
   (literal_wins_over_variable nullHost 0 shadowInterp).2.1 "TRUE".toList (by decide),
   (literal_wins_over_variable nullHost 0 shadowInterp).2.2 "false".toList (by decide)⟩

/-! ## Bare words (C14) -/

theorem letter_facts :
    ∀ c ∈ asciiLetters,
      isSpace c = false ∧ c ≠ '"' ∧ c ≠ '\'' ∧ c ≠ '[' ∧ c ≠ '.' ∧ c ≠ '+' ∧ c ≠ '-' ∧
      c ≠ '_' ∧ c.isDigit = false ∧ c ≠ '0' ∧
      (c = lowerByte c ∨ c = (lowerByte c).toUpper) := by
  decide

theorem Contains_singleton_false (x : Char) (s : Str) (h : x ∉ s) : Contains s [x] = false := by
  induction s with
  | nil => simp [Contains]
  | cons c cs ih =>
    have h1 : x ≠ c := fun e => h (e ▸ List.mem_cons_self _ _)
    have h2 : x ∉ cs := fun e => h (List.mem_cons_of_mem _ e)
    simp [Contains, List.isPrefixOf, h1, ih h2]

theorem commonPrefix_fold (w : Str) (hw : ∀ c ∈ w, c ∈ asciiLetters) :
    ∀ P : Str, w.length ≤ commonPrefixLenIgnoreCase w P →
      EqualFold w (P.take w.length) = true := by
  induction w with
  | nil => intro P _; simp [EqualFold]
  | cons c cs ih =>
    intro P hP
    cases P with
    | nil => simp [commonPrefixLenIgnoreCase] at hP
    | cons p ps =>
      simp only [commonPrefixLenIgnoreCase] at hP
      by_cases hcp : lowerByte c = p
      · rw [if_pos hcp] at hP
        have hrec := ih (fun x hx => hw x (List.mem_cons_of_mem _ hx)) ps
          (by simp only [List.length_cons] at hP; omega)
        have hl := (letter_facts c (hw c (List.mem_cons_self _ _))).2.2.2.2.2.2.2.2.2.2
        rw [hcp] at hl
        simp only [List.length_cons, List.take_succ_cons, EqualFold, hrec, Bool.and_true]
        rcases hl with e | e
        · simp [e]
        · rw [e]; simp
      · rw [if_neg hcp] at hP
        simp at hP

theorem Atoi_letter (c : Char) (cs : Str) (hc : c ∈ asciiLetters) : (Atoi (c :: cs)).2 = false := by
  obtain ⟨_, _, _, _, _, f6, f7, _, f9, _, _⟩ := letter_facts c hc
  simp [Atoi, f6, f7, f9]

theorem parseNumber_eq (s : Str) :
    parseNumber s =
      (if !(floatMantissa s).1.sawdigits then (F64.fin false 0 (-1074), false)
       else
        match readExponent
            (hexFlag (if s.head? = some '-' || s.head? = some '+' then s.tail else s))
            (if hexFlag (if s.head? = some '-' || s.head? = some '+' then s.tail else s)
              then (if (floatMantissa s).1.sawdot then (floatMantissa s).1.dp
                else ((floatMantissa s).1.nd : Int)) * 4
              else (if (floatMantissa s).1.sawdot then (floatMantissa s).1.dp
                else ((floatMantissa s).1.nd : Int)))
            (floatMantissa s).1.underscores (floatMantissa s).2 with
        | none => (F64.fin false 0 (-1074), false)
        | some (dp, underscores, left) =>
          if underscores && !underscoreOK (s.take (s.length - left.length)) then
            (F64.fin false 0 (-1074), false)
          else if !left.isEmpty then (F64.fin false 0 (-1074), false)
          else if (floatMantissa s).1.mant = 0 then
            (F64.fin (s.head? = some '-') 0 (-1074), true)
          else ((floatValue s dp).1, !(floatValue s dp).2)) := by
  rfl

theorem parseNumber_shape (s : Str) (h : (parseNumber s).2 = true) :
    (floatMantissa s).1.sawdigits = true ∧
    ∃ dp1 dp u, readExponent
      (hexFlag (if s.head? = some '-' || s.head? = some '+' then s.tail else s)) dp1
      (floatMantissa s).1.underscores (floatMantissa s).2 = some (dp, u, []) := by
  rw [parseNumber_eq] at h
  obtain ⟨dp1, hdp1⟩ : ∃ d : Int, d =
      (if hexFlag (if s.head? = some '-' || s.head? = some '+' then s.tail else s)
        then (if (floatMantissa s).1.sawdot then (floatMantissa s).1.dp
          else ((floatMantissa s).1.nd : Int)) * 4
        else (if (floatMantissa s).1.sawdot then (floatMantissa s).1.dp
          else ((floatMantissa s).1.nd : Int))) := ⟨_, rfl⟩
  rw [← hdp1] at h
  by_cases h1 : (!(floatMantissa s).1.sawdigits) = true
  · rw [if_pos h1] at h; simp at h
  · rw [if_neg h1] at h
    refine ⟨by simpa using h1, ?_⟩
    cases hre : readExponent
        (hexFlag (if s.head? = some '-' || s.head? = some '+' then s.tail else s)) dp1
        (floatMantissa s).1.underscores (floatMantissa s).2 with
    | none => rw [hre] at h; simp at h
    | some val =>
      obtain ⟨dp, u, left⟩ := val
      cases left with
      | nil => exact ⟨dp1, dp, u, hre⟩
      | cons a b =>
        rw [hre] at h
        simp only [List.isEmpty_cons, Bool.not_false, if_true] at h
        by_cases h2 : (u && !underscoreOK (List.take (s.length - (a :: b).length) s)) = true
        · rw [if_pos h2] at h; simp at h
        · rw [if_neg h2] at h; simp at h

theorem hexFlag_cons_ne (c : Char) (cs : Str) (h : c ≠ '0') : hexFlag (c :: cs) = false := by
  unfold hexFlag
  split
  · rename_i heq; simp only [List.cons.injEq] at heq; exact absurd heq.1 h
  · rfl

theorem parseNumber_letter (c : Char) (cs : Str) (hc : c ∈ asciiLetters) :
    (parseNumber (c :: cs)).2 = false := by
  obtain ⟨_, _, _, _, f5, f6, f7, f8, f9, f10, _⟩ := letter_facts c hc
  cases hp : (parseNumber (c :: cs)).2 with
  | false => rfl
  | true =>
    have hs := (parseNumber_shape (c :: cs) hp).1
    have hm : (floatMantissa (c :: cs)).1.sawdigits = false := by
      simp only [floatMantissa, floatBody, List.head?_cons, Option.some.injEq, f6, f7,
        decide_False, Bool.or_self, Bool.false_eq_true, if_false, hexFlag_cons_ne c cs f10,
        scanMantissa, f8, f5, f9, Bool.false_and]
    rw [hm] at hs
    exact absurd hs (by simp)

theorem ParseFloat_letters (w : Str) (hne : w ≠ []) (hw : ∀ c ∈ w, c ∈ asciiLetters)
    (h1 : EqualFold w "inf".toList = false) (h2 : EqualFold w "infinity".toList = false)
    (h3 : EqualFold w "nan".toList = false) : (ParseFloat w).2 = false := by
  cases w with
  | nil => exact absurd rfl hne
  | cons c cs =>
    obtain ⟨_, _, _, _, f5, f6, f7, f8, f9, f10, _⟩ := letter_facts c (hw c (List.mem_cons_self _ _))
    unfold ParseFloat
    simp only [List.head?_cons, Option.some.injEq, f6, f7, decide_False, Bool.or_self,
      Bool.false_or, Bool.false_eq_true, if_false]
    generalize hn : commonPrefixLenIgnoreCase (c :: cs) "infinity".toList = n
    have key : (if 3 < n ∧ n < 8 then 3 else n) ≤ n := by split_ifs <;> omega
    generalize (if 3 < n ∧ n < 8 then 3 else n) = n' at key ⊢
    by_cases hA : ((decide (c = 'i') || decide (c = 'I')) &&
        (decide (n' = 3) || decide (n' = 8))) = true
    · rw [if_pos hA]
      by_cases hB : (c :: cs).length = n'
      · exfalso
        have hle : (c :: cs).length ≤ commonPrefixLenIgnoreCase (c :: cs) "infinity".toList := by
          rw [hn, hB]; exact key
        have hf := commonPrefix_fold (c :: cs) hw _ hle
        simp only [Bool.and_eq_true, Bool.or_eq_true, decide_eq_true_eq] at hA
        rcases hA.2 with e3 | e8
        · rw [hB, e3] at hf
          have : EqualFold (c :: cs) "inf".toList = true := hf
          rw [h1] at this; exact absurd this (by simp)
        · rw [hB, e8] at hf
          have : EqualFold (c :: cs) "infinity".toList = true := hf
          rw [h2] at this; exact absurd this (by simp)
      · rw [if_neg hB]
    · rw [if_neg hA]
      by_cases hC : ((decide (c = 'n') || decide (c = 'N')) &&
          decide (commonPrefixLenIgnoreCase (c :: cs) "nan".toList = 3)) = true
      · rw [if_pos hC]
        by_cases hD : (c :: cs).length = 3
        · exfalso
          simp only [Bool.and_eq_true, decide_eq_true_eq] at hC
          have hle : (c :: cs).length ≤ commonPrefixLenIgnoreCase (c :: cs) "nan".toList := by
            rw [hD, hC.2]
          have hf := commonPrefix_fold (c :: cs) hw _ hle
          rw [hD] at hf
          have : EqualFold (c :: cs) "nan".toList = true := hf
          rw [h3] at this; exact absurd this (by simp)
        · rw [if_neg hD]
      · rw [if_neg hC]
        exact parseNumber_letter c cs (hw c (List.mem_cons_self _ _))

/-- Claim C14 (amended): unresolved bare words become their own value, unless they
spell a float: for every non-empty word `w` of ASCII letters that is not bound as a
variable, is not `true` or `false` in any letter case, and is not `inf`, `infinity`
or `nan` in any letter case, `evaluateExpression(w)` returns the string `w` and
leaves the interpreter as it was. -/
theorem bare_word_is_its_own_value {W : Type} (h : Host W) (fuel : Nat) (i : Interpreter W)
    (w : Str) (hne : w ≠ []) (hw : ∀ c ∈ w, c ∈ asciiLetters)
    (hv : mapGet i.vars w = none)
    (hb1 : EqualFold w "true".toList = false) (hb2 : EqualFold w "false".toList = false)
    (h1 : EqualFold w "inf".toList = false) (h2 : EqualFold w "infinity".toList = false)
    (h3 : EqualFold w "nan".toList = false) :
    evaluateExpression h (fuel + 1) i w = some (.str w, i) := by
  have hT : TrimSpace w = w := TrimSpace_of_all w (fun c hc => (letter_facts c (hw c hc)).1)
  have hF := ParseFloat_letters w hne hw h1 h2 h3
  have hdot : Contains w ".".toList = false :=
    Contains_singleton_false '.' w (fun hm => (letter_facts _ (hw _ hm)).2.2.2.2.1 rfl)
  have hplus : Contains w "+".toList = false :=
    Contains_singleton_false '+' w (fun hm => (letter_facts _ (hw _ hm)).2.2.2.2.2.1 rfl)
  cases w with
  | nil => exact absurd rfl hne
  | cons c cs =>
    obtain ⟨_, f2, f3, f4, _⟩ := letter_facts c (hw c (List.mem_cons_self _ _))
    have e1 : isQuoted (c :: cs) = false := isQuoted_false_of_head c cs f2 f3
    have e2 : HasPrefix (c :: cs) "[".toList = false := HasPrefix_singleton_false c '[' cs f4
    have e3 : (Atoi (c :: cs)).2 = false := Atoi_letter c cs (hw c (List.mem_cons_self _ _))
    have e4 : propertyAccess i.vars (c :: cs) = none := by
      simp only [propertyAccess, hdot, Bool.false_and, Bool.false_eq_true, if_false]
    have e5 : moduleCall h (c :: cs) = none := by
      simp only [moduleCall, hdot, Bool.false_eq_true, if_false]
    have e6 : evalPlus (evaluateExpression h fuel) i (c :: cs) = some (.str (c :: cs), i) := by
      simp only [evalPlus, hplus, Bool.false_eq_true, if_false]
    rw [evaluateExpression]
    simp only [hT, List.isEmpty_cons, e1, e2, hb1, hb2, e3, hF, hv, e4, e5, e6, Bool.false_and,
      Bool.false_eq_true, if_false]

/-- Witness of C14 (amended): the words `hello` and `Information`. -/
theorem bare_word_is_its_own_value_witness :
    evaluateExpression nullHost (0 + 1) abInterp "hello".toList =
      some (.str "hello".toList, abInterp) ∧
    evaluateExpression nullHost (0 + 1) abInterp "Information".toList =
      some (.str "Information".toList, abInterp) :=
  ⟨bare_word_is_its_own_value nullHost 0 abInterp "hello".toList (by decide) (by decide) rfl
     (by decide) (by decide) (by decide) (by decide) (by decide),
   bare_word_is_its_own_value nullHost 0 abInterp "Information".toList (by decide) (by decide)
     rfl (by decide) (by decide) (by decide) (by decide) (by decide)⟩

/-- Counterexample to C14 as stated: the words `inf`, `nan` and `Infinity` are made
of ASCII letters, are not bound and are no boolean literal, yet `evaluateExpression`
returns the floats +Inf, NaN and +Inf, not the words: the float-literal rule takes
them. `greet nan` prints `NaN`. -/
theorem float_words_are_not_their_own_value :
    mapGet abInterp.vars "inf".toList = none ∧
    EqualFold "inf".toList "true".toList = false ∧
    EqualFold "inf".toList "false".toList = false ∧
    evaluateExpression nullHost 1 abInterp "inf".toList =
      some (.float (F64.inf false), abInterp) ∧
    evaluateExpression nullHost 1 abInterp "nan".toList = some (.float F64.nan, abInterp) ∧
    evaluateExpression nullHost 1 abInterp "Infinity".toList =
      some (.float (F64.inf false), abInterp) ∧
    finalOut (RunSource nullHost 20 "greet nan".toList ()) = some ["NaN".toList] :=
  ⟨rfl, by decide, by decide, rfl, rfl, rfl, rfl⟩

/-! ## A text that holds a character of no float literal -/

theorem floatStop_facts (x : Char) (h : floatStop x = true) :
    x ≠ '_' ∧ x ≠ '.' ∧ x.isDigit = false ∧
    ('a'.toNat ≤ (lowerByte x).toNat && (lowerByte x).toNat ≤ 'f'.toNat) = false ∧
    lowerByte x ≠ 'e' ∧ lowerByte x ≠ 'p' ∧ x ≠ '+' ∧ x ≠ '-' ∧ lowerByte x ≠ 'x' ∧ x ≠ '0' ∧
    lowerByte x ∉ "infinity".toList ∧ lowerByte x ∉ "nan".toList := by
  unfold floatStop at h
  simp only [Bool.and_eq_true, Bool.not_eq_true', decide_eq_true_eq] at h
  obtain ⟨⟨⟨⟨g1, g2⟩, g3⟩, g4⟩, g5⟩ := h
  have hm : ∀ y ∈ "ep+-x0intya".toList, lowerByte x ≠ y := by
    intro y hy e
    have : "ep+-x0intya".toList.contains (lowerByte x) = true := by
      rw [e]; exact List.elem_eq_true_of_mem hy
    rw [g5] at this; exact absurd this (by simp)
  refine ⟨g1, g2, g3, g4, hm _ (by decide), hm _ (by decide), ?_, ?_, hm _ (by decide), ?_, ?_, ?_⟩
  · rintro rfl; exact hm '+' (by decide) (by decide)
  · rintro rfl; exact hm '-' (by decide) (by decide)
  · rintro rfl; exact hm '0' (by decide) (by decide)
  · intro hin
    have : ∀ y ∈ "infinity".toList, y ∈ "ep+-x0intya".toList ∨ y = 'f' := by decide
    rcases this _ hin with e | e
    · exact hm _ e rfl
    · rw [e] at g4; exact absurd g4 (by decide)
  · intro hin
    have : ∀ y ∈ "nan".toList, y ∈ "ep+-x0intya".toList := by decide
    exact hm _ (this _ hin) rfl

theorem scanMantissa_mem (x : Char) (hx : floatStop x = true) (hex : Bool) :
    ∀ (s : Str) (st : FloatScan), x ∈ s → x ∈ (scanMantissa hex s st).2 := by
  obtain ⟨g1, g2, g3, g4, _⟩ := floatStop_facts x hx
  intro s
  induction s with
  | nil => intro st hm; exact absurd hm (List.not_mem_nil _)
  | cons c cs ih =>
    intro st hm
    have hrec : x ≠ c → ∀ st', x ∈ (scanMantissa hex cs st').2 := by
      intro hne st'
      rcases List.mem_cons.mp hm with e | e
      · exact absurd e hne
      · exact ih st' e
    unfold scanMantissa
    by_cases a : c = '_'
    · rw [if_pos a]; exact hrec (by rw [a]; exact g1) _
    rw [if_neg a]
    by_cases b : c = '.'
    · rw [if_pos b]
      by_cases d : st.sawdot = true
      · rw [if_pos d]; exact hm
      · rw [if_neg d]; exact hrec (by rw [b]; exact g2) _
    rw [if_neg b]
    by_cases e : c.isDigit = true
    · rw [if_pos e]
      have hne : x ≠ c := by rintro rfl; rw [g3] at e; exact absurd e (by simp)
      split_ifs <;> exact hrec hne _
    rw [if_neg e]
    by_cases g : (hex && decide ('a'.toNat ≤ (lowerByte c).toNat) &&
        decide ((lowerByte c).toNat ≤ 'f'.toNat)) = true
    · rw [if_pos g]
      refine hrec ?_ _
      rintro rfl
      simp only [Bool.and_eq_true] at g
      have h1 := g.1.2
      have h2 := g.2
      simp only [h1, h2, Bool.and_self] at g4
      exact absurd g4 (by simp)
    · rw [if_neg g]; exact hm

theorem scanExpDigits_mem (x : Char) (hx : floatStop x = true) :
    ∀ (s : Str) (e : Nat) (u : Bool), x ∈ s → x ∈ (scanExpDigits s e u).2.2 := by
  obtain ⟨g1, g2, g3, _⟩ := floatStop_facts x hx
  intro s
  induction s with
  | nil => intro e u hm; exact absurd hm (List.not_mem_nil _)
  | cons c cs ih =>
    intro e u hm
    have hrec : x ≠ c → ∀ e' u', x ∈ (scanExpDigits cs e' u').2.2 := by
      intro hne e' u'
      rcases List.mem_cons.mp hm with h | h
      · exact absurd h hne
      · exact ih e' u' h
    unfold scanExpDigits
    by_cases a : c = '_'
    · rw [if_pos a]; exact hrec (by rw [a]; exact g1) _ _
    rw [if_neg a]
    by_cases b : c.isDigit = true
    · rw [if_pos b]
      exact hrec (by rintro rfl; rw [g3] at b; exact absurd b (by simp)) _ _
    · rw [if_neg b]; exact hm

theorem mem_unsign (x : Char) (s : Str) (h1 : x ≠ '+') (h2 : x ≠ '-') (hm : x ∈ s) :
    x ∈ (if s.head? = some '-' || s.head? = some '+' then s.tail else s) := by
  by_cases hc : (decide (s.head? = some '-') || decide (s.head? = some '+')) = true
  · rw [if_pos hc]
    cases s with
    | nil => exact absurd hm (List.not_mem_nil _)
    | cons c cs =>
      simp only [List.head?_cons, Option.some.injEq, Bool.or_eq_true, decide_eq_true_eq] at hc
      rcases List.mem_cons.mp hm with e | e
      · rcases hc with r | r
        · exact absurd (e.trans r) h2
        · exact absurd (e.trans r) h1
      · exact e
  · rw [if_neg hc]; exact hm

theorem readExponent_left (x : Char) (hx : floatStop x = true) (hex : Bool) (dp1 dp : Int)
    (u u' : Bool) (rest left : Str) (hm : x ∈ rest)
    (h : readExponent hex dp1 u rest = some (dp, u', left)) : x ∈ left := by
  obtain ⟨_, _, _, _, g5, g6, g7, g8, _⟩ := floatStop_facts x hx
  cases rest with
  | nil => exact absurd hm (List.not_mem_nil _)
  | cons c cs =>
    rw [readExponent] at h
    by_cases a : lowerByte c = (if hex = true then 'p' else 'e')
    · rw [if_pos a] at h
      have hne : x ≠ c := by
        rintro rfl
        cases hex
        · exact g5 (by simpa using a)
        · exact g6 (by simpa using a)
      have hcs : x ∈ cs := by
        rcases List.mem_cons.mp hm with e | e
        · exact absurd e hne
        · exact e
      have hds := mem_unsign x cs g7 g8 hcs
      split at h
      · rename_i d tl hd
        by_cases b : d.isDigit = true
        · rw [if_pos b] at h
          simp only [Option.some.injEq, Prod.mk.injEq] at h
          rw [← h.2.2]
          exact scanExpDigits_mem x hx _ 0 u hds
        · rw [if_neg b] at h; exact absurd h (by simp)
      · exact absurd h (by simp)
    · rw [if_neg a] at h
      by_cases b : hex = true
      · rw [if_pos b] at h; exact absurd h (by simp)
      · rw [if_neg b] at h
        simp only [Option.some.injEq, Prod.mk.injEq] at h
        rw [← h.2.2]; exact hm

theorem floatBody_mem (x : Char) (hx : floatStop x = true) (s : Str) (hm : x ∈ s) :
    x ∈ floatBody s := by
  obtain ⟨_, _, _, _, _, _, g7, g8, g9, g10, _⟩ := floatStop_facts x hx
  have ht := mem_unsign x s g7 g8 hm
  unfold floatBody
  generalize (if s.head? = some '-' || s.head? = some '+' then s.tail else s) = t at ht ⊢
  by_cases hh : hexFlag t = true
  · rw [if_pos hh]
    unfold hexFlag at hh
    split at hh
    · rename_i y z tl
      have hy : lowerByte y = 'x' := by simpa using hh
      simp only [List.mem_cons] at ht
      rcases ht with e | e | e
      · exact absurd e g10
      · exact absurd (e ▸ hy) g9
      · simpa using e
    · exact absurd hh (by simp)
  · rw [if_neg hh]; exact ht

theorem parseNumber_stop (x : Char) (hx : floatStop x = true) (s : Str) (hm : x ∈ s) :
    (parseNumber s).2 = false := by
  cases hp : (parseNumber s).2 with
  | false => rfl
  | true =>
    obtain ⟨_, dp1, dp, u, hre⟩ := parseNumber_shape s hp
    have hrest : x ∈ (floatMantissa s).2 :=
      scanMantissa_mem x hx _ _ _ (floatBody_mem x hx s hm)
    exact absurd (readExponent_left x hx _ _ _ _ _ _ _ hrest hre) (List.not_mem_nil _)

theorem commonPrefix_all (w : Str) :
    ∀ P : Str, w.length ≤ commonPrefixLenIgnoreCase w P → ∀ c ∈ w, lowerByte c ∈ P := by
  induction w with
  | nil => intro P _ c hc; exact absurd hc (List.not_mem_nil _)
  | cons a as ih =>
    intro P hP c hc
    cases P with
    | nil => simp [commonPrefixLenIgnoreCase] at hP
    | cons p ps =>
      simp only [commonPrefixLenIgnoreCase] at hP
      by_cases hcp : lowerByte a = p
      · rw [if_pos hcp] at hP
        rcases List.mem_cons.mp hc with e | e
        · rw [e, hcp]; exact List.mem_cons_self _ _
        · exact List.mem_cons_of_mem _
            (ih ps (by simp only [List.length_cons] at hP; omega) c e)
      · rw [if_neg hcp] at hP
        simp at hP

theorem ParseFloat_stop (x : Char) (hx : floatStop x = true) (s : Str) (hm : x ∈ s) :
    (ParseFloat s).2 = false := by
  obtain ⟨_, _, _, _, _, _, g7, g8, _, _, g11, g12⟩ := floatStop_facts x hx
  have ht := mem_unsign x s g7 g8 hm
  unfold ParseFloat
  simp only []
  generalize (if s.head? = some '-' || s.head? = some '+' then s.tail else s) = t at ht ⊢
  generalize hn : commonPrefixLenIgnoreCase t "infinity".toList = n
  have key : (if 3 < n ∧ n < 8 then 3 else n) ≤ n := by split_ifs <;> omega
  generalize (if 3 < n ∧ n < 8 then 3 else n) = n' at key ⊢
  split_ifs with a b c d
  · exfalso
    have hle : t.length ≤ commonPrefixLenIgnoreCase t "infinity".toList := by
      rw [hn, b]; exact key
    exact g11 (commonPrefix_all t _ hle x ht)
  · rfl
  · exfalso
    simp only [Bool.and_eq_true, decide_eq_true_eq] at c
    have hle : s.length ≤ commonPrefixLenIgnoreCase s "nan".toList := by rw [d, c.2]
    exact g12 (commonPrefix_all s _ hle x hm)
  · rfl
  · exact parseNumber_stop x hx s hm

/-! ## Property access (C15) -/

theorem EqualFold_length : ∀ (s p : Str), EqualFold s p = true → s.length = p.length := by
  intro s
  induction s with
  | nil => intro p h; cases p with
    | nil => rfl
    | cons t ts => simp [EqualFold] at h
  | cons c cs ih =>
    intro p h
    cases p with
    | nil => simp [EqualFold] at h
    | cons t ts =>
      simp only [EqualFold, Bool.and_eq_true] at h
      simp only [List.length_cons, ih ts h.2]

theorem Atoi_ok_tail (s : Str) (h : (Atoi s).2 = true) : ∀ c ∈ s.tail, c.isDigit = true := by
  unfold Atoi at h
  simp only [] at h
  by_cases hs : (decide (s.head? = some '-') || decide (s.head? = some '+')) = true
  · rw [if_pos hs] at h
    by_cases hd : (s.tail.isEmpty || !s.tail.all Char.isDigit) = true
    · rw [if_pos hd] at h; exact absurd h (by simp)
    · simp only [Bool.or_eq_true, Bool.not_eq_true', not_or, Bool.not_eq_false] at hd
      intro c hc
      exact List.all_eq_true.mp hd.2 c hc
  · rw [if_neg hs] at h
    by_cases hd : (s.isEmpty || !s.all Char.isDigit) = true
    · rw [if_pos hd] at h; exact absurd h (by simp)
    · simp only [Bool.or_eq_true, Bool.not_eq_true', not_or, Bool.not_eq_false] at hd
      intro c hc
      exact List.all_eq_true.mp hd.2 c (List.mem_of_mem_tail hc)

theorem HasSuffix_last_ne (a : Str) (x q : Char) (h : x ≠ q) : HasSuffix (a ++ [x]) [q] = false := by
  have h' : q ≠ x := fun e => h e.symm
  simp [HasSuffix, List.isPrefixOf, h']

theorem mem_tail_append (x : Char) (v P : Str) (h : x ∈ P.tail) : x ∈ (v ++ P).tail := by
  cases v with
  | nil => simpa using h
  | cons c cs =>
    simp only [List.cons_append, List.tail_cons, List.mem_append]
    exact Or.inr (List.mem_of_mem_tail h)

theorem dotted_not_literal (v P0 : Str) (x plast : Char)
    (hx : floatStop x = true) (hxd : x.isDigit = false) (hxP : x ∈ P0 ++ [plast])
    (hq1 : plast ≠ '"') (hq2 : plast ≠ '\'') (hq3 : plast ≠ ']')
    (hspP : ∀ c ∈ P0 ++ [plast], isSpace c = false) (hlen : 5 ≤ (P0 ++ [plast]).length)
    (hsp : ∀ c ∈ v, isSpace c = false) :
    notLiteral (v ++ '.' :: (P0 ++ [plast])) = true ∧
    TrimSpace (v ++ '.' :: (P0 ++ [plast])) = v ++ '.' :: (P0 ++ [plast]) := by
  have hw : v ++ '.' :: (P0 ++ [plast]) = (v ++ '.' :: P0) ++ [plast] := by simp
  have hmem : x ∈ v ++ '.' :: (P0 ++ [plast]) :=
    List.mem_append_of_mem_right _ (List.mem_cons_of_mem _ hxP)
  have hmemt : x ∈ (v ++ '.' :: (P0 ++ [plast])).tail :=
    mem_tail_append x v _ (by simpa using hxP)
  refine ⟨?_, ?_⟩
  · have e0 : (v ++ '.' :: (P0 ++ [plast])).isEmpty = false := by cases v <;> rfl
    have s1 : HasSuffix (v ++ '.' :: (P0 ++ [plast])) "\"".toList = false := by
      rw [hw]; exact HasSuffix_last_ne _ _ _ hq1
    have s2 : HasSuffix (v ++ '.' :: (P0 ++ [plast])) "'".toList = false := by
      rw [hw]; exact HasSuffix_last_ne _ _ _ hq2
    have s3 : HasSuffix (v ++ '.' :: (P0 ++ [plast])) "]".toList = false := by
      rw [hw]; exact HasSuffix_last_ne _ _ _ hq3
    have e1 : isQuoted (v ++ '.' :: (P0 ++ [plast])) = false := by
      simp only [isQuoted, s1, s2, Bool.and_false, Bool.or_self]
    have hlen' : 6 ≤ (v ++ '.' :: (P0 ++ [plast])).length := by
      simp only [List.length_append, List.length_cons] at hlen ⊢; omega
    have e3 : EqualFold (v ++ '.' :: (P0 ++ [plast])) "true".toList = false := by
      cases hc : EqualFold (v ++ '.' :: (P0 ++ [plast])) "true".toList with
      | false => rfl
      | true =>
        have := EqualFold_length _ _ hc
        rw [this] at hlen'; exact absurd hlen' (by decide)
    have e4 : EqualFold (v ++ '.' :: (P0 ++ [plast])) "false".toList = false := by
      cases hc : EqualFold (v ++ '.' :: (P0 ++ [plast])) "false".toList with
      | false => rfl
      | true =>
        have := EqualFold_length _ _ hc
        rw [this] at hlen'; exact absurd hlen' (by decide)
    have e5 : (Atoi (v ++ '.' :: (P0 ++ [plast]))).2 = false := by
      cases hc : (Atoi (v ++ '.' :: (P0 ++ [plast]))).2 with
      | false => rfl
      | true =>
        have := Atoi_ok_tail _ hc x hmemt
        rw [hxd] at this; exact absurd this (by simp)
    have e6 := ParseFloat_stop x hx _ hmem
    simp only [notLiteral, e0, e1, s3, e3, e4, e5, e6, Bool.and_false, Bool.not_false,
      Bool.and_self]
  · apply TrimSpace_of_all
    intro c hc
    simp only [List.mem_append, List.mem_cons] at hc
    rcases hc with hc | hc | hc
    · exact hsp c hc
    · rw [hc]; decide
    · exact hspP c (by simpa using hc)

theorem evaluateExpression_after_variables {W : Type} (h : Host W) (fuel : Nat)
    (i : Interpreter W) (e : Str) (hl : notLiteral (TrimSpace e) = true)
    (hv : mapGet i.vars (TrimSpace e) = none) :
    evaluateExpression h (fuel + 1) i e =
      (match propertyAccess i.vars (TrimSpace e) with
        | some v => some (v, i)
        | none => laterRules h fuel i (TrimSpace e)) := by
  simp only [notLiteral, Bool.and_eq_true, Bool.not_eq_true'] at hl
  obtain ⟨⟨⟨⟨⟨⟨h1, h2⟩, h3⟩, h4⟩, h5⟩, h6⟩, h7⟩ := hl
  unfold evaluateExpression laterRules
  simp only [h1, h2, h3, h4, h5, h6, h7, hv, Bool.false_eq_true, if_false]

theorem propertyAccess_dotted (vars : List (Str × Value)) (v P : Str)
    (hdot : '.' ∉ v) (hdotP : '.' ∉ P) (hb : ' ' ∉ v) (hbP : ' ' ∉ P) :
    propertyAccess vars (v ++ '.' :: P) =
      (match mapGet vars v with
        | some val =>
          if P = "length".toList then
            match val with
            | .str s => some (.int s.length)
            | .list _ n => some (.int n)
            | .strs l => some (.int l.length)
            | _ => none
          else if P = "is_empty".toList then
            match val with
            | .str s => some (.bool s.isEmpty)
            | .list _ n => some (.bool (n == 0))
            | .strs l => some (.bool l.isEmpty)
            | _ => none
          else none
        | none => none) := by
  have c1 : Contains (v ++ '.' :: P) ".".toList = true := Contains_append_sep v P '.'
  have c2 : Contains (v ++ '.' :: P) " ".toList = false := by
    apply Contains_singleton_false
    simp only [List.mem_append, List.mem_cons, not_or]
    exact ⟨hb, by decide, hbP⟩
  have c3 : Split (v ++ '.' :: P) '.' = [v, P] := by
    rw [Split_append_sep '.' v P hdot, Split_no_sep '.' P hdotP]
  unfold propertyAccess
  simp only [c1, c2, c3, Bool.not_false, Bool.and_self, if_true]

/-- Claim C15 (amended): for an identifier `v` (no dot, no white space) that the
interpreter binds to the value `val`, and provided the whole text `v.length` (or
`v.is_empty`) is not itself bound as a variable: `v.length` is the number of code
points of a string and the element count of a list (the length of the slice),
`v.is_empty` is whether the string is empty and whether the list has no element; for a value of any other
variant no property is applied and the expression resolves by the later rules
(builtin call, `+`, the text itself). The interpreter is left as it was by the
property access. -/
theorem property_access_on_bound_identifier {W : Type} (h : Host W) (fuel : Nat)
    (i : Interpreter W) (v : Str) (val : Value)
    (hdot : '.' ∉ v) (hsp : ∀ c ∈ v, isSpace c = false) :
    mapGet i.vars v = some val →
    (mapGet i.vars (v ++ ".length".toList) = none →
      evaluateExpression h (fuel + 1) i (v ++ ".length".toList) =
        (match val with
          | .str s => some (.int s.length, i)
          | .list _ n => some (.int n, i)
          | .strs l => some (.int l.length, i)
          | _ => laterRules h fuel i (v ++ ".length".toList))) ∧
    (mapGet i.vars (v ++ ".is_empty".toList) = none →
      evaluateExpression h (fuel + 1) i (v ++ ".is_empty".toList) =
        (match val with
          | .str s => some (.bool s.isEmpty, i)
          | .list _ n => some (.bool (n == 0), i)
          | .strs l => some (.bool l.isEmpty, i)
          | _ => laterRules h fuel i (v ++ ".is_empty".toList))) := by
  intro hv
  have hb : ' ' ∉ v := fun hm => absurd (hsp _ hm) (by decide)
  constructor
  · intro hw
    obtain ⟨n1, n2⟩ := dotted_not_literal v "lengt".toList 'l' 'h' (by decide) (by decide)
      (by decide) (by decide) (by decide) (by decide) (by decide) (by decide) hsp
    have e : v ++ ".length".toList = v ++ '.' :: ("lengt".toList ++ ['h']) := rfl
    rw [e] at hw ⊢
    rw [← n2] at hw
    rw [evaluateExpression_after_variables h fuel i _ (by rw [n2]; exact n1) hw, n2]
    have e2 : v ++ '.' :: ("lengt".toList ++ ['h']) = v ++ '.' :: "length".toList := rfl
    rw [e2, propertyAccess_dotted i.vars v "length".toList hdot (by decide) hb (by decide), hv]
    cases val <;> rfl
  · intro hw
    obtain ⟨n1, n2⟩ := dotted_not_literal v "is_empt".toList 'm' 'y' (by decide) (by decide)
      (by decide) (by decide) (by decide) (by decide) (by decide) (by decide) hsp
    have e : v ++ ".is_empty".toList = v ++ '.' :: ("is_empt".toList ++ ['y']) := rfl
    rw [e] at hw ⊢
    rw [← n2] at hw
    rw [evaluateExpression_after_variables h fuel i _ (by rw [n2]; exact n1) hw, n2]
    have e2 : v ++ '.' :: ("is_empt".toList ++ ['y']) = v ++ '.' :: "is_empty".toList := rfl
    rw [e2, propertyAccess_dotted i.vars v "is_empty".toList hdot (by decide) hb (by decide), hv]
    cases val <;> rfl

/-- Witness of C15 (amended): `s` is bound to a string of five code points (six
bytes), `l` to a list of two elements, `n` to an integer: `n.length` falls to the
later rules, which give the text itself. -/
theorem property_access_on_bound_identifier_witness :
    evaluateExpression nullHost (0 + 1) (propInterp false) ("s".toList ++ ".length".toList) =
      some (.int 5, propInterp false) ∧
    evaluateExpression nullHost (0 + 1) (propInterp false) ("s".toList ++ ".is_empty".toList) =
      some (.bool false, propInterp false) ∧
    evaluateExpression nullHost (0 + 1) (propInterp false) ("l".toList ++ ".length".toList) =
      some (.int 2, propInterp false) ∧
    evaluateExpression nullHost (0 + 1) (propInterp false) ("n".toList ++ ".length".toList) =
      laterRules nullHost 0 (propInterp false) ("n".toList ++ ".length".toList) ∧
    laterRules nullHost 0 (propInterp false) ("n".toList ++ ".length".toList) =
      some (.str "n.length".toList, propInterp false) :=
  ⟨(property_access_on_bound_identifier nullHost 0 (propInterp false) "s".toList
      (.str "h\u00e9llo".toList) (by decide) (by decide) rfl).1 rfl,
   (property_access_on_bound_identifier nullHost 0 (propInterp false) "s".toList
      (.str "h\u00e9llo".toList) (by decide) (by decide) rfl).2 rfl,
   (property_access_on_bound_identifier nullHost 0 (propInterp false) "l".toList
      (.list 0 2) (by decide) (by decide) rfl).1 rfl,
   (property_access_on_bound_identifier nullHost 0 (propInterp false) "n".toList
      (.int 5) (by decide) (by decide) rfl).1 rfl,
   rfl⟩

/-- Counterexample to C15 as stated: the interpreter binds the identifier `s` to a
string of five code points and also binds the whole text `s.length` to 7; then
`evaluateExpression("s.length")` returns 7, the bound variable, not the length 5.
The program `set s = "abc"`, `set s.length = 7`, `greet s.length` prints 7. -/
theorem dotted_variable_shadows_property :
    mapGet (propInterp true).vars "s".toList = some (.str "h\u00e9llo".toList) ∧
    ("h\u00e9llo".toList).length = 5 ∧
    evaluateExpression nullHost 1 (propInterp true) "s.length".toList =
      some (.int 7, propInterp true) ∧
    finalOut (RunSource nullHost 20
      "set s = \"abc\"\nset s.length = 7\ngreet s.length".toList ()) = some ["7".toList] :=
  ⟨rfl, rfl, rfl, rfl⟩

/-! ## A builtin that returns a fault (C16) -/

/-- Claim C16 (amended): when no earlier rule resolves the text (it is no literal, not
bound as a variable as a whole, and no property access that returns) and the text
is a dotted call of a registered builtin `fn` whose arguments evaluate to `args`
and which returns a fault `err`, then `evaluateExpression` returns the absent value
(nil), writes the one line `[Error: err]` behind what the evaluation of the
arguments wrote, raises no fault, and leaves variables, tasks, modules, error state
and return slot as they were (the world and the heap are those the builtin left). -/
theorem builtin_fault_resolves_to_nil {W : Type} (h : Host W) (fuel : Nat)
    (i i1 : Interpreter W) (e : Str) (fn : BuiltinFunc W) (argStr : Str) (args : List Value)
    (res : Value) (err : Str) (hp' : Heap) (w : W)
    (hl : notLiteral (TrimSpace e) = true) (hv : mapGet i.vars (TrimSpace e) = none)
    (hp : propertyAccess i.vars (TrimSpace e) = none)
    (hm : moduleCall h (TrimSpace e) = some (fn, argStr))
    (ha : evalAll (evaluateExpression h fuel) (splitArgsRespectingQuotes argStr) i =
      some (args, i1))
    (hf : fn args i1.heap i1.world = some (res, some err, hp', w)) :
    evaluateExpression h (fuel + 1) i e =
      some (.nil, ⟨i.tasks, i.vars, i.modules, i.returnValue, i.errorOccurred, i.lastError,
        i1.out ++ ["[Error: ".toList ++ err ++ "]".toList], w, hp'⟩) := by
  obtain ⟨a1, a2, a3, a4, a5, a6⟩ :=
    evalAll_frame (evaluateExpression h fuel) (evaluateExpression_frame h fuel) _ _ _ _ ha
  rw [evaluateExpression_after_variables h fuel i e hl hv, hp]
  simp only [laterRules, hm, callBuiltin, ha, hf, Interpreter.print, a1, a2, a3, a4, a5, a6]

/-- Witness of C16 (amended): `math.div 1, 0`, `list.at [1,2], 5` and `text.upper`
without argument, in an interpreter that binds none of `math`, `list`, `text`. -/
theorem builtin_fault_resolves_to_nil_witness :
    evaluateExpression nullHost (2 + 1) abInterp "math.div 1, 0".toList =
      some (.nil, withLine abInterp "[Error: division by zero]".toList) ∧
    evaluateExpression nullHost (2 + 1) abInterp "list.at [1,2], 5".toList =
      some (.nil, withLine (withObj abInterp (.arr 2 [.int 1, .int 2]))
        "[Error: list.at: index out of bounds]".toList) ∧
    evaluateExpression nullHost (2 + 1) abInterp "text.upper".toList =
      some (.nil, withLine abInterp "[Error: text.upper expects string]".toList) :=
  ⟨builtin_fault_resolves_to_nil nullHost 2 abInterp abInterp "math.div 1, 0".toList mathDiv
     "1, 0".toList [.int 1, .int 0] (.int 0) "division by zero".toList [] ()
     (by decide) rfl rfl rfl rfl rfl,
   builtin_fault_resolves_to_nil nullHost 2 abInterp
     (withObj abInterp (.arr 2 [.int 1, .int 2])) "list.at [1,2], 5".toList listAt
     "[1,2], 5".toList [.list 0 2, .int 5] .nil
     "list.at: index out of bounds".toList [.arr 2 [.int 1, .int 2]] ()
     (by decide) rfl rfl rfl rfl rfl,
   builtin_fault_resolves_to_nil nullHost 2 abInterp abInterp "text.upper".toList
     (textUpper nullHost) [] [] (.str []) "text.upper expects string".toList [] ()
     (by decide) rfl rfl rfl rfl rfl⟩

/-- Counterexample to C16 as stated: `text` is a registered module, `length` one of
its functions, and with no argument this builtin returns a fault; yet in an
interpreter that binds the variable `text` to `abc`, `evaluateExpression` of the
dotted call `text.length` is the property access: it returns 3, not nil, and
reports no error line. -/
theorem property_access_shadows_builtin_call :
    (moduleCall nullHost "text.length".toList).map
      (fun p => ((p.1 [] [] ()).map (fun r => r.2.1), p.2)) =
      some (some (some "text.length expects string".toList), []) ∧
    evaluateExpression nullHost 3 textInterp "text.length".toList =
      some (.int 3, textInterp) ∧
    textInterp.out = [] :=
  ⟨rfl, rfl, rfl⟩

/-! ## List literals (C12) -/

/-- Claim C12 (fails): the list literal `["é"]` has one element, a quoted string
without quote characters, whose value is the string `é`; yet `evaluateExpression`
returns a list (a new slice) whose element is the two code points U+00C3 U+00A9,
and `greet` prints them: `parseList`
appends the text byte by byte with `string(ch)`, which turns every byte of a
multi-byte code point into a code point of its own. On ASCII text the literal is
read as described: `[]` is the empty list, `[1, 2, 3]` the list of 1, 2, 3, and
commas or brackets inside quotes or nested brackets do not split elements. -/
theorem list_literal_reencodes_bytes :
    evaluateExpression nullHost 3 abInterp "[\"\u00e9\"]".toList =
      some (.list 0 1, withObj abInterp (.arr 1 [.str "\u00c3\u00a9".toList])) ∧
    evaluateExpression nullHost 3 abInterp "\"\u00e9\"".toList =
      some (.str "\u00e9".toList, abInterp) ∧
    "\u00c3\u00a9".toList ≠ "\u00e9".toList ∧
    evaluateExpression nullHost 3 abInterp "[]".toList =
      some (.list 0 0, withObj abInterp (.arr 0 [])) ∧
    evaluateExpression nullHost 3 abInterp "[1, 2, 3]".toList =
      some (.list 0 3, withObj abInterp (.arr 4 [.int 1, .int 2, .int 3])) ∧
    evaluateExpression nullHost 4 abInterp "[\"a,b\", [1, \"x]\"], 3]".toList =
      some (.list 1 3,
        withObj (withObj abInterp (.arr 2 [.int 1, .str "x]".toList]))
          (.arr 4 [.str "a,b".toList, .list 0 2, .int 3])) ∧
    finalOut (RunSource nullHost 20 "greet [\"\u00e9\"]".toList ()) =
      some ["[\u00c3\u00a9]".toList] :=
  ⟨rfl, rfl, by decide, rfl, rfl, rfl, rfl⟩
/-! ## The imported modules are never read (C26) -/

theorem evalAll_modules {W : Type} (ev : Interpreter W → Str → Option (Value × Interpreter W))
    (m : List (Str × Bool))
    (hev : ∀ i e, ev (setModules m i) e = (ev i e).map (fun r => (r.1, setModules m r.2))) :
    ∀ (es : List Str) (i : Interpreter W),
      evalAll ev es (setModules m i) =
        (evalAll ev es i).map (fun r => (r.1, setModules m r.2)) := by
  intro es
  induction es with
  | nil => intro i; rfl
  | cons e es ih =>
    intro i
    simp only [evalAll, hev]
    cases ev i e with
    | none => rfl
    | some r =>
      obtain ⟨v, i1⟩ := r
      simp only [Option.map_some', ih]
      cases evalAll ev es i1 with
      | none => rfl
      | some r2 => rfl

theorem evaluateExpression_modules {W : Type} (h : Host W) (m : List (Str × Bool)) :
    ∀ (fuel : Nat) (i : Interpreter W) (e : Str),
      evaluateExpression h fuel (setModules m i) e =
        (evaluateExpression h fuel i e).map (fun r => (r.1, setModules m r.2)) := by
  intro fuel
  induction fuel with
  | zero => intro i e; rfl
  | succ n ih =>
    intro i e
    have hall := evalAll_modules (evaluateExpression h n) m ih
    have hv : (setModules m i).vars = i.vars := rfl
    unfold evaluateExpression
    simp only [hv]
    split_ifs
    · rfl
    · rfl
    · unfold parseList
      split_ifs
      · rfl
      · rw [hall]
        cases evalAll (evaluateExpression h n) _ i with
        | none => rfl
        | some r => rfl
    · rfl
    · rfl
    · rfl
    · rfl
    · cases mapGet i.vars (TrimSpace e) with
      | some val => rfl
      | none =>
        simp only []
        cases propertyAccess i.vars (TrimSpace e) with
        | some v => rfl
        | none =>
          simp only []
          cases moduleCall h (TrimSpace e) with
          | some p =>
            obtain ⟨fn, argStr⟩ := p
            simp only [callBuiltin, hall]
            cases evalAll (evaluateExpression h n) (splitArgsRespectingQuotes argStr) i with
            | none => rfl
            | some r =>
              obtain ⟨args, i1⟩ := r
              simp only [Option.map_some']
              have hw : (setModules m i1).world = i1.world := rfl
              have hh : (setModules m i1).heap = i1.heap := rfl
              rw [hw, hh]
              cases hf : fn args i1.heap i1.world with
              | none => rfl
              | some x =>
                obtain ⟨res, err, hp, w⟩ := x
                cases err <;> rfl
          | none =>
            simp only [evalPlus]
            split
            · rename_i p0 p1 _
              rw [ih]
              cases evaluateExpression h n i p0 with
              | none => rfl
              | some r1 =>
                obtain ⟨l, i1⟩ := r1
                simp only [Option.map_some', ih]
                cases evaluateExpression h n i1 p1 with
                | none => rfl
                | some r2 =>
                  obtain ⟨r, i2⟩ := r2
                  simp only [Option.map_some']
                  have hh : (setModules m i2).heap = i2.heap := rfl
                  rw [hh]
                  cases addValues i2.heap l r with
                  | none => rfl
                  | some x => cases x <;> rfl
            · rfl

/-- Claim C26: import status never gates dispatch. `evaluateExpression` run in the
interpreter `i` with its set of imported modules replaced by any `m` gives the same
value and the same resulting interpreter (output included) up to that set; the
dotted call `text.upper "hi"` yields `HI` in a fresh interpreter, in which no `use`
was executed; and `executeUse` leaves tasks, variables, return slot, error state
and world as they were, and writes one line of output. -/
theorem import_status_never_gates_dispatch {W : Type} (h : Host W) (fuel : Nat)
    (i : Interpreter W) (m : List (Str × Bool)) (e : Str) :
    evaluateExpression h fuel (setModules m i) e =
      (evaluateExpression h fuel i e).map (fun r => (r.1, setModules m r.2)) ∧
    (∀ w : W, evaluateExpression h 2 (NewInterpreter [] w) "text.upper \"hi\"".toList =
      some (.str "HI".toList, NewInterpreter [] w)) ∧
    (∀ module : Str,
      (executeUse h i module).tasks = i.tasks ∧ (executeUse h i module).vars = i.vars ∧
      (executeUse h i module).returnValue = i.returnValue ∧
      (executeUse h i module).errorOccurred = i.errorOccurred ∧
      (executeUse h i module).lastError = i.lastError ∧
      (executeUse h i module).world = i.world ∧
      ∃ line, (executeUse h i module).out = i.out ++ [line]) := by
  refine ⟨evaluateExpression_modules h m fuel i e, fun w => rfl, ?_⟩
  intro module
  unfold executeUse
  cases mapGet (StdlibModules h) (TrimSpace module) with
  | none => exact ⟨rfl, rfl, rfl, rfl, rfl, rfl, _, rfl⟩
  | some fs => exact ⟨rfl, rfl, rfl, rfl, rfl, rfl, _, rfl⟩

/-! ## Protect and a statement that faults (C22) -/

theorem cleanRun_protectLoop {W : Type} (exec : Node → Interpreter W → Res W) :
    ∀ (pre rest : List Node) (i iPre : Interpreter W),
      cleanRun exec pre i = some iPre →
      protectLoop exec (pre ++ rest) i = protectLoop exec rest iPre ∧
      execList exec pre i = .ok iPre := by
  intro pre
  induction pre with
  | nil =>
    intro rest i iPre hc
    simp only [cleanRun, Option.some.injEq] at hc
    subst hc; exact ⟨rfl, rfl⟩
  | cons s ss ih =>
    intro rest i iPre hc
    simp only [cleanRun] at hc
    cases hs : exec s i with
    | ok i1 =>
      rw [hs] at hc
      simp only at hc
      by_cases he : i1.errorOccurred = true
      · rw [if_pos he] at hc; exact absurd hc (by simp)
      · rw [if_neg he] at hc
        obtain ⟨a, b⟩ := ih rest i1 iPre hc
        simp only [List.cons_append, protectLoop, execList, hs, he, Bool.false_eq_true,
          if_false]
        exact ⟨a, b⟩
    | panic msg j => rw [hs] at hc; exact absurd hc (by simp)
    | outOfFuel => rw [hs] at hc; exact absurd hc (by simp)

/-- Claim C22: when the statements before the `j`-th of the protect body (`pre`)
run to their end without fault, and the `j`-th statement `sj` raises the runtime
fault `msg` (leaving the interpreter `iF`), `executeProtect` has executed `pre`
completely, executes none of the statements `post` behind `sj`, sets the error
flag, records the fault, writes `[Error caught: msg]`, and returns what the handle
body, executed once from that state, returns: the fault is not propagated. The
executor `exec` stands for the execution of one statement. -/
theorem protect_recovers_first_fault {W : Type} (exec : Node → Interpreter W → Res W)
    (i iPre iF : Interpreter W) (pre post handle : List Node) (sj : Node) (msg : Str)
    (hpre : cleanRun exec pre { i with errorOccurred := false, lastError := none } = some iPre)
    (hj : exec sj iPre = .panic msg iF) :
    executeProtect exec i (pre ++ sj :: post) handle =
      execList exec handle
        ({ iF with errorOccurred := true, lastError := some msg }.print
          ("[Error caught: ".toList ++ msg ++ "]".toList)) ∧
    execList exec pre { i with errorOccurred := false, lastError := none } = .ok iPre := by
  obtain ⟨a, b⟩ := cleanRun_protectLoop exec pre (sj :: post) _ iPre hpre
  refine ⟨?_, b⟩
  unfold executeProtect
  rw [a]
  simp only [protectLoop, hj]

/-- Witness of C22 (`j = 2`): the protect body `greet 1`, `run x`, `greet 3` with the
handle body `greet "h"`, under an executor in which `run` faults: the output is `1`,
the report of the fault and `h`; `3` is never written. -/
theorem protect_recovers_first_fault_witness :
    (executeProtect faultyExec abInterp
        ([Node.Greet "1".toList] ++ Node.Run "x".toList :: [Node.Greet "3".toList])
        [Node.Greet "\"h\"".toList] =
      execList faultyExec [Node.Greet "\"h\"".toList]
        ({ withLine abInterp "1".toList with
            errorOccurred := true, lastError := some "boom".toList }.print
          ("[Error caught: ".toList ++ "boom".toList ++ "]".toList)) ∧
    execList faultyExec [Node.Greet "1".toList]
        { abInterp with errorOccurred := false, lastError := none } =
      .ok (withLine abInterp "1".toList)) ∧
    (executeProtect faultyExec abInterp
        ([Node.Greet "1".toList] ++ Node.Run "x".toList :: [Node.Greet "3".toList])
        [Node.Greet "\"h\"".toList]).out =
      ["1".toList, "[Error caught: boom]".toList, "h".toList] :=
  ⟨protect_recovers_first_fault faultyExec abInterp (withLine abInterp "1".toList)
     (withLine abInterp "1".toList) [Node.Greet "1".toList] [Node.Greet "3".toList]
     [Node.Greet "\"h\"".toList] (Node.Run "x".toList) "boom".toList rfl rfl,
   rfl⟩

/-! ## The count that RunParallel reports (C25) -/

/-- Claim C25 (amended): the number in the completion line that `executeRunParallel`
writes last is the number of task names listed in the node, whether they are
defined or not: a listed name with no definition is warned about and skipped, yet
counted. -/
theorem runParallel_reports_listed_count {W : Type} (h : Host W) (fuel : Nat)
    (i i' : Interpreter W) (names : List Str)
    (hret : executeNode h (fuel + 1) (Node.RunParallel names) i = .ok i') :
    i'.out.getLast? =
      some ("[Parallel execution complete: ".toList ++ Itoa (Int.ofNat names.length) ++
        " tasks]".toList) := by
  simp only [executeNode, executeRunParallel] at hret
  cases hp : parallelLoop (executeNode h fuel) names i with
  | ok j =>
    rw [hp] at hret
    simp only [Res.ok.injEq] at hret
    rw [← hret]
    simp [Interpreter.print]
  | panic m j => rw [hp] at hret; exact absurd hret (by simp)
  | outOfFuel => rw [hp] at hret; exact absurd hret (by simp)

/-- Witness of C25 (amended): `run parallel a, b` where only `a` is defined. -/
theorem runParallel_reports_listed_count_witness :
    (withLine (withLine oneTaskInterp "[Warning: task b not found for parallel run]".toList)
        "[Parallel execution complete: 2 tasks]".toList).out.getLast? =
      some ("[Parallel execution complete: ".toList ++
        Itoa (Int.ofNat ["a".toList, "b".toList].length) ++ " tasks]".toList) :=
  runParallel_reports_listed_count nullHost 3 oneTaskInterp _ ["a".toList, "b".toList] rfl

/-- Counterexample to C25 as stated: in `run parallel a, b` only the task `a` is
defined and launched, `b` is warned about and skipped; the completion line reports
2 tasks, not the 1 that was launched. -/
theorem runParallel_counts_missing_task :
    finalOut (RunSource nullHost 20 "task a:\n  set x = 1\nrun parallel a, b".toList ()) =
      some ["[Warning: task b not found for parallel run]".toList,
        "[Parallel execution complete: 2 tasks]".toList] ∧
    (["a".toList, "b".toList].filter
      (fun n => (mapGet oneTaskInterp.tasks n).isSome)).length = 1 :=
  ⟨rfl, rfl⟩

/-! ## No statement of the interpreter faults (C23, C24) -/

theorem Rel_refl {W : Type} (tf : Bool) (i : Interpreter W) : Rel tf i i :=
  ⟨fun x => x, fun _ _ => rfl⟩

theorem Rel_of_same {W : Type} (tf : Bool) {i j : Interpreter W} (ht : j.tasks = i.tasks)
    (he : j.errorOccurred = i.errorOccurred) : Rel tf i j :=
  ⟨fun x => he.trans x, fun _ _ => ht⟩

theorem Rel_of_sameContext {W : Type} (tf : Bool) {i j : Interpreter W}
    (hs : sameContext i j) : Rel tf i j :=
  Rel_of_same tf hs.1 hs.2.2.2.2.1

theorem Rel_trans {W : Type} {tf : Bool} {i j k : Interpreter W} (h1 : Rel tf i j)
    (h2 : Rel tf j k) : Rel tf i k :=
  ⟨fun x => h2.1 (h1.1 x), fun t c => by
    have e1 := h1.2 t c
    have e2 := h2.2 t (by rw [e1]; exact c)
    rw [e2, e1]⟩

theorem Rel_mono {W : Type} {tf tf2 : Bool} {i j : Interpreter W} (h1 : Rel tf i j)
    (himp : tf2 = true → tf = true) : Rel tf2 i j :=
  ⟨h1.1, fun t c => h1.2 (himp t) c⟩

theorem mapGet_mem {α : Type} (m : List (Str × α)) (k : Str) (v : α)
    (hg : mapGet m k = some v) : ∃ k2, (k2, v) ∈ m := by
  induction m with
  | nil => simp [mapGet] at hg
  | cons p rest ih =>
    obtain ⟨k1, v1⟩ := p
    simp only [mapGet] at hg
    by_cases hk : k1 = k
    · rw [if_pos hk] at hg
      simp only [Option.some.injEq] at hg
      exact ⟨k1, by rw [hg]; exact List.mem_cons_self _ _⟩
    · rw [if_neg hk] at hg
      obtain ⟨k2, h2⟩ := ih hg
      exact ⟨k2, List.mem_cons_of_mem _ h2⟩

theorem tasksClean_get (tasks : List (Str × TaskDef)) (k : Str) (d : TaskDef)
    (hc : tasksClean tasks = true) (hg : mapGet tasks k = some d) :
    taskFreeList d.Body = true := by
  obtain ⟨k2, h2⟩ := mapGet_mem tasks k d hg
  exact (List.all_eq_true.mp hc) (k2, d) h2

theorem Keeps_execList {W : Type} (exec : Node → Interpreter W → Res W)
    (hexec : ∀ n, Keeps (taskFree n) (exec n)) :
    ∀ body, Keeps (taskFreeList body) (execList exec body) := by
  intro body
  induction body with
  | nil =>
    intro i
    refine ⟨fun msg j hh => by simp [execList] at hh, fun j hh => ?_⟩
    simp only [execList, Res.ok.injEq] at hh
    rw [← hh]; exact Rel_refl _ i
  | cons n ns ih =>
    intro i
    have hn := hexec n i
    cases hs : exec n i with
    | ok i1 =>
      have r1 : Rel (taskFree n) i i1 := hn.2 i1 hs
      have h2 := ih i1
      simp only [execList, hs]
      refine ⟨h2.1, fun j hh => ?_⟩
      have r2 := h2.2 j hh
      refine Rel_trans (Rel_mono r1 ?_) (Rel_mono r2 ?_)
      · intro t; simp only [taskFreeList, Bool.and_eq_true] at t; exact t.1
      · intro t; simp only [taskFreeList, Bool.and_eq_true] at t; exact t.2
    | panic msg j => exact absurd hs (hn.1 msg j)
    | outOfFuel =>
      simp only [execList, hs]
      exact ⟨fun msg j hh => by simp at hh, fun j hh => by simp at hh⟩

theorem Keeps_runBody {W : Type} (exec : Node → Interpreter W → Res W)
    (hexec : ∀ n, Keeps (taskFree n) (exec n)) :
    ∀ body, Keeps (taskFreeList body) (runBody exec body) := by
  intro body
  induction body with
  | nil =>
    intro i
    refine ⟨fun msg j hh => by simp [runBody] at hh, fun j hh => ?_⟩
    simp only [runBody, Res.ok.injEq] at hh
    rw [← hh]; exact Rel_refl _ i
  | cons n ns ih =>
    intro i
    have hn := hexec n i
    have m1 : taskFreeList (n :: ns) = true → taskFree n = true := by
      intro t; simp only [taskFreeList, Bool.and_eq_true] at t; exact t.1
    have m2 : taskFreeList (n :: ns) = true → taskFreeList ns = true := by
      intro t; simp only [taskFreeList, Bool.and_eq_true] at t; exact t.2
    cases hs : exec n i with
    | ok i1 =>
      have r1 : Rel (taskFree n) i i1 := hn.2 i1 hs
      have h2 := ih i1
      simp only [runBody, hs]
      by_cases hr : i1.returnValue.isNil = true
      · rw [if_pos hr]
        exact ⟨h2.1, fun j hh => Rel_trans (Rel_mono r1 m1) (Rel_mono (h2.2 j hh) m2)⟩
      · rw [if_neg hr]
        refine ⟨fun msg j hh => by simp at hh, fun j hh => ?_⟩
        simp only [Res.ok.injEq] at hh
        rw [← hh]; exact Rel_mono r1 m1
    | panic msg j => exact absurd hs (hn.1 msg j)
    | outOfFuel =>
      simp only [runBody, hs]
      exact ⟨fun msg j hh => by simp at hh, fun j hh => by simp at hh⟩

theorem Keeps_protectLoop {W : Type} (exec : Node → Interpreter W → Res W)
    (hexec : ∀ n, Keeps (taskFree n) (exec n)) :
    ∀ body, Keeps (taskFreeList body) (protectLoop exec body) := by
  intro body
  induction body with
  | nil =>
    intro i
    refine ⟨fun msg j hh => by simp [protectLoop] at hh, fun j hh => ?_⟩
    simp only [protectLoop, Res.ok.injEq] at hh
    rw [← hh]; exact Rel_refl _ i
  | cons n ns ih =>
    intro i
    have hn := hexec n i
    have m1 : taskFreeList (n :: ns) = true → taskFree n = true := by
      intro t; simp only [taskFreeList, Bool.and_eq_true] at t; exact t.1
    have m2 : taskFreeList (n :: ns) = true → taskFreeList ns = true := by
      intro t; simp only [taskFreeList, Bool.and_eq_true] at t; exact t.2
    cases hs : exec n i with
    | ok i1 =>
      have r1 : Rel (taskFree n) i i1 := hn.2 i1 hs
      have h2 := ih i1
      simp only [protectLoop, hs]
      by_cases hr : i1.errorOccurred = true
      · rw [if_pos hr]
        refine ⟨fun msg j hh => by simp at hh, fun j hh => ?_⟩
        simp only [Res.ok.injEq] at hh
        rw [← hh]; exact Rel_mono r1 m1
      · rw [if_neg hr]
        exact ⟨h2.1, fun j hh => Rel_trans (Rel_mono r1 m1) (Rel_mono (h2.2 j hh) m2)⟩
    | panic msg j => exact absurd hs (hn.1 msg j)
    | outOfFuel =>
      simp only [protectLoop, hs]
      exact ⟨fun msg j hh => by simp at hh, fun j hh => by simp at hh⟩

theorem Keeps_repeatLoop {W : Type} (tf : Bool) (body : Interpreter W → Res W)
    (hb : Keeps tf body) : ∀ k, Keeps tf (repeatLoop body k) := by
  intro k
  induction k with
  | zero =>
    intro i
    refine ⟨fun msg j hh => by simp [repeatLoop] at hh, fun j hh => ?_⟩
    simp only [repeatLoop, Res.ok.injEq] at hh
    rw [← hh]; exact Rel_refl _ i
  | succ k ih =>
    intro i
    have hn := hb i
    cases hs : body i with
    | ok i1 =>
      simp only [repeatLoop, hs]
      exact ⟨(ih i1).1, fun j hh => Rel_trans (hn.2 i1 hs) ((ih i1).2 j hh)⟩
    | panic msg j => exact absurd hs (hn.1 msg j)
    | outOfFuel =>
      simp only [repeatLoop, hs]
      exact ⟨fun msg j hh => by simp at hh, fun j hh => by simp at hh⟩

theorem Keeps_eachLoop {W : Type} (tf : Bool) (body : Interpreter W → Res W)
    (hb : Keeps tf body) (var : Str) : ∀ items, Keeps tf (eachLoop body var items) := by
  intro items
  induction items with
  | nil =>
    intro i
    refine ⟨fun msg j hh => by simp [eachLoop] at hh, fun j hh => ?_⟩
    simp only [eachLoop, Res.ok.injEq] at hh
    rw [← hh]; exact Rel_refl _ i
  | cons item rest ih =>
    intro i
    have hn := hb { i with vars := mapSet i.vars var item }
    cases hs : body { i with vars := mapSet i.vars var item } with
    | ok i1 =>
      simp only [eachLoop, hs]
      refine ⟨(ih i1).1, fun j hh => ?_⟩
      exact Rel_trans (Rel_trans (Rel_of_same tf rfl rfl) (hn.2 i1 hs)) ((ih i1).2 j hh)
    | panic msg j => exact absurd hs (hn.1 msg j)
    | outOfFuel =>
      simp only [eachLoop, hs]
      exact ⟨fun msg j hh => by simp at hh, fun j hh => by simp at hh⟩

theorem Keeps_eachCell {W : Type} (tf : Bool) (body : Interpreter W → Res W)
    (hb : Keeps tf body) (var : Str) (a : Nat) :
    ∀ count idx, Keeps tf (eachCell body var a count idx) := by
  intro count
  induction count with
  | zero =>
    intro idx i
    refine ⟨fun msg j hh => by simp [eachCell] at hh, fun j hh => ?_⟩
    simp only [eachCell, Res.ok.injEq] at hh
    rw [← hh]; exact Rel_refl _ i
  | succ k ih =>
    intro idx i
    have hn := hb { i with vars := mapSet i.vars var (i.heap.cell a idx) }
    cases hs : body { i with vars := mapSet i.vars var (i.heap.cell a idx) } with
    | ok i1 =>
      simp only [eachCell, hs]
      refine ⟨(ih (idx + 1) i1).1, fun j hh => ?_⟩
      exact Rel_trans (Rel_trans (Rel_of_same tf rfl rfl) (hn.2 i1 hs))
        ((ih (idx + 1) i1).2 j hh)
    | panic msg j => exact absurd hs (hn.1 msg j)
    | outOfFuel =>
      simp only [eachCell, hs]
      exact ⟨fun msg j hh => by simp at hh, fun j hh => by simp at hh⟩

theorem executeInlineAction_frame {W : Type} (h : Host W) (fuel : Nat) (i j : Interpreter W)
    (action : Str) (hh : executeInlineAction h fuel i action = some j) :
    j.tasks = i.tasks ∧ j.errorOccurred = i.errorOccurred := by
  unfold executeInlineAction at hh
  split at hh
  · cases hev : evaluateExpression h fuel i (TrimSpace ((TrimSpace action).drop 6)) with
    | none => rw [hev] at hh; exact absurd hh (by simp)
    | some r =>
      obtain ⟨v, i1⟩ := r
      rw [hev] at hh
      simp only at hh
      cases hp : toString i1.heap v with
      | none => rw [hp] at hh; exact absurd hh (by simp)
      | some s =>
        rw [hp] at hh
        simp only [Option.map_some', Option.some.injEq] at hh
        have hs := evaluateExpression_frame h fuel i _ v i1 hev
        rw [← hh]
        exact ⟨hs.1, hs.2.2.2.2.1⟩
  · simp only [Option.some.injEq] at hh
    rw [← hh]; exact ⟨rfl, rfl⟩

theorem executeBackup_frame {W : Type} (h : Host W) (fuel : Nat) (i j : Interpreter W)
    (source dest : Str) (hh : executeBackup h fuel i source dest = some j) :
    j.tasks = i.tasks ∧ j.errorOccurred = i.errorOccurred := by
  unfold executeBackup at hh
  cases h1 : evaluateExpression h fuel i source with
  | none => rw [h1] at hh; exact absurd hh (by simp)
  | some r1 =>
    obtain ⟨s, i1⟩ := r1
    rw [h1] at hh
    simp only at hh
    cases p1 : toString i1.heap s with
    | none => rw [p1] at hh; exact absurd hh (by simp)
    | some srcText =>
      rw [p1] at hh
      simp only at hh
      cases h2 : evaluateExpression h fuel i1 dest with
      | none => rw [h2] at hh; exact absurd hh (by simp)
      | some r2 =>
        obtain ⟨d, i2⟩ := r2
        rw [h2] at hh
        simp only at hh
        cases p2 : toString i2.heap d with
        | none => rw [p2] at hh; exact absurd hh (by simp)
        | some dstText =>
          rw [p2] at hh
          simp only at hh
          have s1 := evaluateExpression_frame h fuel i _ s i1 h1
          have s2 := evaluateExpression_frame h fuel i1 _ d i2 h2
          have key : j.tasks = i2.tasks ∧ j.errorOccurred = i2.errorOccurred := by
            split at hh
            · simp only [Option.some.injEq] at hh
              rw [← hh]; exact ⟨rfl, rfl⟩
            · split at hh
              · simp only [Option.some.injEq] at hh
                rw [← hh]; exact ⟨rfl, rfl⟩
              · split at hh
                · simp only [Option.some.injEq] at hh
                  rw [← hh]; exact ⟨rfl, rfl⟩
                · split at hh
                  · simp only [Option.some.injEq] at hh
                    rw [← hh]; exact ⟨rfl, rfl⟩
                  · split at hh
                    · simp only [Option.some.injEq] at hh
                      rw [← hh]; exact ⟨rfl, rfl⟩
                    · simp only [Option.some.injEq] at hh
                      rw [← hh]; exact ⟨rfl, rfl⟩
          exact ⟨key.1.trans (s2.1.trans s1.1), key.2.trans (s2.2.2.2.2.1.trans s1.2.2.2.2.1)⟩

theorem bindParams_frame {W : Type} (ev : Interpreter W → Str → Option (Value × Interpreter W))
    (hev : ∀ i e v j, ev i e = some (v, j) → sameContext i j) :
    ∀ (ps as : List Str) (i j : Interpreter W), bindParams ev ps as i = some j →
      j.tasks = i.tasks ∧ j.errorOccurred = i.errorOccurred := by
  intro ps
  induction ps with
  | nil =>
    intro as i j hh
    simp only [bindParams, Option.some.injEq] at hh
    rw [← hh]; exact ⟨rfl, rfl⟩
  | cons p ps ih =>
    intro as i j hh
    cases as with
    | nil =>
      simp only [bindParams] at hh
      have h2 := ih [] _ j hh
      exact h2
    | cons a as =>
      simp only [bindParams] at hh
      cases h1 : ev i a with
      | none => rw [h1] at hh; exact absurd hh (by simp)
      | some r =>
        obtain ⟨v, i1⟩ := r
        rw [h1] at hh
        simp only at hh
        have s1 := hev i a v i1 h1
        obtain ⟨a1, a2⟩ := ih as _ j hh
        exact ⟨a1.trans s1.1, a2.trans s1.2.2.2.2.1⟩

theorem Keeps_executeRun {W : Type} (h : Host W) (fuel : Nat)
    (exec : Node → Interpreter W → Res W) (hexec : ∀ n, Keeps (taskFree n) (exec n))
    (target : Str) : Keeps true (fun i => executeRun h fuel exec i target) := by
  intro i
  simp only [executeRun]
  cases hg : mapGet i.tasks (runTarget target).1 with
  | none =>
    refine ⟨fun msg j hh => by simp at hh, fun j hh => ?_⟩
    simp only [Res.ok.injEq] at hh
    rw [← hh]; exact Rel_of_same _ rfl rfl
  | some d =>
    simp only
    cases hb : bindParams (evaluateExpression h fuel) d.Params (runTarget target).2 i with
    | none => exact ⟨fun msg j hh => by simp at hh, fun j hh => by simp at hh⟩
    | some i1 =>
      simp only
      obtain ⟨b1, b2⟩ := bindParams_frame _ (evaluateExpression_frame h fuel) _ _ i i1 hb
      have hk := Keeps_runBody exec hexec d.Body { i1 with returnValue := .nil }
      cases hr : runBody exec d.Body { i1 with returnValue := .nil } with
      | ok i2 =>
        simp only
        refine ⟨fun msg j hh => by simp at hh, fun j hh => ?_⟩
        simp only [Res.ok.injEq] at hh
        have r2 := hk.2 i2 hr
        rw [← hh]
        refine ⟨fun x => r2.1 (b2.trans x), fun _ c => ?_⟩
        have hfree := tasksClean_get i.tasks _ d c hg
        have e2 : i2.tasks = i1.tasks := r2.2 hfree (by
          show tasksClean i1.tasks = true
          rw [b1]; exact c)
        exact e2.trans b1
      | panic msg j => exact absurd hr (hk.1 msg j)
      | outOfFuel => exact ⟨fun msg j hh => by simp at hh, fun j hh => by simp at hh⟩

theorem Keeps_parallelLoop {W : Type} (exec : Node → Interpreter W → Res W)
    (hexec : ∀ n, Keeps (taskFree n) (exec n)) :
    ∀ names, Keeps true (parallelLoop exec names) := by
  intro names
  induction names with
  | nil =>
    intro i
    refine ⟨fun msg j hh => by simp [parallelLoop] at hh, fun j hh => ?_⟩
    simp only [parallelLoop, Res.ok.injEq] at hh
    rw [← hh]; exact Rel_refl _ i
  | cons n ns ih =>
    intro i
    simp only [parallelLoop]
    cases hg : mapGet i.tasks (TrimSpace n) with
    | none =>
      simp only
      refine ⟨(ih _).1, fun j hh => ?_⟩
      have h2 := (ih _).2 j hh
      exact Rel_trans (Rel_of_same true rfl rfl) h2
    | some td =>
      simp only
      have hk := Keeps_execList exec hexec td.Body
        { NewInterpreter i.out i.world with
          tasks := i.tasks, vars := copyMap i.vars, heap := i.heap }
      cases hr : execList exec td.Body
          { NewInterpreter i.out i.world with
            tasks := i.tasks, vars := copyMap i.vars, heap := i.heap } with
      | ok l =>
        simp only
        refine ⟨(ih _).1, fun j hh => ?_⟩
        have r1 := hk.2 l hr
        have h2 := (ih _).2 j hh
        refine Rel_trans ?_ h2
        refine ⟨fun x => x, fun _ c => ?_⟩
        exact r1.2 (tasksClean_get i.tasks _ td c hg) c
      | panic msg l => exact absurd hr (hk.1 msg l)
      | outOfFuel => exact ⟨fun msg j hh => by simp at hh, fun j hh => by simp at hh⟩

theorem protectLoop_clear {W : Type} (exec : Node → Interpreter W → Res W)
    (hexec : ∀ n, Keeps (taskFree n) (exec n)) :
    ∀ (body : List Node) (i : Interpreter W), i.errorOccurred = false →
      protectLoop exec body i = execList exec body i := by
  intro body
  induction body with
  | nil => intro i _; rfl
  | cons n ns ih =>
    intro i hi
    have hn := hexec n i
    cases hs : exec n i with
    | ok i1 =>
      have e1 : i1.errorOccurred = false := (hn.2 i1 hs).1 hi
      simp only [protectLoop, execList, hs, e1, Bool.false_eq_true, if_false]
      exact ih i1 e1
    | panic msg j => simp only [protectLoop, execList, hs]
    | outOfFuel => simp only [protectLoop, execList, hs]

theorem executeProtect_clear {W : Type} (exec : Node → Interpreter W → Res W)
    (hexec : ∀ n, Keeps (taskFree n) (exec n)) (i : Interpreter W)
    (protect handle : List Node) :
    executeProtect exec i protect handle =
      execList exec protect { i with errorOccurred := false, lastError := none } := by
  have hk := Keeps_execList exec hexec protect
    { i with errorOccurred := false, lastError := none }
  unfold executeProtect
  rw [protectLoop_clear exec hexec protect _ rfl]
  cases hr : execList exec protect { i with errorOccurred := false, lastError := none } with
  | ok j => rfl
  | panic msg j => exact absurd hr (hk.1 msg j)
  | outOfFuel => rfl

theorem Keeps_executeNode {W : Type} (h : Host W) :
    ∀ (fuel : Nat) (n : Node), Keeps (taskFree n) (executeNode h fuel n) := by
  intro fuel
  induction fuel with
  | zero =>
    intro n i
    exact ⟨fun msg j hh => by simp [executeNode] at hh, fun j hh => by simp [executeNode] at hh⟩
  | succ fuel ih =>
    intro n i
    have hopt : ∀ (r : Option (Interpreter W)) (tf : Bool),
        (∀ j, r = some j → j.tasks = i.tasks ∧ j.errorOccurred = i.errorOccurred) →
        (∀ msg j, Res.ofOption r ≠ .panic msg j) ∧ ∀ j, Res.ofOption r = .ok j → Rel tf i j := by
      intro r tf hr
      cases r with
      | none => exact ⟨fun msg j hh => by simp [Res.ofOption] at hh,
          fun j hh => by simp [Res.ofOption] at hh⟩
      | some k =>
        refine ⟨fun msg j hh => by simp [Res.ofOption] at hh, fun j hh => ?_⟩
        simp only [Res.ofOption, Res.ok.injEq] at hh
        obtain ⟨a, b⟩ := hr k rfl
        rw [← hh]; exact Rel_of_same tf a b
    cases n with
    | Task name params body =>
      simp only [executeNode]
      refine ⟨fun msg j hh => by simp at hh, fun j hh => ?_⟩
      simp only [Res.ok.injEq] at hh
      rw [← hh]
      exact ⟨fun x => x, fun t _ => by simp [taskFree] at t⟩
    | Greet message =>
      simp only [executeNode]
      cases hev : evaluateExpression h fuel i message with
      | none => exact ⟨fun msg j hh => by simp at hh, fun j hh => by simp at hh⟩
      | some r =>
        obtain ⟨v, i1⟩ := r
        have hs := evaluateExpression_frame h fuel i _ v i1 hev
        refine hopt _ _ (fun j hj => ?_)
        cases hp : toString i1.heap v with
        | none => rw [hp] at hj; exact absurd hj (by simp)
        | some s =>
          rw [hp] at hj
          simp only [Option.map_some', Option.some.injEq] at hj
          rw [← hj]; exact ⟨hs.1, hs.2.2.2.2.1⟩
    | Backup source dest =>
      simp only [executeNode]
      exact hopt _ _ (fun j hj => executeBackup_frame h fuel i j source dest hj)
    | Check condition action =>
      simp only [executeNode]
      cases hc : evaluateCondition h fuel i condition with
      | none => exact ⟨fun msg j hh => by simp at hh, fun j hh => by simp at hh⟩
      | some r =>
        obtain ⟨b, i1⟩ := r
        have hs := evaluateCondition_frame h fuel i i1 condition b hc
        cases b with
        | true =>
          simp only
          refine hopt _ _ (fun j hj => ?_)
          obtain ⟨a1, a2⟩ := executeInlineAction_frame h fuel i1 j action hj
          exact ⟨a1.trans hs.1, a2.trans hs.2.2.2.2.1⟩
        | false =>
          refine ⟨fun msg j hh => by simp at hh, fun j hh => ?_⟩
          simp only [Res.ok.injEq] at hh
          rw [← hh]; exact Rel_of_same _ hs.1 hs.2.2.2.2.1
    | RepeatN count body =>
      simp only [executeNode]
      have hk := Keeps_repeatLoop (taskFreeList body) _
        (Keeps_execList (executeNode h fuel) (ih) body) count.toNat i
      refine ⟨hk.1, fun j hh => Rel_mono (hk.2 j hh) ?_⟩
      intro t; simpa [taskFree] using t
    | RepeatEach var listExpr body =>
      simp only [executeNode]
      have m1 : taskFree (Node.RepeatEach var listExpr body) = true →
          taskFreeList body = true := by
        intro t; simpa [taskFree] using t
      cases hev : evaluateExpression h fuel i listExpr with
      | none => exact ⟨fun msg j hh => by simp at hh, fun j hh => by simp at hh⟩
      | some r =>
        obtain ⟨v, i1⟩ := r
        have hs := evaluateExpression_frame h fuel i _ v i1 hev
        have r0 : Rel (taskFree (Node.RepeatEach var listExpr body)) i i1 :=
          Rel_of_same _ hs.1 hs.2.2.2.2.1
        have hk := fun items => Keeps_eachLoop (taskFreeList body) _
          (Keeps_execList (executeNode h fuel) (ih) body) var items i1
        have hwarn : ∀ line : Str,
            (∀ msg j, Res.ok (i1.print line) ≠ .panic msg j) ∧
            ∀ j, Res.ok (i1.print line) = .ok j →
              Rel (taskFree (Node.RepeatEach var listExpr body)) i j := by
          intro line
          refine ⟨fun msg j hh => by simp at hh, fun j hh => ?_⟩
          simp only [Res.ok.injEq] at hh
          rw [← hh]; exact Rel_trans r0 (Rel_of_same _ rfl rfl)
        have hc := fun a n => Keeps_eachCell (taskFreeList body) _
          (Keeps_execList (executeNode h fuel) (ih) body) var a n 0 i1
        cases v with
        | list a n =>
          exact ⟨(hc a n).1, fun j hh => Rel_trans r0 (Rel_mono ((hc a n).2 j hh) m1)⟩
        | strs sArr =>
          exact ⟨(hk _).1, fun j hh => Rel_trans r0 (Rel_mono ((hk _).2 j hh) m1)⟩
        | nil => exact hwarn _
        | bool b => exact hwarn _
        | int n => exact hwarn _
        | int64 n => exact hwarn _
        | float f => exact hwarn _
        | str s => exact hwarn _
        | dict d => exact hwarn _
    | Set var value =>
      simp only [executeNode]
      cases hev : evaluateExpression h fuel i value with
      | none => exact ⟨fun msg j hh => by simp at hh, fun j hh => by simp at hh⟩
      | some r =>
        obtain ⟨v, i1⟩ := r
        refine ⟨fun msg j hh => by simp at hh, fun j hh => ?_⟩
        simp only [Res.ok.injEq] at hh
        have hs := evaluateExpression_frame h fuel i _ v i1 hev
        rw [← hh]; exact Rel_of_same _ hs.1 hs.2.2.2.2.1
    | Run target =>
      simp only [executeNode]
      have hk := Keeps_executeRun h fuel (executeNode h fuel) ih target i
      exact ⟨hk.1, fun j hh => Rel_mono (hk.2 j hh) (fun _ => rfl)⟩
    | Use module =>
      simp only [executeNode]
      refine ⟨fun msg j hh => by simp at hh, fun j hh => ?_⟩
      simp only [Res.ok.injEq] at hh
      rw [← hh]
      unfold executeUse
      cases mapGet (StdlibModules h) (TrimSpace module) with
      | none => exact Rel_of_same _ rfl rfl
      | some fs => exact Rel_of_same _ rfl rfl
    | Protect protect handle =>
      simp only [executeNode]
      rw [executeProtect_clear (executeNode h fuel) ih]
      have hk := Keeps_execList (executeNode h fuel) ih protect
        { i with errorOccurred := false, lastError := none }
      refine ⟨hk.1, fun j hh => ?_⟩
      have r1 := hk.2 j hh
      refine ⟨fun _ => r1.1 rfl, fun t c => r1.2 ?_ c⟩
      simp only [taskFree, Bool.and_eq_true] at t
      exact t.1
    | HandleInline errorType action =>
      simp only [executeNode]
      by_cases he : i.errorOccurred = true
      · rw [if_pos he]
        exact hopt _ _ (fun j hj => executeInlineAction_frame h fuel i j action hj)
      · rw [if_neg he]
        refine ⟨fun msg j hh => by simp at hh, fun j hh => ?_⟩
        simp only [Res.ok.injEq] at hh
        rw [← hh]; exact Rel_refl _ i
    | RunParallel tasks =>
      simp only [executeNode, executeRunParallel]
      have hk := Keeps_parallelLoop (executeNode h fuel) ih tasks i
      cases hp : parallelLoop (executeNode h fuel) tasks i with
      | ok i1 =>
        refine ⟨fun msg j hh => by simp at hh, fun j hh => ?_⟩
        simp only [Res.ok.injEq] at hh
        rw [← hh]
        exact Rel_mono (Rel_trans (hk.2 i1 hp) (Rel_of_same true rfl rfl)) (fun _ => rfl)
      | panic msg j => exact absurd hp (hk.1 msg j)
      | outOfFuel => exact ⟨fun msg j hh => by simp at hh, fun j hh => by simp at hh⟩
    | Return expr =>
      simp only [executeNode]
      cases hev : evaluateExpression h fuel i expr with
      | none => exact ⟨fun msg j hh => by simp at hh, fun j hh => by simp at hh⟩
      | some r =>
        obtain ⟨v, i1⟩ := r
        refine ⟨fun msg j hh => by simp at hh, fun j hh => ?_⟩
        simp only [Res.ok.injEq] at hh
        have hs := evaluateExpression_frame h fuel i _ v i1 hev
        rw [← hh]; exact Rel_of_same _ hs.1 hs.2.2.2.2.1

/-- Claim C23: no statement of the interpreter raises a fault, so for every Protect
node and every interpreter, executing the node is executing the statements of the
protect body in order, to the end, from the interpreter with the error flag and
the recorded fault cleared: the same result, whatever the handle body is, none of
whose statements is executed. The node never faults, and when it returns the
error flag is clear. -/
theorem protect_without_fault_runs_body {W : Type} (h : Host W) (fuel : Nat)
    (i : Interpreter W) (protect handle : List Node) :
    executeNode h (fuel + 1) (Node.Protect protect handle) i =
      execList (executeNode h fuel) protect
        { i with errorOccurred := false, lastError := none } ∧
    (∀ msg j, executeNode h (fuel + 1) (Node.Protect protect handle) i ≠ .panic msg j) ∧
    (∀ j, executeNode h (fuel + 1) (Node.Protect protect handle) i = .ok j →
      j.errorOccurred = false) := by
  have e1 : executeNode h (fuel + 1) (Node.Protect protect handle) i =
      execList (executeNode h fuel) protect
        { i with errorOccurred := false, lastError := none } := by
    simp only [executeNode]
    exact executeProtect_clear (executeNode h fuel) (Keeps_executeNode h fuel) i protect handle
  have hk := Keeps_execList (executeNode h fuel) (Keeps_executeNode h fuel) protect
    { i with errorOccurred := false, lastError := none }
  refine ⟨e1, ?_, ?_⟩
  · rw [e1]; exact hk.1
  · rw [e1]; intro j hj; exact (hk.2 j hj).1 rfl
/-! ## Repeat each (C21) -/

theorem wordChar_range (c : Char) (h : isWordChar c = true) :
    (48 ≤ c.toNat ∧ c.toNat ≤ 57) ∨ (65 ≤ c.toNat ∧ c.toNat ≤ 90) ∨
    (97 ≤ c.toNat ∧ c.toNat ≤ 122) ∨ c.toNat = 95 := by
  simp only [isWordChar, Char.isAlphanum, Char.isAlpha, Char.isUpper, Char.isLower,
    Char.isDigit, Bool.or_eq_true, Bool.and_eq_true, decide_eq_true_eq] at h
  rcases h with ((h | h) | h) | h
  · exact Or.inr (Or.inl ⟨h.1, h.2⟩)
  · exact Or.inr (Or.inr (Or.inl ⟨h.1, h.2⟩))
  · exact Or.inl ⟨h.1, h.2⟩
  · rw [h]; exact Or.inr (Or.inr (Or.inr rfl))

theorem wordChar_facts (c : Char) (h : isWordChar c = true) :
    isSpace c = false ∧ c ≠ '"' ∧ c ≠ '\'' ∧ c ≠ '[' ∧ c ≠ ',' ∧ c ≠ ' ' ∧ c ≠ '\t' ∧
    c ≠ '|' ∧ c ≠ ':' ∧ c ≠ '#' ∧ c ≠ '\n' := by
  have hr := wordChar_range c h
  have ne : ∀ d : Char, ¬ ((48 ≤ d.toNat ∧ d.toNat ≤ 57) ∨ (65 ≤ d.toNat ∧ d.toNat ≤ 90) ∨
      (97 ≤ d.toNat ∧ d.toNat ≤ 122) ∨ d.toNat = 95) → c ≠ d := by
    intro d hd e; rw [e] at hr; exact hd hr
  refine ⟨?_, ne _ (by decide), ne _ (by decide), ne _ (by decide), ne _ (by decide),
    ne _ (by decide), ne _ (by decide), ne _ (by decide), ne _ (by decide), ne _ (by decide),
    ne _ (by decide)⟩
  simp only [isSpace, Bool.or_eq_false_iff, Bool.and_eq_false_iff, decide_eq_false_iff_not]
  omega

theorem identifier_not_literal (x : Str) (hx : x ≠ []) (hw : ∀ c ∈ x, isWordChar c = true)
    (hb1 : EqualFold x "true".toList = false) (hb2 : EqualFold x "false".toList = false)
    (hi : (Atoi x).2 = false) (hf : (ParseFloat x).2 = false) :
    notLiteral x = true ∧ TrimSpace x = x := by
  refine ⟨?_, TrimSpace_of_all x (fun c hc => (wordChar_facts c (hw c hc)).1)⟩
  cases x with
  | nil => exact absurd rfl hx
  | cons c cs =>
    have hc := wordChar_facts c (hw c (List.mem_cons_self _ _))
    have q := isQuoted_false_of_head c cs hc.2.1 hc.2.2.1
    have b := HasPrefix_singleton_false c '[' cs hc.2.2.2.1
    have b2 : HasPrefix (c :: cs) "[".toList = false := b
    have e0 : (c :: cs).isEmpty = false := rfl
    simp only [notLiteral, e0, q, b2, hb1, hb2, hi, hf, Bool.false_and, Bool.not_false,
      Bool.and_self]

theorem greet_step {W : Type} (h : Host W) (fuel : Nat) (x : Str)
    (hl : notLiteral x = true) (ht : TrimSpace x = x) (v : Value) (i : Interpreter W) :
    execList (executeNode h (fuel + 2)) [Node.Greet x] { i with vars := mapSet i.vars x v } =
      Res.ofOption ((toString i.heap v).map { i with vars := mapSet i.vars x v }.print) := by
  have hb : evaluateExpression h (fuel + 1) { i with vars := mapSet i.vars x v } x =
      some (v, { i with vars := mapSet i.vars x v }) := by
    apply evaluateExpression_bound
    · rw [ht]; exact hl
    · rw [ht]
      show mapGet (mapSet i.vars x v) x = some v
      rw [mapGet_mapSet]; simp
  simp only [execList, executeNode, hb]
  cases toString i.heap v with
  | none => rfl
  | some s => rfl

theorem eachLoop_greet {W : Type} (h : Host W) (fuel : Nat) (x : Str)
    (hl : notLiteral x = true) (ht : TrimSpace x = x) :
    ∀ (vs : List Value) (i : Interpreter W),
      eachLoop (execList (executeNode h (fuel + 2)) [Node.Greet x]) x vs i =
        Res.ofOption (greetEach x vs i) := by
  intro vs
  induction vs with
  | nil => intro i; rfl
  | cons v rest ih =>
    intro i
    simp only [eachLoop, greet_step h fuel x hl ht v i, greetEach]
    cases toString i.heap v with
    | none => rfl
    | some s => exact ih _

theorem eachCell_greet {W : Type} (h : Host W) (fuel : Nat) (x : Str)
    (hl : notLiteral x = true) (ht : TrimSpace x = x) (a : Nat) :
    ∀ (count idx : Nat) (i : Interpreter W),
      eachCell (execList (executeNode h (fuel + 2)) [Node.Greet x]) x a count idx i =
        Res.ofOption
          (greetEach x ((List.range count).map (fun k => i.heap.cell a (idx + k))) i) := by
  intro count
  induction count with
  | zero => intro idx i; rfl
  | succ n ih =>
    intro idx i
    simp only [eachCell, greet_step h fuel x hl ht (i.heap.cell a idx) i, List.range_succ_eq_map,
      List.map_cons, List.map_map, greetEach, Nat.add_zero]
    cases toString i.heap (i.heap.cell a idx) with
    | none => rfl
    | some s =>
      simp only [Option.map_some', Res.ofOption]
      rw [ih (idx + 1)]
      have e : (fun k => (Interpreter.print { i with vars := mapSet i.vars x (i.heap.cell a idx) }
          s).heap.cell a (idx + 1 + k)) = ((fun k => i.heap.cell a (idx + k)) ∘ Nat.succ) := by
        funext k
        show i.heap.cell a (idx + 1 + k) = i.heap.cell a (idx + (k + 1))
        rw [Nat.add_assoc, Nat.add_comm 1 k]
      rw [e]
      rfl

theorem greetEach_out {W : Type} (x : Str) :
    ∀ (vs : List Value) (i : Interpreter W) (lines : List Str),
      textsOf i.heap vs = some lines →
      ∃ j, greetEach x vs i = some j ∧ j.out = i.out ++ lines ∧ j.heap = i.heap := by
  intro vs
  induction vs with
  | nil =>
    intro i lines hh
    simp only [textsOf, Option.some.injEq] at hh
    exact ⟨i, rfl, by rw [← hh]; simp, rfl⟩
  | cons v rest ih =>
    intro i lines hh
    simp only [textsOf] at hh
    cases hs : toString i.heap v with
    | none => rw [hs] at hh; exact absurd hh (by simp)
    | some s =>
      cases hr : textsOf i.heap rest with
      | none => rw [hs, hr] at hh; exact absurd hh (by simp)
      | some ss =>
        rw [hs, hr] at hh
        simp only [Option.some.injEq] at hh
        obtain ⟨j, h1, h2, h3⟩ :=
          ih ({ i with vars := mapSet i.vars x v }.print s) ss hr
        refine ⟨j, ?_, ?_, h3⟩
        · simp only [greetEach, hs]; exact h1
        · rw [h2, ← hh]; simp [Interpreter.print]

/-- Claim C21 (amended): `x` is an identifier (letters, digits, underscores) that is no
boolean and no numeric literal, and the list expression evaluates, once and from
the interpreter `i`, to an ordered sequence with the items `vs` (leaving the
interpreter `i1`, in whose heap the items of a list are). Executing RepeatEach with
the body `greet x` then binds `x` to each item in order and writes, after what the
evaluation of the list expression wrote, one line per item, its text, in that
order: it returns whenever every item has a text (`toString` returns on it). -/
theorem repeatEach_greets_each_item {W : Type} (h : Host W) (fuel : Nat)
    (i i1 : Interpreter W) (x listExpr : Str) (lv : Value) (vs : List Value)
    (hx : x ≠ []) (hw : ∀ c ∈ x, isWordChar c = true)
    (hb1 : EqualFold x "true".toList = false) (hb2 : EqualFold x "false".toList = false)
    (hi : (Atoi x).2 = false) (hf : (ParseFloat x).2 = false)
    (hev : evaluateExpression h (fuel + 2) i listExpr = some (lv, i1))
    (hseq : seqItems i1.heap lv = some vs) :
    executeNode h (fuel + 3) (Node.RepeatEach x listExpr [Node.Greet x]) i =
      Res.ofOption (greetEach x vs i1) ∧
    (∀ lines, textsOf i1.heap vs = some lines →
      ∃ j, greetEach x vs i1 = some j ∧ j.out = i1.out ++ lines ∧ j.heap = i1.heap) := by
  obtain ⟨hl, ht⟩ := identifier_not_literal x hx hw hb1 hb2 hi hf
  refine ⟨?_, greetEach_out x vs i1⟩
  simp only [executeNode, hev]
  cases lv with
  | list a n =>
    simp only [seqItems, Option.some.injEq] at hseq
    have key := eachCell_greet h fuel x hl ht a n 0 i1
    simp only [Nat.zero_add] at key
    rw [← hseq]
    exact key
  | strs sArr =>
    simp only [seqItems, Option.some.injEq] at hseq
    rw [← hseq]
    exact eachLoop_greet h fuel x hl ht _ i1
  | str s => simp [seqItems] at hseq
  | int n => simp [seqItems] at hseq
  | int64 n => simp [seqItems] at hseq
  | float f => simp [seqItems] at hseq
  | bool b => simp [seqItems] at hseq
  | dict d => simp [seqItems] at hseq
  | nil => simp [seqItems] at hseq

/-- Witness of C21 (amended): `repeat each x in [1,2,3]:` with the body `greet x` writes the
three lines 1, 2, 3; so does the program run from its source. -/
theorem repeatEach_greets_each_item_witness :
    (executeNode nullHost 3
        (Node.RepeatEach "x".toList "[1,2,3]".toList [Node.Greet "x".toList])
        (NewInterpreter [] ()) =
      Res.ofOption (greetEach "x".toList [.int 1, .int 2, .int 3]
        (withObj (NewInterpreter [] ()) (.arr 4 [.int 1, .int 2, .int 3]))) ∧
    (∀ lines, textsOf (withObj (NewInterpreter [] ()) (.arr 4 [.int 1, .int 2, .int 3])).heap
        [.int 1, .int 2, .int 3] = some lines →
      ∃ j, greetEach "x".toList [.int 1, .int 2, .int 3]
          (withObj (NewInterpreter [] ()) (.arr 4 [.int 1, .int 2, .int 3])) = some j ∧
        j.out = (withObj (NewInterpreter [] ()) (.arr 4 [.int 1, .int 2, .int 3])).out ++ lines ∧
        j.heap = (withObj (NewInterpreter [] ()) (.arr 4 [.int 1, .int 2, .int 3])).heap)) ∧
    textsOf [.arr 4 [.int 1, .int 2, .int 3]] [.int 1, .int 2, .int 3] =
      some ["1".toList, "2".toList, "3".toList] ∧
    finalOut (RunSource nullHost 20 "repeat each x in [1,2,3]:\n  greet x".toList ()) =
      some ["1".toList, "2".toList, "3".toList] :=
  ⟨repeatEach_greets_each_item nullHost 0 (NewInterpreter [] ())
     (withObj (NewInterpreter [] ()) (.arr 4 [.int 1, .int 2, .int 3]))
     "x".toList "[1,2,3]".toList (.list 0 3) [.int 1, .int 2, .int 3]
     (by decide) (by decide) rfl rfl rfl rfl rfl rfl,
   rfl, rfl⟩

/-- Counterexample to C21 as stated: after `set a = [1, 2, 3]`,
`set b = list.append a, 4` and `set c = list.append a, b` the list `b` has four
items, the last of which is `b` itself: the second `append` writes into the cell
that the first one filled, in the array that `a` and `b` share. The list expression
`b` evaluates to these four items, yet `repeat each x in b:` with the body `greet x`
does not write four lines: the fourth item has no text (`fmt.Sprint` does not return
on it), and the node returns with no amount of fuel. -/
theorem repeatEach_item_without_text :
    (RunSource nullHost 20 selfListSource ()).bind Res.toOption = some selfListInterp ∧
    (evaluateExpression nullHost 3 selfListInterp "b".toList).map (fun r => r.1) =
      some (.list 0 4) ∧
    seqItems selfListInterp.heap (.list 0 4) = some [.int 1, .int 2, .int 3, .list 0 4] ∧
    toString selfListInterp.heap (.list 0 4) = none ∧
    textsOf selfListInterp.heap [.int 1, .int 2, .int 3] =
      some ["1".toList, "2".toList, "3".toList] ∧
    ∀ fuel, (executeNode nullHost fuel
      (Node.RepeatEach "x".toList "b".toList [Node.Greet "x".toList]) selfListInterp).toOption =
        none := by
  refine ⟨rfl, by decide!, by decide!, by decide!, by decide!, ?_⟩
  intro fuel
  match fuel with
  | 0 => rfl
  | 1 => rfl
  | 2 => rfl
  | n + 3 =>
    have hev : evaluateExpression nullHost (n + 2) selfListInterp "b".toList =
        some (.list 0 4, selfListInterp) :=
      evaluateExpression_bound nullHost (n + 1) selfListInterp "b".toList (.list 0 4)
        (by decide) (by decide)
    have key := eachCell_greet nullHost n "x".toList (by decide) (by decide) 0 4 0 selfListInterp
    have e : executeNode nullHost (n + 3)
        (Node.RepeatEach "x".toList "b".toList [Node.Greet "x".toList]) selfListInterp =
        eachCell (execList (executeNode nullHost (n + 2)) [Node.Greet "x".toList]) "x".toList
          0 4 0 selfListInterp := by
      rw [executeNode]
      simp only [hev]
    rw [e, key]
    rfl

/-! ## Blank and comment lines (C27) -/

theorem Split_mem_no_sep (sep : Char) : ∀ (s : Str), ∀ l ∈ Split s sep, sep ∉ l := by
  intro s
  induction s with
  | nil => intro l hl; simp [Split] at hl; rw [hl]; simp
  | cons c cs ih =>
    intro l hl
    rw [Split] at hl
    cases hS : Split cs sep with
    | nil => exact absurd hS (Split_ne_nil _ _)
    | cons p ps =>
      rw [hS] at hl ih
      simp only at hl
      by_cases hc : c = sep
      · rw [if_pos hc] at hl
        rcases List.mem_cons.mp hl with e | e
        · rw [e]; simp
        · exact ih l e
      · rw [if_neg hc] at hl
        rcases List.mem_cons.mp hl with e | e
        · rw [e]
          intro hm
          rcases List.mem_cons.mp hm with e2 | e2
          · exact hc e2.symm
          · exact ih p (List.mem_cons_self _ _) e2
        · exact ih l (List.mem_cons_of_mem _ e)

theorem lineTokens_skipped (idx : Nat) (raw : Str) (h : skipped raw = true) :
    lineTokens idx raw = some [] := by
  unfold skipped at h
  simp only [lineTokens, h, if_true]

theorem lineTokens_typeValues (idx idx2 : Nat) (raw : Str) :
    (lineTokens idx raw).map typeValues = (lineTokens idx2 raw).map typeValues := by
  simp only [lineTokens]
  split
  · rfl
  · simp only [tokenizeLine]
    cases classifyLine (TrimSpace raw) with
    | none => rfl
    | some cs =>
      simp only [Option.map_some', typeValues, List.map_append, List.map_map]
      congr 2
      split <;> rfl

theorem tokenizeFrom_dropSkipped :
    ∀ (lines : List Str) (idx idx2 : Nat),
      (tokenizeFrom idx2 (lines.filter (fun l => !skipped l))).map typeValues =
        (tokenizeFrom idx lines).map typeValues := by
  intro lines
  induction lines with
  | nil => intro idx idx2; rfl
  | cons raw rest ih =>
    intro idx idx2
    by_cases hs : skipped raw = true
    · have e : (raw :: rest).filter (fun l => !skipped l) =
          rest.filter (fun l => !skipped l) := by simp [List.filter, hs]
      rw [e, ih (idx + 1) idx2]
      simp only [tokenizeFrom, lineTokens_skipped idx raw hs, List.nil_append]
      cases tokenizeFrom (idx + 1) rest <;> rfl
    · have e : (raw :: rest).filter (fun l => !skipped l) =
          raw :: rest.filter (fun l => !skipped l) := by simp [List.filter, hs]
      rw [e]
      have h1 := lineTokens_typeValues idx2 idx raw
      have h2 := ih (idx + 1) (idx2 + 1)
      simp only [tokenizeFrom]
      cases ha : lineTokens idx2 raw with
      | none =>
        rw [ha] at h1
        cases hb : lineTokens idx raw with
        | none => rfl
        | some tb => rw [hb] at h1; simp at h1
      | some ta =>
        rw [ha] at h1
        cases hb : lineTokens idx raw with
        | none => rw [hb] at h1; simp at h1
        | some tb =>
          rw [hb] at h1
          simp only [Option.map_some', Option.some.injEq] at h1
          cases hc : tokenizeFrom (idx2 + 1) (rest.filter (fun l => !skipped l)) with
          | none =>
            rw [hc] at h2
            cases hd : tokenizeFrom (idx + 1) rest with
            | none => rfl
            | some td => rw [hd] at h2; simp at h2
          | some tc =>
            rw [hc] at h2
            cases hd : tokenizeFrom (idx + 1) rest with
            | none => rw [hd] at h2; simp at h2
            | some td =>
              rw [hd] at h2
              simp only [Option.map_some', Option.some.injEq] at h2
              simp only [Option.map_some', typeValues, List.map_append] at h1 h2 ⊢
              rw [h1, h2]

theorem tokenizeFrom_all_skipped :
    ∀ (lines : List Str) (idx : Nat), (∀ l ∈ lines, skipped l = true) →
      tokenizeFrom idx lines = some [] := by
  intro lines
  induction lines with
  | nil => intro idx _; rfl
  | cons raw rest ih =>
    intro idx h
    simp only [tokenizeFrom, lineTokens_skipped idx raw (h raw (List.mem_cons_self _ _)),
      ih (idx + 1) (fun l hl => h l (List.mem_cons_of_mem _ hl)), List.append_nil]

/-- Claim C27: blank and comment lines produce no tokens. For every source, the
source without the lines that are blank after trimming or whose trimmed text
starts with `#` has, under `Tokenize`, the same sequence of types and values
(both calls panic, or neither does); and a source made only of such lines
tokenizes to the single EOF token. -/
theorem skipped_lines_produce_no_tokens (src : Str) :
    (Tokenize (dropSkipped src)).map typeValues = (Tokenize src).map typeValues ∧
    ((∀ l ∈ Split src '\n', skipped l = true) →
      Tokenize src = some [⟨"EOF", [], (Split src '\n').length⟩]) := by
  constructor
  · have key : (tokenizeFrom 0 (Split (dropSkipped src) '\n')).map typeValues =
        (tokenizeFrom 0 (Split src '\n')).map typeValues := by
      cases hf : (Split src '\n').filter (fun l => !skipped l) with
      | nil =>
        have h0 := tokenizeFrom_dropSkipped (Split src '\n') 0 0
        rw [hf] at h0
        have e : dropSkipped src = [] := by simp only [dropSkipped, hf, Join]
        rw [e, ← h0]
        rfl
      | cons p ps =>
        have hsp : Split (dropSkipped src) '\n' = p :: ps := by
          simp only [dropSkipped, hf]
          apply Split_Join _ (by simp)
          intro l hl
          have hm : l ∈ (Split src '\n').filter (fun l => !skipped l) := by rw [hf]; exact hl
          exact Split_mem_no_sep '\n' src l (List.mem_filter.mp hm).1
        rw [hsp, ← hf]
        exact tokenizeFrom_dropSkipped (Split src '\n') 0 0
    simp only [Tokenize, NewLexer, Lexer.Tokenize]
    cases ha : tokenizeFrom 0 (Split (dropSkipped src) '\n') with
    | none =>
      rw [ha] at key
      cases hb : tokenizeFrom 0 (Split src '\n') with
      | none => rfl
      | some tb => rw [hb] at key; simp at key
    | some ta =>
      rw [ha] at key
      cases hb : tokenizeFrom 0 (Split src '\n') with
      | none => rw [hb] at key; simp at key
      | some tb =>
        rw [hb] at key
        simp only [Option.map_some', Option.some.injEq] at key
        simp only [Option.map_some', typeValues, List.map_append, List.map_cons,
          List.map_nil] at key ⊢
        rw [key]
  · intro h
    simp only [Tokenize, NewLexer, Lexer.Tokenize,
      tokenizeFrom_all_skipped (Split src '\n') 0 h, List.nil_append]

/-- Witness of C27: a program with a comment and a blank line between its two
statements, and a source of comments and blank lines only. -/
theorem skipped_lines_produce_no_tokens_witness :
    ((Tokenize (dropSkipped "greet 1\n# note\n   \ngreet 2".toList)).map typeValues =
      (Tokenize "greet 1\n# note\n   \ngreet 2".toList).map typeValues ∧
     dropSkipped "greet 1\n# note\n   \ngreet 2".toList = "greet 1\ngreet 2".toList) ∧
    Tokenize "# a\n\n  \t\n  # b".toList = some [⟨"EOF", [], 4⟩] :=
  ⟨⟨(skipped_lines_produce_no_tokens "greet 1\n# note\n   \ngreet 2".toList).1, by decide⟩,
   (skipped_lines_produce_no_tokens "# a\n\n  \t\n  # b".toList).2 (by decide)⟩

/-! ## The INDENT token of a line (C28) -/

theorem trimLeftBy_append (p : Char → Bool) (pre rest : Str) (hpre : ∀ c ∈ pre, p c = true)
    (hrest : ∀ c, rest.head? = some c → p c = false) :
    trimLeftBy p (pre ++ rest) = rest := by
  induction pre with
  | nil => exact trimLeftBy_of_head p rest hrest
  | cons c cs ih =>
    simp only [List.cons_append, trimLeftBy, hpre c (List.mem_cons_self _ _), if_true]
    exact ih (fun d hd => hpre d (List.mem_cons_of_mem _ hd))

theorem leaf_one (t : String) (v : Str) (cs : List (String × Str))
    (h : some [(t, v)] = some cs) (ht : t ≠ "INDENT") : ∀ tv ∈ cs, tv.1 ≠ "INDENT" := by
  simp only [Option.some.injEq] at h
  intro tv htv
  rw [← h] at htv
  simp only [List.mem_singleton] at htv
  rw [htv]; exact ht

theorem classifyLine_no_indent (line : Str) (cs : List (String × Str))
    (h : classifyLine line = some cs) : ∀ tv ∈ cs, tv.1 ≠ "INDENT" := by
  unfold classifyLine at h
  by_cases c1 : (HasPrefix line "task ".toList && HasSuffix line ":".toList) = true
  · rw [if_pos c1] at h
    simp only [] at h
    by_cases c1b : Contains (TrimSuffix (TrimSpace (line.drop 5)) ":".toList) " with ".toList = true
    · rw [if_pos c1b] at h
      generalize twoParts _ = o at h
      cases o with
      | none => exact absurd h (by simp)
      | some p => exact leaf_one _ _ cs h (by decide)
    · rw [if_neg c1b] at h
      exact leaf_one _ _ cs h (by decide)
  rw [if_neg c1] at h
  by_cases c2 : HasPrefix line "greet ".toList = true
  · rw [if_pos c2] at h
    exact leaf_one _ _ cs h (by decide)
  rw [if_neg c2] at h
  by_cases c3 : (HasPrefix line "backup ".toList && Contains line " to ".toList) = true
  · rw [if_pos c3] at h
    generalize twoParts _ = o at h
    cases o with
    | none => exact absurd h (by simp)
    | some p => exact leaf_one _ _ cs h (by decide)
  rw [if_neg c3] at h
  by_cases c4 : (HasPrefix line "check ".toList && Contains line " -> ".toList) = true
  · rw [if_pos c4] at h
    generalize twoParts _ = o at h
    cases o with
    | none => exact absurd h (by simp)
    | some p => exact leaf_one _ _ cs h (by decide)
  rw [if_neg c4] at h
  by_cases c5 : (HasPrefix line "repeat ".toList && HasSuffix line ":".toList) = true
  · rw [if_pos c5] at h
    generalize (if (Contains line " each ".toList && Contains line " in ".toList) = true
      then firstMatch matchRepeatEachAt line else none) = o at h
    cases o with
    | some p => exact leaf_one _ _ cs h (by decide)
    | none =>
      simp only [] at h
      generalize firstMatch matchRepeatNAt line = o2 at h
      cases o2 with
      | some d => exact leaf_one _ _ cs h (by decide)
      | none =>
        simp only [Option.some.injEq] at h
        intro tv htv
        rw [← h] at htv
        exact absurd htv (List.not_mem_nil _)
  rw [if_neg c5] at h
  by_cases c6 : (HasPrefix line "set ".toList && Contains line " = ".toList) = true
  · rw [if_pos c6] at h
    generalize twoParts _ = o at h
    cases o with
    | none => exact absurd h (by simp)
    | some p => exact leaf_one _ _ cs h (by decide)
  rw [if_neg c6] at h
  by_cases c7 : HasPrefix line "run ".toList = true
  · rw [if_pos c7] at h
    simp only [] at h
    by_cases c7b : HasPrefix (TrimSpace (line.drop 4)) "parallel ".toList = true
    · rw [if_pos c7b] at h
      exact leaf_one _ _ cs h (by decide)
    · rw [if_neg c7b] at h
      exact leaf_one _ _ cs h (by decide)
  rw [if_neg c7] at h
  by_cases c8 : HasPrefix line "use ".toList = true
  · rw [if_pos c8] at h
    exact leaf_one _ _ cs h (by decide)
  rw [if_neg c8] at h
  by_cases c9 : line = "protect:".toList
  · rw [if_pos c9] at h
    exact leaf_one _ _ cs h (by decide)
  rw [if_neg c9] at h
  by_cases c10 : line = "handle:".toList
  · rw [if_pos c10] at h
    exact leaf_one _ _ cs h (by decide)
  rw [if_neg c10] at h
  by_cases c11 : (HasPrefix line "handle ".toList && Contains line " -> ".toList) = true
  · rw [if_pos c11] at h
    generalize twoParts _ = o at h
    cases o with
    | none => exact absurd h (by simp)
    | some p => exact leaf_one _ _ cs h (by decide)
  rw [if_neg c11] at h
  by_cases c12 : HasPrefix line "return ".toList = true
  · rw [if_pos c12] at h
    exact leaf_one _ _ cs h (by decide)
  rw [if_neg c12] at h
  exact leaf_one _ _ cs h (by decide)

/-- Claim C28: a line that is neither blank nor a comment begins with the `k`
characters `pre`, each a space or a tab, and goes on with `rest`, which does not
begin with a space or a tab. The tokens of the line are: the INDENT token with the
decimal text of `k` when `k ≥ 1`, the tokens of the trimmed text, and NEWLINE (the
call panics exactly when `tokenizeLine` does). When `k ≥ 1` the INDENT token is the
first; the line has one INDENT token when `k ≥ 1` and none when `k = 0`; and every
token carries the line number `idx + 1`. -/
theorem indent_token_of_line (idx : Nat) (pre rest : Str)
    (hpre : ∀ c ∈ pre, c = ' ' ∨ c = '\t')
    (hrest : ∀ c, rest.head? = some c → c ≠ ' ' ∧ c ≠ '\t')
    (hns : skipped (pre ++ rest) = false) :
    lineTokens idx (pre ++ rest) =
      (classifyLine (TrimSpace (pre ++ rest))).map (fun cs =>
        (if 0 < pre.length then [⟨"INDENT", Itoa (Int.ofNat pre.length), idx + 1⟩] else []) ++
          cs.map (fun tv => ⟨tv.1, tv.2, idx + 1⟩) ++ [⟨"NEWLINE", [], idx + 1⟩]) ∧
    ∀ ts, lineTokens idx (pre ++ rest) = some ts →
      (0 < pre.length →
        ts.head? = some ⟨"INDENT", Itoa (Int.ofNat pre.length), idx + 1⟩) ∧
      (ts.filter (fun t => t.Typ = "INDENT")).length = (if 0 < pre.length then 1 else 0) ∧
      ∀ t ∈ ts, t.Line = idx + 1 := by
  have htl : TrimLeft (pre ++ rest) " \t".toList = rest := by
    apply trimLeftBy_append
    · intro c hc
      rcases hpre c hc with e | e <;> rw [e] <;> decide
    · intro c hc
      obtain ⟨a, b⟩ := hrest c hc
      simp [a, b]
  have hlen : (pre ++ rest).length - (TrimLeft (pre ++ rest) " \t".toList).length =
      pre.length := by
    rw [htl]; simp
  have e1 : lineTokens idx (pre ++ rest) =
      (classifyLine (TrimSpace (pre ++ rest))).map (fun cs =>
        (if 0 < pre.length then [⟨"INDENT", Itoa (Int.ofNat pre.length), idx + 1⟩] else []) ++
          cs.map (fun tv => ⟨tv.1, tv.2, idx + 1⟩) ++ [⟨"NEWLINE", [], idx + 1⟩]) := by
    unfold skipped at hns
    simp only [lineTokens, hns, Bool.false_eq_true, if_false, hlen, tokenizeLine]
    cases classifyLine (TrimSpace (pre ++ rest)) <;> rfl
  refine ⟨e1, ?_⟩
  intro ts hts
  rw [e1] at hts
  cases hc : classifyLine (TrimSpace (pre ++ rest)) with
  | none => rw [hc] at hts; exact absurd hts (by simp)
  | some cs =>
    rw [hc] at hts
    simp only [Option.map_some', Option.some.injEq] at hts
    have hni := classifyLine_no_indent _ cs hc
    have hfil : (cs.map (fun tv => (⟨tv.1, tv.2, idx + 1⟩ : Token))).filter
        (fun t => t.Typ = "INDENT") = [] := by
      rw [List.filter_eq_nil_iff]
      intro t ht
      obtain ⟨tv, htv, e⟩ := List.mem_map.mp ht
      rw [← e]
      simpa using hni tv htv
    rw [← hts]
    by_cases hk : 0 < pre.length
    · simp only [hk, if_true, List.filter_append, hfil]
      refine ⟨fun _ => by simp, by simp [List.filter], ?_⟩
      intro t ht
      simp only [List.mem_append, List.mem_singleton, List.mem_map] at ht
      rcases ht with (e | ⟨tv, _, e⟩) | e
      · rw [e]
      · rw [← e]
      · rw [e]
    · simp only [hk, if_false, List.filter_append, hfil]
      refine ⟨fun x => absurd x (by simp), by simp [List.filter], ?_⟩
      intro t ht
      simp only [List.nil_append, List.mem_append, List.mem_singleton, List.mem_map] at ht
      rcases ht with ⟨tv, _, e⟩ | e
      · rw [← e]
      · rw [e]

/-- Witness of C28: the line `greet 1` behind two spaces and a tab, at index 4. -/
theorem indent_token_of_line_witness :
    lineTokens 4 ("  \t".toList ++ "greet 1".toList) =
      (classifyLine (TrimSpace ("  \t".toList ++ "greet 1".toList))).map (fun cs =>
        (if 0 < "  \t".toList.length then
            [⟨"INDENT", Itoa (Int.ofNat "  \t".toList.length), 4 + 1⟩] else []) ++
          cs.map (fun tv => ⟨tv.1, tv.2, 4 + 1⟩) ++ [⟨"NEWLINE", [], 4 + 1⟩]) ∧
    lineTokens 4 ("  \t".toList ++ "greet 1".toList) =
      some [⟨"INDENT", "3".toList, 5⟩, ⟨"GREET", "1".toList, 5⟩, ⟨"NEWLINE", [], 5⟩] :=
  ⟨(indent_token_of_line 4 "  \t".toList "greet 1".toList (by decide) (by decide)
      (by decide)).1, by decide⟩

/-! ## The TASK token and its node (C29) -/

theorem isIdent_spec (x : Str) (h : isIdent x = true) :
    x ≠ [] ∧ ∀ c ∈ x, isWordChar c = true := by
  simp only [isIdent, Bool.and_eq_true, Bool.not_eq_true', List.all_eq_true] at h
  refine ⟨?_, h.2⟩
  rintro rfl
  exact absurd h.1 (by simp)

theorem cutAt_first (s0 : Char) (stl l r : Str) (hl : s0 ∉ l) :
    cutAt (s0 :: stl) (l ++ (s0 :: stl) ++ r) = some (l, r) := by
  induction l with
  | nil =>
    have hp : (s0 :: stl).isPrefixOf (s0 :: (stl ++ r)) = true := by
      simp [List.isPrefixOf]
    show cutAt (s0 :: stl) (s0 :: (stl ++ r)) = some ([], r)
    rw [cutAt, if_pos hp]
    simp
  | cons c cs ih =>
    have hc : s0 ≠ c := fun e => hl (e ▸ List.mem_cons_self _ _)
    have hcs : s0 ∉ cs := fun e => hl (List.mem_cons_of_mem _ e)
    have hp : (s0 :: stl).isPrefixOf (c :: (cs ++ (s0 :: stl) ++ r)) = false := by
      simp [List.isPrefixOf, hc]
    simp only [List.cons_append, List.append_assoc] at hp ih ⊢
    simp only [cutAt, hp, Bool.false_eq_true, if_false, ih hcs]

theorem Contains_infix (sub l r : Str) : Contains (l ++ sub ++ r) sub = true := by
  induction l with
  | nil =>
    cases sub with
    | nil => cases r <;> simp [Contains]
    | cons s ss => simp [Contains, List.isPrefixOf]
  | cons c cs ih =>
    simp only [List.cons_append, Contains, Bool.or_eq_true]
    right
    simpa using ih

theorem Contains_false_of_head (s0 : Char) (stl s : Str) (h : s0 ∉ s) :
    Contains s (s0 :: stl) = false := by
  induction s with
  | nil => simp [Contains]
  | cons c cs ih =>
    have h1 : s0 ≠ c := fun e => h (e ▸ List.mem_cons_self _ _)
    have h2 : s0 ∉ cs := fun e => h (List.mem_cons_of_mem _ e)
    simp [Contains, List.isPrefixOf, h1, ih h2]

theorem TrimSpace_cons_space (c : Char) (s : Str) (hc : isSpace c = true) :
    TrimSpace (c :: s) = TrimSpace s := by
  simp [TrimSpace, trimLeftBy, hc]

theorem Split_blanks (w X : Str) (hw : ∀ c ∈ w, isSpace c = true ∧ c ≠ ',') :
    (Split (w ++ X) ',').map TrimSpace = (Split X ',').map TrimSpace := by
  induction w with
  | nil => rfl
  | cons c cs ih =>
    obtain ⟨h1, h2⟩ := hw c (List.mem_cons_self _ _)
    have ih2 := ih (fun d hd => hw d (List.mem_cons_of_mem _ hd))
    simp only [List.cons_append]
    rw [Split]
    cases hS : Split (cs ++ X) ',' with
    | nil => exact absurd hS (Split_ne_nil _ _)
    | cons p ps =>
      rw [hS] at ih2
      simp only [h2, if_false]
      rw [← ih2]
      simp only [List.map_cons, TrimSpace_cons_space c p h1]

theorem Join_cons_cons (p q : Str) (rest : List Str) (sep : Str) :
    Join (p :: q :: rest) sep = p ++ sep ++ Join (q :: rest) sep := rfl

theorem splitCSV_Join (w : Str) (hw : ∀ c ∈ w, isSpace c = true ∧ c ≠ ',') :
    ∀ (ps : List Str), ps ≠ [] → (∀ p ∈ ps, isIdent p = true) →
      splitCSV (Join ps (',' :: w)) = ps := by
  have key : ∀ (ps : List Str), ps ≠ [] → (∀ p ∈ ps, isIdent p = true) →
      (Split (Join ps (',' :: w)) ',').map TrimSpace = ps := by
    intro ps
    induction ps with
    | nil => intro h _; exact absurd rfl h
    | cons p rest ih =>
      intro _ hps
      obtain ⟨pne, pw⟩ := isIdent_spec p (hps p (List.mem_cons_self _ _))
      have pcomma : ',' ∉ p := fun hm => (wordChar_facts _ (pw _ hm)).2.2.2.2.1 rfl
      have ptrim : TrimSpace p = p :=
        TrimSpace_of_all p (fun c hc => (wordChar_facts c (pw c hc)).1)
      cases rest with
      | nil =>
        simp only [Join]
        rw [Split_no_sep ',' p pcomma]
        simp only [List.map_cons, List.map_nil, ptrim]
      | cons q rest =>
        have ih2 := ih (by simp) (fun x hx => hps x (List.mem_cons_of_mem _ hx))
        rw [Join_cons_cons]
        have e : p ++ (',' :: w) ++ Join (q :: rest) (',' :: w) =
            p ++ ',' :: (w ++ Join (q :: rest) (',' :: w)) := by simp
        rw [e, Split_append_sep ',' p _ pcomma]
        simp only [List.map_cons, ptrim]
        rw [Split_blanks w _ hw, ih2]
  intro ps hne hps
  unfold splitCSV
  rw [key ps hne hps]
  apply List.filter_eq_self.mpr
  intro p hp
  obtain ⟨pne, _⟩ := isIdent_spec p (hps p hp)
  cases p with
  | nil => exact absurd rfl pne
  | cons c cs => rfl

theorem Join_ne_nil (sep : Str) (ps : List Str) (hne : ps ≠ [])
    (hps : ∀ p ∈ ps, isIdent p = true) : Join ps sep ≠ [] := by
  cases ps with
  | nil => exact absurd rfl hne
  | cons p rest =>
    obtain ⟨pne, _⟩ := isIdent_spec p (hps p (List.mem_cons_self _ _))
    cases p with
    | nil => exact absurd rfl pne
    | cons c cs =>
      cases rest with
      | nil => simp [Join]
      | cons q rest => simp [Join]

theorem Join_no_newline (sep : Str) (hsep : '\n' ∉ sep) :
    ∀ (ps : List Str), (∀ p ∈ ps, isIdent p = true) → '\n' ∉ Join ps sep := by
  intro ps
  induction ps with
  | nil => intro _; simp [Join]
  | cons p rest ih =>
    intro hps
    obtain ⟨_, pw⟩ := isIdent_spec p (hps p (List.mem_cons_self _ _))
    have pn : '\n' ∉ p := fun hm => (wordChar_facts _ (pw _ hm)).2.2.2.2.2.2.2.2.2.2 rfl
    have ih2 := ih (fun x hx => hps x (List.mem_cons_of_mem _ hx))
    cases rest with
    | nil => simpa [Join] using pn
    | cons q rest =>
      rw [Join_cons_cons]
      simp only [List.mem_append, not_or]
      exact ⟨⟨pn, hsep⟩, ih2⟩

theorem TrimSpace_of_ends (s : Str) (h1 : ∀ c, s.head? = some c → isSpace c = false)
    (h2 : ∀ c, s.getLast? = some c → isSpace c = false) : TrimSpace s = s := by
  unfold TrimSpace
  rw [trimLeftBy_of_head isSpace s h1]
  exact trimRightBy_of_last isSpace s h2

theorem TrimSuffix_colon (s : Str) : TrimSuffix (s ++ ":".toList) ":".toList = s := by
  have hs : HasSuffix (s ++ [':']) [':'] = true := by
    simp [HasSuffix, List.isPrefixOf]
  show TrimSuffix (s ++ [':']) [':'] = s
  simp [TrimSuffix, hs]

theorem classifyLine_task (body : Str) (c0 : Char) (b0 : Str) (hb : body = c0 :: b0)
    (hc0 : isSpace c0 = false) :
    classifyLine ("task ".toList ++ body ++ ":".toList) =
      (if Contains body " with ".toList then
        match twoParts (SplitN2 body " with ".toList) with
        | some (p0, p1) =>
          some [("TASK", TrimSpace p0 ++ "|".toList ++ Join (splitCSV p1) ",".toList)]
        | none => none
      else some [("TASK", body)]) := by
  have c1 : (HasPrefix ("task ".toList ++ body ++ ":".toList) "task ".toList &&
      HasSuffix ("task ".toList ++ body ++ ":".toList) ":".toList) = true := by
    simp [HasPrefix, HasSuffix, List.isPrefixOf]
  have hd : ("task ".toList ++ body ++ ":".toList).drop 5 = body ++ ":".toList := by
    simp
  have ht : TrimSpace (body ++ ":".toList) = body ++ ":".toList := by
    apply TrimSpace_of_ends
    · intro c hc
      rw [hb] at hc
      simp only [List.cons_append, List.head?_cons, Option.some.injEq] at hc
      rw [← hc]; exact hc0
    · intro c hc
      have e : (body ++ ":".toList).getLast? = some ':' := List.getLast?_concat _
      rw [e] at hc
      simp only [Option.some.injEq] at hc
      rw [← hc]; decide
  unfold classifyLine
  rw [if_pos c1]
  simp only [hd, ht, TrimSuffix_colon]

theorem lineTokens_of_classify (s : Str) (tv : String × Str) (c0 : Char) (s0 : Str)
    (hs : s = c0 :: s0) (hc0 : isSpace c0 = false) (hc1 : c0 ≠ '#')
    (hlast : ∀ c, s.getLast? = some c → isSpace c = false)
    (hcl : classifyLine s = some [tv]) :
    lineTokens 0 s = some [⟨tv.1, tv.2, 1⟩, ⟨"NEWLINE", [], 1⟩] := by
  have ht : TrimSpace s = s := by
    apply TrimSpace_of_ends _ _ hlast
    intro c hc
    rw [hs] at hc
    simp only [List.head?_cons, Option.some.injEq] at hc
    rw [← hc]; exact hc0
  have hne : (s.isEmpty || HasPrefix s "#".toList) = false := by
    rw [hs]
    have := HasPrefix_singleton_false c0 '#' s0 hc1
    simp only [HasPrefix] at this ⊢
    simp [this]
  have hsp : (" \t".toList.contains c0) = false := by
    have a : c0 ≠ ' ' := by rintro rfl; exact absurd hc0 (by decide)
    have b : c0 ≠ '\t' := by rintro rfl; exact absurd hc0 (by decide)
    simp [a, b]
  have htl : TrimLeft s " \t".toList = s := by
    rw [hs]
    simp only [TrimLeft, trimLeftBy, hsp, Bool.false_eq_true, if_false]
  simp only [lineTokens, ht, hne, Bool.false_eq_true, if_false, htl, Nat.sub_self,
    Nat.lt_irrefl, gt_iff_lt, tokenizeLine, hcl, Option.map_some', List.map_cons, List.map_nil,
    List.nil_append, List.cons_append]

theorem Tokenize_one_line (s : Str) (ts : List Token) (hn : '\n' ∉ s)
    (h : lineTokens 0 s = some ts) : Tokenize s = some (ts ++ [⟨"EOF", [], 1⟩]) := by
  simp only [Tokenize, NewLexer, Lexer.Tokenize, Split_no_sep '\n' s hn,
    tokenizeFrom_single 0 s ts h, List.length_singleton]

theorem Parse_taskTokens (value : Str) (fuel : Nat) :
    Parse (fuel + 4) (taskTokens value) =
      some [Node.Task (taskName value) (taskParams value) []] := by
  simp [Parse, parseLoop, taskTokens, isAtEnd, peek, parseStatement, parseStatementKind,
    parseTask, parseBlock, consume, advance]

theorem pipeParts_bar (n j : Str) (hn : '|' ∉ n) :
    pipeParts (n ++ "|".toList ++ j) = (n, j) := by
  have := cutAt_first '|' [] n j hn
  simp only [pipeParts, SplitN2]
  rw [show ("|".toList : Str) = ['|'] from rfl, this]

/-- Claim C29: for identifiers `N` and `p1..pk` (`k ≥ 1`), the line
`task N with p1, ..., pk:` is tokenized into a TASK token whose value is
`N|p1,...,pk` (then NEWLINE and EOF), and Parse makes of these tokens one Task
node with the name `N`, the parameters `p1..pk` in order and an empty body; the
line `task N:` is tokenized into a TASK token with the value `N`, of which Parse
makes a Task node with the name `N` and no parameters. -/
theorem task_line_token_and_node (N : Str) (ps : List Str) (fuel : Nat)
    (hN : isIdent N = true) (hps : ∀ p ∈ ps, isIdent p = true) (hne : ps ≠ []) :
    Tokenize ("task ".toList ++ (N ++ " with ".toList ++ Join ps ", ".toList) ++ ":".toList) =
      some (taskTokens (N ++ "|".toList ++ Join ps ",".toList)) ∧
    Parse (fuel + 4) (taskTokens (N ++ "|".toList ++ Join ps ",".toList)) =
      some [Node.Task N ps []] ∧
    Tokenize ("task ".toList ++ N ++ ":".toList) = some (taskTokens N) ∧
    Parse (fuel + 4) (taskTokens N) = some [Node.Task N [] []] := by
  obtain ⟨nne, nw⟩ := isIdent_spec N hN
  have nf := fun c hc => wordChar_facts c (nw c hc)
  have nsp : ' ' ∉ N := fun hm => (nf _ hm).2.2.2.2.2.1 rfl
  have nbar : '|' ∉ N := fun hm => (nf _ hm).2.2.2.2.2.2.2.1 rfl
  have nnl : '\n' ∉ N := fun hm => (nf _ hm).2.2.2.2.2.2.2.2.2.2 rfl
  have ntrim : TrimSpace N = N := TrimSpace_of_all N (fun c hc => (nf c hc).1)
  obtain ⟨c0, n0, hN0⟩ : ∃ c0 n0, N = c0 :: n0 := by
    cases N with
    | nil => exact absurd rfl nne
    | cons c cs => exact ⟨c, cs, rfl⟩
  have hc0 : isSpace c0 = false := (nf c0 (by rw [hN0]; exact List.mem_cons_self _ _)).1
  have lastcolon : ∀ (b : Str) (c : Char),
      ("task ".toList ++ b ++ ":".toList).getLast? = some c → isSpace c = false := by
    intro b c hc
    have e : ("task ".toList ++ b ++ ":".toList).getLast? = some ':' :=
      List.getLast?_concat _
    rw [e] at hc
    simp only [Option.some.injEq] at hc
    rw [← hc]; decide
  have tokOf : ∀ (b v : Str), '\n' ∉ b →
      classifyLine ("task ".toList ++ b ++ ":".toList) = some [("TASK", v)] →
      Tokenize ("task ".toList ++ b ++ ":".toList) = some (taskTokens v) := by
    intro b v hb hcl
    have hl := lineTokens_of_classify ("task ".toList ++ b ++ ":".toList) ("TASK", v) 't'
      ("ask ".toList ++ b ++ ":".toList) (by simp) (by decide) (by decide) (lastcolon b) hcl
    have hnl : '\n' ∉ "task ".toList ++ b ++ ":".toList := by
      simp only [List.mem_append, not_or]
      exact ⟨⟨by decide, hb⟩, by decide⟩
    rw [Tokenize_one_line _ _ hnl hl]
    rfl
  refine ⟨?_, ?_, ?_, ?_⟩
  · apply tokOf
    · simp only [List.mem_append, not_or]
      exact ⟨⟨nnl, by decide⟩, Join_no_newline _ (by decide) ps hps⟩
    · rw [classifyLine_task _ c0 (n0 ++ " with ".toList ++ Join ps ", ".toList)
        (by rw [hN0]; simp) hc0]
      have hcon : Contains (N ++ " with ".toList ++ Join ps ", ".toList) " with ".toList =
          true := Contains_infix _ _ _
      have hcut := cutAt_first ' ' "with ".toList N (Join ps ", ".toList) nsp
      have hsplit : SplitN2 (N ++ " with ".toList ++ Join ps ", ".toList) " with ".toList =
          [N, Join ps ", ".toList] := by
        simp only [SplitN2]
        rw [show (" with ".toList : Str) = ' ' :: "with ".toList from rfl, hcut]
      have hcsv : splitCSV (Join ps ", ".toList) = ps :=
        splitCSV_Join " ".toList (by decide) ps hne hps
      rw [if_pos hcon, hsplit]
      simp only [twoParts, ntrim, hcsv]
  · rw [Parse_taskTokens]
    have hcon : Contains (N ++ "|".toList ++ Join ps ",".toList) "|".toList = true :=
      Contains_infix _ _ _
    have hpp := pipeParts_bar N (Join ps ",".toList) nbar
    have hj : (Join ps ",".toList).isEmpty = false := by
      cases hJ : Join ps ",".toList with
      | nil => exact absurd hJ (Join_ne_nil _ ps hne hps)
      | cons c cs => rfl
    have hcsv : splitCSV (Join ps ",".toList) = ps :=
      splitCSV_Join [] (by simp) ps hne hps
    simp only [taskName, taskParams, hcon, hpp, hj, hcsv, if_true, Bool.not_false,
      Bool.and_self]
  · apply tokOf _ _ nnl
    rw [classifyLine_task N c0 n0 hN0 hc0]
    have hcon : Contains N " with ".toList = false := Contains_false_of_head ' ' _ N nsp
    rw [hcon]
    simp
  · rw [Parse_taskTokens]
    have hcon : Contains N "|".toList = false := Contains_false_of_head '|' [] N nbar
    simp only [taskName, taskParams, hcon, Bool.false_eq_true, if_false, Bool.false_and]

/-- Witness of C29: `task add with a, b_2:` and `task add:`. -/
theorem task_line_token_and_node_witness :
    Tokenize ("task ".toList ++
        ("add".toList ++ " with ".toList ++ Join ["a".toList, "b_2".toList] ", ".toList) ++
        ":".toList) =
      some (taskTokens ("add".toList ++ "|".toList ++
        Join ["a".toList, "b_2".toList] ",".toList)) ∧
    Parse (0 + 4) (taskTokens ("add".toList ++ "|".toList ++
        Join ["a".toList, "b_2".toList] ",".toList)) =
      some [Node.Task "add".toList ["a".toList, "b_2".toList] []] ∧
    Tokenize ("task ".toList ++ "add".toList ++ ":".toList) = some (taskTokens "add".toList) ∧
    Parse (0 + 4) (taskTokens "add".toList) = some [Node.Task "add".toList [] []] :=
  task_line_token_and_node "add".toList ["a".toList, "b_2".toList] 0 (by decide) (by decide)
    (by decide)

/-! ## Protect and handle bodies (C30) -/

theorem tokenizeFrom_mixed :
    ∀ (S : List (Nat × Str)) (idx : Nat) (tail : List Str) (tailtoks : List Token),
      (∀ x ∈ S, (simpleLine x.2).isSome = true) →
      tokenizeFrom (idx + S.length) tail = some tailtoks →
      tokenizeFrom idx (S.map (fun x => indentLine x.1 x.2) ++ tail) =
        some (mixedToks idx S ++ tailtoks) := by
  intro S
  induction S with
  | nil => intro idx tail tailtoks _ h; simpa [mixedToks] using h
  | cons x xs ih =>
    intro idx tail tailtoks hx h
    obtain ⟨n, hn⟩ := Option.isSome_iff_exists.mp (hx x (List.mem_cons_self _ _))
    have h2 : tokenizeFrom (idx + 1 + xs.length) tail = some tailtoks := by
      rw [← h]; congr 1; simp only [List.length_cons]; omega
    have h3 := ih (idx + 1) tail tailtoks (fun y hy => hx y (List.mem_cons_of_mem _ hy)) h2
    simp only [List.map_cons, List.cons_append]
    rw [tokenizeFrom, (lineTokens_simple idx x.1 x.2 n hn).1, h3]
    simp [mixedToks, lineToks]

theorem parseProtectBody_mixed :
    ∀ (S : List (Nat × Str)) (idx : Nat) (rest : Parser) (acc : List Node) (fuel : Nat),
      (∀ x ∈ S, (simpleLine x.2).isSome = true) →
      parseProtectBody (fuel + 2 + S.length) (mixedToks idx S ++ rest) acc =
        parseProtectBody (fuel + 2) rest (acc ++ lineNodes S) := by
  intro S
  induction S with
  | nil => intro idx rest acc fuel _; simp [mixedToks, lineNodes]
  | cons x xs ih =>
    intro idx rest acc fuel hx
    obtain ⟨n, hn⟩ := Option.isSome_iff_exists.mp (hx x (List.mem_cons_self _ _))
    have hc : simpleNode (contentToken x.2 (idx + 1)) = some n :=
      (lineTokens_simple idx x.1 x.2 n hn).2
    obtain ⟨t1, t2, t3, _, _, t6, _⟩ := simpleNode_typ _ _ hc
    have hrest := ih (idx + 1) rest (acc ++ [n]) fuel
      (fun y hy => hx y (List.mem_cons_of_mem _ hy))
    have hlen : fuel + 2 + (x :: xs).length = (fuel + 1 + xs.length + 1) + 1 := by
      simp only [List.length_cons]; omega
    have hlen2 : fuel + 1 + xs.length + 1 = fuel + 2 + xs.length := by omega
    have hstmt := parseBlockStatement_simple (contentToken x.2 (idx + 1)) n
      (⟨"NEWLINE", [], idx + 1⟩ :: (mixedToks (idx + 1) xs ++ rest)) (fuel + 1 + xs.length) hc
    have hnodes : lineNodes (x :: xs) = n :: lineNodes xs := by
      simp [lineNodes, List.filterMap_cons, hn]
    rw [hlen, parseProtectBody, hnodes]
    by_cases hk : 0 < x.1
    · simp only [mixedToks, lineToks, hk, if_true, List.cons_append, List.nil_append,
        List.append_assoc, isAtEnd, peek, peekAhead, List.drop, advance, List.tail_cons,
        hstmt, consume]
      simp [t6, hlen2, hrest]
    · simp only [mixedToks, lineToks, hk, if_false, List.cons_append, List.nil_append,
        List.append_assoc, isAtEnd, peek, peekAhead, advance, List.tail_cons]
      rw [hlen2] at hstmt
      simp [t1, t2, t6, hlen2, hstmt, consume, peek, advance, hrest]

theorem parseBlock_handle_body (first : Token × Token × Token)
    (ls : List (Token × Token × Token)) (eof : Token) (n1 : Node) (fuel : Nat)
    (hf1 : first.1.Typ = "INDENT") (hf2 : simpleNode first.2.1 = some n1)
    (hf3 : first.2.2.Typ = "NEWLINE")
    (hls : ∀ l ∈ ls, l.1.Typ = "INDENT" ∧ (Atoi first.1.Value).1 ≤ (Atoi l.1.Value).1 ∧
        (simpleNode l.2.1).isSome = true ∧ l.2.2.Typ = "NEWLINE")
    (heof : eof.Typ = "EOF") :
    parseBlock (fuel + 2 + ls.length + 1) (indentedToks (first :: ls) ++ [eof]) [] none =
      some (n1 :: ls.filterMap (fun l => simpleNode l.2.1), [eof]) := by
  have hstmt := parseBlockStatement_simple first.2.1 n1
    (first.2.2 :: (indentedToks ls ++ [eof])) (fuel + 1 + ls.length) hf2
  have hlen2 : fuel + 1 + ls.length + 1 = fuel + 2 + ls.length := by omega
  have hind := parseBlock_indented (Atoi first.1.Value).1 ls [eof] [n1] fuel hls
  have hend : ∀ acc, parseBlock (fuel + 2) [eof] acc (some (Atoi first.1.Value).1) =
      some (acc, [eof]) := by
    intro acc
    simp [parseBlock, isAtEnd, peek, heof]
  rw [parseBlock]
  simp only [indentedToks, List.cons_append, isAtEnd, peek, advance, List.tail_cons, hf1]
  rw [show fuel + 2 + ls.length = fuel + 1 + ls.length + 1 by omega, hstmt]
  simp only [consume, peek, hf3, advance, List.tail_cons, if_true]
  rw [hlen2]
  simp [hind, hend]

theorem lineTokens_handle (idx k : Nat) :
    lineTokens idx (indentLine k "handle:".toList) = some (handleToks idx k) := by
  have := lineTokens_indentLine idx k "handle:".toList ("HANDLE", []) (by decide) (by decide)
    (by decide)
  rw [this]; rfl

theorem parseProtect_mixed (S : List (Nat × Str)) (rest : Parser) (l0 : Nat) (nl0 : Token)
    (fuel : Nat) (hnl0 : nl0.Typ = "NEWLINE")
    (hS : ∀ x ∈ S, (simpleLine x.2).isSome = true) :
    parseStatement (fuel + 2 + S.length + 1)
        (⟨"PROTECT", [], l0⟩ :: nl0 :: (mixedToks 1 S ++ rest)) 0 =
      (match parseProtectBody (fuel + 2) rest (lineNodes S) with
        | none => none
        | some (protectBody, q) =>
          if (peek q).Typ = "HANDLE" ||
              ((peek q).Typ = "INDENT" && (peekAhead q 1).Typ = "HANDLE") then
            match parseBlock (fuel + 2 + S.length)
                (consume "NEWLINE" (consume "HANDLE"
                  (if (peek q).Typ = "INDENT" then advance q else q))) [] none with
            | none => none
            | some (handleBody, r) => some (some (Node.Protect protectBody handleBody), r)
          else some (some (Node.Protect protectBody []), q)) := by
  have hb := parseProtectBody_mixed S 1 rest [] fuel hS
  simp only [List.nil_append] at hb
  have e1 : parseStatement (fuel + 2 + S.length + 1)
      (⟨"PROTECT", [], l0⟩ :: nl0 :: (mixedToks 1 S ++ rest)) 0 =
      (match parseProtect (fuel + 2 + S.length + 1)
          (⟨"PROTECT", [], l0⟩ :: nl0 :: (mixedToks 1 S ++ rest)) with
        | none => none
        | some (n, q) => some (some n, q)) := by
    simp only [parseStatement, parseStatementKind, peek, String.reduceEq, if_false, if_true]
  have pk : ∀ (t : Token) (r : Parser), peek (t :: r) = t := fun _ _ => rfl
  rw [e1, parseProtect]
  simp only [advance, List.tail_cons, consume, pk, hnl0, if_true, hb]
  cases parseProtectBody (fuel + 2) rest (lineNodes S) with
  | none => rfl
  | some r =>
    obtain ⟨pb, q⟩ := r
    simp only []
    by_cases hc : ((peek q).Typ = "HANDLE" ||
        ((peek q).Typ = "INDENT" && (peekAhead q 1).Typ = "HANDLE")) = true
    · rw [if_pos hc, if_pos hc]
      generalize parseBlock (fuel + 2 + S.length) _ [] none = r0
      cases r0 <;> rfl
    · rw [if_neg hc, if_neg hc]

theorem handle_literal_facts :
    '\n' ∉ "handle:".toList ∧ '\n' ∉ "protect:".toList ∧
    lineTokens 0 "protect:".toList = some [⟨"PROTECT", [], 1⟩, ⟨"NEWLINE", [], 1⟩] := by
  decide

theorem mixed_no_newline (S : List (Nat × Str))
    (hS : ∀ x ∈ S, (simpleLine x.2).isSome = true) :
    ∀ l ∈ S.map (fun x => indentLine x.1 x.2), '\n' ∉ l := by
  intro l hl
  obtain ⟨x, hx, rfl⟩ := List.mem_map.mp hl
  obtain ⟨m, hm⟩ := Option.isSome_iff_exists.mp (hS x hx)
  exact indentLine_no_newline _ _ (simpleLine_spec _ _ hm).2.1

/-- Claim C30 (amended): the program is the line `protect:`, then lines of simple
statements `S` (each behind any number of blanks, none included), then the line
`handle:` (behind `kh ≥ 0` blanks), then lines of simple statements of which the
first is indented by `b ≥ 1` columns and the others by at least `b` columns.
Parse (with enough fuel) makes of its tokens one Protect node whose protect body
is the statements `S` and whose handle body is the statements behind `handle:`,
in source order. Without the line `handle:` and what follows it, Parse makes one
Protect node with the protect body `S` and an empty handle body. The indent `b`
is a Go int, hence below 2^63. -/
theorem protect_handle_bodies (S : List (Nat × Str)) (kh b : Nat) (h1 : Str)
    (H : List (Nat × Str)) (fuel : Nat)
    (hS : ∀ x ∈ S, (simpleLine x.2).isSome = true)
    (hb : 1 ≤ b) (hb63 : b < 2 ^ 63) (hh1 : (simpleLine h1).isSome = true)
    (hH : ∀ x ∈ H, b ≤ x.1 ∧ (simpleLine x.2).isSome = true) :
    (Tokenize (Join ("protect:".toList :: (S.map (fun x => indentLine x.1 x.2) ++
        indentLine kh "handle:".toList :: indentLine b h1 ::
          H.map (fun x => indentLine x.1 x.2))) "\n".toList)).bind
        (Parse (fuel + S.length + H.length + 6)) =
      some [Node.Protect (lineNodes S) (lineNodes ((b, h1) :: H))] ∧
    (Tokenize (Join ("protect:".toList :: S.map (fun x => indentLine x.1 x.2))
        "\n".toList)).bind (Parse (fuel + S.length + 4)) =
      some [Node.Protect (lineNodes S) []] := by
  obtain ⟨hnl1, hnl2, hprot⟩ := handle_literal_facts
  obtain ⟨n1, hn1⟩ := Option.isSome_iff_exists.mp hh1
  have hSnl := mixed_no_newline S hS
  have pk : ∀ (t : Token) (r : Parser), peek (t :: r) = t := fun _ _ => rfl
  constructor
  · -- the lines of the source
    have hHall : ∀ x ∈ (b, h1) :: H, 0 < x.1 ∧ (simpleLine x.2).isSome = true := by
      intro x hx
      simp only [List.mem_cons] at hx
      rcases hx with rfl | hx
      · exact ⟨hb, hh1⟩
      · exact ⟨lt_of_lt_of_le hb (hH x hx).1, (hH x hx).2⟩
    have hlines : Split (Join ("protect:".toList :: (S.map (fun x => indentLine x.1 x.2) ++
        indentLine kh "handle:".toList :: indentLine b h1 ::
          H.map (fun x => indentLine x.1 x.2))) "\n".toList) '\n' =
        "protect:".toList :: (S.map (fun x => indentLine x.1 x.2) ++
        indentLine kh "handle:".toList :: indentLine b h1 ::
          H.map (fun x => indentLine x.1 x.2)) := by
      apply Split_Join _ (by simp)
      intro l hl
      simp only [List.mem_cons, List.mem_append] at hl
      rcases hl with rfl | hl | rfl | rfl | hl
      · exact hnl2
      · exact hSnl l hl
      · exact indentLine_no_newline _ _ hnl1
      · exact indentLine_no_newline _ _ (simpleLine_spec _ _ hn1).2.1
      · exact mixed_no_newline H (fun x hx => (hH x hx).2) l hl
    -- the tokens
    have hbody := tokenizeFrom_body ((b, h1) :: H) (S.length + 2) [] [] hHall rfl
    simp only [List.append_nil, List.map_cons] at hbody
    have htail : tokenizeFrom (1 + S.length) (indentLine kh "handle:".toList ::
        indentLine b h1 :: H.map (fun x => indentLine x.1 x.2)) =
        some (handleToks (S.length + 1) kh ++
          indentedToks (bodyTriples (S.length + 2) ((b, h1) :: H))) := by
      rw [tokenizeFrom, show 1 + S.length = S.length + 1 by omega, lineTokens_handle,
        show S.length + 1 + 1 = S.length + 2 by omega, hbody]
    have hmix := tokenizeFrom_mixed S 1 _ _ hS htail
    have hTok : Tokenize (Join ("protect:".toList :: (S.map (fun x => indentLine x.1 x.2) ++
        indentLine kh "handle:".toList :: indentLine b h1 ::
          H.map (fun x => indentLine x.1 x.2))) "\n".toList) =
        some (⟨"PROTECT", [], 1⟩ :: ⟨"NEWLINE", [], 1⟩ :: (mixedToks 1 S ++
          (handleToks (S.length + 1) kh ++
            (indentedToks (bodyTriples (S.length + 2) ((b, h1) :: H)) ++
              [⟨"EOF", [], S.length + H.length + 3⟩])))) := by
      simp only [Tokenize, NewLexer, Lexer.Tokenize, hlines]
      rw [tokenizeFrom, hprot]
      simp only [Nat.zero_add]
      rw [hmix]
      simp only [List.cons_append, List.nil_append, List.append_assoc, List.length_cons,
        List.length_append, List.length_map, Option.some.injEq, List.cons.injEq, true_and]
      congr 4
    rw [hTok]
    show Parse _ _ = _
    -- the handle body
    obtain ⟨t1, t2, t3⟩ := bodyTriples_spec b hb63 H (S.length + 3) hH
    have hfirst := lineTokens_simple (S.length + 2) b h1 n1 hn1
    have hAb : (Atoi (Itoa (Int.ofNat b))).1 = (b : Int) := by
      rw [Atoi_Itoa, if_pos hb63]
    have hblock := parseBlock_handle_body
      (⟨"INDENT", Itoa (Int.ofNat b), S.length + 2 + 1⟩, contentToken h1 (S.length + 2 + 1),
        ⟨"NEWLINE", [], S.length + 2 + 1⟩)
      (bodyTriples (S.length + 3) H) ⟨"EOF", [], S.length + H.length + 3⟩ n1
      (fuel + 1 + S.length) rfl hfirst.2 rfl
      (by
        intro l hl
        obtain ⟨a1, a2, a3, a4⟩ := t1 l hl
        exact ⟨a1, by rw [hAb]; exact a2, a3, a4⟩)
      rfl
    rw [t3, t2] at hblock
    have hnodesH : lineNodes ((b, h1) :: H) = n1 :: lineNodes H := by
      simp [lineNodes, List.filterMap_cons, hn1]
    have hstmt := parseProtect_mixed S
      (handleToks (S.length + 1) kh ++
        (indentedToks (bodyTriples (S.length + 2) ((b, h1) :: H)) ++
          [⟨"EOF", [], S.length + H.length + 3⟩]))
      1 ⟨"NEWLINE", [], 1⟩ (fuel + H.length + 2) rfl hS
    have hfuelB : fuel + H.length + 2 + 2 + S.length = fuel + 1 + S.length + 2 + H.length + 1 := by
      omega
    have hpb : parseProtectBody (fuel + H.length + 2 + 2)
        (handleToks (S.length + 1) kh ++
          (indentedToks (bodyTriples (S.length + 2) ((b, h1) :: H)) ++
            [⟨"EOF", [], S.length + H.length + 3⟩])) (lineNodes S) =
        some (lineNodes S, handleToks (S.length + 1) kh ++
          (indentedToks (bodyTriples (S.length + 2) ((b, h1) :: H)) ++
            [⟨"EOF", [], S.length + H.length + 3⟩])) := by
      rw [parseProtectBody]
      by_cases hk : 0 < kh
      · simp [handleToks, hk, isAtEnd, peek, peekAhead]
      · simp [handleToks, hk, isAtEnd, peek, peekAhead]
    have hrest : consume "NEWLINE" (consume "HANDLE"
        (if (peek (handleToks (S.length + 1) kh ++
            (indentedToks (bodyTriples (S.length + 2) ((b, h1) :: H)) ++
              [⟨"EOF", [], S.length + H.length + 3⟩]))).Typ = "INDENT"
          then advance (handleToks (S.length + 1) kh ++
            (indentedToks (bodyTriples (S.length + 2) ((b, h1) :: H)) ++
              [⟨"EOF", [], S.length + H.length + 3⟩]))
          else handleToks (S.length + 1) kh ++
            (indentedToks (bodyTriples (S.length + 2) ((b, h1) :: H)) ++
              [⟨"EOF", [], S.length + H.length + 3⟩]))) =
        indentedToks (bodyTriples (S.length + 2) ((b, h1) :: H)) ++
          [⟨"EOF", [], S.length + H.length + 3⟩] := by
      by_cases hk : 0 < kh
      · simp [handleToks, hk, peek, advance, consume]
      · simp [handleToks, hk, peek, advance, consume]
    have hcond : ((peek (handleToks (S.length + 1) kh ++
            (indentedToks (bodyTriples (S.length + 2) ((b, h1) :: H)) ++
              [⟨"EOF", [], S.length + H.length + 3⟩]))).Typ = "HANDLE" ||
        ((peek (handleToks (S.length + 1) kh ++
            (indentedToks (bodyTriples (S.length + 2) ((b, h1) :: H)) ++
              [⟨"EOF", [], S.length + H.length + 3⟩]))).Typ = "INDENT" &&
          (peekAhead (handleToks (S.length + 1) kh ++
            (indentedToks (bodyTriples (S.length + 2) ((b, h1) :: H)) ++
              [⟨"EOF", [], S.length + H.length + 3⟩])) 1).Typ = "HANDLE")) = true := by
      by_cases hk : 0 < kh
      · simp [handleToks, hk, peek, peekAhead]
      · simp [handleToks, hk, peek, peekAhead]
    rw [hpb] at hstmt
    simp only [] at hstmt
    rw [if_pos hcond, hrest, hfuelB] at hstmt
    have hblock2 : parseBlock (fuel + 1 + S.length + 2 + H.length + 1)
        (indentedToks (bodyTriples (S.length + 2) ((b, h1) :: H)) ++
          [⟨"EOF", [], S.length + H.length + 3⟩]) [] none =
        some (n1 :: lineNodes H, [⟨"EOF", [], S.length + H.length + 3⟩]) := by
      have := hblock
      simp only [bodyTriples, lineNodes] at this ⊢
      exact this
    rw [hblock2] at hstmt
    simp only [] at hstmt
    have hF : fuel + S.length + H.length + 6 =
        (fuel + 1 + S.length + 2 + H.length + 1 + 1) + 1 := by
      omega
    have hne : isAtEnd (⟨"PROTECT", [], 1⟩ :: ⟨"NEWLINE", [], 1⟩ :: (mixedToks 1 S ++
          (handleToks (S.length + 1) kh ++
            (indentedToks (bodyTriples (S.length + 2) ((b, h1) :: H)) ++
              [⟨"EOF", [], S.length + H.length + 3⟩])))) = false := by
      simp [isAtEnd, peek]
    rw [Parse, hF, parseLoop_step _ _ _ _ _ hne hstmt]
    simp [parseLoop, isAtEnd, peek, hnodesH]
  · have hlines : Split (Join ("protect:".toList :: S.map (fun x => indentLine x.1 x.2))
        "\n".toList) '\n' = "protect:".toList :: S.map (fun x => indentLine x.1 x.2) := by
      apply Split_Join _ (by simp)
      intro l hl
      simp only [List.mem_cons] at hl
      rcases hl with rfl | hl
      · exact hnl2
      · exact hSnl l hl
    have hmix := tokenizeFrom_mixed S 1 [] [] hS rfl
    simp only [List.append_nil] at hmix
    have hTok : Tokenize (Join ("protect:".toList :: S.map (fun x => indentLine x.1 x.2))
        "\n".toList) =
        some (⟨"PROTECT", [], 1⟩ :: ⟨"NEWLINE", [], 1⟩ :: (mixedToks 1 S ++
          [⟨"EOF", [], S.length + 1⟩])) := by
      simp only [Tokenize, NewLexer, Lexer.Tokenize, hlines]
      rw [tokenizeFrom, hprot]
      simp only [Nat.zero_add]
      rw [hmix]
      simp
    rw [hTok]
    show Parse _ _ = _
    have hstmt := parseProtect_mixed S [⟨"EOF", [], S.length + 1⟩] 1 ⟨"NEWLINE", [], 1⟩
      fuel rfl hS
    have hpb : parseProtectBody (fuel + 2) [⟨"EOF", [], S.length + 1⟩] (lineNodes S) =
        some (lineNodes S, [⟨"EOF", [], S.length + 1⟩]) := by
      simp [parseProtectBody, isAtEnd, peek]
    rw [hpb] at hstmt
    simp only [] at hstmt
    have hcond : ¬ (((peek [(⟨"EOF", [], S.length + 1⟩ : Token)]).Typ = "HANDLE" ||
        ((peek [(⟨"EOF", [], S.length + 1⟩ : Token)]).Typ = "INDENT" &&
          (peekAhead [(⟨"EOF", [], S.length + 1⟩ : Token)] 1).Typ = "HANDLE")) = true) := by
      simp [peek]
    rw [if_neg hcond] at hstmt
    have hF : fuel + S.length + 4 = (fuel + 2 + S.length + 1) + 1 := by omega
    have hne : isAtEnd (⟨"PROTECT", [], 1⟩ :: ⟨"NEWLINE", [], 1⟩ :: (mixedToks 1 S ++
          [⟨"EOF", [], S.length + 1⟩])) = false := by
      simp [isAtEnd, peek]
    rw [Parse, hF, parseLoop_step _ _ _ _ _ hne hstmt]
    simp [parseLoop, isAtEnd, peek]

/-- Witness of C30 (amended): a protect body of an indented and a non-indented
statement, `handle:` at column 0, and a handle body indented by 4 and 6 columns. -/
theorem protect_handle_bodies_witness :
    (Tokenize (Join ("protect:".toList ::
        ([(2, "greet 1".toList), (0, "greet 2".toList)].map (fun x => indentLine x.1 x.2) ++
        indentLine 0 "handle:".toList :: indentLine 4 "greet 3".toList ::
          [(6, "greet 4".toList)].map (fun x => indentLine x.1 x.2))) "\n".toList)).bind
        (Parse (0 + [(2, "greet 1".toList), (0, "greet 2".toList)].length +
          [(6, "greet 4".toList)].length + 6)) =
      some [Node.Protect (lineNodes [(2, "greet 1".toList), (0, "greet 2".toList)])
        (lineNodes ((4, "greet 3".toList) :: [(6, "greet 4".toList)]))] ∧
    (Tokenize (Join ("protect:".toList ::
        [(2, "greet 1".toList), (0, "greet 2".toList)].map (fun x => indentLine x.1 x.2))
        "\n".toList)).bind
        (Parse (0 + [(2, "greet 1".toList), (0, "greet 2".toList)].length + 4)) =
      some [Node.Protect (lineNodes [(2, "greet 1".toList), (0, "greet 2".toList)]) []] :=
  protect_handle_bodies [(2, "greet 1".toList), (0, "greet 2".toList)] 0 4 "greet 3".toList
    [(6, "greet 4".toList)] 0 (by decide) (by decide) (by decide) (by decide) (by decide)

/-- Counterexample to C30 as stated: behind `handle:` the statement `greet 2` is
indented by 4 columns and `greet 3` by 2 columns, both more deeply than `handle:`;
the handle body ends before `greet 3`, which Parse returns as a second node, after
the Protect node. And without `handle:`, a `task t:` line behind the protect body is
in no body: Parse drops it. -/
theorem handle_body_ends_at_shallower_line :
    (Tokenize "protect:\n  greet 1\nhandle:\n    greet 2\n  greet 3".toList).bind (Parse 20) =
      some [Node.Protect [Node.Greet "1".toList] [Node.Greet "2".toList],
        Node.Greet "3".toList] ∧
    (Tokenize "protect:\n  greet 1\ntask t:\n  greet 2".toList).bind (Parse 20) =
      some [Node.Protect [Node.Greet "1".toList, Node.Greet "2".toList] []] :=
  ⟨rfl, rfl⟩

/-! ## The parser builds no task definition inside a body -/

theorem taskFreeList_append (a b : List Node) :
    taskFreeList (a ++ b) = (taskFreeList a && taskFreeList b) := by
  induction a with
  | nil => simp [taskFreeList]
  | cons n ns ih => simp [taskFreeList, ih, Bool.and_assoc]

theorem taskFreeList_toList (n : Option Node) (h : ∀ m, n = some m → taskFree m = true) :
    taskFreeList n.toList = true := by
  cases n with
  | none => rfl
  | some m => simp [Option.toList, taskFreeList, h m rfl]

theorem simpleStmt_clean (r : Node × Parser) (n : Node) (q : Parser)
    (h : simpleStmt r = some (some n, q)) (hr : taskFree r.1 = true) : taskFree n = true := by
  simp only [simpleStmt, Option.some.injEq, Prod.mk.injEq] at h
  rw [← h.1]; exact hr

theorem parser_bodies_clean :
    ∀ fuel : Nat,
      (∀ p body b r q, taskFreeList body = true → parseBlock fuel p body b = some (r, q) →
        taskFreeList r = true) ∧
      (∀ p n q, parseBlockStatement fuel p = some (some n, q) → taskFree n = true) ∧
      (∀ p n q, parseRepeatN fuel p = some (n, q) → taskFree n = true) ∧
      (∀ p n q, parseRepeatEach fuel p = some (n, q) → taskFree n = true) ∧
      (∀ p acc r q, taskFreeList acc = true → parseProtectBody fuel p acc = some (r, q) →
        taskFreeList r = true) ∧
      (∀ p n q, parseProtect fuel p = some (n, q) → taskFree n = true) := by
  intro fuel
  induction fuel with
  | zero =>
    refine ⟨?_, ?_, ?_, ?_, ?_, ?_⟩
    · intro p body b r q _ h; simp [parseBlock] at h
    · intro p n q h; simp [parseBlockStatement] at h
    · intro p n q h; simp [parseRepeatN] at h
    · intro p n q h; simp [parseRepeatEach] at h
    · intro p acc r q _ h; simp [parseProtectBody] at h
    · intro p n q h; simp [parseProtect] at h
  | succ fuel ih =>
    obtain ⟨ihB, ihS, ihN, ihE, ihPB, ihP⟩ := ih
    have stepB : ∀ (p q0 : Parser) (body : List Node) (b : Option Int) (r : List Node)
        (q : Parser), taskFreeList body = true →
        (match parseBlockStatement fuel p with
          | none => none
          | some (n, q1) => parseBlock fuel q1 (body ++ n.toList) b) = some (r, q) →
        taskFreeList r = true := by
      intro p q0 body b r q hbody h
      cases hs : parseBlockStatement fuel p with
      | none => rw [hs] at h; exact absurd h (by simp)
      | some x =>
        obtain ⟨n, q1⟩ := x
        rw [hs] at h
        simp only [] at h
        apply ihB q1 (body ++ n.toList) b r q _ h
        rw [taskFreeList_append, hbody, taskFreeList_toList n (fun m hm => ihS p m q1 (by rw [hs, hm]))]
        rfl
    refine ⟨?_, ?_, ?_, ?_, ?_, ?_⟩
    · intro p body b r q hbody h
      cases b with
      | none =>
        rw [parseBlock] at h
        by_cases c1 : isAtEnd p = true
        · rw [if_pos c1] at h
          simp only [Option.some.injEq, Prod.mk.injEq] at h
          rw [← h.1]; exact hbody
        rw [if_neg c1] at h
        by_cases c2 : (peek p).Typ = "INDENT"
        · rw [if_pos c2] at h
          exact stepB (advance p) p body _ r q hbody h
        rw [if_neg c2] at h
        by_cases c4 : (peek p).Typ = "NEWLINE"
        · rw [if_pos c4] at h
          exact ihB _ body none r q hbody h
        rw [if_neg c4] at h
        simp only [Option.isSome_none, Bool.false_eq_true, if_false] at h
        exact stepB p p body _ r q hbody h
      | some bb =>
        rw [parseBlock] at h
        by_cases c1 : isAtEnd p = true
        · rw [if_pos c1] at h
          simp only [Option.some.injEq, Prod.mk.injEq] at h
          rw [← h.1]; exact hbody
        rw [if_neg c1] at h
        by_cases c2 : (peek p).Typ = "INDENT"
        · rw [if_pos c2] at h
          by_cases c3 : (Atoi (peek p).Value).1 < bb
          · rw [if_pos c3] at h
            simp only [Option.some.injEq, Prod.mk.injEq] at h
            rw [← h.1]; exact hbody
          · rw [if_neg c3] at h
            exact stepB (advance p) p body _ r q hbody h
        rw [if_neg c2] at h
        by_cases c4 : (peek p).Typ = "NEWLINE"
        · rw [if_pos c4] at h
          exact ihB _ body (some bb) r q hbody h
        rw [if_neg c4] at h
        simp only [Option.isSome_some, if_true, Option.some.injEq, Prod.mk.injEq] at h
        rw [← h.1]; exact hbody
    · intro p n q h
      have wrapped : ∀ (res : Option (Node × Parser)),
          (∀ m q1, res = some (m, q1) → taskFree m = true) →
          (match res with
            | none => none
            | some (m, q1) => some (some m, consume "NEWLINE" q1)) = some (some n, q) →
          taskFree n = true := by
        intro res hres hm
        cases res with
        | none => exact absurd hm (by simp)
        | some x =>
          obtain ⟨m, q1⟩ := x
          simp only [Option.some.injEq, Prod.mk.injEq] at hm
          rw [← hm.1]; exact hres m q1 rfl
      rw [parseBlockStatement] at h
      by_cases c1 : (peek p).Typ = "GREET"
      · rw [if_pos c1] at h; exact simpleStmt_clean _ n q h (by
          simp [parseGreet, parseBackup, parseCheck, parseSet, parseRun, parseRunParallel,
            parseUse, parseHandleInline, parseReturn, taskFree])
      rw [if_neg c1] at h
      by_cases c2 : (peek p).Typ = "BACKUP"
      · rw [if_pos c2] at h; exact simpleStmt_clean _ n q h (by
          simp [parseGreet, parseBackup, parseCheck, parseSet, parseRun, parseRunParallel,
            parseUse, parseHandleInline, parseReturn, taskFree])
      rw [if_neg c2] at h
      by_cases c3 : (peek p).Typ = "CHECK"
      · rw [if_pos c3] at h; exact simpleStmt_clean _ n q h (by
          simp [parseGreet, parseBackup, parseCheck, parseSet, parseRun, parseRunParallel,
            parseUse, parseHandleInline, parseReturn, taskFree])
      rw [if_neg c3] at h
      by_cases c4 : (peek p).Typ = "REPEAT_N"
      · rw [if_pos c4] at h; exact wrapped _ (fun m q1 hm => ihN p m q1 hm) h
      rw [if_neg c4] at h
      by_cases c5 : (peek p).Typ = "REPEAT_EACH"
      · rw [if_pos c5] at h; exact wrapped _ (fun m q1 hm => ihE p m q1 hm) h
      rw [if_neg c5] at h
      by_cases c6 : (peek p).Typ = "SET"
      · rw [if_pos c6] at h; exact simpleStmt_clean _ n q h (by
          simp [parseGreet, parseBackup, parseCheck, parseSet, parseRun, parseRunParallel,
            parseUse, parseHandleInline, parseReturn, taskFree])
      rw [if_neg c6] at h
      by_cases c7 : (peek p).Typ = "RUN"
      · rw [if_pos c7] at h; exact simpleStmt_clean _ n q h (by
          simp [parseGreet, parseBackup, parseCheck, parseSet, parseRun, parseRunParallel,
            parseUse, parseHandleInline, parseReturn, taskFree])
      rw [if_neg c7] at h
      by_cases c8 : (peek p).Typ = "RUN_PARALLEL"
      · rw [if_pos c8] at h; exact simpleStmt_clean _ n q h (by
          simp [parseGreet, parseBackup, parseCheck, parseSet, parseRun, parseRunParallel,
            parseUse, parseHandleInline, parseReturn, taskFree])
      rw [if_neg c8] at h
      by_cases c9 : (peek p).Typ = "USE"
      · rw [if_pos c9] at h; exact simpleStmt_clean _ n q h (by
          simp [parseGreet, parseBackup, parseCheck, parseSet, parseRun, parseRunParallel,
            parseUse, parseHandleInline, parseReturn, taskFree])
      rw [if_neg c9] at h
      by_cases c10 : (peek p).Typ = "PROTECT"
      · rw [if_pos c10] at h; exact wrapped _ (fun m q1 hm => ihP p m q1 hm) h
      rw [if_neg c10] at h
      by_cases c11 : (peek p).Typ = "HANDLE_INLINE"
      · rw [if_pos c11] at h; exact simpleStmt_clean _ n q h (by
          simp [parseGreet, parseBackup, parseCheck, parseSet, parseRun, parseRunParallel,
            parseUse, parseHandleInline, parseReturn, taskFree])
      rw [if_neg c11] at h
      by_cases c12 : (peek p).Typ = "RETURN"
      · rw [if_pos c12] at h; exact simpleStmt_clean _ n q h (by
          simp [parseGreet, parseBackup, parseCheck, parseSet, parseRun, parseRunParallel,
            parseUse, parseHandleInline, parseReturn, taskFree])
      rw [if_neg c12] at h
      exact absurd h (by simp)
    · intro p n q h
      rw [parseRepeatN] at h
      cases hb : parseBlock fuel (consume "NEWLINE" (advance p)) [] none with
      | none => rw [hb] at h; exact absurd h (by simp)
      | some x =>
        obtain ⟨body, q1⟩ := x
        rw [hb] at h
        simp only [Option.some.injEq, Prod.mk.injEq] at h
        rw [← h.1]
        simp only [taskFree]
        exact ihB _ [] none body q1 rfl hb
    · intro p n q h
      rw [parseRepeatEach] at h
      cases hb : parseBlock fuel (consume "NEWLINE" (advance p)) [] none with
      | none => rw [hb] at h; exact absurd h (by simp)
      | some x =>
        obtain ⟨body, q1⟩ := x
        rw [hb] at h
        simp only [Option.some.injEq, Prod.mk.injEq] at h
        rw [← h.1]
        simp only [taskFree]
        exact ihB _ [] none body q1 rfl hb
    · intro p acc r q hacc h
      rw [parseProtectBody] at h
      by_cases c1 : isAtEnd p = true
      · rw [if_pos c1] at h
        simp only [Option.some.injEq, Prod.mk.injEq] at h
        rw [← h.1]; exact hacc
      rw [if_neg c1] at h
      by_cases c2 : ((peek p).Typ = "HANDLE" ||
          ((peek p).Typ = "INDENT" && (peekAhead p 1).Typ = "HANDLE")) = true
      · rw [if_pos c2] at h
        simp only [Option.some.injEq, Prod.mk.injEq] at h
        rw [← h.1]; exact hacc
      rw [if_neg c2] at h
      cases hs : parseBlockStatement fuel (if (peek p).Typ = "INDENT" then advance p else p) with
      | none => rw [hs] at h; exact absurd h (by simp)
      | some x =>
        obtain ⟨n, q1⟩ := x
        rw [hs] at h
        simp only [] at h
        apply ihPB q1 (acc ++ n.toList) r q _ h
        rw [taskFreeList_append, hacc,
          taskFreeList_toList n (fun m hm => ihS _ m q1 (by rw [hs, hm]))]
        rfl
    · intro p n q h
      rw [parseProtect] at h
      cases hb : parseProtectBody fuel (consume "NEWLINE" (advance p)) [] with
      | none => rw [hb] at h; exact absurd h (by simp)
      | some x =>
        obtain ⟨pb, q1⟩ := x
        rw [hb] at h
        simp only [] at h
        have hpb := ihPB _ [] pb q1 rfl hb
        by_cases c : ((peek q1).Typ = "HANDLE" ||
            ((peek q1).Typ = "INDENT" && (peekAhead q1 1).Typ = "HANDLE")) = true
        · rw [if_pos c] at h
          cases hh : parseBlock fuel
              (consume "NEWLINE" (consume "HANDLE"
                (if (peek q1).Typ = "INDENT" then advance q1 else q1))) [] none with
          | none => rw [hh] at h; exact absurd h (by simp)
          | some y =>
            obtain ⟨hbody, q2⟩ := y
            rw [hh] at h
            simp only [Option.some.injEq, Prod.mk.injEq] at h
            rw [← h.1]
            simp only [taskFree, hpb, ihB _ [] none hbody q2 rfl hh, Bool.and_self]
        · rw [if_neg c] at h
          simp only [Option.some.injEq, Prod.mk.injEq] at h
          rw [← h.1]
          simp only [taskFree, hpb, taskFreeList, Bool.and_self]

theorem topClean_of_taskFree (n : Node) (h : taskFree n = true) : topClean n = true := by
  cases n <;> first | exact h | (simp [taskFree] at h)

theorem parseStatement_clean (fuel : Nat) (p q : Parser) (k : Int) (m : Node)
    (h : parseStatement fuel p k = some (some m, q)) : topClean m = true := by
  obtain ⟨ihB, _, ihN, ihE, _, ihP⟩ := parser_bodies_clean fuel
  have one : ∀ r : Node × Parser, taskFree r.1 = true →
      some (some r.1, r.2) = some (some m, q) → topClean m = true := by
    intro r hr hm
    simp only [Option.some.injEq, Prod.mk.injEq] at hm
    rw [← hm.1]; exact topClean_of_taskFree _ hr
  have wrapped : ∀ (res : Option (Node × Parser)),
      (∀ x q1, res = some (x, q1) → topClean x = true) →
      (match res with
        | none => none
        | some (x, q1) => some (some x, q1)) = some (some m, q) →
      topClean m = true := by
    intro res hres hm
    cases res with
    | none => exact absurd hm (by simp)
    | some x =>
      obtain ⟨y, q1⟩ := x
      simp only [Option.some.injEq, Prod.mk.injEq] at hm
      rw [← hm.1]; exact hres y q1 rfl
  have kind : ∀ p1 : Parser, parseStatementKind fuel p1 = some (some m, q) →
      topClean m = true := by
    intro p1 h1
    simp only [parseStatementKind] at h1
    by_cases c0 : (peek p1).Typ = "TASK"
    · rw [if_pos c0] at h1
      refine wrapped _ ?_ h1
      intro x q1 hx
      simp only [parseTask] at hx
      cases hb : parseBlock fuel (consume "NEWLINE" (advance p1)) [] none with
      | none => rw [hb] at hx; exact absurd hx (by simp)
      | some y =>
        obtain ⟨body, q2⟩ := y
        rw [hb] at hx
        simp only [Option.some.injEq, Prod.mk.injEq] at hx
        rw [← hx.1]
        exact ihB _ [] none body q2 rfl hb
    rw [if_neg c0] at h1
    by_cases c1 : (peek p1).Typ = "GREET"
    · rw [if_pos c1] at h1; exact one _ (by simp [parseGreet, taskFree]) h1
    rw [if_neg c1] at h1
    by_cases c2 : (peek p1).Typ = "BACKUP"
    · rw [if_pos c2] at h1; exact one _ (by simp [parseBackup, taskFree]) h1
    rw [if_neg c2] at h1
    by_cases c3 : (peek p1).Typ = "CHECK"
    · rw [if_pos c3] at h1; exact one _ (by simp [parseCheck, taskFree]) h1
    rw [if_neg c3] at h1
    by_cases c4 : (peek p1).Typ = "REPEAT_N"
    · rw [if_pos c4] at h1
      exact wrapped _ (fun x q1 hx => topClean_of_taskFree _ (ihN p1 x q1 hx)) h1
    rw [if_neg c4] at h1
    by_cases c5 : (peek p1).Typ = "REPEAT_EACH"
    · rw [if_pos c5] at h1
      exact wrapped _ (fun x q1 hx => topClean_of_taskFree _ (ihE p1 x q1 hx)) h1
    rw [if_neg c5] at h1
    by_cases c6 : (peek p1).Typ = "SET"
    · rw [if_pos c6] at h1; exact one _ (by simp [parseSet, taskFree]) h1
    rw [if_neg c6] at h1
    by_cases c7 : (peek p1).Typ = "RUN"
    · rw [if_pos c7] at h1; exact one _ (by simp [parseRun, taskFree]) h1
    rw [if_neg c7] at h1
    by_cases c8 : (peek p1).Typ = "USE"
    · rw [if_pos c8] at h1; exact one _ (by simp [parseUse, taskFree]) h1
    rw [if_neg c8] at h1
    by_cases c9 : (peek p1).Typ = "PROTECT"
    · rw [if_pos c9] at h1
      exact wrapped _ (fun x q1 hx => topClean_of_taskFree _ (ihP p1 x q1 hx)) h1
    rw [if_neg c9] at h1
    by_cases c10 : (peek p1).Typ = "HANDLE_INLINE"
    · rw [if_pos c10] at h1; exact one _ (by simp [parseHandleInline, taskFree]) h1
    rw [if_neg c10] at h1
    by_cases c11 : (peek p1).Typ = "RUN_PARALLEL"
    · rw [if_pos c11] at h1; exact one _ (by simp [parseRunParallel, taskFree]) h1
    rw [if_neg c11] at h1
    by_cases c12 : (peek p1).Typ = "RETURN"
    · rw [if_pos c12] at h1; exact one _ (by simp [parseReturn, taskFree]) h1
    rw [if_neg c12] at h1
    exact absurd h1 (by simp)
  simp only [parseStatement] at h
  by_cases d1 : (peek p).Typ = "NEWLINE"
  · rw [if_pos d1] at h; exact absurd h (by simp)
  rw [if_neg d1] at h
  by_cases d2 : (peek p).Typ = "EOF"
  · rw [if_pos d2] at h; exact absurd h (by simp)
  rw [if_neg d2] at h
  by_cases d3 : (peek p).Typ = "INDENT"
  · rw [if_pos d3] at h
    by_cases d4 : (Atoi (peek p).Value).1 ≤ k
    · rw [if_pos d4] at h; exact absurd h (by simp)
    · rw [if_neg d4] at h; exact kind _ h
  rw [if_neg d3] at h
  exact kind _ h

theorem parseLoop_clean :
    ∀ (fuel : Nat) (p : Parser) (acc nodes : List Node),
      (∀ n ∈ acc, topClean n = true) → parseLoop fuel p acc = some nodes →
      ∀ n ∈ nodes, topClean n = true := by
  intro fuel
  induction fuel with
  | zero => intro p acc nodes _ h; simp [parseLoop] at h
  | succ fuel ih =>
    intro p acc nodes hacc h
    simp only [parseLoop] at h
    by_cases c : isAtEnd p = true
    · rw [if_pos c] at h
      simp only [Option.some.injEq] at h
      rw [← h]; exact hacc
    rw [if_neg c] at h
    cases hs : parseStatement fuel p 0 with
    | none => rw [hs] at h; exact absurd h (by simp)
    | some x =>
      obtain ⟨n, q⟩ := x
      rw [hs] at h
      simp only [] at h
      apply ih q (acc ++ n.toList) nodes _ h
      intro m hm
      rcases List.mem_append.mp hm with hm | hm
      · exact hacc m hm
      · cases n with
        | none => simp at hm
        | some y =>
          simp only [Option.toList, List.mem_singleton] at hm
          rw [hm]; exact parseStatement_clean fuel p q 0 y hs

theorem Parse_clean (fuel : Nat) (toks : List Token) (nodes : List Node)
    (h : Parse fuel toks = some nodes) : ∀ n ∈ nodes, topClean n = true :=
  parseLoop_clean fuel toks [] nodes (fun _ hn => absurd hn (List.not_mem_nil _)) h

theorem tasksClean_mapSet (tasks : List (Str × TaskDef)) (k : Str) (d : TaskDef)
    (hc : tasksClean tasks = true) (hd : taskFreeList d.Body = true) :
    tasksClean (mapSet tasks k d) = true := by
  induction tasks with
  | nil => simp [mapSet, tasksClean, hd]
  | cons x xs ih =>
    obtain ⟨k1, d1⟩ := x
    simp only [tasksClean, List.all_cons, Bool.and_eq_true] at hc
    have ih2 := ih hc.2
    simp only [mapSet]
    by_cases hk : k1 = k
    · rw [if_pos hk]
      simp only [tasksClean, List.all_cons, Bool.and_eq_true]
      exact ⟨hd, hc.2⟩
    · rw [if_neg hk]
      simp only [tasksClean, List.all_cons, Bool.and_eq_true]
      exact ⟨hc.1, ih2⟩

theorem executeNode_tasksClean {W : Type} (h : Host W) (fuel : Nat) (n : Node)
    (i j : Interpreter W) (hn : topClean n = true) (hc : tasksClean i.tasks = true)
    (hr : executeNode h fuel n i = .ok j) : tasksClean j.tasks = true := by
  by_cases hf : taskFree n = true
  · rw [((Keeps_executeNode h fuel n i).2 j hr).2 hf hc]; exact hc
  · cases n with
    | Task name params body =>
      cases fuel with
      | zero => simp [executeNode] at hr
      | succ f =>
        simp only [executeNode, Res.ok.injEq] at hr
        rw [← hr]
        exact tasksClean_mapSet i.tasks name ⟨body, params⟩ hc hn
    | Greet a => exact absurd (by simp [taskFree]) hf
    | Backup a b => exact absurd (by simp [taskFree]) hf
    | Check a b => exact absurd (by simp [taskFree]) hf
    | RepeatN a b => exact absurd hn hf
    | RepeatEach a b c => exact absurd hn hf
    | Set a b => exact absurd (by simp [taskFree]) hf
    | Run a => exact absurd (by simp [taskFree]) hf
    | Use a => exact absurd (by simp [taskFree]) hf
    | Protect a b => exact absurd hn hf
    | HandleInline a b => exact absurd (by simp [taskFree]) hf
    | RunParallel a => exact absurd (by simp [taskFree]) hf
    | Return a => exact absurd (by simp [taskFree]) hf

theorem Execute_tasksClean {W : Type} (h : Host W) (fuel : Nat) :
    ∀ (nodes : List Node) (i j : Interpreter W), (∀ n ∈ nodes, topClean n = true) →
      tasksClean i.tasks = true → Execute h fuel nodes i = .ok j →
      tasksClean j.tasks = true := by
  intro nodes
  induction nodes with
  | nil =>
    intro i j _ hc hr
    simp only [Execute, execList, Res.ok.injEq] at hr
    rw [← hr]; exact hc
  | cons n ns ih =>
    intro i j hn hc hr
    simp only [Execute, execList] at hr
    cases hs : executeNode h fuel n i with
    | ok i1 =>
      rw [hs] at hr
      exact ih i1 j (fun m hm => hn m (List.mem_cons_of_mem _ hm))
        (executeNode_tasksClean h fuel n i i1 (hn n (List.mem_cons_self _ _)) hc hs) hr
    | panic msg i1 => rw [hs] at hr; exact absurd hr (by simp)
    | outOfFuel => rw [hs] at hr; exact absurd hr (by simp)

/-! ## Task nodes occur at top level only (C32) -/

/-- Claim C32: when Parse returns, no Task node occurs inside the body of a node of
the result: a top-level Task node has a body without task definition at any depth,
and every other node holds none at any depth. A TASK token met by
`parseBlockStatement`, the statement parser of every block, is dropped: no node,
one token consumed. Therefore the tasks map reached by executing statements of
the result from a fresh interpreter stores only such bodies, and in an interpreter
whose tasks map stores only such bodies a Run and a RunParallel that return leave
the tasks map as it was. -/
theorem parsed_bodies_hold_no_task {W : Type} (h : Host W) (fuel : Nat) (toks : List Token)
    (nodes : List Node) (hp : Parse fuel toks = some nodes) :
    (∀ n ∈ nodes, topClean n = true) ∧
    (∀ (t : Token) (rest : Parser) (f : Nat), t.Typ = "TASK" →
      parseBlockStatement (f + 1) (t :: rest) = some (none, rest)) ∧
    (∀ (pre post : List Node) (out : List Str) (w : W) (f : Nat) (i : Interpreter W),
      nodes = pre ++ post → Execute h f pre (NewInterpreter out w) = .ok i →
      tasksClean i.tasks = true) ∧
    (∀ (i j : Interpreter W) (f : Nat) (target : Str) (names : List Str),
      tasksClean i.tasks = true →
      (executeNode h f (Node.Run target) i = .ok j → j.tasks = i.tasks) ∧
      (executeNode h f (Node.RunParallel names) i = .ok j → j.tasks = i.tasks)) := by
  have hc := Parse_clean fuel toks nodes hp
  refine ⟨hc, ?_, ?_, ?_⟩
  · intro t rest f ht
    simp [parseBlockStatement, peek, ht, advance]
  · intro pre post out w f i hn hr
    apply Execute_tasksClean h f pre (NewInterpreter out w) i _ rfl hr
    intro n hm
    exact hc n (by rw [hn]; exact List.mem_append_left _ hm)
  · intro i j f target names hi
    exact ⟨fun hr => ((Keeps_executeNode h f (Node.Run target) i).2 j hr).2 rfl hi,
      fun hr => ((Keeps_executeNode h f (Node.RunParallel names) i).2 j hr).2 rfl hi⟩

/-- Witness of C32: in `task a:` / `  task b:` / `  greet 1` / `run a` the line
`task b:` makes no node: the task `a` has the body `greet 1`. -/
theorem parsed_bodies_hold_no_task_witness :
    Parse 20 ((Tokenize nestedTaskSource).getD []) =
      some [Node.Task "a".toList [] [Node.Greet "1".toList], Node.Run "a".toList] ∧
    (∀ n ∈ [Node.Task "a".toList [] [Node.Greet "1".toList], Node.Run "a".toList],
      topClean n = true) :=
  ⟨rfl, (parsed_bodies_hold_no_task nullHost 20 ((Tokenize nestedTaskSource).getD [])
    [Node.Task "a".toList [] [Node.Greet "1".toList], Node.Run "a".toList] rfl).1⟩

/-! ## The return slot after a Run (C35) -/

theorem quietRun_runBody {W : Type} (exec : Node → Interpreter W → Res W) :
    ∀ (pre rest : List Node) (i iPre : Interpreter W), quietRun exec pre i = some iPre →
      runBody exec (pre ++ rest) i = runBody exec rest iPre := by
  intro pre
  induction pre with
  | nil =>
    intro rest i iPre hq
    simp only [quietRun, Option.some.injEq] at hq
    rw [← hq]; rfl
  | cons s ss ih =>
    intro rest i iPre hq
    simp only [quietRun] at hq
    cases hs : exec s i with
    | ok i1 =>
      rw [hs] at hq
      simp only [] at hq
      by_cases hr : i1.returnValue.isNil = true
      · rw [if_pos hr] at hq
        simp only [List.cons_append, runBody, hs, hr, if_true]
        exact ih rest i1 iPre hq
      · rw [if_neg hr] at hq; exact absurd hq (by simp)
    | panic msg j => rw [hs] at hq; exact absurd hq (by simp)
    | outOfFuel => rw [hs] at hq; exact absurd hq (by simp)

/-- Claim C35: the return slot is not cleared when a Run finishes. The body of the
task `outer` holds, behind statements `pre` that run without leaving a value in the
return slot, the statement `run inner`, then the statements `post`. When the Run of
`inner` returns with a value in the return slot, the Run of `outer` returns at
once: none of `post` is executed, and the value is still in the slot. When it
returns with the slot absent, the Run of `outer` goes on with `post`. The slot
after the Run of `inner` is the one the body of `inner` left. -/
theorem run_stops_caller_after_return {W : Type} (h : Host W) (fuel : Nat)
    (i i1 iPre j : Interpreter W) (outerT innerT : Str) (pre post : List Node)
    (params : List Str)
    (hdef : mapGet i.tasks (runTarget outerT).1 =
      some ⟨pre ++ Node.Run innerT :: post, params⟩)
    (hbind : bindParams (evaluateExpression h (fuel + 1)) params (runTarget outerT).2 i =
      some i1)
    (hpre : quietRun (executeNode h (fuel + 1)) pre { i1 with returnValue := .nil } =
      some iPre)
    (hin : executeNode h (fuel + 1) (Node.Run innerT) iPre = .ok j) :
    (j.returnValue.isNil = false →
      executeNode h (fuel + 2) (Node.Run outerT) i =
        .ok { j with vars := restoreParams (copyMap i.vars) params j.vars }) ∧
    (j.returnValue.isNil = true →
      executeNode h (fuel + 2) (Node.Run outerT) i =
        (match runBody (executeNode h (fuel + 1)) post j with
          | .ok i2 => .ok { i2 with vars := restoreParams (copyMap i.vars) params i2.vars }
          | r => r)) ∧
    (∀ (d : TaskDef) (i2 i3 : Interpreter W),
      mapGet iPre.tasks (runTarget innerT).1 = some d →
      bindParams (evaluateExpression h fuel) d.Params (runTarget innerT).2 iPre = some i2 →
      runBody (executeNode h fuel) d.Body { i2 with returnValue := .nil } = .ok i3 →
      j.returnValue = i3.returnValue) := by
  have hbody := quietRun_runBody (executeNode h (fuel + 1)) pre (Node.Run innerT :: post)
    _ iPre hpre
  have e : executeNode h (fuel + 2) (Node.Run outerT) i =
      executeRun h (fuel + 1) (executeNode h (fuel + 1)) i outerT := rfl
  have e2 : executeNode h (fuel + 1) (Node.Run innerT) iPre =
      executeRun h fuel (executeNode h fuel) iPre innerT := rfl
  refine ⟨?_, ?_, ?_⟩
  · intro hr
    rw [e]
    simp only [executeRun, hdef, hbind]
    rw [hbody]
    simp only [runBody, hin, hr, Bool.false_eq_true, if_false]
  · intro hr
    rw [e]
    simp only [executeRun, hdef, hbind]
    rw [hbody]
    simp only [runBody, hin, hr, if_true]
  · intro d i2 i3 hd hb hrun
    rw [e2] at hin
    simp only [executeRun, hd, hb, hrun, Res.ok.injEq] at hin
    rw [← hin]

/-- Witness of C35: `inner` returns 1, and `outer` writes `before` only; run from
its source, the program writes `before` when `inner` returns 1 and all three lines
when `inner` greets. -/
theorem run_stops_caller_after_return_witness :
    executeNode nullHost (3 + 2) (Node.Run "outer".toList)
        (nestInterp [Node.Return "1".toList]) =
      .ok { withLine (nestInterp [Node.Return "1".toList]) "before".toList with
        returnValue := .int 1 } ∧
    finalOut (RunSource nullHost 20
      ("task inner:\n  return 1\ntask outer:\n  greet \"before\"\n  run inner\n" ++
        "  greet \"after\"\nrun outer").toList ()) = some ["before".toList] ∧
    finalOut (RunSource nullHost 20
      ("task inner:\n  greet \"in\"\ntask outer:\n  greet \"before\"\n  run inner\n" ++
        "  greet \"after\"\nrun outer").toList ()) =
      some ["before".toList, "in".toList, "after".toList] :=
  ⟨(run_stops_caller_after_return nullHost 3 (nestInterp [Node.Return "1".toList])
      (nestInterp [Node.Return "1".toList])
      (withLine (nestInterp [Node.Return "1".toList]) "before".toList)
      { withLine (nestInterp [Node.Return "1".toList]) "before".toList with
        returnValue := .int 1 }
      "outer".toList "inner".toList [Node.Greet "\"before\"".toList]
      [Node.Greet "\"after\"".toList] [] rfl rfl rfl rfl).1 rfl,
   rfl, rfl⟩

/-! ## The second argument of Run sees the first parameter rebound (C34) -/

/-- Claim C34 (amended): in `executeRun` the second argument is evaluated after the
first parameter is rebound. For a task `t` with parameters `p1`, `p2`, where the text
`p1` is no literal (not quoted, not bracketed, no boolean, no number), and an
argument expression `E` whose value is `w`, executing `run t E, p1` binds `p1` to
`w`, evaluates the argument `p1` to that new value and binds `p2` to it; the body
runs with `p2` bound to `w`, not to the value `v ≠ w` that `p1` had in the caller. -/
theorem run_argument_sees_rebound_parameter {W : Type} (h : Host W) (fuel : Nat)
    (i i1 : Interpreter W) (t E p1 p2 : Str) (body : List Node) (w : Value)
    (ht : ' ' ∉ t)
    (hT : TrimSpace (t ++ ' ' :: (E ++ ',' :: ' ' :: p1)) = t ++ ' ' :: (E ++ ',' :: ' ' :: p1))
    (hE : isArgument E = true) (hp : isArgument p1 = true) (hl : notLiteral p1 = true)
    (hdef : mapGet i.tasks t = some ⟨body, [p1, p2]⟩)
    (e1 : evaluateExpression h (fuel + 1) i E = some (w, i1)) :
    executeNode h (fuel + 2) (Node.Run (t ++ ' ' :: (E ++ ',' :: ' ' :: p1))) i =
      (match runBody (executeNode h (fuel + 1)) body
          { i1 with vars := mapSet (mapSet i.vars p1 w) p2 w, returnValue := .nil } with
        | .ok i3 => .ok { i3 with vars := restoreParams i.vars [p1, p2] i3.vars }
        | r => r) ∧
    mapGet (mapSet (mapSet i.vars p1 w) p2 w) p2 = some w ∧
    (∀ v, mapGet i.vars p1 = some v → v ≠ w →
      mapGet (mapSet (mapSet i.vars p1 w) p2 w) p2 ≠ some v) := by
  obtain ⟨tp, _, _⟩ := isArgument_spec p1 hp
  have f1 := (evaluateExpression_frame h (fuel + 1) _ _ _ _ e1).2.1
  have e2 : evaluateExpression h (fuel + 1) { i1 with vars := mapSet i1.vars p1 w } p1 =
      some (w, { i1 with vars := mapSet i1.vars p1 w }) := by
    apply evaluateExpression_bound
    · rw [tp]; exact hl
    · rw [tp]
      show mapGet (mapSet i1.vars p1 w) p1 = some w
      rw [mapGet_mapSet]; simp
  have e : executeNode h (fuel + 2) (Node.Run (t ++ ' ' :: (E ++ ',' :: ' ' :: p1))) i =
      executeRun h (fuel + 1) (executeNode h (fuel + 1)) i
        (t ++ ' ' :: (E ++ ',' :: ' ' :: p1)) := rfl
  have hget : mapGet (mapSet (mapSet i.vars p1 w) p2 w) p2 = some w := by
    rw [mapGet_mapSet]; simp
  refine ⟨?_, hget, ?_⟩
  · rw [e]
    simp only [executeRun, runTarget_two t E p1 ht hT hE hp, hdef, bindParams, e1, e2, copyMap]
    simp only [f1]
  · intro v _ hvw hc
    rw [hget] at hc
    simp only [Option.some.injEq] at hc
    exact hvw hc.symm

/-- Witness of C34 (amended): `p1` is 1 in the caller; `run t 9, p1` copies the
parameters to `r1` and `r2`, which both become 9, and restores `p1` to 1. -/
theorem run_argument_sees_rebound_parameter_witness :
    (executeNode nullHost (1 + 2)
        (Node.Run ("t".toList ++ ' ' :: ("9".toList ++ ',' :: ' ' :: "p1".toList)))
        reboundInterp =
      (match runBody (executeNode nullHost (1 + 1))
          [Node.Set "r1".toList "p1".toList, Node.Set "r2".toList "p2".toList]
          { reboundInterp with
            vars := mapSet (mapSet reboundInterp.vars "p1".toList (.int 9)) "p2".toList (.int 9),
            returnValue := .nil } with
        | .ok i3 =>
          .ok { i3 with vars :=
            restoreParams reboundInterp.vars ["p1".toList, "p2".toList] i3.vars }
        | r => r) ∧
    mapGet (mapSet (mapSet reboundInterp.vars "p1".toList (.int 9)) "p2".toList (.int 9))
        "p2".toList = some (.int 9) ∧
    (∀ v, mapGet reboundInterp.vars "p1".toList = some v → v ≠ .int 9 →
      mapGet (mapSet (mapSet reboundInterp.vars "p1".toList (.int 9)) "p2".toList (.int 9))
        "p2".toList ≠ some v)) ∧
    (executeNode nullHost 3 (Node.Run "t 9, p1".toList) reboundInterp).toOption.map
        (fun j => j.vars) =
      some [("p1".toList, .int 1), ("r1".toList, .int 9), ("r2".toList, .int 9)] :=
  ⟨run_argument_sees_rebound_parameter nullHost 1 reboundInterp reboundInterp "t".toList
     "9".toList "p1".toList "p2".toList
     [Node.Set "r1".toList "p1".toList, Node.Set "r2".toList "p2".toList] (.int 9)
     (by decide) (by decide)
     (by decide) (by decide) (by decide) rfl rfl,
   rfl⟩

/-- Counterexample to C34 as stated: the first parameter of `t` is named `5`, which
the caller binds to 1. In `run t 9, 5` the argument `5` is the integer literal:
the second parameter `y` is bound to 5, not to the new value 9 of the first, and
`greet y` writes 5. In the same way a first parameter named `inf` is read as the
float literal, and `greet y` writes `+Inf`. -/
theorem literal_named_parameter_is_not_read :
    finalOut (RunSource nullHost 20
      "task t with 5, y:\n  greet y\nset 5 = 1\nrun t 9, 5".toList ()) = some ["5".toList] ∧
    finalOut (RunSource nullHost 20
      "task t with inf, y:\n  greet y\nset inf = 1\nrun t 9, inf".toList ()) =
      some ["+Inf".toList] :=
  ⟨rfl, rfl⟩

/-! ## An unbound word as a condition (C33) -/

theorem ParseFloat_letter_nonzero (c : Char) (cs : Str) (hc : c ∈ asciiLetters)
    (hok : (ParseFloat (c :: cs)).2 = true) : (ParseFloat (c :: cs)).1.nonzero = true := by
  obtain ⟨_, _, _, _, f5, f6, f7, f8, f9, f10, _⟩ := letter_facts c hc
  unfold ParseFloat at hok ⊢
  simp only [List.head?_cons, Option.some.injEq, f6, f7, decide_False, Bool.or_self,
    Bool.false_or, Bool.false_eq_true, if_false] at hok ⊢
  generalize (if 3 < commonPrefixLenIgnoreCase (c :: cs) "infinity".toList ∧
    commonPrefixLenIgnoreCase (c :: cs) "infinity".toList < 8 then 3
    else commonPrefixLenIgnoreCase (c :: cs) "infinity".toList) = n' at hok ⊢
  by_cases hA : ((decide (c = 'i') || decide (c = 'I')) &&
      (decide (n' = 3) || decide (n' = 8))) = true
  · rw [if_pos hA] at hok ⊢
    by_cases hB : (c :: cs).length = n'
    · rw [if_pos hB]; rfl
    · rw [if_neg hB] at hok; exact absurd hok (by simp)
  · rw [if_neg hA] at hok ⊢
    by_cases hC : ((decide (c = 'n') || decide (c = 'N')) &&
        decide (commonPrefixLenIgnoreCase (c :: cs) "nan".toList = 3)) = true
    · rw [if_pos hC] at hok ⊢
      by_cases hD : (c :: cs).length = 3
      · rw [if_pos hD]; rfl
      · rw [if_neg hD] at hok; exact absurd hok (by simp)
    · rw [if_neg hC] at hok
      rw [parseNumber_letter c cs hc] at hok
      exact absurd hok (by simp)

theorem bare_word_value {W : Type} (h : Host W) (fuel : Nat) (i : Interpreter W)
    (w : Str) (hne : w ≠ []) (hw : ∀ c ∈ w, c ∈ asciiLetters)
    (hv : mapGet i.vars w = none)
    (hb1 : EqualFold w "true".toList = false) (hb2 : EqualFold w "false".toList = false) :
    evaluateExpression h (fuel + 1) i w =
      some (if (ParseFloat w).2 then .float (ParseFloat w).1 else .str w, i) := by
  have hT : TrimSpace w = w := TrimSpace_of_all w (fun c hc => (letter_facts c (hw c hc)).1)
  have hdot : Contains w ".".toList = false :=
    Contains_singleton_false '.' w (fun hm => (letter_facts _ (hw _ hm)).2.2.2.2.1 rfl)
  have hplus : Contains w "+".toList = false :=
    Contains_singleton_false '+' w (fun hm => (letter_facts _ (hw _ hm)).2.2.2.2.2.1 rfl)
  cases w with
  | nil => exact absurd rfl hne
  | cons c cs =>
    obtain ⟨_, f2, f3, f4, _⟩ := letter_facts c (hw c (List.mem_cons_self _ _))
    have e1 : isQuoted (c :: cs) = false := isQuoted_false_of_head c cs f2 f3
    have e2 : HasPrefix (c :: cs) "[".toList = false := HasPrefix_singleton_false c '[' cs f4
    have e3 : (Atoi (c :: cs)).2 = false := Atoi_letter c cs (hw c (List.mem_cons_self _ _))
    have e4 : propertyAccess i.vars (c :: cs) = none := by
      simp only [propertyAccess, hdot, Bool.false_and, Bool.false_eq_true, if_false]
    have e5 : moduleCall h (c :: cs) = none := by
      simp only [moduleCall, hdot, Bool.false_eq_true, if_false]
    have e6 : evalPlus (evaluateExpression h fuel) i (c :: cs) = some (.str (c :: cs), i) := by
      simp only [evalPlus, hplus, Bool.false_eq_true, if_false]
    rw [evaluateExpression]
    by_cases hF : (ParseFloat (c :: cs)).2 = true
    · simp only [hT, List.isEmpty_cons, e1, e2, hb1, hb2, e3, hF, Bool.false_and,
        Bool.false_eq_true, if_false, if_true]
    · have hF2 : (ParseFloat (c :: cs)).2 = false := by simpa using hF
      simp only [hT, List.isEmpty_cons, e1, e2, hb1, hb2, e3, hF2, hv, e4, e5, e6,
        Bool.false_and, Bool.false_eq_true, if_false]

/-- Claim C33: for a non-empty word `w` of ASCII letters that is not bound as a
variable and is not `true` or `false` in any letter case, `evaluateCondition(w)`
returns true and leaves the interpreter as it was. The word resolves to itself, a
non-empty string, or, when it spells a float (`inf`, `infinity`, `nan` in any
letter case), to that float, which is not zero: true in both cases. So a Check with
the condition `w` performs its inline action, and `check w -> greet M` writes the
text of the value of `M` (it returns whenever `toString` returns on that value). -/
theorem unbound_word_condition_is_true {W : Type} (h : Host W) (fuel : Nat)
    (i i1 : Interpreter W) (w M : Str) (mv : Value) (hne : w ≠ []) (hw : ∀ c ∈ w, c ∈ asciiLetters)
    (hv : mapGet i.vars w = none)
    (hb1 : EqualFold w "true".toList = false) (hb2 : EqualFold w "false".toList = false)
    (hM : TrimSpace M = M) (hMne : M ≠ [])
    (hMv : evaluateExpression h (fuel + 1) i M = some (mv, i1)) :
    evaluateCondition h (fuel + 1) i w = some (true, i) ∧
    (evaluateExpression h (fuel + 1) i w = some (.str w, i) ∨
      ∃ f, evaluateExpression h (fuel + 1) i w = some (.float f, i) ∧ f.nonzero = true) ∧
    (∀ action, executeNode h (fuel + 2) (Node.Check w action) i =
      Res.ofOption (executeInlineAction h (fuel + 1) i action)) ∧
    executeNode h (fuel + 2) (Node.Check w ("greet ".toList ++ M)) i =
      Res.ofOption ((toString i1.heap mv).map i1.print) := by
  have hval := bare_word_value h fuel i w hne hw hv hb1 hb2
  have hT : TrimSpace w = w := TrimSpace_of_all w (fun c hc => (letter_facts c (hw c hc)).1)
  obtain ⟨c, cs, hcs⟩ : ∃ c cs, w = c :: cs := by
    cases w with
    | nil => exact absurd rfl hne
    | cons c cs => exact ⟨c, cs, rfl⟩
  have hc : c ∈ asciiLetters := hw c (by rw [hcs]; exact List.mem_cons_self _ _)
  obtain ⟨_, f2, f3, _⟩ := letter_facts c hc
  have q1 : HasPrefix w "\"".toList = false := by
    rw [hcs]; exact HasPrefix_singleton_false c '"' cs f2
  have q2 : HasPrefix w "'".toList = false := by
    rw [hcs]; exact HasPrefix_singleton_false c '\'' cs f3
  have htruthy : (truthyRes (if (ParseFloat w).2 then Value.float (ParseFloat w).1
      else Value.str w)).getD false = true := by
    by_cases hF : (ParseFloat w).2 = true
    · rw [if_pos hF]
      have := ParseFloat_letter_nonzero c cs hc (by rw [← hcs]; exact hF)
      rw [← hcs] at this
      simp [truthyRes, this]
    · rw [if_neg hF, hcs]
      simp [truthyRes]
  have hcond : evaluateCondition h (fuel + 1) i w = some (true, i) := by
    unfold evaluateCondition
    simp only [hT, q1, q2, Bool.or_self, Bool.false_eq_true, if_false, hv, Option.none_bind,
      hval, htruthy]
  have hcheck : ∀ action, executeNode h (fuel + 2) (Node.Check w action) i =
      Res.ofOption (executeInlineAction h (fuel + 1) i action) := by
    intro action
    rw [executeNode]
    simp only [hcond]
  refine ⟨hcond, ?_, hcheck, ?_⟩
  · by_cases hF : (ParseFloat w).2 = true
    · right
      refine ⟨(ParseFloat w).1, ?_, ?_⟩
      · rw [hval, if_pos hF]
      · have := ParseFloat_letter_nonzero c cs hc (by rw [← hcs]; exact hF)
        rw [← hcs] at this; exact this
    · left
      rw [hval, if_neg hF]
  · rw [hcheck]
    obtain ⟨m0, ms, hms, _⟩ := trimmed_head M hM hMne
    have hlast : ∀ x, M.getLast? = some x → isSpace x = false := by
      intro x hx
      have := trimRightBy_last isSpace (trimLeftBy isSpace M) x
      rw [show trimRightBy isSpace (trimLeftBy isSpace M) = M from hM] at this
      exact this hx
    have hTa : TrimSpace ("greet ".toList ++ M) = "greet ".toList ++ M := by
      apply TrimSpace_of_ends
      · intro x hx
        simp only [String.toList, List.cons_append, List.head?_cons, Option.some.injEq] at hx
        rw [← hx]; decide
      · intro x hx
        rw [List.getLast?_append_of_ne_nil _ hMne] at hx
        exact hlast x hx
    have hpre : HasPrefix ("greet ".toList ++ M) "greet ".toList = true := by
      simp [HasPrefix]
    have hdrop : ("greet ".toList ++ M).drop 6 = M := by simp
    simp only [executeInlineAction, hTa, hpre, if_true, hdrop, hM, hMv]

/-- Witness of C33: the words `ready` and `nan` in an interpreter that binds
neither: `ready` resolves to itself, `nan` to the float NaN, and both conditions are
true; run from its source, `check ready -> greet "go"` writes `go`. -/
theorem unbound_word_condition_is_true_witness :
    (evaluateCondition nullHost (1 + 1) abInterp "ready".toList = some (true, abInterp) ∧
     (evaluateExpression nullHost (1 + 1) abInterp "ready".toList =
        some (.str "ready".toList, abInterp) ∨
      ∃ f, evaluateExpression nullHost (1 + 1) abInterp "ready".toList =
        some (.float f, abInterp) ∧ f.nonzero = true) ∧
     (∀ action, executeNode nullHost (1 + 2) (Node.Check "ready".toList action) abInterp =
        Res.ofOption (executeInlineAction nullHost (1 + 1) abInterp action)) ∧
     executeNode nullHost (1 + 2)
        (Node.Check "ready".toList ("greet ".toList ++ "\"go\"".toList)) abInterp =
      Res.ofOption ((toString abInterp.heap (.str "go".toList)).map abInterp.print)) ∧
    evaluateCondition nullHost (1 + 1) abInterp "nan".toList = some (true, abInterp) ∧
    evaluateExpression nullHost 2 abInterp "nan".toList = some (.float F64.nan, abInterp) ∧
    finalOut (RunSource nullHost 20 "check ready -> greet \"go\"".toList ()) =
      some ["go".toList] :=
  ⟨unbound_word_condition_is_true nullHost 1 abInterp abInterp "ready".toList "\"go\"".toList
     (.str "go".toList) (by decide) (by decide) rfl (by decide) (by decide) (by decide)
     (by decide) rfl,
   (unbound_word_condition_is_true nullHost 1 abInterp abInterp "nan".toList "\"go\"".toList
     (.str "go".toList) (by decide) (by decide) rfl (by decide) (by decide) (by decide)
     (by decide) rfl).1,
   rfl, rfl⟩

/-! ## The tokens of the lexer (C31) -/

theorem leaf_type (t : String) (v : Str) (cs : List (String × Str))
    (h : some [(t, v)] = some cs) (ht : t ∈ contentTypes) : ∀ tv ∈ cs, tv.1 ∈ contentTypes := by
  simp only [Option.some.injEq] at h
  intro tv htv
  rw [← h] at htv
  simp only [List.mem_singleton] at htv
  rw [htv]; exact ht

theorem classifyLine_types (line : Str) (cs : List (String × Str))
    (h : classifyLine line = some cs) : ∀ tv ∈ cs, tv.1 ∈ contentTypes := by
  unfold classifyLine at h
  by_cases c1 : (HasPrefix line "task ".toList && HasSuffix line ":".toList) = true
  · rw [if_pos c1] at h
    simp only [] at h
    by_cases c1b : Contains (TrimSuffix (TrimSpace (line.drop 5)) ":".toList) " with ".toList = true
    · rw [if_pos c1b] at h
      generalize twoParts _ = o at h
      cases o with
      | none => exact absurd h (by simp)
      | some p => exact leaf_type _ _ cs h (by decide)
    · rw [if_neg c1b] at h
      exact leaf_type _ _ cs h (by decide)
  rw [if_neg c1] at h
  by_cases c2 : HasPrefix line "greet ".toList = true
  · rw [if_pos c2] at h
    exact leaf_type _ _ cs h (by decide)
  rw [if_neg c2] at h
  by_cases c3 : (HasPrefix line "backup ".toList && Contains line " to ".toList) = true
  · rw [if_pos c3] at h
    generalize twoParts _ = o at h
    cases o with
    | none => exact absurd h (by simp)
    | some p => exact leaf_type _ _ cs h (by decide)
  rw [if_neg c3] at h
  by_cases c4 : (HasPrefix line "check ".toList && Contains line " -> ".toList) = true
  · rw [if_pos c4] at h
    generalize twoParts _ = o at h
    cases o with
    | none => exact absurd h (by simp)
    | some p => exact leaf_type _ _ cs h (by decide)
  rw [if_neg c4] at h
  by_cases c5 : (HasPrefix line "repeat ".toList && HasSuffix line ":".toList) = true
  · rw [if_pos c5] at h
    generalize (if (Contains line " each ".toList && Contains line " in ".toList) = true
      then firstMatch matchRepeatEachAt line else none) = o at h
    cases o with
    | some p => exact leaf_type _ _ cs h (by decide)
    | none =>
      simp only [] at h
      generalize firstMatch matchRepeatNAt line = o2 at h
      cases o2 with
      | some d => exact leaf_type _ _ cs h (by decide)
      | none =>
        simp only [Option.some.injEq] at h
        intro tv htv
        rw [← h] at htv
        exact absurd htv (List.not_mem_nil _)
  rw [if_neg c5] at h
  by_cases c6 : (HasPrefix line "set ".toList && Contains line " = ".toList) = true
  · rw [if_pos c6] at h
    generalize twoParts _ = o at h
    cases o with
    | none => exact absurd h (by simp)
    | some p => exact leaf_type _ _ cs h (by decide)
  rw [if_neg c6] at h
  by_cases c7 : HasPrefix line "run ".toList = true
  · rw [if_pos c7] at h
    simp only [] at h
    by_cases c7b : HasPrefix (TrimSpace (line.drop 4)) "parallel ".toList = true
    · rw [if_pos c7b] at h
      exact leaf_type _ _ cs h (by decide)
    · rw [if_neg c7b] at h
      exact leaf_type _ _ cs h (by decide)
  rw [if_neg c7] at h
  by_cases c8 : HasPrefix line "use ".toList = true
  · rw [if_pos c8] at h
    exact leaf_type _ _ cs h (by decide)
  rw [if_neg c8] at h
  by_cases c9 : line = "protect:".toList
  · rw [if_pos c9] at h
    exact leaf_type _ _ cs h (by decide)
  rw [if_neg c9] at h
  by_cases c10 : line = "handle:".toList
  · rw [if_pos c10] at h
    exact leaf_type _ _ cs h (by decide)
  rw [if_neg c10] at h
  by_cases c11 : (HasPrefix line "handle ".toList && Contains line " -> ".toList) = true
  · rw [if_pos c11] at h
    generalize twoParts _ = o at h
    cases o with
    | none => exact absurd h (by simp)
    | some p => exact leaf_type _ _ cs h (by decide)
  rw [if_neg c11] at h
  by_cases c12 : HasPrefix line "return ".toList = true
  · rw [if_pos c12] at h
    exact leaf_type _ _ cs h (by decide)
  rw [if_neg c12] at h
  exact leaf_type _ _ cs h (by decide)

theorem lineTokens_facts (idx : Nat) (raw : Str) (ts : List Token)
    (h : lineTokens idx raw = some ts) : ∀ t ∈ ts, t.Typ ≠ "EOF" ∧ indentOk t := by
  simp only [lineTokens] at h
  by_cases hs : ((TrimSpace raw).isEmpty || HasPrefix (TrimSpace raw) "#".toList) = true
  · rw [if_pos hs] at h
    simp only [Option.some.injEq] at h
    intro t ht; rw [← h] at ht; exact absurd ht (List.not_mem_nil _)
  rw [if_neg hs] at h
  simp only [tokenizeLine] at h
  cases hc : classifyLine (TrimSpace raw) with
  | none => rw [hc] at h; exact absurd h (by simp)
  | some cs =>
    rw [hc] at h
    simp only [Option.map_some', Option.some.injEq] at h
    have hty := classifyLine_types _ cs hc
    intro t ht
    rw [← h] at ht
    simp only [List.mem_append, List.mem_singleton, List.mem_map] at ht
    rcases ht with (ht | ⟨tv, htv, e⟩) | e
    · by_cases hk : raw.length - (TrimLeft raw " \t".toList).length > 0
      · rw [if_pos hk] at ht
        simp only [List.mem_singleton] at ht
        rw [ht]
        exact ⟨by simp, fun _ => ⟨_, hk, rfl⟩⟩
      · rw [if_neg hk] at ht; exact absurd ht (List.not_mem_nil _)
    · have hm := hty tv htv
      rw [← e]
      have h1 : tv.1 ≠ "EOF" := by
        intro e1; rw [e1] at hm; exact absurd hm (by decide)
      have h2 : tv.1 ≠ "INDENT" := by
        intro e1; rw [e1] at hm; exact absurd hm (by decide)
      exact ⟨h1, fun e2 => absurd e2 h2⟩
    · rw [e]
      exact ⟨by simp, fun e2 => absurd e2 (by simp)⟩

theorem tokenizeFrom_facts :
    ∀ (lines : List Str) (idx : Nat) (ts : List Token), tokenizeFrom idx lines = some ts →
      ∀ t ∈ ts, t.Typ ≠ "EOF" ∧ indentOk t := by
  intro lines
  induction lines with
  | nil =>
    intro idx ts h
    simp only [tokenizeFrom, Option.some.injEq] at h
    intro t ht; rw [← h] at ht; exact absurd ht (List.not_mem_nil _)
  | cons raw rest ih =>
    intro idx ts h
    simp only [tokenizeFrom] at h
    cases hl : lineTokens idx raw with
    | none => rw [hl] at h; exact absurd h (by simp)
    | some t1 =>
      rw [hl] at h
      simp only [] at h
      cases hr : tokenizeFrom (idx + 1) rest with
      | none => rw [hr] at h; exact absurd h (by simp)
      | some t2 =>
        rw [hr] at h
        simp only [Option.some.injEq] at h
        intro t ht
        rw [← h] at ht
        rcases List.mem_append.mp ht with hm | hm
        · exact lineTokens_facts idx raw t1 hl t hm
        · exact ih (idx + 1) t2 hr t hm

theorem Tokenize_facts (src : Str) (toks : List Token) (h : Tokenize src = some toks) :
    (∀ t ∈ toks, indentOk t) ∧
    ∃ body, toks = body ++ [⟨"EOF", [], (Split src '\n').length⟩] ∧
      ∀ t ∈ body, t.Typ ≠ "EOF" := by
  simp only [Tokenize, NewLexer, Lexer.Tokenize] at h
  cases ht : tokenizeFrom 0 (Split src '\n') with
  | none => rw [ht] at h; exact absurd h (by simp)
  | some ts =>
    rw [ht] at h
    simp only [Option.some.injEq] at h
    have hf := tokenizeFrom_facts _ 0 ts ht
    refine ⟨?_, ts, h.symm, fun t hm => (hf t hm).1⟩
    intro t hm
    rw [← h] at hm
    rcases List.mem_append.mp hm with hm | hm
    · exact (hf t hm).2
    · simp only [List.mem_singleton] at hm
      rw [hm]
      exact fun e2 => absurd e2 (by simp)

theorem indentOk_positive (t : Token) (h : indentOk t) (ht : t.Typ = "INDENT") :
    0 < (Atoi t.Value).1 := by
  obtain ⟨k, hk, hv⟩ := h ht
  rw [hv, Atoi_Itoa]
  split_ifs <;> omega

/-! ## Parse returns when it has enough fuel (C31) -/

theorem advance_suffix (p : Parser) : advance p <:+ p := List.tail_suffix p

theorem consume_suffix (e : String) (p : Parser) : consume e p <:+ p := by
  unfold consume
  split
  · exact advance_suffix p
  · exact List.suffix_refl p

theorem advance_length (p : Parser) (h : p ≠ []) : (advance p).length + 1 = p.length := by
  cases p with
  | nil => exact absurd rfl h
  | cons t rest => simp [advance]

theorem ne_nil_of_peek (p : Parser) (s : String) (h : (peek p).Typ = s) (hs : s ≠ "EOF") :
    p ≠ [] := by
  rintro rfl
  exact hs (by rw [← h]; rfl)

theorem ne_nil_of_not_atEnd (p : Parser) (h : ¬ isAtEnd p = true) : p ≠ [] := by
  rintro rfl
  exact h (by simp [isAtEnd, peek, eofToken])

theorem parseBlock_nil (fuel : Nat) (body : List Node) (b : Option Int) :
    parseBlock (fuel + 1) [] body b = some (body, []) := by
  cases b <;> simp [parseBlock, isAtEnd, peek, eofToken]

theorem simpleStmt_returns (p : Parser) (r : Node × Parser) (hr : r.2 = advance p) :
    ∃ n q, simpleStmt r = some (n, q) ∧ q <:+ p ∧ (p ≠ [] → q.length < p.length) := by
  refine ⟨some r.1, consume "NEWLINE" r.2, rfl, ?_, ?_⟩
  · rw [hr]; exact (consume_suffix _ _).trans (advance_suffix p)
  · intro hp
    have h1 := (consume_suffix "NEWLINE" r.2).length_le
    rw [hr] at h1
    have h2 := advance_length p hp
    rw [hr]; omega

theorem parser_returns :
    ∀ fuel : Nat,
      (∀ p body b, 3 * p.length + 4 ≤ fuel →
        ∃ r q, parseBlock fuel p body b = some (r, q) ∧ q <:+ p) ∧
      (∀ p, 3 * p.length + 3 ≤ fuel →
        ∃ n q, parseBlockStatement fuel p = some (n, q) ∧ q <:+ p ∧
          (p ≠ [] → q.length < p.length)) ∧
      (∀ p, p ≠ [] → 3 * p.length + 2 ≤ fuel →
        ∃ n q, parseRepeatN fuel p = some (n, q) ∧ q <:+ p ∧ q.length < p.length) ∧
      (∀ p, p ≠ [] → 3 * p.length + 2 ≤ fuel →
        ∃ n q, parseRepeatEach fuel p = some (n, q) ∧ q <:+ p ∧ q.length < p.length) ∧
      (∀ p acc, 3 * p.length + 4 ≤ fuel →
        ∃ r q, parseProtectBody fuel p acc = some (r, q) ∧ q <:+ p) ∧
      (∀ p, p ≠ [] → 3 * p.length + 2 ≤ fuel →
        ∃ n q, parseProtect fuel p = some (n, q) ∧ q <:+ p ∧ q.length < p.length) := by
  intro fuel
  induction fuel with
  | zero =>
    refine ⟨?_, ?_, ?_, ?_, ?_, ?_⟩
    · intro p body b h; omega
    · intro p h; omega
    · intro p _ h; omega
    · intro p _ h; omega
    · intro p acc h; omega
    · intro p _ h; omega
  | succ fuel ih =>
    obtain ⟨ihB, ihS, ihN, ihE, ihPB, ihP⟩ := ih
    -- a statement of a block, then the rest of the block
    have stepB : ∀ (p p1 : Parser) (body : List Node) (b : Option Int), p1 <:+ p →
        3 * p1.length + 3 ≤ fuel → (p1 = [] ∨ 3 * p1.length + 1 ≤ fuel) →
        ∃ (r0 : List Node) (q0 : Parser), (match parseBlockStatement fuel p1 with
          | none => none
          | some (n, q1) => parseBlock fuel q1 (body ++ n.toList) b) = some (r0, q0) ∧
          q0 <:+ p := by
      intro p p1 body b hsuf hf hrest
      obtain ⟨n, q1, hs, hs1, hs2⟩ := ihS p1 hf
      have hq1 : ∃ r q, parseBlock fuel q1 (body ++ n.toList) b = some (r, q) ∧ q <:+ q1 := by
        rcases hrest with he | hl
        · subst he
          have hq : q1 = [] := List.eq_nil_of_suffix_nil hs1
          subst hq
          cases fuel with
          | zero => omega
          | succ f => exact ⟨_, _, parseBlock_nil f _ b, List.suffix_refl _⟩
        · by_cases hp1 : p1 = []
          · subst hp1
            have hq : q1 = [] := List.eq_nil_of_suffix_nil hs1
            subst hq
            cases fuel with
            | zero => omega
            | succ f => exact ⟨_, _, parseBlock_nil f _ b, List.suffix_refl _⟩
          · have := hs2 hp1
            exact ihB q1 _ b (by omega)
      obtain ⟨r, q, hb, hb1⟩ := hq1
      refine ⟨r, q, ?_, hb1.trans (hs1.trans hsuf)⟩
      rw [hs]
      exact hb
    have stepPB : ∀ (p p1 : Parser) (acc : List Node), p1 <:+ p →
        3 * p1.length + 3 ≤ fuel → (p1 = [] ∨ 3 * p1.length + 1 ≤ fuel) →
        ∃ (r0 : List Node) (q0 : Parser), (match parseBlockStatement fuel p1 with
          | none => none
          | some (n, q1) => parseProtectBody fuel q1 (acc ++ n.toList)) = some (r0, q0) ∧
          q0 <:+ p := by
      intro p p1 acc hsuf hf hrest
      obtain ⟨n, q1, hs, hs1, hs2⟩ := ihS p1 hf
      have hq1 : ∃ r q, parseProtectBody fuel q1 (acc ++ n.toList) = some (r, q) ∧
          q <:+ q1 := by
        have hnil : ∀ f : Nat, ∃ r q, parseProtectBody (f + 1) [] (acc ++ n.toList) =
            some (r, q) ∧ q <:+ [] :=
          fun f => ⟨acc ++ n.toList, [], by simp [parseProtectBody, isAtEnd, peek, eofToken],
            List.suffix_refl _⟩
        rcases hrest with he | hl
        · subst he
          have hq : q1 = [] := List.eq_nil_of_suffix_nil hs1
          subst hq
          cases fuel with
          | zero => omega
          | succ f => exact hnil f
        · by_cases hp1 : p1 = []
          · subst hp1
            have hq : q1 = [] := List.eq_nil_of_suffix_nil hs1
            subst hq
            cases fuel with
            | zero => omega
            | succ f => exact hnil f
          · have := hs2 hp1
            exact ihPB q1 _ (by omega)
      obtain ⟨r, q, hb, hb1⟩ := hq1
      refine ⟨r, q, ?_, hb1.trans (hs1.trans hsuf)⟩
      rw [hs]
      exact hb
    refine ⟨?_, ?_, ?_, ?_, ?_, ?_⟩
    · -- parseBlock
      intro p body b hf
      have main : ∀ b : Option Int, ∃ r q, parseBlock (fuel + 1) p body b = some (r, q) ∧
          q <:+ p := by
        intro b
        by_cases c1 : isAtEnd p = true
        · refine ⟨body, p, ?_, List.suffix_refl p⟩
          cases b <;> simp [parseBlock, c1]
        have hne := ne_nil_of_not_atEnd p c1
        have hadv := advance_length p hne
        have hstop : ∀ x : Option (List Node × Parser), x = some (body, p) →
            ∃ r q, x = some (r, q) ∧ q <:+ p :=
          fun x hx => ⟨body, p, hx, List.suffix_refl p⟩
        cases b with
        | none =>
          rw [parseBlock, if_neg c1]
          by_cases c2 : (peek p).Typ = "INDENT"
          · rw [if_pos c2]
            exact stepB p (advance p) body _ (advance_suffix p) (by omega) (Or.inr (by omega))
          rw [if_neg c2]
          by_cases c4 : (peek p).Typ = "NEWLINE"
          · rw [if_pos c4]
            obtain ⟨r, q, hb, hb1⟩ := ihB (advance p) body none (by omega)
            exact ⟨r, q, hb, hb1.trans (advance_suffix p)⟩
          rw [if_neg c4]
          simp only [Option.isSome_none, Bool.false_eq_true, if_false]
          exact stepB p p body _ (List.suffix_refl p) (by omega) (Or.inr (by omega))
        | some bb =>
          rw [parseBlock, if_neg c1]
          by_cases c2 : (peek p).Typ = "INDENT"
          · rw [if_pos c2]
            by_cases c3 : (Atoi (peek p).Value).1 < bb
            · rw [if_pos c3]; exact hstop _ rfl
            · rw [if_neg c3]
              exact stepB p (advance p) body _ (advance_suffix p) (by omega)
                (Or.inr (by omega))
          rw [if_neg c2]
          by_cases c4 : (peek p).Typ = "NEWLINE"
          · rw [if_pos c4]
            obtain ⟨r, q, hb, hb1⟩ := ihB (advance p) body (some bb) (by omega)
            exact ⟨r, q, hb, hb1.trans (advance_suffix p)⟩
          rw [if_neg c4]
          simp only [Option.isSome_some, if_true]
          exact hstop _ rfl
      exact main b
    · -- parseBlockStatement
      intro p hf
      have wrapS : ∀ (res : Option (Node × Parser)),
          (∃ n q, res = some (n, q) ∧ q <:+ p ∧ q.length < p.length) →
          ∃ (n1 : Option Node) (q1 : Parser), (match res with
            | none => none
            | some (n, q) => some (some n, consume "NEWLINE" q)) = some (n1, q1) ∧ q1 <:+ p ∧
            (p ≠ [] → q1.length < p.length) := by
        intro res hres
        obtain ⟨n, q, hr, h1, h2⟩ := hres
        subst hr
        refine ⟨some n, consume "NEWLINE" q, rfl, (consume_suffix _ q).trans h1, fun _ => ?_⟩
        have := (consume_suffix "NEWLINE" q).length_le
        omega
      rw [parseBlockStatement]
      by_cases c1 : (peek p).Typ = "GREET"
      · rw [if_pos c1]; exact simpleStmt_returns p _ rfl
      rw [if_neg c1]
      by_cases c2 : (peek p).Typ = "BACKUP"
      · rw [if_pos c2]; exact simpleStmt_returns p _ rfl
      rw [if_neg c2]
      by_cases c3 : (peek p).Typ = "CHECK"
      · rw [if_pos c3]; exact simpleStmt_returns p _ rfl
      rw [if_neg c3]
      by_cases c4 : (peek p).Typ = "REPEAT_N"
      · rw [if_pos c4]
        exact wrapS _ (ihN p (ne_nil_of_peek p _ c4 (by decide)) (by omega))
      rw [if_neg c4]
      by_cases c5 : (peek p).Typ = "REPEAT_EACH"
      · rw [if_pos c5]
        exact wrapS _ (ihE p (ne_nil_of_peek p _ c5 (by decide)) (by omega))
      rw [if_neg c5]
      by_cases c6 : (peek p).Typ = "SET"
      · rw [if_pos c6]; exact simpleStmt_returns p _ rfl
      rw [if_neg c6]
      by_cases c7 : (peek p).Typ = "RUN"
      · rw [if_pos c7]; exact simpleStmt_returns p _ rfl
      rw [if_neg c7]
      by_cases c8 : (peek p).Typ = "RUN_PARALLEL"
      · rw [if_pos c8]; exact simpleStmt_returns p _ rfl
      rw [if_neg c8]
      by_cases c9 : (peek p).Typ = "USE"
      · rw [if_pos c9]; exact simpleStmt_returns p _ rfl
      rw [if_neg c9]
      by_cases c10 : (peek p).Typ = "PROTECT"
      · rw [if_pos c10]
        exact wrapS _ (ihP p (ne_nil_of_peek p _ c10 (by decide)) (by omega))
      rw [if_neg c10]
      by_cases c11 : (peek p).Typ = "HANDLE_INLINE"
      · rw [if_pos c11]; exact simpleStmt_returns p _ rfl
      rw [if_neg c11]
      by_cases c12 : (peek p).Typ = "RETURN"
      · rw [if_pos c12]; exact simpleStmt_returns p _ rfl
      rw [if_neg c12]
      refine ⟨none, advance p, rfl, advance_suffix p, fun hp => ?_⟩
      have := advance_length p hp
      omega
    · -- parseRepeatN
      intro p hne hf
      have hadv := advance_length p hne
      have hle := (consume_suffix "NEWLINE" (advance p)).length_le
      obtain ⟨r, q, hb, hb1⟩ := ihB (consume "NEWLINE" (advance p)) [] none (by omega)
      have hlen := hb1.length_le
      rw [parseRepeatN, hb]
      exact ⟨_, q, rfl, hb1.trans ((consume_suffix _ _).trans (advance_suffix p)), by omega⟩
    · -- parseRepeatEach
      intro p hne hf
      have hadv := advance_length p hne
      have hle := (consume_suffix "NEWLINE" (advance p)).length_le
      obtain ⟨r, q, hb, hb1⟩ := ihB (consume "NEWLINE" (advance p)) [] none (by omega)
      have hlen := hb1.length_le
      rw [parseRepeatEach, hb]
      exact ⟨_, q, rfl, hb1.trans ((consume_suffix _ _).trans (advance_suffix p)), by omega⟩
    · -- parseProtectBody
      intro p acc hf
      rw [parseProtectBody]
      by_cases c1 : isAtEnd p = true
      · rw [if_pos c1]; exact ⟨acc, p, rfl, List.suffix_refl p⟩
      rw [if_neg c1]
      have hne := ne_nil_of_not_atEnd p c1
      have hadv := advance_length p hne
      by_cases c2 : ((peek p).Typ = "HANDLE" ||
          ((peek p).Typ = "INDENT" && (peekAhead p 1).Typ = "HANDLE")) = true
      · rw [if_pos c2]; exact ⟨acc, p, rfl, List.suffix_refl p⟩
      rw [if_neg c2]
      by_cases c3 : (peek p).Typ = "INDENT"
      · rw [if_pos c3]
        exact stepPB p (advance p) acc (advance_suffix p) (by omega) (Or.inr (by omega))
      · rw [if_neg c3]
        exact stepPB p p acc (List.suffix_refl p) (by omega) (Or.inr (by omega))
    · -- parseProtect
      intro p hne hf
      have hadv := advance_length p hne
      have hle := (consume_suffix "NEWLINE" (advance p)).length_le
      obtain ⟨pb, q1, hpb, hpb1⟩ := ihPB (consume "NEWLINE" (advance p)) [] (by omega)
      have hq1 : q1 <:+ p := hpb1.trans ((consume_suffix _ _).trans (advance_suffix p))
      have hq1l := hpb1.length_le
      rw [parseProtect, hpb]
      simp only []
      by_cases c : ((peek q1).Typ = "HANDLE" ||
          ((peek q1).Typ = "INDENT" && (peekAhead q1 1).Typ = "HANDLE")) = true
      · rw [if_pos c]
        have hq2 : consume "NEWLINE" (consume "HANDLE"
            (if (peek q1).Typ = "INDENT" then advance q1 else q1)) <:+ q1 := by
          refine (consume_suffix _ _).trans ((consume_suffix _ _).trans ?_)
          split
          · exact advance_suffix q1
          · exact List.suffix_refl q1
        have hq2l := hq2.length_le
        obtain ⟨hbody, q, hb, hb1⟩ := ihB (consume "NEWLINE" (consume "HANDLE"
            (if (peek q1).Typ = "INDENT" then advance q1 else q1))) [] none (by omega)
        have hlen := hb1.length_le
        rw [hb]
        exact ⟨_, q, rfl, hb1.trans (hq2.trans hq1), by omega⟩
      · rw [if_neg c]
        exact ⟨_, q1, rfl, hq1, by omega⟩

theorem parseStatementKind_returns (fuel : Nat) (p : Parser) (hf : 3 * p.length + 2 ≤ fuel) :
    ∃ (n : Option Node) (q : Parser), parseStatementKind fuel p = some (n, q) ∧ q <:+ p ∧
      (p ≠ [] → q.length < p.length) := by
  obtain ⟨ihB, _, ihN, ihE, _, ihP⟩ := parser_returns fuel
  have one : ∀ r : Node × Parser, r.2 = advance p →
      ∃ (n : Option Node) (q : Parser), some (some r.1, r.2) = some (n, q) ∧ q <:+ p ∧
        (p ≠ [] → q.length < p.length) := by
    intro r hr
    refine ⟨some r.1, r.2, rfl, by rw [hr]; exact advance_suffix p, fun hp => ?_⟩
    have := advance_length p hp
    rw [hr]; omega
  have wrapK : ∀ (res : Option (Node × Parser)),
      (∃ n q, res = some (n, q) ∧ q <:+ p ∧ q.length < p.length) →
      ∃ (n1 : Option Node) (q1 : Parser), (match res with
        | none => none
        | some (n, q) => some (some n, q)) = some (n1, q1) ∧ q1 <:+ p ∧
        (p ≠ [] → q1.length < p.length) := by
    intro res hres
    obtain ⟨n, q, hr, h1, h2⟩ := hres
    subst hr
    exact ⟨some n, q, rfl, h1, fun _ => h2⟩
  simp only [parseStatementKind]
  by_cases c0 : (peek p).Typ = "TASK"
  · rw [if_pos c0]
    apply wrapK
    have hne := ne_nil_of_peek p _ c0 (by decide)
    have hadv := advance_length p hne
    have hle := (consume_suffix "NEWLINE" (advance p)).length_le
    obtain ⟨r, q, hb, hb1⟩ := ihB (consume "NEWLINE" (advance p)) [] none (by omega)
    have hlen := hb1.length_le
    simp only [parseTask, hb]
    exact ⟨_, q, rfl, hb1.trans ((consume_suffix _ _).trans (advance_suffix p)), by omega⟩
  rw [if_neg c0]
  by_cases c1 : (peek p).Typ = "GREET"
  · rw [if_pos c1]; exact one _ rfl
  rw [if_neg c1]
  by_cases c2 : (peek p).Typ = "BACKUP"
  · rw [if_pos c2]; exact one _ rfl
  rw [if_neg c2]
  by_cases c3 : (peek p).Typ = "CHECK"
  · rw [if_pos c3]; exact one _ rfl
  rw [if_neg c3]
  by_cases c4 : (peek p).Typ = "REPEAT_N"
  · rw [if_pos c4]
    exact wrapK _ (ihN p (ne_nil_of_peek p _ c4 (by decide)) hf)
  rw [if_neg c4]
  by_cases c5 : (peek p).Typ = "REPEAT_EACH"
  · rw [if_pos c5]
    exact wrapK _ (ihE p (ne_nil_of_peek p _ c5 (by decide)) hf)
  rw [if_neg c5]
  by_cases c6 : (peek p).Typ = "SET"
  · rw [if_pos c6]; exact one _ rfl
  rw [if_neg c6]
  by_cases c7 : (peek p).Typ = "RUN"
  · rw [if_pos c7]; exact one _ rfl
  rw [if_neg c7]
  by_cases c8 : (peek p).Typ = "USE"
  · rw [if_pos c8]; exact one _ rfl
  rw [if_neg c8]
  by_cases c9 : (peek p).Typ = "PROTECT"
  · rw [if_pos c9]
    exact wrapK _ (ihP p (ne_nil_of_peek p _ c9 (by decide)) hf)
  rw [if_neg c9]
  by_cases c10 : (peek p).Typ = "HANDLE_INLINE"
  · rw [if_pos c10]; exact one _ rfl
  rw [if_neg c10]
  by_cases c11 : (peek p).Typ = "RUN_PARALLEL"
  · rw [if_pos c11]; exact one _ rfl
  rw [if_neg c11]
  by_cases c12 : (peek p).Typ = "RETURN"
  · rw [if_pos c12]; exact one _ rfl
  rw [if_neg c12]
  refine ⟨none, advance p, rfl, advance_suffix p, fun hp => ?_⟩
  have := advance_length p hp
  omega

theorem peek_mem (p : Parser) (h : p ≠ []) : peek p ∈ p := by
  cases p with
  | nil => exact absurd rfl h
  | cons t rest => exact List.mem_cons_self _ _

theorem parseStatement_returns (fuel : Nat) (p : Parser) (hend : isAtEnd p = false)
    (hpos : indentsPositive p) (hf : 3 * p.length + 2 ≤ fuel) :
    ∃ (n : Option Node) (q : Parser), parseStatement fuel p 0 = some (n, q) ∧ q <:+ p ∧
      q.length < p.length := by
  have hne : p ≠ [] := ne_nil_of_not_atEnd p (by rw [hend]; simp)
  have hadv := advance_length p hne
  simp only [parseStatement]
  by_cases d1 : (peek p).Typ = "NEWLINE"
  · rw [if_pos d1]; exact ⟨none, advance p, rfl, advance_suffix p, by omega⟩
  rw [if_neg d1]
  have d2 : ¬ (peek p).Typ = "EOF" := by
    intro e
    simp only [isAtEnd, e, decide_True] at hend
    exact absurd hend (by simp)
  rw [if_neg d2]
  by_cases d3 : (peek p).Typ = "INDENT"
  · rw [if_pos d3]
    have hp := hpos (peek p) (peek_mem p hne) d3
    rw [if_neg (not_le.mpr hp)]
    obtain ⟨n, q, hk, h1, _⟩ := parseStatementKind_returns fuel (advance p) (by omega)
    have := h1.length_le
    exact ⟨n, q, hk, h1.trans (advance_suffix p), by omega⟩
  rw [if_neg d3]
  obtain ⟨n, q, hk, h1, h2⟩ := parseStatementKind_returns fuel p hf
  exact ⟨n, q, hk, h1, h2 hne⟩

theorem indentsPositive_suffix (p q : Parser) (hq : q <:+ p) (hp : indentsPositive p) :
    indentsPositive q :=
  fun t ht => hp t (hq.subset ht)

theorem parseLoop_returns :
    ∀ (fuel : Nat) (p : Parser) (acc : List Node), indentsPositive p →
      3 * p.length + 3 ≤ fuel → ∃ nodes, parseLoop fuel p acc = some nodes := by
  intro fuel
  induction fuel with
  | zero => intro p acc _ h; omega
  | succ fuel ih =>
    intro p acc hpos hf
    rw [parseLoop]
    by_cases c : isAtEnd p = true
    · rw [if_pos c]; exact ⟨acc, rfl⟩
    rw [if_neg c]
    obtain ⟨n, q, hs, h1, h2⟩ :=
      parseStatement_returns fuel p (by simpa using c) hpos (by omega)
    rw [hs]
    exact ih q _ (indentsPositive_suffix p q h1 hpos) (by omega)

/-! ## More fuel gives the same result -/

theorem parser_mono :
    ∀ fuel : Nat,
      (∀ p body b r, parseBlock fuel p body b = some r →
        parseBlock (fuel + 1) p body b = some r) ∧
      (∀ p r, parseBlockStatement fuel p = some r → parseBlockStatement (fuel + 1) p = some r) ∧
      (∀ p r, parseRepeatN fuel p = some r → parseRepeatN (fuel + 1) p = some r) ∧
      (∀ p r, parseRepeatEach fuel p = some r → parseRepeatEach (fuel + 1) p = some r) ∧
      (∀ p acc r, parseProtectBody fuel p acc = some r →
        parseProtectBody (fuel + 1) p acc = some r) ∧
      (∀ p r, parseProtect fuel p = some r → parseProtect (fuel + 1) p = some r) := by
  intro fuel
  induction fuel with
  | zero =>
    refine ⟨?_, ?_, ?_, ?_, ?_, ?_⟩
    · intro p body b r h; simp [parseBlock] at h
    · intro p r h; simp [parseBlockStatement] at h
    · intro p r h; simp [parseRepeatN] at h
    · intro p r h; simp [parseRepeatEach] at h
    · intro p acc r h; simp [parseProtectBody] at h
    · intro p r h; simp [parseProtect] at h
  | succ fuel ih =>
    obtain ⟨ihB, ihS, ihN, ihE, ihPB, ihP⟩ := ih
    have stepM : ∀ (p1 : Parser) (body : List Node) (b : Option Int)
        (r : List Node × Parser),
        (match parseBlockStatement fuel p1 with
          | none => none
          | some (n, q1) => parseBlock fuel q1 (body ++ n.toList) b) = some r →
        (match parseBlockStatement (fuel + 1) p1 with
          | none => none
          | some (n, q1) => parseBlock (fuel + 1) q1 (body ++ n.toList) b) = some r := by
      intro p1 body b r h
      cases hs : parseBlockStatement fuel p1 with
      | none => rw [hs] at h; exact absurd h (by simp)
      | some x =>
        obtain ⟨n, q1⟩ := x
        rw [hs] at h
        rw [ihS p1 _ hs]
        exact ihB _ _ _ _ h
    have stepPM : ∀ (p1 : Parser) (acc : List Node) (r : List Node × Parser),
        (match parseBlockStatement fuel p1 with
          | none => none
          | some (n, q1) => parseProtectBody fuel q1 (acc ++ n.toList)) = some r →
        (match parseBlockStatement (fuel + 1) p1 with
          | none => none
          | some (n, q1) => parseProtectBody (fuel + 1) q1 (acc ++ n.toList)) = some r := by
      intro p1 acc r h
      cases hs : parseBlockStatement fuel p1 with
      | none => rw [hs] at h; exact absurd h (by simp)
      | some x =>
        obtain ⟨n, q1⟩ := x
        rw [hs] at h
        rw [ihS p1 _ hs]
        exact ihPB _ _ _ h
    have wrapM : ∀ (res res2 : Option (Node × Parser)) (r : Option Node × Parser),
        (∀ x, res = some x → res2 = some x) →
        (match res with
          | none => none
          | some (n, q) => some (some n, consume "NEWLINE" q)) = some r →
        (match res2 with
          | none => none
          | some (n, q) => some (some n, consume "NEWLINE" q)) = some r := by
      intro res res2 r himp h
      cases res with
      | none => exact absurd h (by simp)
      | some x => rw [himp x rfl]; exact h
    refine ⟨?_, ?_, ?_, ?_, ?_, ?_⟩
    · intro p body b r h
      cases b with
      | none =>
        rw [parseBlock] at h ⊢
        by_cases c1 : isAtEnd p = true
        · rw [if_pos c1] at h ⊢; exact h
        rw [if_neg c1] at h ⊢
        by_cases c2 : (peek p).Typ = "INDENT"
        · rw [if_pos c2] at h ⊢; exact stepM _ _ _ _ h
        rw [if_neg c2] at h ⊢
        by_cases c4 : (peek p).Typ = "NEWLINE"
        · rw [if_pos c4] at h ⊢; exact ihB _ _ _ _ h
        rw [if_neg c4] at h ⊢
        simp only [Option.isSome_none, Bool.false_eq_true, if_false] at h ⊢
        exact stepM _ _ _ _ h
      | some bb =>
        rw [parseBlock] at h ⊢
        by_cases c1 : isAtEnd p = true
        · rw [if_pos c1] at h ⊢; exact h
        rw [if_neg c1] at h ⊢
        by_cases c2 : (peek p).Typ = "INDENT"
        · rw [if_pos c2] at h ⊢
          by_cases c3 : (Atoi (peek p).Value).1 < bb
          · rw [if_pos c3] at h ⊢; exact h
          · rw [if_neg c3] at h ⊢; exact stepM _ _ _ _ h
        rw [if_neg c2] at h ⊢
        by_cases c4 : (peek p).Typ = "NEWLINE"
        · rw [if_pos c4] at h ⊢; exact ihB _ _ _ _ h
        rw [if_neg c4] at h ⊢
        exact h
    · intro p r h
      rw [parseBlockStatement] at h ⊢
      by_cases c1 : (peek p).Typ = "GREET"
      · rw [if_pos c1] at h ⊢; exact h
      rw [if_neg c1] at h ⊢
      by_cases c2 : (peek p).Typ = "BACKUP"
      · rw [if_pos c2] at h ⊢; exact h
      rw [if_neg c2] at h ⊢
      by_cases c3 : (peek p).Typ = "CHECK"
      · rw [if_pos c3] at h ⊢; exact h
      rw [if_neg c3] at h ⊢
      by_cases c4 : (peek p).Typ = "REPEAT_N"
      · rw [if_pos c4] at h ⊢; exact wrapM _ _ _ (ihN p) h
      rw [if_neg c4] at h ⊢
      by_cases c5 : (peek p).Typ = "REPEAT_EACH"
      · rw [if_pos c5] at h ⊢; exact wrapM _ _ _ (ihE p) h
      rw [if_neg c5] at h ⊢
      by_cases c6 : (peek p).Typ = "SET"
      · rw [if_pos c6] at h ⊢; exact h
      rw [if_neg c6] at h ⊢
      by_cases c7 : (peek p).Typ = "RUN"
      · rw [if_pos c7] at h ⊢; exact h
      rw [if_neg c7] at h ⊢
      by_cases c8 : (peek p).Typ = "RUN_PARALLEL"
      · rw [if_pos c8] at h ⊢; exact h
      rw [if_neg c8] at h ⊢
      by_cases c9 : (peek p).Typ = "USE"
      · rw [if_pos c9] at h ⊢; exact h
      rw [if_neg c9] at h ⊢
      by_cases c10 : (peek p).Typ = "PROTECT"
      · rw [if_pos c10] at h ⊢; exact wrapM _ _ _ (ihP p) h
      rw [if_neg c10] at h ⊢
      by_cases c11 : (peek p).Typ = "HANDLE_INLINE"
      · rw [if_pos c11] at h ⊢; exact h
      rw [if_neg c11] at h ⊢
      by_cases c12 : (peek p).Typ = "RETURN"
      · rw [if_pos c12] at h ⊢; exact h
      rw [if_neg c12] at h ⊢
      exact h
    · intro p r h
      rw [parseRepeatN] at h ⊢
      cases hb : parseBlock fuel (consume "NEWLINE" (advance p)) [] none with
      | none => rw [hb] at h; exact absurd h (by simp)
      | some x => rw [hb] at h; rw [ihB _ _ _ _ hb]; exact h
    · intro p r h
      rw [parseRepeatEach] at h ⊢
      cases hb : parseBlock fuel (consume "NEWLINE" (advance p)) [] none with
      | none => rw [hb] at h; exact absurd h (by simp)
      | some x => rw [hb] at h; rw [ihB _ _ _ _ hb]; exact h
    · intro p acc r h
      rw [parseProtectBody] at h ⊢
      by_cases c1 : isAtEnd p = true
      · rw [if_pos c1] at h ⊢; exact h
      rw [if_neg c1] at h ⊢
      by_cases c2 : ((peek p).Typ = "HANDLE" ||
          ((peek p).Typ = "INDENT" && (peekAhead p 1).Typ = "HANDLE")) = true
      · rw [if_pos c2] at h ⊢; exact h
      rw [if_neg c2] at h ⊢
      exact stepPM _ _ _ h
    · intro p r h
      rw [parseProtect] at h ⊢
      cases hb : parseProtectBody fuel (consume "NEWLINE" (advance p)) [] with
      | none => rw [hb] at h; exact absurd h (by simp)
      | some x =>
        obtain ⟨pb, q1⟩ := x
        rw [hb] at h
        rw [ihPB _ _ _ hb]
        simp only [] at h ⊢
        by_cases c : ((peek q1).Typ = "HANDLE" ||
            ((peek q1).Typ = "INDENT" && (peekAhead q1 1).Typ = "HANDLE")) = true
        · rw [if_pos c] at h ⊢
          cases hh : parseBlock fuel
              (consume "NEWLINE" (consume "HANDLE"
                (if (peek q1).Typ = "INDENT" then advance q1 else q1))) [] none with
          | none => rw [hh] at h; exact absurd h (by simp)
          | some y => rw [hh] at h; rw [ihB _ _ _ _ hh]; exact h
        · rw [if_neg c] at h ⊢; exact h

theorem parseStatement_mono (fuel : Nat) (p : Parser) (k : Int) (r : Option Node × Parser)
    (h : parseStatement fuel p k = some r) : parseStatement (fuel + 1) p k = some r := by
  obtain ⟨ihB, _, ihN, ihE, _, ihP⟩ := parser_mono fuel
  have wrapM : ∀ (res res2 : Option (Node × Parser)),
      (∀ x, res = some x → res2 = some x) →
      (match res with
        | none => none
        | some (n, q) => some (some n, q)) = some r →
      (match res2 with
        | none => none
        | some (n, q) => some (some n, q)) = some r := by
    intro res res2 himp h
    cases res with
    | none => exact absurd h (by simp)
    | some x => rw [himp x rfl]; exact h
  have kind : ∀ p1 : Parser, parseStatementKind fuel p1 = some r →
      parseStatementKind (fuel + 1) p1 = some r := by
    intro p1 h1
    simp only [parseStatementKind] at h1 ⊢
    by_cases c0 : (peek p1).Typ = "TASK"
    · rw [if_pos c0] at h1 ⊢
      refine wrapM _ _ ?_ h1
      intro x hx
      simp only [parseTask] at hx ⊢
      cases hb : parseBlock fuel (consume "NEWLINE" (advance p1)) [] none with
      | none => rw [hb] at hx; exact absurd hx (by simp)
      | some y => rw [hb] at hx; rw [ihB _ _ _ _ hb]; exact hx
    rw [if_neg c0] at h1 ⊢
    by_cases c1 : (peek p1).Typ = "GREET"
    · rw [if_pos c1] at h1 ⊢; exact h1
    rw [if_neg c1] at h1 ⊢
    by_cases c2 : (peek p1).Typ = "BACKUP"
    · rw [if_pos c2] at h1 ⊢; exact h1
    rw [if_neg c2] at h1 ⊢
    by_cases c3 : (peek p1).Typ = "CHECK"
    · rw [if_pos c3] at h1 ⊢; exact h1
    rw [if_neg c3] at h1 ⊢
    by_cases c4 : (peek p1).Typ = "REPEAT_N"
    · rw [if_pos c4] at h1 ⊢; exact wrapM _ _ (ihN p1) h1
    rw [if_neg c4] at h1 ⊢
    by_cases c5 : (peek p1).Typ = "REPEAT_EACH"
    · rw [if_pos c5] at h1 ⊢; exact wrapM _ _ (ihE p1) h1
    rw [if_neg c5] at h1 ⊢
    by_cases c6 : (peek p1).Typ = "SET"
    · rw [if_pos c6] at h1 ⊢; exact h1
    rw [if_neg c6] at h1 ⊢
    by_cases c7 : (peek p1).Typ = "RUN"
    · rw [if_pos c7] at h1 ⊢; exact h1
    rw [if_neg c7] at h1 ⊢
    by_cases c8 : (peek p1).Typ = "USE"
    · rw [if_pos c8] at h1 ⊢; exact h1
    rw [if_neg c8] at h1 ⊢
    by_cases c9 : (peek p1).Typ = "PROTECT"
    · rw [if_pos c9] at h1 ⊢; exact wrapM _ _ (ihP p1) h1
    rw [if_neg c9] at h1 ⊢
    by_cases c10 : (peek p1).Typ = "HANDLE_INLINE"
    · rw [if_pos c10] at h1 ⊢; exact h1
    rw [if_neg c10] at h1 ⊢
    by_cases c11 : (peek p1).Typ = "RUN_PARALLEL"
    · rw [if_pos c11] at h1 ⊢; exact h1
    rw [if_neg c11] at h1 ⊢
    by_cases c12 : (peek p1).Typ = "RETURN"
    · rw [if_pos c12] at h1 ⊢; exact h1
    rw [if_neg c12] at h1 ⊢
    exact h1
  simp only [parseStatement] at h ⊢
  by_cases d1 : (peek p).Typ = "NEWLINE"
  · rw [if_pos d1] at h ⊢; exact h
  rw [if_neg d1] at h ⊢
  by_cases d2 : (peek p).Typ = "EOF"
  · rw [if_pos d2] at h ⊢; exact h
  rw [if_neg d2] at h ⊢
  by_cases d3 : (peek p).Typ = "INDENT"
  · rw [if_pos d3] at h ⊢
    by_cases d4 : (Atoi (peek p).Value).1 ≤ k
    · rw [if_pos d4] at h ⊢; exact h
    · rw [if_neg d4] at h ⊢; exact kind _ h
  rw [if_neg d3] at h ⊢
  exact kind _ h

theorem parseLoop_mono :
    ∀ (fuel : Nat) (p : Parser) (acc nodes : List Node), parseLoop fuel p acc = some nodes →
      parseLoop (fuel + 1) p acc = some nodes := by
  intro fuel
  induction fuel with
  | zero => intro p acc nodes h; simp [parseLoop] at h
  | succ fuel ih =>
    intro p acc nodes h
    rw [parseLoop] at h ⊢
    by_cases c : isAtEnd p = true
    · rw [if_pos c] at h ⊢; exact h
    rw [if_neg c] at h ⊢
    cases hs : parseStatement fuel p 0 with
    | none => rw [hs] at h; exact absurd h (by simp)
    | some x =>
      obtain ⟨n, q⟩ := x
      rw [hs] at h
      rw [parseStatement_mono fuel p 0 _ hs]
      exact ih q _ nodes h

theorem Parse_mono (fuel : Nat) (toks : List Token) (nodes : List Node)
    (h : Parse fuel toks = some nodes) : ∀ d : Nat, Parse (fuel + d) toks = some nodes := by
  intro d
  induction d with
  | zero => exact h
  | succ d ih => exact parseLoop_mono (fuel + d) toks [] nodes ih

/-- Claim C31: for every source on which Tokenize returns, Parse terminates on the
tokens. Every INDENT token of the lexer carries the decimal text of a positive
integer, and the tokens end with one EOF token, the only one. There are nodes that
Parse returns with every amount of fuel from three per token (plus three) on. Each
call of `parseStatement` at top level, on what is left of the tokens before their
end, returns with fewer tokens left; and so does each call of
`parseBlockStatement`, the statement parser of the loops of `parseBlock` and
`parseProtect`, on tokens not yet used up. -/
theorem parse_terminates_on_lexer_output (src : Str) (toks : List Token)
    (h : Tokenize src = some toks) :
    (∀ t ∈ toks, indentOk t) ∧
    (∃ body, toks = body ++ [⟨"EOF", [], (Split src '\n').length⟩] ∧
      ∀ t ∈ body, t.Typ ≠ "EOF") ∧
    (∃ nodes, ∀ fuel, 3 * toks.length + 3 ≤ fuel → Parse fuel toks = some nodes) ∧
    (∀ p, p <:+ toks → isAtEnd p = false → ∀ fuel, 3 * p.length + 2 ≤ fuel →
      ∃ n q, parseStatement fuel p 0 = some (n, q) ∧ q.length < p.length) ∧
    (∀ p, p ≠ [] → ∀ fuel, 3 * p.length + 3 ≤ fuel →
      ∃ n q, parseBlockStatement fuel p = some (n, q) ∧ q.length < p.length) := by
  obtain ⟨hind, hbody⟩ := Tokenize_facts src toks h
  have hpos : indentsPositive toks :=
    fun t ht hty => indentOk_positive t (hind t ht) hty
  refine ⟨hind, hbody, ?_, ?_, ?_⟩
  · obtain ⟨nodes, hn⟩ := parseLoop_returns (3 * toks.length + 3) toks [] hpos (le_refl _)
    refine ⟨nodes, fun fuel hf => ?_⟩
    have := Parse_mono (3 * toks.length + 3) toks nodes hn (fuel - (3 * toks.length + 3))
    rw [Nat.add_sub_cancel' hf] at this
    exact this
  · intro p hp hend fuel hf
    obtain ⟨n, q, hs, _, hl⟩ :=
      parseStatement_returns fuel p hend (indentsPositive_suffix toks p hp hpos) hf
    exact ⟨n, q, hs, hl⟩
  · intro p hp fuel hf
    obtain ⟨n, q, hs, _, hl⟩ := (parser_returns fuel).2.1 p hf
    exact ⟨n, q, hs, hl hp⟩

/-- Witness of C31: the tokens of `task t:` / `  greet 1` / `run t`, eight with the
EOF token, and the nodes Parse returns on them. -/
theorem parse_terminates_on_lexer_output_witness :
    (∃ nodes, ∀ fuel, 3 * ((Tokenize blockSource).getD []).length + 3 ≤ fuel →
      Parse fuel ((Tokenize blockSource).getD []) = some nodes) ∧
    ((Tokenize blockSource).getD []).length = 8 ∧
    Parse 27 ((Tokenize blockSource).getD []) =
      some [Node.Task "t".toList [] [Node.Greet "1".toList], Node.Run "t".toList] :=
  ⟨(parse_terminates_on_lexer_output blockSource ((Tokenize blockSource).getD []) rfl).2.2.1,
   rfl, rfl⟩


/-! ## Parse on token sequences that no lexer made (C3) -/

/-- Claim C3 (amended): Parse terminates and returns a node sequence on every token
sequence whose INDENT tokens each carry a value that `Atoi` reads as a positive
integer, whether or not the lexer can produce it: the token types and the other
values are arbitrary, and the EOF token may be missing. There are nodes that Parse
returns with every amount of fuel from three per token (plus three) on; and each
call of `parseStatement` at top level on what is left of the tokens returns with
fewer tokens left. -/
theorem parse_terminates_on_positive_indents (toks : List Token)
    (h : indentsPositive toks) :
    (∃ nodes, ∀ fuel, 3 * toks.length + 3 ≤ fuel → Parse fuel toks = some nodes) ∧
    (∀ p, p <:+ toks → isAtEnd p = false → ∀ fuel, 3 * p.length + 2 ≤ fuel →
      ∃ n q, parseStatement fuel p 0 = some (n, q) ∧ q.length < p.length) := by
  refine ⟨?_, ?_⟩
  · obtain ⟨nodes, hn⟩ := parseLoop_returns (3 * toks.length + 3) toks [] h (le_refl _)
    refine ⟨nodes, fun fuel hf => ?_⟩
    have := Parse_mono (3 * toks.length + 3) toks nodes hn (fuel - (3 * toks.length + 3))
    rw [Nat.add_sub_cancel' hf] at this
    exact this
  · intro p hp hend fuel hf
    obtain ⟨n, q, hs, _, hl⟩ :=
      parseStatement_returns fuel p hend (indentsPositive_suffix toks p hp h) hf
    exact ⟨n, q, hs, hl⟩

/-- Witness of C3 (amended): a token sequence that the lexer cannot make, with a
token of unknown type, an INDENT token in front of a TASK token, and no EOF token;
Parse returns the one Task node. -/
theorem parse_terminates_on_positive_indents_witness :
    indentsPositive strayToks ∧
    (∃ nodes, ∀ fuel, 3 * strayToks.length + 3 ≤ fuel → Parse fuel strayToks = some nodes) ∧
    Parse 15 strayToks = some [Node.Task "t".toList [] []] :=
  ⟨by unfold indentsPositive; decide,
   (parse_terminates_on_positive_indents strayToks (by unfold indentsPositive; decide)).1,
   rfl⟩

/-! ## RunParallel: what the units leave to the caller (C24) -/

/-- A task body that defines a task, in an interpreter built by hand (Parse makes no
such body): the unit launched by `run parallel a` writes the definition of `b` into
the tasks map it shares with the caller, where `b` was not defined before. -/
theorem runParallel_unit_defines_task :
    mapGet nestedTaskInterp.tasks "b".toList = none ∧
    ∃ i', executeNode nullHost 3 (Node.RunParallel ["a".toList]) nestedTaskInterp = .ok i' ∧
      (mapGet i'.tasks "b".toList).isSome = true ∧ i'.tasks ≠ nestedTaskInterp.tasks :=
  ⟨rfl, _, rfl, rfl, by simp [nestedTaskInterp, mapSet, executeNode, executeRunParallel,
    parallelLoop, execList, mapGet, TrimSpace, Interpreter.print]⟩
end Athera
